import Mathlib

/-!
# bfps: particle system orchestration and halo-buffered interpolation

A shallow embedding of `bfps/cpp/particles/particles_system.hpp`,
`bfps/cpp/interpolator.cpp` and `bfps/cpp/field.cpp`.

Conventions of the embedding:

* `real_number` / `rnumber` / `double` is an arbitrary type `R` carrying exactly
  the algebra a definition needs (`Zero R` for the history buffers, a commutative
  ring for the interpolation sums, an ordered ring for the checks of `init`, an ordered
  field with a floor for the redistributor, the rationals for the integrator table), and
  there arithmetic is exact;
* where a property depends on the rounding of `double` (the values `operator()` returns, the
  bins of the histograms), the definition is written over the bare operations of the type, in
  the order of the source, and is run in `double`: IEEE 754 binary64 with rounding to
  nearest, ties to even, every operation rounded by itself;
* what the files call but do not define (the field computer with its integrator and
  redistributor, `field_descriptor`, `field_layout`, the bucketing routine, the FFTW plans) is
  a parameter or is modelled from the spec, and the doc comment of the definition says so;
* a complex number is a pair (real part, imaginary part); code that runs on all ranks is a
  function of the rank, a receive getting what the source rank sends for the same envelope;
* a failed `assert` is a result `none`, or the value `false` of a check;
* `int` and `ptrdiff_t` are unbounded (`Int`, or `Nat` for counts, ranks, offsets and
  tags, which the program never makes negative), except in the definitions named `_int32` and
  `_machine`, where a result of the type `int` is its representative in 32 bits, two's
  complement (`int32`);
* a heap array is a `List`, a `std::vector<std::unique_ptr<T[]>>` is a `List (List T)`
  in which a released (`std::move`d-from) slot is the empty list.
-/

set_option autoImplicit false

namespace Bfps

/-! ## Definitions: particle system -/

/-- Modelled from the spec: `particles_utils::memzero` is declared outside the files at hand;
the history slot is "zero-filled", i.e. the first `size` entries of `array` become zero and
the array keeps its allocation. -/
def memzero {R : Type} [Zero R] (array : List R) (size : Nat) : List R :=
  List.replicate (min size array.length) 0 ++ array.drop size

/-- What `particles_field_computer::redistribute` leaves behind through its in/out arguments:
the per-partition counts, the particle count, the position array, each of the
`in_nb_rhs` history arrays (by slot) and the id array. -/
structure redistribute_result (R : Type) where
  current_my_nb_particles_per_partition : List Int
  nb_particles : Nat
  positions : List R
  rhs : Nat → List R
  indexes : List Int

/-- Modelled from the spec: the class `particles_field_computer` (member `computer`) is declared
outside the files at hand. Its three entry points are taken as arbitrary functions of the
arguments `particles_system` passes them: `compute_distr` evaluates the field at the particle
positions into the newest history slot, `move_particles` integrates the positions with the
given order, `redistribute` re-owns particles, ids and every history slot. -/
structure particles_field_computer (R : Type) where
  compute_distr : List Int → List R → List R → Int → List R
  move_particles : List R → Nat → List (List R) → Int → R → List R
  redistribute : List Int → Nat → List R → List (List R) → Nat → List Int → R → R → R →
    redistribute_result R

/-- The data members of `particles_system` that its member functions read or write
(`spatial_partition_width_Z` is `spatial_partition_width[IDX_Z]`). -/
structure particles_system (R : Type) where
  interp_neighbours : Int
  current_partition_interval : Int × Int
  partition_interval_size : Int
  current_my_nb_particles_per_partition : List Int
  current_offset_particles_for_partition : List Int
  spatial_partition_width_Z : R
  my_spatial_low_limit : R
  my_spatial_up_limit : R
  my_particles_positions : List R
  my_particles_positions_indexes : List Int
  my_nb_particles : Nat
  my_particles_rhs : List (List R)
  step_idx : Int

namespace particles_system

variable {R : Type}

/-- The constructor: no particles, no history slot yet, `step_idx(1)`; the two partition
tables are allocated (`new int[...]`, contents `alloc_nb`, `alloc_offset`) and nothing else
is initialised before `init`. -/
def construct (interp_neighbours : Int) (in_spatial_partition_width_Z : R)
    (in_my_spatial_low_limit in_my_spatial_up_limit : R)
    (in_local_field_offset_Z in_local_field_dims_Z : Int)
    (alloc_nb alloc_offset : List Int) : particles_system R :=
  let current_partition_interval : Int × Int :=
    (in_local_field_offset_Z, in_local_field_offset_Z + in_local_field_dims_Z)
  { interp_neighbours := interp_neighbours
    current_partition_interval := current_partition_interval
    partition_interval_size := current_partition_interval.2 - current_partition_interval.1
    current_my_nb_particles_per_partition := alloc_nb
    current_offset_particles_for_partition := alloc_offset
    spatial_partition_width_Z := in_spatial_partition_width_Z
    my_spatial_low_limit := in_my_spatial_low_limit
    my_spatial_up_limit := in_my_spatial_up_limit
    my_particles_positions := []
    my_particles_positions_indexes := []
    my_nb_particles := 0
    my_particles_rhs := []
    step_idx := 1 }

/-- `compute()`: the computer writes into `my_particles_rhs.front()`. With no history slot
`front()` has nothing to point to and the state is left as it is. -/
def compute (computer : particles_field_computer R) (s : particles_system R) :
    particles_system R :=
  match s.my_particles_rhs with
  | [] => s
  | front :: older =>
    { s with
      my_particles_rhs :=
        computer.compute_distr s.current_my_nb_particles_per_partition
          s.my_particles_positions front s.interp_neighbours :: older }

/-- The order argument of the call in `move`:
`std::min(step_idx, int(my_particles_rhs.size()))`. -/
def move_order (s : particles_system R) : Int :=
  min s.step_idx (s.my_particles_rhs.length : Int)

/-- `move(dt)`. -/
def move (computer : particles_field_computer R) (dt : R) (s : particles_system R) :
    particles_system R :=
  { s with
    my_particles_positions :=
      computer.move_particles s.my_particles_positions s.my_nb_particles
        s.my_particles_rhs (move_order s) dt }

/-- `redistribute()`: the computer receives `my_particles_rhs.data()` and
`my_particles_rhs.size()`, so it can replace the array held by each slot but not the number
of slots. -/
def redistribute (computer : particles_field_computer R) (s : particles_system R) :
    particles_system R :=
  let out := computer.redistribute s.current_my_nb_particles_per_partition
    s.my_nb_particles s.my_particles_positions s.my_particles_rhs s.my_particles_rhs.length
    s.my_particles_positions_indexes s.my_spatial_low_limit s.my_spatial_up_limit
    s.spatial_partition_width_Z
  { s with
    current_my_nb_particles_per_partition := out.current_my_nb_particles_per_partition
    my_nb_particles := out.nb_particles
    my_particles_positions := out.positions
    my_particles_rhs := (List.range s.my_particles_rhs.length).map out.rhs
    my_particles_positions_indexes := out.indexes }

/-- `inc_step_idx()`. -/
def inc_step_idx (s : particles_system R) : particles_system R :=
  { s with step_idx := s.step_idx + 1 }

/-- One pass of the loop body of `shift_rhs_vectors`:
`my_particles_rhs[idx_rhs] = std::move(my_particles_rhs[idx_rhs-1])`; the moved-from slot is
left released. -/
def shift_step (rhs : List (List R)) (idx_rhs : Nat) : List (List R) :=
  (rhs.set idx_rhs (rhs.getD (idx_rhs - 1) [])).set (idx_rhs - 1) []

/-- `shift_rhs_vectors()`: `next_current` takes the array of `back()`, the loop runs
`idx_rhs = size-1, ..., 1`, then slot 0 receives `next_current` and is zeroed over
`3*my_nb_particles` entries. -/
def shift_rhs_vectors [Zero R] (s : particles_system R) : particles_system R :=
  if s.my_particles_rhs.length ≠ 0 then
    let next_current := s.my_particles_rhs.getD (s.my_particles_rhs.length - 1) []
    let released := s.my_particles_rhs.set (s.my_particles_rhs.length - 1) []
    let shifted := (List.range' 1 (s.my_particles_rhs.length - 1)).reverse.foldl shift_step released
    let restored := shifted.set 0 next_current
    { s with
      my_particles_rhs :=
        restored.set 0 (memzero (restored.getD 0 []) (3 * s.my_nb_particles)) }
  else s

/-- `completeLoop(dt)`: the five calls of the body, as statements run one after another. -/
def completeLoop [Zero R] (computer : particles_field_computer R) (dt : R)
    (s : particles_system R) : particles_system R := Id.run do
  let mut sys := s
  sys := compute computer sys
  sys := move computer dt sys
  sys := redistribute computer sys
  sys := inc_step_idx sys
  sys := shift_rhs_vectors sys
  return sys

/-- The state before the `n+1`-th call of `completeLoop`, the calls made with the time steps
`dts 0, dts 1, ...`. -/
def after_loops [Zero R] (computer : particles_field_computer R) (dts : Nat → R)
    (s : particles_system R) : Nat → particles_system R
  | 0 => s
  | n + 1 => completeLoop computer (dts n) (after_loops computer dts s n)

end particles_system

/-! ## Definitions: interpolator -/

/-- Modelled from the spec: `MOD` (declared in `base.hpp`, outside the files at hand) is the
"periodic wraparound" of an index on an axis of `n` points: the representative of `a` in
`[0, n)`, also for negative `a`. -/
def MOD (a n : Int) : Int := a % n

/-- Modelled from the spec: `field_descriptor` is declared outside the files at hand. The
"pure descriptor" of a distributed field, with the members `interpolator` reads: the global
shape `sizes`, the number of elements of one slab-axis plane `slice_size`, the number of
elements held locally `local_size`, the communicator size and own rank, the slab-axis start
and plane count of every rank (`all_start0`, `all_size0`) and the owning-rank lookup `rank`
for a global slab-axis index. -/
structure field_descriptor where
  sizes : Nat → Int
  slice_size : Nat
  local_size : Nat
  nprocs : Nat
  myrank : Nat
  all_start0 : Nat → Int
  all_size0 : Nat → Int
  rank : Int → Nat

/-- The data members of `interpolator<rnumber, interp_neighbours>`: the template parameter,
the two descriptors, `buffer_size`, the basis-weight function `compute_beta` (it fills an
array of `2*interp_neighbours+2` weights, here indexed by position) and the two generations
`f0`, `f1`. The pointer `temp` aliases the interior of one of the two buffers and is not read
by the member functions. -/
structure interpolator (R : Type) where
  interp_neighbours : Nat
  unbuffered_descriptor : field_descriptor
  descriptor : field_descriptor
  buffer_size : Nat
  compute_beta : Int → R → Nat → R
  f0 : List R
  f1 : List R

/-- The element `p[i]` for the pointer `p = buf + base`; outside the array, where the access
is undefined, the value is `0`. -/
def read_at {R : Type} [Zero R] (buf : List R) (base : Nat) (i : Int) : R :=
  if 0 ≤ (base : Int) + i then buf.getD ((base : Int) + i).toNat 0 else 0

/-- Storing `data` into the array `buf` from offset `off` on (`std::copy`, a receive buffer):
the array keeps its allocation, elements that would fall behind its end are not stored. -/
def write_at {R : Type} (buf : List R) (off : Nat) (data : List R) : List R :=
  buf.take off ++ data.take (buf.length - off) ++ buf.drop (off + data.length)

/-- The values of a loop variable running `for (i = -interp_neighbours;
i <= interp_neighbours+1; i++)`. -/
def stencil_offsets (interp_neighbours : Nat) : List Int :=
  (List.range (2 * interp_neighbours + 2)).map fun (j : Nat) => (j : Int) - (interp_neighbours : Int)

/-- The flat index `tindex` computed in the loop body of `interpolator::operator()`. -/
def tindex (descriptor : field_descriptor) (xg : Fin 3 → Int) (iz iy ix : Int) (c : Fin 3) :
    Int :=
  (((xg 2 + iz) * descriptor.sizes 1 + MOD (xg 1 + iy) (descriptor.sizes 1))
      * descriptor.sizes 2 + MOD (xg 0 + ix) (descriptor.sizes 2)) * 3 + ((c : Nat) : Int)

/-- The tag of the messages of `read_rFFTW`: `2*(rsrc*nprocs + rdst)` in the upper-slice
loop (`phase = 0`) and `2*(rsrc*nprocs + rdst)+1` in the lower-slice loop (`phase = 1`). -/
def message_tag (nprocs phase rsrc rdst : Nat) : Nat :=
  2 * (rsrc * nprocs + rdst) + phase

/-- A point-to-point call of `read_rFFTW`: `MPI_Send(src + buf_offset, count, _, dest, tag, _)`
or `MPI_Recv(dst + buf_offset, count, _, source, tag, _, _)`. -/
inductive mpi_call where
  | send (buf_offset count dest tag : Nat)
  | recv (buf_offset count source tag : Nat)
  deriving DecidableEq, Repr

namespace interpolator

variable {R : Type}

/-- The source rank of the upper-slice loop for the destination `rdst`:
`rank[(all_start0[rdst] + all_size0[rdst]) % sizes[0]]`, with the remainder of C. -/
def upper_rsrc (I : interpolator R) (rdst : Nat) : Nat :=
  I.unbuffered_descriptor.rank
    (Int.tmod (I.unbuffered_descriptor.all_start0 rdst + I.unbuffered_descriptor.all_size0 rdst)
      (I.unbuffered_descriptor.sizes 0))

/-- The source rank of the lower-slice loop for the destination `rdst`:
`rank[MOD(all_start0[rdst] - 1, sizes[0])]`. -/
def lower_rsrc (I : interpolator R) (rdst : Nat) : Nat :=
  I.unbuffered_descriptor.rank
    (MOD (I.unbuffered_descriptor.all_start0 rdst - 1) (I.unbuffered_descriptor.sizes 0))

/-- The calls this rank makes in the loop "get upper slices", in program order. -/
def upper_slice_calls (I : interpolator R) : List mpi_call :=
  (List.range I.unbuffered_descriptor.nprocs).flatMap fun rdst =>
    (if I.unbuffered_descriptor.myrank = I.upper_rsrc rdst then
        [mpi_call.send 0 I.buffer_size rdst
          (message_tag I.unbuffered_descriptor.nprocs 0 (I.upper_rsrc rdst) rdst)]
      else []) ++
    (if I.unbuffered_descriptor.myrank = rdst then
        [mpi_call.recv (I.buffer_size + I.unbuffered_descriptor.local_size) I.buffer_size
          (I.upper_rsrc rdst)
          (message_tag I.unbuffered_descriptor.nprocs 0 (I.upper_rsrc rdst) rdst)]
      else [])

/-- The calls this rank makes in the loop "get lower slices", in program order. -/
def lower_slice_calls (I : interpolator R) : List mpi_call :=
  (List.range I.unbuffered_descriptor.nprocs).flatMap fun rdst =>
    (if I.unbuffered_descriptor.myrank = I.lower_rsrc rdst then
        [mpi_call.send (I.unbuffered_descriptor.local_size - I.buffer_size) I.buffer_size rdst
          (message_tag I.unbuffered_descriptor.nprocs 1 (I.lower_rsrc rdst) rdst)]
      else []) ++
    (if I.unbuffered_descriptor.myrank = rdst then
        [mpi_call.recv 0 I.buffer_size (I.lower_rsrc rdst)
          (message_tag I.unbuffered_descriptor.nprocs 1 (I.lower_rsrc rdst) rdst)]
      else [])

/-- Running the calls of one rank on its buffer `dst`. `MPI_Recv source tag` is the message
the network hands this rank for that envelope (`none`: no such message is ever sent and the
call does not return). A send does not change `dst`; a receive stores the message at
`dst + buf_offset` and fails when the message is longer than `count`. -/
def run_calls (MPI_Recv : Nat → Nat → Option (List R)) : List mpi_call → List R → Option (List R)
  | [], dst => some dst
  | mpi_call.send _ _ _ _ :: rest, dst => run_calls MPI_Recv rest dst
  | mpi_call.recv buf_offset count source tag :: rest, dst =>
    match MPI_Recv source tag with
    | none => none
    | some msg =>
      if msg.length ≤ count then run_calls MPI_Recv rest (write_at dst buf_offset msg)
      else none

/-- `interpolator::read_rFFTW(void_src)` on one rank. `clip_zero_padding` (declared outside
the files at hand) is taken as a parameter: the array `src` after the in-place call
`clip_zero_padding<rnumber>(unbuffered_descriptor, src, 3)`. -/
def read_rFFTW (I : interpolator R)
    (clip_zero_padding : field_descriptor → List R → Nat → List R) (void_src : List R)
    (MPI_Recv : Nat → Nat → Option (List R)) : Option (interpolator R) :=
  let tmp := I.f0
  let f0 := I.f1
  let f1 := tmp
  let src := clip_zero_padding I.unbuffered_descriptor void_src 3
  let dst := f1
  let dst := write_at dst I.buffer_size (src.take I.unbuffered_descriptor.local_size)
  match run_calls MPI_Recv (I.upper_slice_calls ++ I.lower_slice_calls) dst with
  | none => none
  | some dst => some { I with f0 := f0, f1 := dst }

end interpolator

/-- The message the network hands rank `me` for the envelope (`source`, `tag`): the data of
the first send with destination `me` and that tag among the calls of rank `source`, read from
the `src` of that rank. -/
def delivered {R : Type} (calls_of : Nat → List mpi_call) (src_of : Nat → List R) (me : Nat)
    (source tag : Nat) : Option (List R) :=
  (calls_of source).findSome? fun call =>
    match call with
    | mpi_call.send buf_offset count dest t =>
      if dest = me ∧ t = tag then some (((src_of source).drop buf_offset).take count) else none
    | mpi_call.recv _ _ _ _ => none

/-- Every rank `r` runs `read_rFFTW` on its own sample `void_src r`; the result on rank `r`. -/
def read_rFFTW_on_all_ranks {R : Type}
    (clip_zero_padding : field_descriptor → List R → Nat → List R)
    (ranks : Nat → interpolator R) (void_src : Nat → List R) (r : Nat) :
    Option (interpolator R) :=
  (ranks r).read_rFFTW clip_zero_padding (void_src r)
    (delivered (fun q => (ranks q).upper_slice_calls ++ (ranks q).lower_slice_calls)
      (fun q => clip_zero_padding (ranks q).unbuffered_descriptor (void_src q) 3) r)

/-- Modelled from the spec: the descriptor of a slab-decomposed field as rank `r` holds it.
`layout` carries what all ranks share (global shape, plane size, communicator size, the
slab tables and the owner lookup); the entries proper to the rank are `myrank = r` and the "local
shape", `all_size0[r]` planes of `slice_size` elements. -/
def rank_descriptor (layout : field_descriptor) (r : Nat) : field_descriptor :=
  { layout with
    myrank := r
    local_size := (layout.all_size0 r).toNat * layout.slice_size }

/-- The slab axis of `S0 = sizes[0]` planes is split into contiguous slabs in rank order, every
rank holds at least `N+1` planes, and `rank` looks up the owner of a plane. -/
structure slab_layout (D : field_descriptor) (N : Nat) : Prop where
  start_zero : D.all_start0 0 = 0
  next : ∀ r, r + 1 < D.nprocs → D.all_start0 (r + 1) = D.all_start0 r + D.all_size0 r
  last : D.all_start0 (D.nprocs - 1) + D.all_size0 (D.nprocs - 1) = D.sizes 0
  size : ∀ r, r < D.nprocs → (N : Int) + 1 ≤ D.all_size0 r
  owner : ∀ r, r < D.nprocs → ∀ z, D.all_start0 r ≤ z → z < D.all_start0 r + D.all_size0 r →
    D.rank z = r

/-! ## Definitions: interpolator construction and buffer stores -/

namespace interpolator

variable {R : Type}

/-- `interpolator::interpolator(fs, BETA_POLYS)` with `rd = fs->rd`. The constructor of
`field_descriptor` (declared outside the files at hand) is the parameter
`new_field_descriptor`, applied to the shape `tdims`; `new rnumber[n]` is an array of `n`
elements of unspecified content (`uninit0`, `uninit1`). -/
def construct (interp_neighbours : Nat) (rd : field_descriptor)
    (BETA_POLYS : Int → R → Nat → R) (new_field_descriptor : (Nat → Int) → field_descriptor)
    (uninit0 uninit1 : Nat → R) : interpolator R :=
  let tdims : Nat → Int := fun k =>
    match k with
    | 0 => ((interp_neighbours : Int) + 1) * 2 * (rd.nprocs : Int) + rd.sizes 0
    | 1 => rd.sizes 1
    | 2 => rd.sizes 2
    | 3 => rd.sizes 3
    | _ => 0
  let descriptor := new_field_descriptor tdims
  { interp_neighbours := interp_neighbours
    unbuffered_descriptor := rd
    descriptor := descriptor
    buffer_size := (interp_neighbours + 1) * rd.slice_size
    compute_beta := BETA_POLYS
    f0 := (List.range descriptor.local_size).map uninit0
    f1 := (List.range descriptor.local_size).map uninit1 }

end interpolator

/-! ## Definitions: loading and bucketing the particles -/

/-- Modelled from the spec: the index constants `IDX_X`, `IDX_Y`, `IDX_Z` are declared outside
the files at hand. A particle has "3 real coordinates" stored consecutively in a positions array
"of length `3*N_particles`"; the slab axis is the third one, as in `interpolator::operator()`
where `xg[2]` is the slab plane. -/
def IDX_X : Nat := 0

/-- Modelled from the spec: see `IDX_X`. -/
def IDX_Y : Nat := 1

/-- Modelled from the spec: see `IDX_X`. -/
def IDX_Z : Nat := 2

/-- Modelled from the spec: the interface `abstract_particles_input` is declared outside the
files at hand; the four values `init` asks it for. -/
structure abstract_particles_input (R : Type) where
  getMyParticles : List R
  getMyParticlesIndexes : List Int
  getMyRhs : List (List R)
  getLocalNbParticles : Nat

/-- Modelled from the spec: what `particles_utils::partition_extra_z<3>` (declared outside the
files at hand) does to its arguments. It brings the local particle array "into contiguous
runs": it rearranges the particles by exchanging pairs of them, reporting each exchange
`(idx1, idx2)` to the swap callback, and it fills the two partition tables. -/
structure partition_extra_z_outcome where
  swaps : List (Nat × Nat)
  current_my_nb_particles_per_partition : List Int
  current_offset_particles_for_partition : List Int

/-- The effect of `std::swap(a[i], a[j])` on the array `a`; outside the array, where the access
is undefined, nothing is exchanged. -/
def swap_at {α : Type} (l : List α) (i j : Nat) : List α :=
  match l[i]?, l[j]? with
  | some a, some b => (l.set i b).set j a
  | _, _ => l

/-- Exchanging the three values of the particles `idx1` and `idx2` in an array of three values
per particle: `std::swap(a[idx1*3 + idx_val], a[idx2*3 + idx_val])` for `idx_val = 0, 1, 2`. -/
def swap_particle {α : Type} (a : List α) (idx1 idx2 : Nat) : List α :=
  (List.range 3).foldl (fun a idx_val => swap_at a (idx1 * 3 + idx_val) (idx2 * 3 + idx_val)) a

/-- The values `a, a+1, ..., b-1` of a loop variable `for (int idx = a; idx < b; ++idx)`. -/
def int_range (a b : Int) : List Int :=
  (List.range (b - a).toNat).map fun (i : Nat) => a + (i : Int)

namespace particles_system

variable {R : Type}

/-- The slab-axis coordinate `my_particles_positions[idx*3+IDX_Z]`. -/
def z_of [Zero R] (positions : List R) (idx : Int) : R :=
  read_at positions 0 (idx * 3 + (IDX_Z : Int))

/-- The first callback `init` passes to `partition_extra_z`, also recomputed in the check after
it: `(idxPartition+1)*spatial_partition_width[IDX_Z] + my_spatial_low_limit`. -/
def limitPartition [Ring R] (s : particles_system R) (idxPartition : Int) : R :=
  ((idxPartition + 1 : Int) : R) * s.spatial_partition_width_Z + s.my_spatial_low_limit

/-- The second callback `init` passes to `partition_extra_z`: the ids of `idx1` and `idx2` are
exchanged, and in every history slot their three values. -/
def swap_callback (s : particles_system R) (idx1 idx2 : Nat) : particles_system R :=
  { s with
    my_particles_positions_indexes := swap_at s.my_particles_positions_indexes idx1 idx2
    my_particles_rhs := s.my_particles_rhs.map fun slot => swap_particle slot idx1 idx2 }

/-- The four assignments that open `init`. -/
def load (particles_input : abstract_particles_input R) (s : particles_system R) :
    particles_system R :=
  { s with
    my_particles_positions := particles_input.getMyParticles
    my_particles_positions_indexes := particles_input.getMyParticlesIndexes
    my_particles_rhs := particles_input.getMyRhs
    my_nb_particles := particles_input.getLocalNbParticles }

/-- The first assertion loop of `init`: `true` when no assertion fails. -/
def ownership_check [Zero R] [LinearOrder R] (s : particles_system R) : Bool :=
  (List.range s.my_nb_particles).all fun idx_part =>
    decide (z_of s.my_particles_positions idx_part ≥ s.my_spatial_low_limit) &&
    decide (z_of s.my_particles_positions idx_part < s.my_spatial_up_limit)

/-- The call of `partition_extra_z<3>` in `init`: the routine itself is the parameter
`partition_extra_z`, applied to the position array, the particle count, the number of
partitions, the two tables and the boundary callback. Each exchange it makes is applied to the
positions and passed to the swap callback. -/
def partition [Ring R]
    (partition_extra_z : List R → Nat → Int → List Int → List Int → (Int → R) →
      partition_extra_z_outcome)
    (s : particles_system R) : particles_system R :=
  let out := partition_extra_z s.my_particles_positions s.my_nb_particles
    s.partition_interval_size s.current_my_nb_particles_per_partition
    s.current_offset_particles_for_partition (fun idxPartition => limitPartition s idxPartition)
  let s := out.swaps.foldl (fun s swap =>
    swap_callback
      { s with
        my_particles_positions := swap_particle s.my_particles_positions swap.1 swap.2 }
      swap.1 swap.2) s
  { s with
    current_my_nb_particles_per_partition := out.current_my_nb_particles_per_partition
    current_offset_particles_for_partition := out.current_offset_particles_for_partition }

/-- The assertion block that closes `init`: `true` when no assertion fails. -/
def layout_check [Ring R] [LinearOrder R] (s : particles_system R) : Bool :=
  (List.range s.partition_interval_size.toNat).all fun idxPartition =>
    decide (s.current_my_nb_particles_per_partition.getD idxPartition 0 =
      s.current_offset_particles_for_partition.getD (idxPartition + 1) 0 -
        s.current_offset_particles_for_partition.getD idxPartition 0) &&
    (int_range 0 (s.current_offset_particles_for_partition.getD (idxPartition + 1) 0)).all
      (fun idx => decide (z_of s.my_particles_positions idx < limitPartition s idxPartition)) &&
    (int_range (s.current_offset_particles_for_partition.getD (idxPartition + 1) 0)
        s.my_nb_particles).all
      (fun idx => decide (z_of s.my_particles_positions idx ≥ limitPartition s idxPartition))

/-- `init(particles_input)`: `none` when an assertion fails. -/
def init [Ring R] [LinearOrder R]
    (partition_extra_z : List R → Nat → Int → List Int → List Int → (Int → R) →
      partition_extra_z_outcome)
    (particles_input : abstract_particles_input R) (s : particles_system R) :
    Option (particles_system R) :=
  let s := load particles_input s
  if ownership_check s = false then none
  else
    let s := partition partition_extra_z s
    if layout_check s = false then none else some s

end particles_system

/-! ## Definitions: the explicit NaN check -/

/-- A value of a floating-point type, as far as `std::isnan` tells values apart: a finite
number, one of the two infinities, or a NaN. -/
inductive fp_value where
  | finite (q : Int)
  | pos_inf
  | neg_inf
  | nan
  deriving DecidableEq, Repr

instance : Zero fp_value := ⟨fp_value.finite 0⟩

/-- The function `std::isnan`: true on a NaN only. -/
def fp_value.isnan : fp_value → Bool
  | fp_value.nan => true
  | _ => false

/-- The function `std::isfinite`: false on a NaN and on the two infinities. -/
def fp_value.isfinite : fp_value → Bool
  | fp_value.finite _ => true
  | _ => false

namespace particles_system

variable {R : Type}

/-- `checkNan()`: `true` when no assertion fails. `isnan` is `std::isnan` on `real_number`. -/
def checkNan [Zero R] (isnan : R → Bool) (s : particles_system R) : Bool :=
  (List.range s.my_nb_particles).all fun idx_part =>
    (isnan (s.my_particles_positions.getD (idx_part * 3 + IDX_X) 0) == false) &&
    (isnan (s.my_particles_positions.getD (idx_part * 3 + IDX_Y) 0) == false) &&
    (isnan (s.my_particles_positions.getD (idx_part * 3 + IDX_Z) 0) == false) &&
    (List.range s.my_particles_rhs.length).all fun idx_rhs =>
      (isnan ((s.my_particles_rhs.getD idx_rhs []).getD (idx_part * 3 + IDX_X) 0) == false) &&
      (isnan ((s.my_particles_rhs.getD idx_rhs []).getD (idx_part * 3 + IDX_Y) 0) == false) &&
      (isnan ((s.my_particles_rhs.getD idx_rhs []).getD (idx_part * 3 + IDX_Z) 0) == false)

end particles_system

/-! ## Definitions: the multistep integrator -/

/-- Modelled from the spec: the "classic Adams-Bashforth coefficient table", newest sample
first, for the orders 1 to 6 (`particles::AdamsBashforth` and `move_particles` are declared
outside the files at hand): order 1 is `1`, order 2 is `3/2, -1/2`, and so on with the
standard values. No row is tabulated for another order. -/
def adams_bashforth_coefficients (order : Int) : List ℚ :=
  if order = 1 then [1]
  else if order = 2 then [3 / 2, -1 / 2]
  else if order = 3 then [23 / 12, -16 / 12, 5 / 12]
  else if order = 4 then [55 / 24, -59 / 24, 37 / 24, -9 / 24]
  else if order = 5 then [1901 / 720, -2774 / 720, 2616 / 720, -1274 / 720, 251 / 720]
  else if order = 6 then
    [4277 / 1440, -7923 / 1440, 9982 / 1440, -7298 / 1440, 2877 / 1440, -475 / 1440]
  else []

/-- Modelled from the spec: `move_particles`, declared outside the files at hand, "computes
`position += dt * Σ c_i(order) * history[i]`", for each of the three coordinates of each of
the `nb_particles` particles. -/
def adams_bashforth_move (positions : List ℚ) (nb_particles : Nat) (rhs : List (List ℚ))
    (order : Int) (dt : ℚ) : List ℚ :=
  (List.range positions.length).map fun i =>
    if i < 3 * nb_particles then
      positions.getD i 0 + dt * ((List.range order.toNat).map fun k =>
        (adams_bashforth_coefficients order).getD k 0 * (rhs.getD k []).getD i 0).sum
    else positions.getD i 0

/-- Modelled from the spec: a computer whose `move_particles` is the Adams-Bashforth integrator
of the spec; the two other entry points are those of `base`. -/
def adams_bashforth_computer (base : particles_field_computer ℚ) : particles_field_computer ℚ :=
  { base with move_particles := adams_bashforth_move }

/-! ## Definitions: redistribution between the ranks -/

/-- Modelled from the spec: a particle, a "globally unique integer id" and "3 real
coordinates", together with its three values in every history slot. -/
structure particle (R : Type) where
  index : Int
  x : R
  y : R
  z : R
  rhs : List (R × R × R)

/-- Modelled from the spec: "`classify(position)` returns the partition index `k` such that
`low + k*width ≤ position.slabAxis < low + (k+1)*width`". -/
def classify {R : Type} [LinearOrderedField R] [FloorRing R] (low width : R) (z : R) : Int :=
  Int.floor ((z - low) / width)

namespace particles_system

variable {R : Type}

/-- The particle stored at the local slot `i`: its id, its three coordinates and its three
values in every history slot. -/
def particle_at [Zero R] (s : particles_system R) (i : Nat) : particle R :=
  { index := s.my_particles_positions_indexes.getD i 0
    x := s.my_particles_positions.getD (i * 3 + IDX_X) 0
    y := s.my_particles_positions.getD (i * 3 + IDX_Y) 0
    z := s.my_particles_positions.getD (i * 3 + IDX_Z) 0
    rhs := s.my_particles_rhs.map fun slot =>
      (slot.getD (i * 3 + IDX_X) 0, slot.getD (i * 3 + IDX_Y) 0, slot.getD (i * 3 + IDX_Z) 0) }

/-- The `getLocalNbParticles()` particles a rank holds, in storage order. -/
def local_particles [Zero R] (s : particles_system R) : List (particle R) :=
  (List.range s.my_nb_particles).map s.particle_at

/-- The ids of the particles a rank holds, in storage order. -/
def local_ids (s : particles_system R) : List Int :=
  (List.range s.my_nb_particles).map fun i => s.my_particles_positions_indexes.getD i 0

/-- Modelled from the spec: the destination of a particle held by the rank of `s`, computed
"directly from the global partition→rank map": the local partition `classify` gives, counted
from the first partition of the rank, is looked up in `partition_owner`. -/
def destination [LinearOrderedField R] [FloorRing R] (partition_owner : Int → Option Nat)
    (s : particles_system R) (p : particle R) : Option Nat :=
  partition_owner (s.current_partition_interval.1 +
    classify s.my_spatial_low_limit s.spatial_partition_width_Z p.z)

end particles_system

/-- Modelled from the spec: the "cross-rank exchange". Every particle of every rank, in rank
order, with the destination rank of its envelope. -/
def exchange_pool {R : Type} [LinearOrderedField R] [FloorRing R] (nprocs : Nat)
    (partition_owner : Int → Option Nat) (ranks : Nat → particles_system R) :
    List (Option Nat × particle R) :=
  (List.range nprocs).flatMap fun q =>
    (ranks q).local_particles.map fun p => ((ranks q).destination partition_owner p, p)

/-- Modelled from the spec: the "retained-plus-received set" of rank `r`, the particles of the
exchange whose destination is `r`. -/
def incoming {R : Type} [LinearOrderedField R] [FloorRing R] (nprocs : Nat)
    (partition_owner : Int → Option Nat) (ranks : Nat → particles_system R) (r : Nat) :
    List (particle R) :=
  ((exchange_pool nprocs partition_owner ranks).filter fun e => decide (e.1 = some r)).map
    fun e => e.2

/-- Modelled from the spec: the "local bucketing", which lays the particles of a rank out in
"contiguous runs by `classify`", one run per local partition, keeping their order inside a
run. -/
def bucketed {R : Type} [LinearOrderedField R] [FloorRing R] (s : particles_system R)
    (ps : List (particle R)) : List (particle R) :=
  (List.range s.partition_interval_size.toNat).flatMap fun k =>
    ps.filter fun p =>
      decide (classify s.my_spatial_low_limit s.spatial_partition_width_Z p.z = (k : Int))

/-- Modelled from the spec: the "local compaction", which puts "the retained-plus-received
set" in the place of the local particle and history arrays and rebuilds the partition table
"every redistribution". This is what
`particles_field_computer::redistribute` (declared outside the files at hand) leaves on rank
`r`. -/
def routed {R : Type} [LinearOrderedField R] [FloorRing R] (nprocs : Nat)
    (partition_owner : Int → Option Nat) (ranks : Nat → particles_system R) (r : Nat) :
    redistribute_result R :=
  let ps := bucketed (ranks r) (incoming nprocs partition_owner ranks r)
  { current_my_nb_particles_per_partition :=
      (List.range (ranks r).partition_interval_size.toNat).map fun k =>
        (((ps.filter fun p => decide (classify (ranks r).my_spatial_low_limit
          (ranks r).spatial_partition_width_Z p.z = (k : Int))).length : Nat) : Int)
    nb_particles := ps.length
    positions := ps.flatMap fun p => [p.x, p.y, p.z]
    rhs := fun slot => ps.flatMap fun p =>
      [(p.rhs.getD slot (0, 0, 0)).1, (p.rhs.getD slot (0, 0, 0)).2.1,
        (p.rhs.getD slot (0, 0, 0)).2.2]
    indexes := ps.map fun p => p.index }

/-- Modelled from the spec: every particle of the exchange has a destination among the ranks;
otherwise the exchange is a "PreconditionViolation", which is "fatal". -/
def routable {R : Type} [LinearOrderedField R] [FloorRing R] (nprocs : Nat)
    (partition_owner : Int → Option Nat) (ranks : Nat → particles_system R) : Bool :=
  (exchange_pool nprocs partition_owner ranks).all fun e =>
    match e.1 with
    | some r => decide (r < nprocs)
    | none => false

/-- The computer of rank `r` in a run of `nprocs` ranks: `compute_distr` and `move_particles`
are those of `base`, `redistribute` is the redistributor of the spec at the moment all ranks
are in the states `ranks`. -/
def redistributor {R : Type} [LinearOrderedField R] [FloorRing R]
    (base : particles_field_computer R) (nprocs : Nat) (partition_owner : Int → Option Nat)
    (ranks : Nat → particles_system R) (r : Nat) : particles_field_computer R :=
  { base with
    redistribute := fun _ _ _ _ _ _ _ _ _ => routed nprocs partition_owner ranks r }

/-- The states of all ranks after each has called `redistribute()`; `none` when a particle has
no destination. -/
def redistribute_on_all_ranks {R : Type} [LinearOrderedField R] [FloorRing R]
    (base : Nat → particles_field_computer R) (nprocs : Nat)
    (partition_owner : Int → Option Nat) (ranks : Nat → particles_system R) :
    Option (Nat → particles_system R) :=
  if routable nprocs partition_owner ranks = true then
    some fun r =>
      particles_system.redistribute (redistributor (base r) nprocs partition_owner ranks r)
        (ranks r)
  else none

/-- The states of all ranks after each has called `completeLoop(dt)`: all ranks compute and
move, then exchange, then advance the step index and shift the history. -/
def completeLoop_on_all_ranks {R : Type} [LinearOrderedField R] [FloorRing R]
    (base : Nat → particles_field_computer R) (nprocs : Nat)
    (partition_owner : Int → Option Nat) (dt : R) (ranks : Nat → particles_system R) :
    Option (Nat → particles_system R) :=
  let moved := fun q =>
    particles_system.move (base q) dt (particles_system.compute (base q) (ranks q))
  if routable nprocs partition_owner moved = true then
    some fun r =>
      particles_system.completeLoop (redistributor (base r) nprocs partition_owner moved r) dt
        (ranks r)
  else none

/-- The states of all ranks after `n` steps of time step `dt`. -/
def after_steps_on_all_ranks {R : Type} [LinearOrderedField R] [FloorRing R]
    (base : Nat → particles_field_computer R) (nprocs : Nat)
    (partition_owner : Int → Option Nat) (dt : R) (ranks : Nat → particles_system R) :
    Nat → Option (Nat → particles_system R)
  | 0 => some ranks
  | n + 1 =>
    match after_steps_on_all_ranks base nprocs partition_owner dt ranks n with
    | none => none
    | some w => completeLoop_on_all_ranks base nprocs partition_owner dt w

/-- The number of particles held by all ranks together. -/
def total_particles {R : Type} (nprocs : Nat) (ranks : Nat → particles_system R) : Nat :=
  ((List.range nprocs).map fun r => (ranks r).my_nb_particles).sum

/-- The ids held by all ranks, rank after rank. -/
def all_ids {R : Type} (nprocs : Nat) (ranks : Nat → particles_system R) : List Int :=
  (List.range nprocs).flatMap fun r => (ranks r).local_ids

/-- Modelled from the spec: the "global partition→rank map" and the intervals of the ranks
describe one division of the slab axis. All ranks use the partition width `W`; rank `r` owns
the partitions of its `current_partition_interval`, `first` up to `second` excluded, and the
interval from `x0 + first*W` up to `x0 + second*W` excluded; the map sends a partition only to
a rank that owns it. -/
def slab_partition {R : Type} [LinearOrderedField R] (nprocs : Nat)
    (partition_owner : Int → Option Nat) (x0 W : R) (ranks : Nat → particles_system R) : Prop :=
  0 < W ∧ ∀ r, r < nprocs →
    (ranks r).spatial_partition_width_Z = W ∧
    (ranks r).my_spatial_low_limit = x0 + ((ranks r).current_partition_interval.1 : R) * W ∧
    (ranks r).my_spatial_up_limit = x0 + ((ranks r).current_partition_interval.2 : R) * W ∧
    (ranks r).partition_interval_size =
      (ranks r).current_partition_interval.2 - (ranks r).current_partition_interval.1 ∧
    ∀ g, partition_owner g = some r →
      (ranks r).current_partition_interval.1 ≤ g ∧ g < (ranks r).current_partition_interval.2

/-! ## Definitions: sample index, call kinds, exchanged slots -/

/-- The expression of `tindex` in `interpolator::operator()` as a function of the slab plane
`z`, the second-axis index `y`, the third-axis index `x` and the component `c`:
`((z*sizes[1] + y)*sizes[2] + x)*3 + c`. -/
def row_major_index (descriptor : field_descriptor) (z y x : Int) (c : Fin 3) : Int :=
  ((z * descriptor.sizes 1 + y) * descriptor.sizes 2 + x) * 3 + ((c : Nat) : Int)

/-- Whether a call is an `MPI_Send`. -/
def mpi_call.is_send : mpi_call → Bool
  | mpi_call.send _ _ _ _ => true
  | mpi_call.recv _ _ _ _ => false

/-- Whether a call is an `MPI_Recv`. -/
def mpi_call.is_recv : mpi_call → Bool
  | mpi_call.send _ _ _ _ => false
  | mpi_call.recv _ _ _ _ => true

/-- The slot at which the particle of slot `m` is found once the slots `idx1` and `idx2` have
been exchanged. -/
def swapped_slot (idx1 idx2 m : Nat) : Nat :=
  if m = idx1 then idx2 else if m = idx2 then idx1 else m

/-! ## Definitions: field -/

/-- Modelled from the spec: the enumeration `field_components` is declared outside the files at
hand; its values are the three cases of the `switch(fc)` in `field::compute_stats`. The spec
speaks of the "component count" of a field. -/
inductive field_components where
  | ONE
  | THREE
  | THREExTHREE
  deriving DecidableEq, Repr

/-- The data members of `field<rnumber, be, fc>` that the member functions below read or write.
`ncomp` and `ndim` are the values of `ncomp(fc)` and `ndim(fc)` (declared outside the files at
hand), `rmemlayout_local_size` is `rmemlayout->local_size`; `data` is the real array, which
`get_cdata()` views as complex numbers, entry `k` being `(data[2k], data[2k+1])`. -/
structure field (R : Type) where
  fc : field_components
  ncomp : Nat
  ndim : Nat
  myrank : Nat
  npoints : Nat
  rmemlayout_local_size : Nat
  data : List R
  real_space_representation : Bool

/-- What rank 0 finds in the HDF5 group that `compute_rspace_stats` is given: the extents
`dims` of the datasets `moments/<name>` and `histograms/<name>` (their number is `ndims`), and
the value the variable `nvals` holds when the `switch(ndims)` assigns nothing to it. -/
structure stats_group where
  moments_dims : List Nat
  histograms_dims : List Nat
  nvals_unassigned : Int

/-- The statement `if (bin >= 0 && bin < nbins) local_hist[bin*nvals+i]++;`. -/
def hist_increment (local_hist : List Int) (nbins nvals bin : Int) (i : Nat) : List Int :=
  if 0 ≤ bin ∧ bin < nbins then
    local_hist.set (bin * nvals + i).toNat (local_hist.getD (bin * nvals + i).toNat 0 + 1)
  else local_hist

namespace field

variable {R : Type}

/-- `field::ift()`; `execute_c2r` is what `fftw_interface::execute(c2r_plan)` makes of the
array, transformed in place. -/
def ift (execute_c2r : List R → List R) (f : field R) : field R :=
  { f with data := execute_c2r f.data, real_space_representation := true }

/-- `field::dft()`; `execute_r2c` is what `fftw_interface::execute(r2c_plan)` makes of the
array, transformed in place. -/
def dft (execute_r2c : List R → List R) (f : field R) : field R :=
  { f with data := execute_r2c f.data, real_space_representation := false }

/-- `field::normalize()`, and the loop under the comment `normalize` in `compute_stats`:
`data[tmp_index] /= npoints` for every `tmp_index < rmemlayout->local_size`, the division
being that of the element type and `npoints` being converted to it. -/
def normalize [Zero R] [Div R] [NatCast R] (f : field R) : field R :=
  { f with
    data :=
      (List.range f.rmemlayout_local_size).foldl
        (fun data (tmp_index : Nat) =>
          data.set tmp_index (data.getD tmp_index 0 / (f.npoints : R)))
        f.data }

/-- The value of `nvals` after the block that rank 0 runs on the dataset `moments/<name>`:
the `switch(ndims)`. -/
def nvals (group : stats_group) : Int :=
  match group.moments_dims.length with
  | 2 => 1
  | 3 => (group.moments_dims.getD 2 0 : Nat)
  | 4 => ((group.moments_dims.getD 2 0 * group.moments_dims.getD 3 0 : Nat) : Int)
  | _ => group.nvals_unassigned

/-- The value of `nbins`: `dims[1]` of the dataset `histograms/<name>`. -/
def nbins (group : stats_group) : Int :=
  (group.histograms_dims.getD 1 0 : Nat)

/-- The assertions of the block that rank 0 runs on the two datasets: `true` when none
fails. -/
def group_check (f : field R) (group : stats_group) : Bool :=
  decide ((group.moments_dims.length : Int) = (f.ndim : Int) - 1) &&
  decide (group.moments_dims.getD 1 0 = 10) &&
  decide ((group.histograms_dims.length : Int) = (f.ndim : Int) - 1) &&
  (if group.histograms_dims.length = 3 then
      decide (nvals group = (group.histograms_dims.getD 2 0 : Nat))
    else if group.histograms_dims.length = 4 then
      decide (nvals group =
        ((group.histograms_dims.getD 2 0 * group.histograms_dims.getD 3 0 : Nat) : Int))
    else true)

/-- The array `binsize`: `binsize[i] = 2*max_estimate[i] / nbins` for `i < nvals`, in the
arithmetic of the type `double` of the array (`R`), to which the `int` values 2 and `nbins` are
converted. -/
def binsize [Zero R] [Mul R] [Div R] [NatCast R] [IntCast R] (group : stats_group)
    (max_estimate : List R) : List R :=
  (List.range (nvals group).toNat).map fun (i : Nat) =>
    ((2 : Nat) : R) * max_estimate.getD i 0 / ((nbins group : Int) : R)

/-- What the body of the loop over the grid points in `compute_rspace_stats` does to
`local_hist` at the point `rindex`. The sample values go to `val_tmp`; with `nvals == 4` their
magnitude `val_tmp[3]` is binned in column 3; then every component `i < ncomp(fc)` is binned in
column `i`. The sums, products and quotients are those of the type `double` of `val_tmp` (`R`),
`int_floor x` is the value `int(floor(x))` that the machine delivers, and `sqrt` is the library
function. The moments, which the body accumulates in arrays of their own, are left out. -/
def rspace_stats_body [Zero R] [Add R] [Mul R] [Div R] [NatCast R] [IntCast R] (sqrt : R → R)
    (int_floor : R → Int) (f : field R) (group : stats_group) (max_estimate : List R)
    (local_hist : List Int) (rindex : Nat) : List Int :=
  let val_tmp : Nat → R := fun i => f.data.getD (rindex * f.ncomp + i) 0
  let val_tmp3 : R :=
    sqrt ((List.range f.ncomp).foldl (fun acc (i : Nat) => acc + val_tmp i * val_tmp i) 0)
  let local_hist : List Int :=
    if nvals group = 4 then
      hist_increment local_hist (nbins group) (nvals group)
        (int_floor (val_tmp3 * ((2 : Nat) : R) / (binsize group max_estimate).getD 3 0)) 3
    else local_hist
  (List.range f.ncomp).foldl (fun local_hist (i : Nat) =>
    hist_increment local_hist (nbins group) (nvals group)
      (int_floor ((val_tmp i + max_estimate.getD i 0) / (binsize group max_estimate).getD i 0))
      i) local_hist

/-- The array `local_hist` of `field::compute_rspace_stats(group, dset_name, toffset,
max_estimate)` when the loop over the grid points has run, `none` when an assertion fails.
`RLOOP` is declared outside the files at hand: `rloop` lists the values of `rindex` with which
it calls the body, one per local grid point. -/
def compute_rspace_stats [Zero R] [Add R] [Mul R] [Div R] [NatCast R] [IntCast R]
    (sqrt : R → R) (int_floor : R → Int) (rloop : List Nat) (f : field R) (group : stats_group)
    (max_estimate : List R) : Option (List Int) :=
  if f.real_space_representation = false then none
  else if f.myrank = 0 ∧ group_check f group = false then none
  else if nvals group ≠ (max_estimate.length : Int) then none
  else
    some (rloop.foldl (rspace_stats_body sqrt int_floor f group max_estimate)
      (List.replicate (nbins group * nvals group).toNat 0))

/-- The vector `max_estimate_vector` that `compute_stats` builds in its `switch(fc)`. -/
def max_estimate_vector [Mul R] [NatCast R] (sqrt : R → R) (fc : field_components)
    (max_estimate : R) : List R :=
  match fc with
  | field_components.ONE => List.replicate 1 max_estimate
  | field_components.THREE =>
    (List.replicate 4 max_estimate).set 3 (max_estimate * sqrt ((3 : Nat) : R))
  | field_components.THREExTHREE => List.replicate 9 max_estimate

/-- `field::compute_stats(kk, group, dset_name, toffset, max_estimate)`, `none` when a call of
`compute_rspace_stats` does not return. `kk->cospectrum` is declared outside the files at hand:
`cospectrum` is what it leaves in the array it is handed. -/
def compute_stats [Zero R] [Add R] [Mul R] [Div R] [NatCast R] [IntCast R] (sqrt : R → R)
    (int_floor : R → Int) (execute_r2c execute_c2r cospectrum : List R → List R)
    (rloop : List Nat) (group : stats_group) (f : field R) (max_estimate : R) :
    Option (field R) :=
  let first : Option (field R × Bool) :=
    if f.real_space_representation = true then
      (compute_rspace_stats sqrt int_floor rloop f group
        (max_estimate_vector sqrt f.fc max_estimate)).map fun _ =>
          (normalize (dft execute_r2c f), true)
    else some (f, false)
  first.bind fun (g, did_rspace) =>
    let g := { g with data := cospectrum g.data }
    if did_rspace = false then
      (compute_rspace_stats sqrt int_floor rloop (ift execute_c2r g) group
        (max_estimate_vector sqrt f.fc max_estimate)).map fun _ => ift execute_c2r g
    else some g

end field

/-! ## Definitions: Hermitian symmetry of a Fourier-space field -/

/-- Modelled from the spec: the class `field_layout` (member `clayout` of `field`) is declared
outside the files at hand. A "pure descriptor" of the complex array as one rank holds it, with
the members `symmetrize` reads: the global shape `sizes`, the first global row `starts[0]` of
the rank, the owning-rank lookup `rank[0][.]` for a row, and the own rank. -/
structure field_layout where
  sizes : Nat → Nat
  starts0 : Nat
  rank0 : Nat → Nat
  myrank : Nat

/-- The assignment `p[i] = v`; outside the array, where the access is undefined, nothing is
stored. -/
def store_at {α : Type} (buf : List α) (i : Int) (v : α) : List α :=
  if 0 ≤ i then buf.set i.toNat v else buf

/-- The value stored by the pair of assignments `dst[0] = src[0]; dst[1] = -src[1]` on complex
numbers held as (real part, imaginary part). -/
def conj_entry {R : Type} [Neg R] (z : R × R) : R × R := (z.1, -z.2)

/-- The position in the complex array of a rank of the entry with local row `row`, second
index `ii`, third index 0 and component `cc`: `ncomp*(row*sizes[1] + ii)*sizes[2] + cc`. -/
def local_index (ncomp : Nat) (clayout : field_layout) (row ii cc : Nat) : Nat :=
  ncomp * (row * clayout.sizes 1 + ii) * clayout.sizes 2 + cc

namespace field

variable {R : Type}

/-- The block of `symmetrize` that the rank owning row 0 runs before the loop over `yy`
(`myrank` is the member of the field, not that of the layout): the imaginary part of the
entries `data[cc]` is set to zero, and for `1 <= ii < sizes[1]/2` the entry at second index
`sizes[1] - ii` becomes the conjugate of the entry at `ii`. -/
def symmetrize_row0 [Zero R] [Neg R] (ncomp myrank : Nat) (clayout : field_layout)
    (data : List (R × R)) : List (R × R) :=
  if myrank = clayout.rank0 0 then
    let data := (List.range ncomp).foldl
      (fun data (cc : Nat) => store_at data (cc : Int) ((read_at data 0 (cc : Int)).1, 0)) data
    (List.range' 1 (clayout.sizes 1 / 2 - 1)).foldl (fun data (ii : Nat) =>
      (List.range ncomp).foldl (fun data (cc : Nat) =>
        store_at data
          ((cc : Int) + (ncomp : Int) * ((clayout.sizes 1 : Int) - (ii : Int)) *
            (clayout.sizes 2 : Int))
          (conj_entry (read_at data 0
            ((cc : Int) + (ncomp : Int) * (ii : Int) * (clayout.sizes 2 : Int))))) data) data
  else data

/-- The loop of `symmetrize` that copies row `yy` of `data` into `buffer`, run by the rank
`ranksrc`. -/
def symmetrize_fill [Zero R] (ncomp : Nat) (clayout : field_layout)
    (data buffer : List (R × R)) (yy : Nat) : List (R × R) :=
  (List.range (clayout.sizes 1)).foldl (fun buffer (ii : Nat) =>
    (List.range ncomp).foldl (fun buffer (cc : Nat) =>
      store_at buffer ((ncomp : Int) * (ii : Int) + (cc : Int))
        (read_at data 0
          ((ncomp : Int) * (((yy : Int) - (clayout.starts0 : Int)) * (clayout.sizes 1 : Int) +
            (ii : Int)) * (clayout.sizes 2 : Int) + (cc : Int)))) buffer) buffer

/-- The two loops of `symmetrize` that the rank `rankdst` runs on row `sizes[0] - yy` of
`data`: the entry at second index `ii >= 1` becomes the conjugate of the entry of `buffer` at
`sizes[1] - ii`, the entry at second index 0 the conjugate of the entry of `buffer` at 0. -/
def symmetrize_store [Zero R] [Neg R] (ncomp : Nat) (clayout : field_layout)
    (data buffer : List (R × R)) (yy : Nat) : List (R × R) :=
  let data := (List.range' 1 (clayout.sizes 1 - 1)).foldl (fun data (ii : Nat) =>
    (List.range ncomp).foldl (fun data (cc : Nat) =>
      store_at data
        ((ncomp : Int) * (((clayout.sizes 0 : Int) - (yy : Int) - (clayout.starts0 : Int)) *
          (clayout.sizes 1 : Int) + (ii : Int)) * (clayout.sizes 2 : Int) + (cc : Int))
        (conj_entry (read_at buffer 0
          ((ncomp : Int) * ((clayout.sizes 1 : Int) - (ii : Int)) + (cc : Int))))) data) data
  (List.range ncomp).foldl (fun data (cc : Nat) =>
    store_at data
      ((cc : Int) + (ncomp : Int) *
        ((clayout.sizes 0 : Int) - (yy : Int) - (clayout.starts0 : Int)) *
        (clayout.sizes 1 : Int) * (clayout.sizes 2 : Int))
      (conj_entry (read_at buffer 0 (cc : Int)))) data

/-- The call of `MPI_Send` a rank makes in the iteration `yy`, as (destination, tag, message):
the `ncomp*sizes[1]` entries of the buffer it has just filled, sent by `ranksrc` to `rankdst`
with the tag `yy` when the two ranks differ. -/
def symmetrize_send [Zero R] (ncomp : Nat) (clayout : field_layout)
    (data buffer : List (R × R)) (yy : Nat) : Option (Nat × Nat × List (R × R)) :=
  if clayout.myrank = clayout.rank0 yy ∧
      clayout.rank0 yy ≠ clayout.rank0 (clayout.sizes 0 - yy) then
    some (clayout.rank0 (clayout.sizes 0 - yy), yy,
      (symmetrize_fill ncomp clayout data buffer yy).take (ncomp * clayout.sizes 1))
  else none

/-- One iteration of the loop over `yy` of `symmetrize` on one rank, acting on the pair of
`data` and `buffer`. `MPI_Recv source tag` is the message the network hands this rank for that
envelope (`none`: no such message is ever sent and the call does not return); a message longer
than the `ncomp*sizes[1]` entries asked for is an error. -/
def symmetrize_iteration [Zero R] [Neg R] (ncomp : Nat) (clayout : field_layout)
    (MPI_Recv : Nat → Nat → Option (List (R × R))) (state : List (R × R) × List (R × R))
    (yy : Nat) : Option (List (R × R) × List (R × R)) :=
  let ranksrc := clayout.rank0 yy
  let rankdst := clayout.rank0 (clayout.sizes 0 - yy)
  let buffer :=
    if clayout.myrank = ranksrc then symmetrize_fill ncomp clayout state.1 state.2 yy
    else state.2
  let received : Option (List (R × R)) :=
    if ranksrc ≠ rankdst ∧ clayout.myrank = rankdst then
      match MPI_Recv ranksrc yy with
      | none => none
      | some msg =>
        if msg.length ≤ ncomp * clayout.sizes 1 then some (write_at buffer 0 msg) else none
    else some buffer
  received.map fun buffer =>
    (if clayout.myrank = rankdst then symmetrize_store ncomp clayout state.1 buffer yy
      else state.1, buffer)

end field

/-- One iteration `yy` of the loop of `symmetrize` on all ranks: a rank whose loop has reached
its end keeps its state; the message a rank receives from `source` with tag `yy` is the one
`source` sends to it in its own iteration `yy`. -/
def symmetrize_on_all_ranks_step {R : Type} [Zero R] [Neg R] (ncomp : Nat)
    (clayout : Nat → field_layout) (world : Nat → Option (List (R × R) × List (R × R)))
    (yy : Nat) : Nat → Option (List (R × R) × List (R × R)) :=
  fun r =>
    (world r).bind fun state =>
      if yy < (clayout r).sizes 0 / 2 then
        field.symmetrize_iteration ncomp (clayout r)
          (fun source tag =>
            (world source).bind fun s =>
              if yy < (clayout source).sizes 0 / 2 then
                (field.symmetrize_send ncomp (clayout source) s.1 s.2 yy).bind fun m =>
                  if m.1 = r ∧ m.2.1 = tag then some m.2.2 else none
              else none)
          state yy
      else some state

/-- The complex array of rank `r` when `field::symmetrize()` has returned on all ranks, rank `q`
having entered it with the field `fields q`, the layout `clayout q`, the complex array
`data q` (what `get_cdata()` returns) and a buffer allocated with the contents
`alloc_complex q`; `none` when the call does not return on rank `r`. The `assert` on the
representation comes first, then the block on row 0, then the iterations `yy = 1, 2, ...` of
all ranks. -/
def symmetrize_on_all_ranks {R : Type} [Zero R] [Neg R] (ncomp : Nat)
    (clayout : Nat → field_layout) (fields : Nat → field R)
    (alloc_complex data : Nat → List (R × R)) (r : Nat) : Option (List (R × R)) :=
  ((List.range' 1 ((clayout r).sizes 0 / 2 - 1)).foldl
    (symmetrize_on_all_ranks_step ncomp clayout)
    (fun q =>
      if (fields q).real_space_representation = false then
        some (field.symmetrize_row0 ncomp (fields q).myrank (clayout q) (data q), alloc_complex q)
      else none) r).map fun state => state.1

/-- The entry with row `z`, second index `ii`, third index 0 and component `cc` of a
Fourier-space field, taken over the data of all ranks: the rank `rank[0][z]` holds it in its
local row `z - starts[0]`. -/
def global_entry {R : Type} [Zero R] (ncomp : Nat) (clayout : Nat → field_layout)
    (rank0 : Nat → Nat) (data : Nat → List (R × R)) (z ii cc : Nat) : R × R :=
  (data (rank0 z)).getD
    (local_index ncomp (clayout (rank0 z)) (z - (clayout (rank0 z)).starts0) ii cc) 0

/-! ## Definitions: machine arithmetic -/

/-- The value an `int` holds after an arithmetic operation whose exact result is `x`: the
representative of `x` modulo `2^32` in `[-2^31, 2^31)`, as on the two's complement machines the
program runs on (the language leaves the overflow of an `int` undefined). -/
def int32 (x : Int) : Int := (x + 2 ^ 31) % 2 ^ 32 - 2 ^ 31

/-- The number of binary digits of `n`, by halving at most `fuel` times. -/
def bit_length_aux : Nat → Nat → Nat
  | 0, _ => 0
  | fuel + 1, n => if n = 0 then 0 else bit_length_aux fuel (n / 2) + 1

/-- The number of binary digits of `n`: the least `k` with `n < 2^k`. -/
def bit_length (n : Nat) : Nat := bit_length_aux n n

/-- A value of the type `double` (IEEE 754 binary64): a NaN, an infinity, or the finite value
`(-1)^neg * m * 2^e`. The values the arithmetic produces are written with `m < 2^53` and
`-1074 <= e <= 971`, and with `2^52 <= m` unless `e = -1074` (the subnormal numbers and the
two zeros `fin false 0 (-1074)` and `fin true 0 (-1074)`). -/
inductive double where
  | nan
  | inf (neg : Bool)
  | fin (neg : Bool) (m : Nat) (e : Int)
  deriving DecidableEq, Repr

namespace double

/-- The quotient of `m` by `2^s` rounded to the nearest integer, a tie going to the even
one. -/
def shift_round (m s : Nat) : Nat :=
  if 2 ^ s < 2 * (m % 2 ^ s) ∨ (2 * (m % 2 ^ s) = 2 ^ s ∧ m / 2 ^ s % 2 = 1) then m / 2 ^ s + 1
  else m / 2 ^ s

/-- The `double` nearest to `(-1)^neg * m * 2^e`, a tie going to the even significand
(the rounding mode of the program); a value of magnitude `2^1024 - 2^970` or more becomes an
infinity. -/
def round (neg : Bool) (m : Nat) (e : Int) : double :=
  if m = 0 then fin neg 0 (-1074)
  else
    let e' : Int := max (e + (bit_length m : Int) - 53) (-1074)
    let q : Nat := if e' ≤ e then m * 2 ^ (e - e').toNat else shift_round m (e' - e).toNat
    if q = 2 ^ 53 then (if 971 < e' + 1 then inf neg else fin neg (2 ^ 52) (e' + 1))
    else if 971 < e' then inf neg else fin neg q e'

/-- The unary minus. -/
def neg : double → double
  | nan => nan
  | inf s => inf (!s)
  | fin s m e => fin (!s) m e

/-- The value of type `double` that stands for `(-1)^neg * m * 2^e` when the arithmetic has
rounded it: a NaN and the infinities are kept. -/
def canon : double → double
  | nan => nan
  | inf s => inf s
  | fin s m e => round s m e

/-- The product of two values before it is rounded: `fin neg m e` stands for the exact product
`(-1)^neg * m * 2^e`, whatever the size of `m`. -/
def exact_mul : double → double → double
  | nan, _ => nan
  | _, nan => nan
  | inf s, inf s' => inf (xor s s')
  | inf s, fin s' m _ => if m = 0 then nan else inf (xor s s')
  | fin s m _, inf s' => if m = 0 then nan else inf (xor s s')
  | fin s m e, fin s' m' e' => fin (xor s s') (m * m') (e + e')

/-- The product of two values of type `double`. -/
def mul (x y : double) : double := canon (exact_mul x y)

/-- The sum of two values before it is rounded; an exact sum zero is `+0` unless both terms
are `-0`. -/
def exact_add : double → double → double
  | nan, _ => nan
  | _, nan => nan
  | inf s, inf s' => if s = s' then inf s else nan
  | inf s, fin _ _ _ => inf s
  | fin _ _ _, inf s' => inf s'
  | fin s m e, fin s' m' e' =>
    if m = 0 then (if m' = 0 then fin (s && s') 0 (-1074) else fin s' m' e')
    else if m' = 0 then fin s m e
    else
      let e0 : Int := min e e'
      let a : Int := (if s then -1 else 1) * ((m * 2 ^ (e - e0).toNat : Nat) : Int) +
        (if s' then -1 else 1) * ((m' * 2 ^ (e' - e0).toNat : Nat) : Int)
      if a = 0 then fin false 0 (-1074) else fin (decide (a < 0)) a.natAbs e0

/-- The sum of two values of type `double`. -/
def add (x y : double) : double := canon (exact_add x y)

/-- The difference of two values of type `double`. -/
def sub (x y : double) : double := add x (neg y)

/-- The quotient of two values of type `double`. The integer quotient is taken with 55 digits
or more and a last digit that tells whether the division left a remainder. -/
def div : double → double → double
  | nan, _ => nan
  | _, nan => nan
  | inf _, inf _ => nan
  | inf s, fin s' _ _ => inf (xor s s')
  | fin s _ _, inf s' => fin (xor s s') 0 (-1074)
  | fin s m e, fin s' m' e' =>
    if m' = 0 then (if m = 0 then nan else inf (xor s s'))
    else if m = 0 then fin (xor s s') 0 (-1074)
    else
      let k : Nat := 55 + bit_length m'
      let q : Nat := m * 2 ^ k / m'
      let sticky : Nat := if m * 2 ^ k % m' = 0 then 0 else 1
      round (xor s s') (2 * q + sticky) (e + -e' + -(k : Int) + -1)

/-- The conversion of an integer to `double`. -/
def of_int (z : Int) : double := round (decide (z < 0)) z.natAbs 0

/-- The value `int(floor(x))`. The floor of a finite `x` is an integer; when it is a value of
the 32-bit type `int` the conversion returns it. Otherwise, and for a NaN or an infinity,
the language leaves the conversion undefined and the program goes on with the value the
machine delivers, `indefinite` (`-2^31` on x86). -/
def int_floor (indefinite : Int) : double → Int
  | nan => indefinite
  | inf _ => indefinite
  | fin s m e =>
    let z : Int :=
      if 0 ≤ e then (if s then -1 else 1) * ((m * 2 ^ e.toNat : Nat) : Int)
      else ((if s then -1 else 1) * (m : Int)) / ((2 ^ (-e).toNat : Nat) : Int)
    if -(2 : Int) ^ 31 ≤ z ∧ z < (2 : Int) ^ 31 then z else indefinite

/-- The rational number a finite value of type `double` stands for; 0 for a NaN and the
infinities. -/
def val : double → ℚ
  | nan => 0
  | inf _ => 0
  | fin s m e => (if s then -1 else 1) * (m : ℚ) * (2 : ℚ) ^ e

/-- Whether a value is finite. -/
def is_finite : double → Bool
  | fin _ _ _ => true
  | _ => false

/-- Whether the rounding of an exact result neither overflows nor underflows: the exact result
is finite and is zero or at least `2^-1022` in magnitude, and the rounded result is finite. -/
def in_range : double → Bool
  | fin s m e =>
    decide (m = 0) || (decide (-1022 ≤ e + (bit_length m : Int) - 1) && is_finite (round s m e))
  | _ => false

end double

instance : Zero double := ⟨double.fin false 0 (-1074)⟩

instance : One double := ⟨double.fin false 4503599627370496 (-52)⟩

instance : Neg double := ⟨double.neg⟩

instance : Add double := ⟨double.add⟩

instance : Sub double := ⟨double.sub⟩

instance : Mul double := ⟨double.mul⟩

instance : Div double := ⟨double.div⟩

instance : NatCast double := ⟨fun n => double.of_int (n : Int)⟩

instance : IntCast double := ⟨double.of_int⟩

/-- A value of type `double` together with the record of the operations that led to it:
`in_range` is `true` as long as none of them overflowed, underflowed or was invalid. -/
structure monitored where
  value : double
  in_range : Bool
  deriving DecidableEq, Repr

/-- A value that no operation has touched. -/
def monitored.clean (x : double) : monitored := ⟨x, true⟩

instance : Zero monitored := ⟨monitored.clean 0⟩

instance : One monitored := ⟨monitored.clean 1⟩

instance : Add monitored :=
  ⟨fun x y => ⟨x.value + y.value,
    x.in_range && y.in_range && double.in_range (double.exact_add x.value y.value)⟩⟩

instance : Sub monitored :=
  ⟨fun x y => ⟨x.value - y.value,
    x.in_range && y.in_range && double.in_range (double.exact_add x.value (double.neg y.value))⟩⟩

instance : Mul monitored :=
  ⟨fun x y => ⟨x.value * y.value,
    x.in_range && y.in_range && double.in_range (double.exact_mul x.value y.value)⟩⟩

/-! ## Definitions: the interpolator on the machine -/

/-- The flat index `tindex` of `interpolator::operator()` with the additions `xg[2]+iz`,
`xg[1]+iy` and `xg[0]+ix` made in the type `int`, as the source makes them before it converts
to `ptrdiff_t`. -/
def tindex_int32 (descriptor : field_descriptor) (xg : Fin 3 → Int) (iz iy ix : Int)
    (c : Fin 3) : Int :=
  ((int32 (xg 2 + iz) * descriptor.sizes 1 + MOD (int32 (xg 1 + iy)) (descriptor.sizes 1))
      * descriptor.sizes 2 + MOD (int32 (xg 0 + ix)) (descriptor.sizes 2)) * 3 +
    ((c : Nat) : Int)

/-- The tag of the messages of `read_rFFTW` as the source computes it, in the type `int`:
`2*(rsrc*nprocs + rdst)` in the upper-slice loop (`phase = 0`) and `2*(rsrc*nprocs + rdst)+1`
in the lower-slice loop. -/
def message_tag_int32 (nprocs : Int) (phase : Nat) (rsrc rdst : Int) : Int :=
  if phase = 0 then int32 (2 * int32 (int32 (rsrc * nprocs) + rdst))
  else int32 (int32 (2 * int32 (int32 (rsrc * nprocs) + rdst)) + 1)

namespace interpolator

variable {F : Type}

/-- `interpolator::operator()(t, xg, xx, dest, deriv)` in the arithmetic of the machine: the
index additions are those of `int`, and the sums, differences and products are the operations
of the type `F` of the values, taken in the order in which the source writes them (for
`F = double` each of them is rounded). `deriv` is `none` for `NULL`; the result is the array
`dest` on return. -/
def operator_call_machine [Zero F] [One F] [Add F] [Sub F] [Mul F] (I : interpolator F) (t : F)
    (xg : Fin 3 → Int) (xx : Fin 3 → F) (dest : Fin 3 → F) (deriv : Option (Fin 3 → Int)) :
    Fin 3 → F :=
  let b : (Nat → F) × (Nat → F) × (Nat → F) :=
    match deriv with
    | none => (I.compute_beta 0 (xx 0), I.compute_beta 0 (xx 1), I.compute_beta 0 (xx 2))
    | some deriv =>
      (I.compute_beta (deriv 0) (xx 0), I.compute_beta (deriv 1) (xx 1),
        I.compute_beta (deriv 2) (xx 2))
  let bx := b.1
  let by_ := b.2.1
  let bz := b.2.2
  let dest := (List.finRange 3).foldl (fun dest c => Function.update dest c 0) dest
  let ff0 := read_at I.f0 I.buffer_size
  let ff1 := read_at I.f1 I.buffer_size
  (stencil_offsets I.interp_neighbours).foldl (fun dest iz =>
    (stencil_offsets I.interp_neighbours).foldl (fun dest iy =>
      (stencil_offsets I.interp_neighbours).foldl (fun dest ix =>
        (List.finRange 3).foldl (fun dest c =>
          Function.update dest c (dest c +
            (ff0 (tindex_int32 I.descriptor xg iz iy ix c) * (1 - t) +
                t * ff1 (tindex_int32 I.descriptor xg iz iy ix c)) *
              (bz (iz + I.interp_neighbours).toNat * by_ (iy + I.interp_neighbours).toNat *
                bx (ix + I.interp_neighbours).toNat))) dest) dest) dest) dest

/-- The interpolator with every value of its buffers and every weight taken as a value that no
operation has touched yet. -/
def monitor (I : interpolator double) : interpolator monitored where
  interp_neighbours := I.interp_neighbours
  unbuffered_descriptor := I.unbuffered_descriptor
  descriptor := I.descriptor
  buffer_size := I.buffer_size
  compute_beta := fun deriv x n => monitored.clean (I.compute_beta deriv x.value n)
  f0 := I.f0.map monitored.clean
  f1 := I.f1.map monitored.clean

end interpolator

/-! ## Definitions: the bound on the rounding error -/

/-- The unit roundoff of the type `double`: half the distance from 1 to the next value. -/
def unit_roundoff : ℚ := 1 / 2 ^ 53

/-- The relative error that `k` roundings in a row can add up to: `(1 + 2^-53)^k - 1`. -/
def rounding_bound (k : Nat) : ℚ := (1 + unit_roundoff) ^ k - 1

/-- A computed value `x` stands for the exact number `e` after at most `k` roundings in a row:
when no operation behind `x` overflowed, underflowed or was invalid, the value of `x` differs
from `e` by at most `M * rounding_bound k`, where `M` bounds the magnitude of `e` (the sum of
the magnitudes of the terms `e` is made of). -/
def monitored.approx (k : Nat) (M : ℚ) (x : monitored) (e : ℚ) : Prop :=
  x.in_range = true → |double.val x.value - e| ≤ M * rounding_bound k ∧ |e| ≤ M

namespace interpolator

/-- The exact weighted sum of the values that the loop nest of `operator()` reads in the
buffer `buf` for the component `c`: every stored value and every weight is taken as the
rational number it stands for, and nothing is rounded. -/
def weighted_sum (I : interpolator double) (buf : List double) (xg : Fin 3 → Int)
    (bx by_ bz : Nat → double) (c : Fin 3) : ℚ :=
  ∑ iz ∈ Finset.Icc (-(I.interp_neighbours : Int)) ((I.interp_neighbours : Int) + 1),
    ∑ iy ∈ Finset.Icc (-(I.interp_neighbours : Int)) ((I.interp_neighbours : Int) + 1),
      ∑ ix ∈ Finset.Icc (-(I.interp_neighbours : Int)) ((I.interp_neighbours : Int) + 1),
        double.val (read_at buf I.buffer_size (tindex_int32 I.descriptor xg iz iy ix c)) *
          (double.val (bz (iz + I.interp_neighbours).toNat) *
            double.val (by_ (iy + I.interp_neighbours).toNat) *
            double.val (bx (ix + I.interp_neighbours).toNat))

/-- The sum of the magnitudes of the terms of `weighted_sum`. -/
def weighted_magnitude (I : interpolator double) (buf : List double) (xg : Fin 3 → Int)
    (bx by_ bz : Nat → double) (c : Fin 3) : ℚ :=
  ∑ iz ∈ Finset.Icc (-(I.interp_neighbours : Int)) ((I.interp_neighbours : Int) + 1),
    ∑ iy ∈ Finset.Icc (-(I.interp_neighbours : Int)) ((I.interp_neighbours : Int) + 1),
      ∑ ix ∈ Finset.Icc (-(I.interp_neighbours : Int)) ((I.interp_neighbours : Int) + 1),
        |double.val (read_at buf I.buffer_size (tindex_int32 I.descriptor xg iz iy ix c))| *
          (|double.val (bz (iz + I.interp_neighbours).toNat)| *
            |double.val (by_ (iy + I.interp_neighbours).toNat)| *
            |double.val (bx (ix + I.interp_neighbours).toNat)|)

end interpolator

/-! ## Definitions: the orchestration loop on the machine -/

namespace particles_system

variable {R : Type}

/-- `compute()` with the precondition of `my_particles_rhs.front()` made explicit: on a vector
without a history slot the call of `front()` is undefined (`none`); otherwise it is
`compute`. -/
def compute_machine (computer : particles_field_computer R) (s : particles_system R) :
    Option (particles_system R) :=
  match s.my_particles_rhs with
  | [] => none
  | _ :: _ => some (compute computer s)

/-- `inc_step_idx()` on the member `int step_idx`: the sum `step_idx + 1` is made in the type
`int`. -/
def inc_step_idx_machine (s : particles_system R) : particles_system R :=
  { s with step_idx := int32 (s.step_idx + 1) }

/-- `completeLoop(dt)` on the machine: the five calls of the body, `none` when `compute()` is
undefined. -/
def completeLoop_machine [Zero R] (computer : particles_field_computer R) (dt : R)
    (s : particles_system R) : Option (particles_system R) := do
  let mut sys ← compute_machine computer s
  sys := move computer dt sys
  sys := redistribute computer sys
  sys := inc_step_idx_machine sys
  sys := shift_rhs_vectors sys
  return sys

/-- The state before the `n+1`-th call of `completeLoop` on the machine, the calls made with
the time steps `dts 0, dts 1, ...`; `none` when one of the calls is undefined. -/
def after_loops_machine [Zero R] (computer : particles_field_computer R) (dts : Nat → R)
    (s : particles_system R) : Nat → Option (particles_system R)
  | 0 => some s
  | n + 1 => (after_loops_machine computer dts s n).bind (completeLoop_machine computer (dts n))

end particles_system

/-! ## Sample data

Small concrete instances on which the statements below are evaluated. -/

/-- A computer over the integers that leaves every array as it finds it. -/
def sample_computer : particles_field_computer Int where
  compute_distr := fun _ _ rhs0 _ => rhs0
  move_particles := fun positions _ _ _ _ => positions
  redistribute := fun nb_per_partition nb positions rhs _ indexes _ _ _ =>
    { current_my_nb_particles_per_partition := nb_per_partition
      nb_particles := nb
      positions := positions
      rhs := fun i => rhs.getD i []
      indexes := indexes }

/-- One particle with two history slots, at step index 1. -/
def sample_system : particles_system Int where
  interp_neighbours := 1
  current_partition_interval := (0, 2)
  partition_interval_size := 2
  current_my_nb_particles_per_partition := [1, 0]
  current_offset_particles_for_partition := [0, 1, 1]
  spatial_partition_width_Z := 1
  my_spatial_low_limit := 0
  my_spatial_up_limit := 2
  my_particles_positions := [1, 2, 0]
  my_particles_positions_indexes := [7]
  my_nb_particles := 1
  my_particles_rhs := [[1, 2, 3], [4, 5, 6]]
  step_idx := 1

/-- Four planes of two elements each, split over two ranks. -/
def sample_layout : field_descriptor where
  sizes := fun k => [4, 1, 2, 1].getD k 0
  slice_size := 2
  local_size := 0
  nprocs := 2
  myrank := 0
  all_start0 := fun r => [0, 2].getD r 0
  all_size0 := fun r => [2, 2].getD r 0
  rank := fun z => if z < 2 then 0 else 1

/-- The global field of the sample: element `e` of plane `z` is `10*z + e`. -/
def sample_field (z : Int) (e : Nat) : Int := 10 * z + e

/-- Linear weights on the two stencil points of `interp_neighbours = 0`. -/
def sample_beta (deriv : Int) (x : Int) (j : Nat) : Int :=
  if deriv = 0 then (if j = 0 then 1 - x else if j = 1 then x else 0) else 0

/-- The interpolator of rank `r` of the sample, with one halo plane on each side. -/
def sample_ranks (r : Nat) : interpolator Int where
  interp_neighbours := 0
  unbuffered_descriptor := rank_descriptor sample_layout r
  descriptor := sample_layout
  buffer_size := 2
  compute_beta := sample_beta
  f0 := [-1, -2, -3, -4, -5, -6, -7, -8]
  f1 := [1, 2, 3, 4, 5, 6, 7, 8]

/-- The samples the two ranks pass to `read_rFFTW`: their own planes of `sample_field`. -/
def sample_src (r : Nat) : List Int :=
  if r = 0 then [0, 1, 10, 11] else [20, 21, 30, 31]

/-- A `clip_zero_padding` for samples that carry no padding. -/
def sample_clip (_ : field_descriptor) (src : List Int) (_ : Nat) : List Int := src

/-- A computer on floating-point values that leaves every array as it finds it. -/
def sample_fp_computer : particles_field_computer fp_value where
  compute_distr := fun _ _ rhs0 _ => rhs0
  move_particles := fun positions _ _ _ _ => positions
  redistribute := fun nb_per_partition nb positions rhs _ indexes _ _ _ =>
    { current_my_nb_particles_per_partition := nb_per_partition
      nb_particles := nb
      positions := positions
      rhs := fun i => rhs.getD i []
      indexes := indexes }

/-- One particle whose first coordinate is `first`, with one history slot. -/
def sample_fp_system (first : fp_value) : particles_system fp_value where
  interp_neighbours := 1
  current_partition_interval := (0, 1)
  partition_interval_size := 1
  current_my_nb_particles_per_partition := [1]
  current_offset_particles_for_partition := [0, 1]
  spatial_partition_width_Z := fp_value.finite 1
  my_spatial_low_limit := fp_value.finite 0
  my_spatial_up_limit := fp_value.finite 1
  my_particles_positions := [first, fp_value.finite 0, fp_value.finite 0]
  my_particles_positions_indexes := [0]
  my_nb_particles := 1
  my_particles_rhs := [[fp_value.finite 0, fp_value.finite 0, fp_value.finite 0]]
  step_idx := 1

/-- A computer over the rationals whose `move_particles` is the Adams-Bashforth integrator and
whose `compute_distr` leaves the newest history slot as it finds it. -/
def scenario_computer : particles_field_computer ℚ :=
  adams_bashforth_computer
    { compute_distr := fun _ _ rhs0 _ => rhs0
      move_particles := fun positions _ _ _ _ => positions
      redistribute := fun nb_per_partition nb positions rhs _ indexes _ _ _ =>
        { current_my_nb_particles_per_partition := nb_per_partition
          nb_particles := nb
          positions := positions
          rhs := fun i => rhs.getD i []
          indexes := indexes } }

/-- The partition→rank map of two ranks that split ten partitions of width 1 at 5. -/
def scenario_owner (g : Int) : Option Nat :=
  if 0 ≤ g ∧ g < 5 then some 0 else if 5 ≤ g ∧ g < 10 then some 1 else none

/-- Two ranks owning `[0,5)` and `[5,10)`; rank 0 holds the particle 7 at slab coordinate
`4.9` with velocity 3 in its newest history slot, rank 1 holds no particle; step index 1. -/
def scenario_ranks (r : Nat) : particles_system ℚ where
  interp_neighbours := 1
  current_partition_interval := if r = 0 then (0, 5) else (5, 10)
  partition_interval_size := 5
  current_my_nb_particles_per_partition := if r = 0 then [0, 0, 0, 0, 1] else [0, 0, 0, 0, 0]
  current_offset_particles_for_partition :=
    if r = 0 then [0, 0, 0, 0, 0, 1] else [0, 0, 0, 0, 0, 0]
  spatial_partition_width_Z := 1
  my_spatial_low_limit := if r = 0 then 0 else 5
  my_spatial_up_limit := if r = 0 then 5 else 10
  my_particles_positions := if r = 0 then [0, 0, 49 / 10] else []
  my_particles_positions_indexes := if r = 0 then [7] else []
  my_nb_particles := if r = 0 then 1 else 0
  my_particles_rhs := if r = 0 then [[0, 0, 3]] else [[]]
  step_idx := 1

/-- The two ranks of the scenario after `move(1)`. -/
def scenario_moved (r : Nat) : particles_system ℚ :=
  particles_system.move scenario_computer 1 (scenario_ranks r)

/-- A layout of four planes of `2*2*3` elements each, split over two ranks. -/
def sample_grid : field_descriptor where
  sizes := fun k => [4, 2, 2, 3].getD k 0
  slice_size := 12
  local_size := 24
  nprocs := 2
  myrank := 0
  all_start0 := fun r => [0, 2].getD r 0
  all_size0 := fun r => [2, 2].getD r 0
  rank := fun z => if z < 2 then 0 else 1

/-- The interpolator the constructor builds on `sample_grid` with `interp_neighbours = 1`:
two halo planes on each side of the two local planes. -/
def sample_grid_interpolator : interpolator Int :=
  interpolator.construct 1 sample_grid sample_beta
    (fun tdims => { sample_grid with sizes := tdims, local_size := 72 })
    (fun _ => 0) (fun _ => 0)

/-- Two particles handed to `init`, the first in the upper partition of the rank, the second
in the lower one. -/
def sample_input : abstract_particles_input Int where
  getMyParticles := [0, 0, 1, 0, 0, 0]
  getMyParticlesIndexes := [10, 11]
  getMyRhs := [[1, 2, 3, 4, 5, 6]]
  getLocalNbParticles := 2

/-- The outcome of the bucketing routine on `sample_input`: the two particles are exchanged,
each of the two partitions holds one. -/
def sample_partition_extra_z (_ : List Int) (_ : Nat) (_ : Int) (_ _ : List Int)
    (_ : Int → Int) : partition_extra_z_outcome where
  swaps := [(0, 1)]
  current_my_nb_particles_per_partition := [1, 1]
  current_offset_particles_for_partition := [0, 1, 2]

/-- A freshly constructed system owning the interval from 0 to 2 in two partitions of width
1. -/
def sample_initial : particles_system Int :=
  particles_system.construct 1 1 0 2 0 2 [0, 0] [0, 0, 0]

/-- The shape 4 x 4 x 1 of a complex array. -/
def sample_fourier_sizes (i : Nat) : Nat :=
  if i = 2 then 1 else 4

/-- The owner of a row when two ranks hold two rows each. -/
def sample_row_owner (z : Nat) : Nat := z / 2

/-- The layout of the complex array on rank `r`: rows `2r` and `2r + 1`. -/
def sample_field_layout (r : Nat) : field_layout where
  sizes := sample_fourier_sizes
  starts0 := 2 * r
  rank0 := sample_row_owner
  myrank := r

/-- The complex array of rank `r`, two rows of four entries, before the symmetrisation. -/
def sample_cdata (r : Nat) : List (Int × Int) :=
  if r = 0 then [(1, 1), (2, 3), (4, 5), (6, 7), (8, 9), (10, 11), (12, 13), (14, 15)]
  else [(16, 17), (18, 19), (20, 21), (22, 23), (24, 25), (26, 27), (28, 29), (30, 31)]

/-- A one-component field in Fourier space on rank `r`, its real array holding the real and
imaginary parts of the complex entries in turn. -/
def sample_fourier_field (r : Nat) : field Int where
  fc := field_components.ONE
  ncomp := 1
  ndim := 3
  myrank := r
  npoints := 32
  rmemlayout_local_size := 16
  data := (sample_cdata r).flatMap fun z => [z.1, z.2]
  real_space_representation := false

/-- A freshly allocated buffer of four complex entries. -/
def sample_alloc_complex (_ : Nat) : List (Int × Int) := List.replicate 4 (0, 0)

/-- Three planes of one row of three points with three components each. -/
def sample_row_descriptor : field_descriptor where
  sizes := fun k => [3, 1, 3, 3].getD k 0
  slice_size := 9
  local_size := 27
  nprocs := 1
  myrank := 0
  all_start0 := fun _ => 0
  all_size0 := fun _ => 3
  rank := fun _ => 0

/-- An interpolator on `sample_row_descriptor` with `interp_neighbours = 0`, all weights 1 and
the element `i` of both generations holding `i`. -/
def sample_row_interpolator : interpolator Int where
  interp_neighbours := 0
  unbuffered_descriptor := sample_row_descriptor
  descriptor := sample_row_descriptor
  buffer_size := 0
  compute_beta := fun _ _ _ => 1
  f0 := (List.range 27).map fun (i : Nat) => (i : Int)
  f1 := (List.range 27).map fun (i : Nat) => (i : Int)

/-- A dataset pair with one value per point (`nvals` is 1) and `nbins` bins. -/
def sample_hist_group (nbins : Nat) : stats_group where
  moments_dims := [1, 10]
  histograms_dims := [1, nbins]
  nvals_unassigned := 0

/-- A scalar field of two grid points in real space, `npoints` being 2, that holds the values
8 and 4. -/
def sample_pair_field : field Int where
  fc := field_components.ONE
  ncomp := 1
  ndim := 3
  myrank := 0
  npoints := 2
  rmemlayout_local_size := 2
  data := [8, 4]
  real_space_representation := true

/-- Linear weights on the two inner points of the four stencil points of
`interp_neighbours = 1`: `1 - x` at position 1 and `x` at position 2. -/
def sample_inner_beta {F : Type} [Zero F] [One F] [Sub F] (deriv : Int) (x : F) (j : Nat) : F :=
  if deriv = 0 then (if j = 1 then 1 - x else if j = 2 then x else 0) else 0

/-- The `double` nearest to `n/5`. -/
def sample_fifths (n : Nat) : double := (n : double) / ((5 : Nat) : double)

/-- An interpolator on `sample_grid` with `interp_neighbours = 1` in the type `double`: two
halo planes on each side of the two local planes, element `i` holding `f0 i` and `f1 i`. -/
def sample_double_interpolator (f0 f1 : Nat → double) : interpolator double where
  interp_neighbours := 1
  unbuffered_descriptor := sample_grid
  descriptor := sample_grid_interpolator.descriptor
  buffer_size := 24
  compute_beta := sample_inner_beta
  f0 := (List.range 72).map f0
  f1 := (List.range 72).map f1

/-- The `double` 1/2. -/
def sample_half : double := ((1 : Nat) : double) / ((2 : Nat) : double)

/-- The sample interpolator whose t0 generation holds `i` in element `i` and whose t1
generation holds `2*i`. -/
def sample_ramp_interpolator : interpolator double :=
  sample_double_interpolator (fun i => (i : double)) (fun i => ((2 * i : Nat) : double))

/-- The sample interpolator whose two generations hold 3 everywhere. -/
def sample_three_interpolator : interpolator double :=
  sample_double_interpolator (fun _ => ((3 : Nat) : double)) (fun _ => ((3 : Nat) : double))

/-- The sample interpolator whose t0 generation holds 3 everywhere and whose t1 generation
holds an infinity everywhere. -/
def sample_three_infinite_interpolator : interpolator double :=
  sample_double_interpolator (fun _ => ((3 : Nat) : double)) (fun _ => double.inf false)

/-! ## Theorems: particle system -/

namespace particles_system

variable {R : Type}

theorem getD_append_cons {α : Type} (p : List α) (x : α) (q : List α) (d : α) :
    (p ++ x :: q).getD p.length d = x := by
  induction p with
  | nil => rfl
  | cons y p ih => simpa using ih

theorem set_append_cons {α : Type} (p : List α) (x y : α) (q : List α) :
    (p ++ x :: q).set p.length y = p ++ y :: q := by
  induction p with
  | nil => rfl
  | cons z p ih => simp [ih]

theorem shift_loop (n : Nat) : ∀ (a : Nat) (l : List (List R)), 1 ≤ a → l.length = a + n →
    (List.range' a n).foldr (fun i rhs => shift_step rhs i) (l.set (a + n - 1) []) =
      l.take (a - 1) ++ [] :: (l.drop (a - 1)).take n := by
  induction n with
  | zero =>
    intro a l ha hl
    obtain ⟨p, x, rfl, hp⟩ : ∃ p x, l = p ++ [x] ∧ p.length = a - 1 := by
      have hne : l ≠ [] := by intro h; subst h; simp at hl; omega
      refine ⟨l.dropLast, l.getLast hne, (List.dropLast_append_getLast hne).symm, ?_⟩
      simp; omega
    have ha2 : a + 0 - 1 = p.length := by omega
    have ha3 : a - 1 = p.length := by omega
    simp only [List.range'_zero, List.foldr_nil, ha2, ha3, set_append_cons, List.take_zero,
      List.take_left]
  | succ n ih =>
    intro a l ha hl
    rw [List.range'_succ, List.foldr_cons]
    have e : a + (n + 1) - 1 = (a + 1) + n - 1 := by omega
    rw [e, ih (a + 1) l (by omega) (by omega)]
    obtain ⟨p, x, q, rfl, hp⟩ : ∃ p x q, l = p ++ x :: q ∧ p.length = a - 1 := by
      refine ⟨l.take (a - 1), l.getD (a - 1) [], l.drop a, ?_, ?_⟩
      · have hlt : a - 1 < l.length := by omega
        conv_lhs => rw [← List.take_append_drop (a - 1) l]
        congr 1
        rw [List.drop_eq_getElem_cons hlt]
        congr 1
        · simp [List.getD_eq_getElem?_getD, List.getElem?_eq_getElem hlt]
        · congr 1; omega
      · simp; omega
    have ha3 : a = p.length + 1 := by omega
    subst ha3
    have t1 : List.take (p.length + 1) (p ++ x :: q) = p ++ [x] := by
      rw [List.take_append]; rfl
    have t2 : List.drop (p.length + 1) (p ++ x :: q) = q := by
      rw [List.drop_append]; rfl
    have t3 : List.take p.length (p ++ x :: q) = p := List.take_left _ _
    have t4 : List.drop p.length (p ++ x :: q) = x :: q := List.drop_left _ _
    simp only [shift_step, Nat.add_sub_cancel, t1, t2, t3, t4, List.take_succ_cons]
    have g2 : (p ++ [x] ++ [] :: List.take n q) = p ++ x :: [] :: List.take n q := by simp
    rw [g2, getD_append_cons]
    have g3 : p ++ x :: [] :: List.take n q = (p ++ [x]) ++ [] :: List.take n q := by simp
    have g4 : p.length + 1 = (p ++ [x]).length := by simp
    rw [g3, g4, set_append_cons]
    have g5 : p ++ [x] ++ x :: List.take n q = p ++ x :: x :: List.take n q := by simp
    rw [g5, set_append_cons]

theorem shift_rhs_vectors_rhs [Zero R] (s : particles_system R) (older : List (List R))
    (oldest : List R) (h : s.my_particles_rhs = older ++ [oldest]) :
    (shift_rhs_vectors s).my_particles_rhs =
      memzero oldest (3 * s.my_nb_particles) :: older := by
  have hlen : s.my_particles_rhs.length = older.length + 1 := by simp [h]
  have hne : s.my_particles_rhs.length ≠ 0 := by omega
  unfold shift_rhs_vectors
  rw [if_pos hne]
  simp only []
  rw [List.foldl_reverse, hlen, Nat.add_sub_cancel, h]
  have := shift_loop older.length 1 (older ++ [oldest]) (le_refl _) (by simp; omega)
  rw [show 1 + older.length - 1 = older.length by omega] at this
  rw [this, getD_append_cons]
  simp

theorem compute_step_idx (computer : particles_field_computer R) (s : particles_system R) :
    (compute computer s).step_idx = s.step_idx ∧
      (compute computer s).my_particles_rhs.length = s.my_particles_rhs.length := by
  unfold compute
  cases h : s.my_particles_rhs with
  | nil => simp [h]
  | cons front older => simp

theorem shift_rhs_vectors_length [Zero R] (s : particles_system R) :
    (shift_rhs_vectors s).step_idx = s.step_idx ∧
      (shift_rhs_vectors s).my_particles_rhs.length = s.my_particles_rhs.length := by
  by_cases hne : s.my_particles_rhs.length ≠ 0
  · constructor
    · unfold shift_rhs_vectors; rw [if_pos hne]
    · have hnil : s.my_particles_rhs ≠ [] := by
        intro h; rw [h] at hne; exact hne rfl
      rw [shift_rhs_vectors_rhs s _ _ (List.dropLast_append_getLast hnil).symm]
      simp only [List.length_cons, List.length_dropLast]
      omega
  · unfold shift_rhs_vectors; rw [if_neg hne]; exact ⟨rfl, rfl⟩

theorem completeLoop_step_idx [Zero R] (computer : particles_field_computer R) (dt : R)
    (s : particles_system R) :
    (completeLoop computer dt s).step_idx = s.step_idx + 1 ∧
      (completeLoop computer dt s).my_particles_rhs.length = s.my_particles_rhs.length := by
  have hc := compute_step_idx computer s
  have hs := shift_rhs_vectors_length
    (inc_step_idx (redistribute computer (move computer dt (compute computer s))))
  have e : completeLoop computer dt s = shift_rhs_vectors
    (inc_step_idx (redistribute computer (move computer dt (compute computer s)))) := rfl
  rw [e, hs.1, hs.2]
  simp only [inc_step_idx, redistribute, move, List.length_map, List.length_range]
  exact ⟨by rw [hc.1], hc.2⟩

theorem after_loops_step_idx [Zero R] (computer : particles_field_computer R) (dts : Nat → R)
    (s : particles_system R) (k : Nat) :
    (after_loops computer dts s k).step_idx = s.step_idx + k ∧
      (after_loops computer dts s k).my_particles_rhs.length = s.my_particles_rhs.length := by
  induction k with
  | zero => simp [after_loops]
  | succ k ih =>
    have h := completeLoop_step_idx computer (dts k) (after_loops computer dts s k)
    simp only [after_loops]
    rw [h.1, h.2, ih.1, ih.2]
    exact ⟨by push_cast; ring, rfl⟩

/-- C1: for every state and every `dt`, `completeLoop(dt)` yields exactly the state reached by
running `compute()`, `move(dt)`, `redistribute()`, `inc_step_idx()`, `shift_rhs_vectors()`,
in this order and each once. -/
theorem completeLoop_runs_five_phases_in_order [Zero R] (computer : particles_field_computer R)
    (dt : R) (s : particles_system R) :
    completeLoop computer dt s =
      shift_rhs_vectors (inc_step_idx (redistribute computer
        (move computer dt (compute computer s)))) := rfl

/-- C2: at step index `s` with `K` history slots, `move(dt)` calls the integrator with the order
`min(s, K)`; that order is at most `K` and at most `s`, and every history slot below the order
is a slot the system holds. -/
theorem move_passes_order_min_step_slots (computer : particles_field_computer R) (dt : R)
    (s : particles_system R) :
    (move computer dt s).my_particles_positions =
        computer.move_particles s.my_particles_positions s.my_nb_particles s.my_particles_rhs
          (min s.step_idx (s.my_particles_rhs.length : Int)) dt ∧
      min s.step_idx (s.my_particles_rhs.length : Int) ≤ (s.my_particles_rhs.length : Int) ∧
      min s.step_idx (s.my_particles_rhs.length : Int) ≤ s.step_idx ∧
      ∀ i : Nat, (i : Int) < min s.step_idx (s.my_particles_rhs.length : Int) →
        ∃ sample, s.my_particles_rhs[i]? = some sample := by
  refine ⟨rfl, min_le_right _ _, min_le_left _ _, ?_⟩
  intro i hi
  have hlt : i < s.my_particles_rhs.length := by
    have := lt_of_lt_of_le hi (min_le_right _ _)
    exact_mod_cast this
  exact ⟨s.my_particles_rhs[i], List.getElem?_eq_getElem hlt⟩

/-- With `compute` taken as leaving a system without a history slot as it is and the step
index as an unbounded integer: every `completeLoop` call raises the step index by exactly 1 and
keeps the number of history slots, and so, counting calls from a system at step index 1 that
holds `m` history slots, the `n`-th call (`n >= 1`) starts at step index `n` and its `move`
calls the integrator with order `min(n, m)`. -/
theorem nth_completeLoop_order [Zero R] (computer : particles_field_computer R)
    (dts : Nat → R) (s0 : particles_system R) (n : Nat)
    (hfresh : s0.step_idx = 1) (hn : 1 ≤ n)
    (interp_neighbours : Int) (width low up : R) (offset_Z dims_Z : Int)
    (alloc_nb alloc_offset : List Int) :
    (construct interp_neighbours width low up offset_Z dims_Z alloc_nb alloc_offset).step_idx
        = 1 ∧
      (∀ (s : particles_system R) (dt : R),
        (completeLoop computer dt s).step_idx = s.step_idx + 1 ∧
          (completeLoop computer dt s).my_particles_rhs.length = s.my_particles_rhs.length) ∧
      (after_loops computer dts s0 (n - 1)).step_idx = n ∧
      (move computer (dts (n - 1))
          (compute computer (after_loops computer dts s0 (n - 1)))).my_particles_positions =
        computer.move_particles
          (compute computer (after_loops computer dts s0 (n - 1))).my_particles_positions
          (compute computer (after_loops computer dts s0 (n - 1))).my_nb_particles
          (compute computer (after_loops computer dts s0 (n - 1))).my_particles_rhs
          (min (n : Int) (s0.my_particles_rhs.length : Int)) (dts (n - 1)) ∧
      move_order (compute computer (after_loops computer dts s0 (n - 1))) =
        min (n : Int) (s0.my_particles_rhs.length : Int) ∧
      (n = 1 → 1 ≤ s0.my_particles_rhs.length →
        move_order (compute computer (after_loops computer dts s0 (n - 1))) = 1) ∧
      (s0.my_particles_rhs.length ≤ n →
        move_order (compute computer (after_loops computer dts s0 (n - 1))) =
          (s0.my_particles_rhs.length : Int)) := by
  have ha := after_loops_step_idx computer dts s0 (n - 1)
  have hc := compute_step_idx computer (after_loops computer dts s0 (n - 1))
  have hidx : (after_loops computer dts s0 (n - 1)).step_idx = n := by
    rw [ha.1, hfresh]; omega
  have hord : move_order (compute computer (after_loops computer dts s0 (n - 1))) =
      min (n : Int) (s0.my_particles_rhs.length : Int) := by
    unfold move_order; rw [hc.1, hc.2, hidx, ha.2]
  refine ⟨rfl, fun s dt => completeLoop_step_idx computer dt s, hidx, ?_, hord, ?_, ?_⟩
  · rw [← hord]; rfl
  · intro h1 hm
    rw [hord, h1]
    have : ((1 : Nat) : Int) ≤ (s0.my_particles_rhs.length : Int) := by exact_mod_cast hm
    simpa using this
  · intro hm
    rw [hord]
    have : (s0.my_particles_rhs.length : Int) ≤ (n : Int) := by exact_mod_cast hm
    exact min_eq_right this

/-- C4: with `K >= 1` history slots over `n` local particles (each slot an array of `3*n`
entries), after `shift_rhs_vectors()` the number of slots is still `K`, slot `i` holds for
every `1 <= i < K` exactly what slot `i-1` held, slot 0 is zero in all `3*n` entries, and the
former content of slot `K-1` is gone: the resulting state is the same whatever that oldest
sample was. -/
theorem shift_rhs_vectors_rotates_history [Zero R] (s : particles_system R)
    (hK : 1 ≤ s.my_particles_rhs.length)
    (hslots : ∀ slot ∈ s.my_particles_rhs, slot.length = 3 * s.my_nb_particles) :
    (shift_rhs_vectors s).my_particles_rhs.length = s.my_particles_rhs.length ∧
      (∀ i : Nat, 1 ≤ i → i < s.my_particles_rhs.length →
        (shift_rhs_vectors s).my_particles_rhs[i]? = s.my_particles_rhs[i - 1]?) ∧
      (shift_rhs_vectors s).my_particles_rhs[0]? =
        some (List.replicate (3 * s.my_nb_particles) 0) ∧
      (∀ oldest : List R, oldest.length = 3 * s.my_nb_particles →
        shift_rhs_vectors
            { s with my_particles_rhs := s.my_particles_rhs.dropLast ++ [oldest] } =
          shift_rhs_vectors s) := by
  have hnil : s.my_particles_rhs ≠ [] := by
    intro h; rw [h] at hK; simp at hK
  have hsplit := (List.dropLast_append_getLast hnil).symm
  have hrhs := shift_rhs_vectors_rhs s _ _ hsplit
  have hlast : (s.my_particles_rhs.getLast hnil).length = 3 * s.my_nb_particles :=
    hslots _ (List.getLast_mem hnil)
  have hzero : ∀ oldest : List R, oldest.length = 3 * s.my_nb_particles →
      memzero oldest (3 * s.my_nb_particles) = List.replicate (3 * s.my_nb_particles) 0 := by
    intro oldest ho
    unfold memzero
    rw [← ho, List.drop_length, Nat.min_self, List.append_nil]
  refine ⟨(shift_rhs_vectors_length s).2, ?_, ?_, ?_⟩
  · intro i hi hiK
    rw [hrhs]
    obtain ⟨j, rfl⟩ : ∃ j, i = j + 1 := ⟨i - 1, by omega⟩
    rw [List.getElem?_cons_succ, Nat.add_sub_cancel]
    conv_rhs => rw [hsplit]
    rw [List.getElem?_append_left (by simp only [List.length_dropLast]; omega)]
  · rw [hrhs, hzero _ hlast, List.getElem?_cons_zero]
  · intro oldest ho
    have h1 := shift_rhs_vectors_rhs
      { s with my_particles_rhs := s.my_particles_rhs.dropLast ++ [oldest] } _ _ rfl
    have hne1 : (s.my_particles_rhs.dropLast ++ [oldest]).length ≠ 0 := by simp
    have hne2 : s.my_particles_rhs.length ≠ 0 := by omega
    have e1 : shift_rhs_vectors
        { s with my_particles_rhs := s.my_particles_rhs.dropLast ++ [oldest] } =
        { s with my_particles_rhs :=
            memzero oldest (3 * s.my_nb_particles) :: s.my_particles_rhs.dropLast } := by
      rw [← h1]; unfold shift_rhs_vectors; rw [if_pos hne1]
    have e2 : shift_rhs_vectors s =
        { s with my_particles_rhs :=
            memzero (s.my_particles_rhs.getLast hnil) (3 * s.my_nb_particles) ::
              s.my_particles_rhs.dropLast } := by
      rw [← hrhs]; unfold shift_rhs_vectors; rw [if_pos hne2]
    rw [e1, e2, hzero _ ho, hzero _ hlast]

end particles_system

/-! ## Theorems: interpolator -/

theorem finRange_three : List.finRange 3 = [0, 1, 2] := by decide

theorem fill_three {R : Type} [Zero R] (dest : Fin 3 → R) :
    (List.finRange 3).foldl (fun dest c => Function.update dest c 0) dest = fun _ => 0 := by
  rw [finRange_three]
  funext c
  fin_cases c <;> simp [Function.update]

theorem add_three {R : Type} [Add R] (F : Fin 3 → R) (dest : Fin 3 → R) :
    (List.finRange 3).foldl (fun dest c => Function.update dest c (dest c + F c)) dest =
      fun c => dest c + F c := by
  rw [finRange_three]
  funext c
  fin_cases c <;> simp [Function.update]

theorem stencil_offsets_nodup (N : Nat) : (stencil_offsets N).Nodup := by
  unfold stencil_offsets
  apply List.Nodup.map _ (List.nodup_range _)
  intro a b h
  simpa using h

theorem stencil_offsets_toFinset (N : Nat) :
    (stencil_offsets N).toFinset = Finset.Icc (-(N : Int)) ((N : Int) + 1) := by
  ext i
  simp only [stencil_offsets, List.mem_toFinset, List.mem_map, List.mem_range, Finset.mem_Icc]
  constructor
  · rintro ⟨j, hj, rfl⟩
    omega
  · rintro ⟨h1, h2⟩
    refine ⟨(i + N).toNat, ?_, ?_⟩
    all_goals omega

theorem stencil_sum {R : Type} [AddCommMonoid R] (N : Nat) (f : Int → R) :
    ((stencil_offsets N).map f).sum = ∑ i ∈ Finset.Icc (-(N : Int)) ((N : Int) + 1), f i := by
  rw [← stencil_offsets_toFinset, List.sum_toFinset f (stencil_offsets_nodup N)]

namespace interpolator

variable {R : Type}

end interpolator

namespace interpolator

variable {R : Type}

theorem tindex_shift (d : field_descriptor) (xg : Fin 3 → Int) (j k : Int)
    (iz iy ix : Int) (c : Fin 3) :
    tindex d (fun a => if a = 0 then xg 0 + j * d.sizes 2
        else if a = 1 then xg 1 + k * d.sizes 1 else xg 2) iz iy ix c =
      tindex d xg iz iy ix c := by
  unfold tindex MOD
  have h0 : (xg 0 + j * d.sizes 2 + ix) % d.sizes 2 = (xg 0 + ix) % d.sizes 2 := by
    rw [show xg 0 + j * d.sizes 2 + ix = xg 0 + ix + j * d.sizes 2 by ring,
      Int.add_mul_emod_self]
  have h1 : (xg 1 + k * d.sizes 1 + iy) % d.sizes 1 = (xg 1 + iy) % d.sizes 1 := by
    rw [show xg 1 + k * d.sizes 1 + iy = xg 1 + iy + k * d.sizes 1 by ring,
      Int.add_mul_emod_self]
  simp [h0, h1]

end interpolator

/-! ### Buffers and messages -/

theorem length_write_at {R : Type} (buf : List R) (off : Nat) (data : List R) :
    (write_at buf off data).length = buf.length := by
  unfold write_at
  simp only [List.length_append, List.length_take, List.length_drop]
  omega

theorem getElem?_write_at {R : Type} (buf : List R) (off : Nat) (data : List R) (i : Nat) :
    (write_at buf off data)[i]? =
      if off ≤ i ∧ i < off + data.length ∧ i < buf.length then data[i - off]? else buf[i]? := by
  unfold write_at
  by_cases hlen : i < buf.length
  · by_cases h1 : i < off
    · rw [List.append_assoc, List.getElem?_append_left (by simp; omega), List.getElem?_take]
      rw [if_pos h1, if_neg (by omega)]
    · by_cases h2 : i < off + data.length
      · rw [List.getElem?_append_left (by simp; omega),
          List.getElem?_append_right (by simp; omega)]
        rw [if_pos ⟨by omega, h2, hlen⟩, List.getElem?_take]
        simp only [List.length_take]
        rw [if_pos (by omega)]
        congr 1
        omega
      · rw [List.getElem?_append_right (by simp; omega), List.getElem?_drop]
        rw [if_neg (by omega)]
        congr 1
        simp only [List.length_append, List.length_take]
        omega
  · have h : (buf.take off ++ data.take (buf.length - off) ++
        buf.drop (off + data.length)).length ≤ i := by
      simp only [List.length_append, List.length_take, List.length_drop]
      omega
    rw [List.getElem?_eq_none h, if_neg (by omega), List.getElem?_eq_none (by omega)]

namespace interpolator

variable {R : Type}

theorem run_calls_append (net : Nat → Nat → Option (List R)) (c1 c2 : List mpi_call) :
    ∀ dst : List R, run_calls net (c1 ++ c2) dst =
      (run_calls net c1 dst).bind (run_calls net c2) := by
  induction c1 with
  | nil => intro dst; rfl
  | cons call rest ih =>
    intro dst
    cases call with
    | send a b c d =>
      show run_calls net (rest ++ c2) dst = _
      exact ih dst
    | recv a b c d =>
      show (match net c d with
        | none => none
        | some msg =>
          if msg.length ≤ b then run_calls net (rest ++ c2) (write_at dst a msg) else none) =
        (match net c d with
        | none => none
        | some msg =>
          if msg.length ≤ b then run_calls net rest (write_at dst a msg) else none).bind
          (run_calls net c2)
      cases net c d with
      | none => rfl
      | some msg =>
        simp only []
        split
        · exact ih _
        · rfl

/-- The calls of one loop of `read_rFFTW`, seen from the rank `me`: only the pass with
`rdst = me` changes the buffer, by its one receive. -/
theorem run_calls_loop (net : Nat → Nat → Option (List R)) (me : Nat) (sends : Nat → Prop)
    [DecidablePred sends] (so sc sd st : Nat → Nat) (ro rc rs rt : Nat → Nat) (n : Nat) :
    ∀ dst : List R,
      run_calls net ((List.range n).flatMap fun rdst =>
          (if sends rdst then [mpi_call.send (so rdst) (sc rdst) (sd rdst) (st rdst)] else []) ++
          (if me = rdst then [mpi_call.recv (ro rdst) (rc rdst) (rs rdst) (rt rdst)] else []))
        dst =
      if me < n then run_calls net [mpi_call.recv (ro me) (rc me) (rs me) (rt me)] dst
      else some dst := by
  induction n with
  | zero => intro dst; rfl
  | succ n ih =>
    intro dst
    have hsend : ∀ d : List R, run_calls net
        (if sends n then [mpi_call.send (so n) (sc n) (sd n) (st n)] else []) d = some d := by
      intro d; split <;> rfl
    have hbody : (run_calls net
        ((if sends n then [mpi_call.send (so n) (sc n) (sd n) (st n)] else []) ++
          (if me = n then [mpi_call.recv (ro n) (rc n) (rs n) (rt n)] else []))) =
        fun d => if me = n then run_calls net [mpi_call.recv (ro n) (rc n) (rs n) (rt n)] d
          else some d := by
      funext d
      rw [run_calls_append, hsend]
      simp only [Option.some_bind]
      split <;> rfl
    rw [List.range_succ, List.flatMap_append, run_calls_append, ih]
    simp only [List.flatMap_cons, List.flatMap_nil, List.append_nil]
    rw [hbody]
    by_cases h1 : me < n
    · have h2 : me < n + 1 := by omega
      have h3 : ¬ me = n := by omega
      simp only [if_pos h1, if_pos h2, if_neg h3]
      cases run_calls net [mpi_call.recv (ro me) (rc me) (rs me) (rt me)] dst with
      | none => rfl
      | some d => rfl
    · simp only [if_neg h1, Option.some_bind]
      by_cases h2 : me = n
      · subst h2
        simp only [if_true, if_pos (Nat.lt_succ_self me)]
      · have h3 : ¬ me < n + 1 := by omega
        simp only [if_neg h2, if_neg h3]

theorem run_calls_read_rFFTW (I : interpolator R) (net : Nat → Nat → Option (List R))
    (dst : List R) :
    run_calls net (I.upper_slice_calls ++ I.lower_slice_calls) dst =
      if I.unbuffered_descriptor.myrank < I.unbuffered_descriptor.nprocs then
        (run_calls net [mpi_call.recv (I.buffer_size + I.unbuffered_descriptor.local_size)
            I.buffer_size (I.upper_rsrc I.unbuffered_descriptor.myrank)
            (message_tag I.unbuffered_descriptor.nprocs 0
              (I.upper_rsrc I.unbuffered_descriptor.myrank) I.unbuffered_descriptor.myrank)]
          dst).bind
        (run_calls net [mpi_call.recv 0 I.buffer_size
            (I.lower_rsrc I.unbuffered_descriptor.myrank)
            (message_tag I.unbuffered_descriptor.nprocs 1
              (I.lower_rsrc I.unbuffered_descriptor.myrank) I.unbuffered_descriptor.myrank)])
      else some dst := by
  rw [run_calls_append]
  unfold upper_slice_calls lower_slice_calls
  rw [run_calls_loop net I.unbuffered_descriptor.myrank
    (fun rdst => I.unbuffered_descriptor.myrank = I.upper_rsrc rdst)
    (fun _ => 0) (fun _ => I.buffer_size) (fun rdst => rdst)
    (fun rdst => message_tag I.unbuffered_descriptor.nprocs 0 (I.upper_rsrc rdst) rdst)
    (fun _ => I.buffer_size + I.unbuffered_descriptor.local_size) (fun _ => I.buffer_size)
    (fun rdst => I.upper_rsrc rdst)
    (fun rdst => message_tag I.unbuffered_descriptor.nprocs 0 (I.upper_rsrc rdst) rdst)]
  by_cases h : I.unbuffered_descriptor.myrank < I.unbuffered_descriptor.nprocs
  · rw [if_pos h, if_pos h]
    congr 1
    funext d
    rw [run_calls_loop net I.unbuffered_descriptor.myrank
      (fun rdst => I.unbuffered_descriptor.myrank = I.lower_rsrc rdst)
      (fun _ => I.unbuffered_descriptor.local_size - I.buffer_size) (fun _ => I.buffer_size)
      (fun rdst => rdst)
      (fun rdst => message_tag I.unbuffered_descriptor.nprocs 1 (I.lower_rsrc rdst) rdst)
      (fun _ => 0) (fun _ => I.buffer_size)
      (fun rdst => I.lower_rsrc rdst)
      (fun rdst => message_tag I.unbuffered_descriptor.nprocs 1 (I.lower_rsrc rdst) rdst),
      if_pos h]
  · rw [if_neg h, if_neg h]
    simp only [Option.some_bind]
    rw [run_calls_loop net I.unbuffered_descriptor.myrank
      (fun rdst => I.unbuffered_descriptor.myrank = I.lower_rsrc rdst)
      (fun _ => I.unbuffered_descriptor.local_size - I.buffer_size) (fun _ => I.buffer_size)
      (fun rdst => rdst)
      (fun rdst => message_tag I.unbuffered_descriptor.nprocs 1 (I.lower_rsrc rdst) rdst)
      (fun _ => 0) (fun _ => I.buffer_size)
      (fun rdst => I.lower_rsrc rdst)
      (fun rdst => message_tag I.unbuffered_descriptor.nprocs 1 (I.lower_rsrc rdst) rdst),
      if_neg h]

end interpolator

namespace interpolator

variable {R : Type}

theorem run_calls_recv (net : Nat → Nat → Option (List R)) (off count source tag : Nat)
    (dst msg : List R) (h : net source tag = some msg) (hfit : msg.length ≤ count) :
    run_calls net [mpi_call.recv off count source tag] dst = some (write_at dst off msg) := by
  simp only [run_calls, h, if_pos hfit]

theorem upper_recv_mem (I : interpolator R)
    (h : I.unbuffered_descriptor.myrank < I.unbuffered_descriptor.nprocs) :
    mpi_call.recv (I.buffer_size + I.unbuffered_descriptor.local_size) I.buffer_size
        (I.upper_rsrc I.unbuffered_descriptor.myrank)
        (message_tag I.unbuffered_descriptor.nprocs 0
          (I.upper_rsrc I.unbuffered_descriptor.myrank) I.unbuffered_descriptor.myrank)
      ∈ I.upper_slice_calls ++ I.lower_slice_calls := by
  apply List.mem_append_left
  unfold upper_slice_calls
  rw [List.mem_flatMap]
  exact ⟨I.unbuffered_descriptor.myrank, List.mem_range.mpr h,
    List.mem_append_right _ (by rw [if_pos rfl]; exact List.mem_singleton.mpr rfl)⟩

theorem lower_recv_mem (I : interpolator R)
    (h : I.unbuffered_descriptor.myrank < I.unbuffered_descriptor.nprocs) :
    mpi_call.recv 0 I.buffer_size (I.lower_rsrc I.unbuffered_descriptor.myrank)
        (message_tag I.unbuffered_descriptor.nprocs 1
          (I.lower_rsrc I.unbuffered_descriptor.myrank) I.unbuffered_descriptor.myrank)
      ∈ I.upper_slice_calls ++ I.lower_slice_calls := by
  apply List.mem_append_right
  unfold lower_slice_calls
  rw [List.mem_flatMap]
  exact ⟨I.unbuffered_descriptor.myrank, List.mem_range.mpr h,
    List.mem_append_right _ (by rw [if_pos rfl]; exact List.mem_singleton.mpr rfl)⟩

/-- What `read_rFFTW` leaves on a rank that receives `upper` and `lower`. -/
theorem read_rFFTW_of_received (I : interpolator R)
    (clip : field_descriptor → List R → Nat → List R) (void_src : List R)
    (net : Nat → Nat → Option (List R)) (upper lower : List R)
    (hrank : I.unbuffered_descriptor.myrank < I.unbuffered_descriptor.nprocs)
    (hup : net (I.upper_rsrc I.unbuffered_descriptor.myrank)
      (message_tag I.unbuffered_descriptor.nprocs 0
        (I.upper_rsrc I.unbuffered_descriptor.myrank) I.unbuffered_descriptor.myrank)
      = some upper)
    (hupfit : upper.length ≤ I.buffer_size)
    (hlow : net (I.lower_rsrc I.unbuffered_descriptor.myrank)
      (message_tag I.unbuffered_descriptor.nprocs 1
        (I.lower_rsrc I.unbuffered_descriptor.myrank) I.unbuffered_descriptor.myrank)
      = some lower)
    (hlowfit : lower.length ≤ I.buffer_size) :
    I.read_rFFTW clip void_src net = some
      { I with
        f0 := I.f1
        f1 := write_at (write_at (write_at I.f0 I.buffer_size
            ((clip I.unbuffered_descriptor void_src 3).take I.unbuffered_descriptor.local_size))
          (I.buffer_size + I.unbuffered_descriptor.local_size) upper) 0 lower } := by
  unfold read_rFFTW
  simp only []
  rw [run_calls_read_rFFTW, if_pos hrank, run_calls_recv net _ _ _ _ _ upper hup hupfit]
  simp only [Option.some_bind]
  rw [run_calls_recv net _ _ _ _ _ lower hlow hlowfit]

theorem interior_of_written (f0 src upper lower : List R) (bs ls : Nat)
    (hbuf : bs + ls ≤ f0.length) (hsrc : ls ≤ src.length) (hlowfit : lower.length ≤ bs) :
    ((write_at (write_at (write_at f0 bs (src.take ls)) (bs + ls) upper) 0 lower).drop bs).take
      ls = src.take ls := by
  apply List.ext_getElem?
  intro k
  rw [List.getElem?_take, List.getElem?_take, List.getElem?_drop]
  by_cases hk : k < ls
  · rw [if_pos hk, if_pos hk, getElem?_write_at, if_neg (by omega), getElem?_write_at,
      if_neg (by omega), getElem?_write_at, if_pos, List.getElem?_take, if_pos]
    · congr 1; omega
    · omega
    · simp only [List.length_take]
      omega
  · rw [if_neg hk, if_neg hk]

/-- C8: for every interpolator state and every new sample `s`, `read_rFFTW(s)` returns once
the messages this rank waits for have arrived (each within the receive count), and then the
t0 buffer `f0` is element for element what the t1 buffer `f1` was before the call, halo planes
included, and the interior of the new t1 buffer, the `local_size` elements from offset
`buffer_size` on, is the zero-padding-clipped sample `s`. The buffers are the ones the
constructor allocated, so the former `f0` holds the interior, and `s` holds `local_size`
elements. -/
theorem read_rFFTW_rolls_generations (I : interpolator R)
    (clip_zero_padding : field_descriptor → List R → Nat → List R) (s : List R)
    (MPI_Recv : Nat → Nat → Option (List R))
    (hbuf : I.buffer_size + I.unbuffered_descriptor.local_size ≤ I.f0.length)
    (hsrc : I.unbuffered_descriptor.local_size ≤
      (clip_zero_padding I.unbuffered_descriptor s 3).length)
    (hnet : ∀ buf_offset count source tag : Nat,
      mpi_call.recv buf_offset count source tag ∈ I.upper_slice_calls ++ I.lower_slice_calls →
        ∃ msg, MPI_Recv source tag = some msg ∧ msg.length ≤ count) :
    ∃ I' : interpolator R, I.read_rFFTW clip_zero_padding s MPI_Recv = some I' ∧
      I'.f0 = I.f1 ∧
      (I'.f1.drop I.buffer_size).take I.unbuffered_descriptor.local_size =
        (clip_zero_padding I.unbuffered_descriptor s 3).take
          I.unbuffered_descriptor.local_size := by
  by_cases hrank : I.unbuffered_descriptor.myrank < I.unbuffered_descriptor.nprocs
  · obtain ⟨upper, hup, hupfit⟩ := hnet _ _ _ _ (upper_recv_mem I hrank)
    obtain ⟨lower, hlow, hlowfit⟩ := hnet _ _ _ _ (lower_recv_mem I hrank)
    refine ⟨_, read_rFFTW_of_received I clip_zero_padding s MPI_Recv upper lower hrank hup
      hupfit hlow hlowfit, rfl, ?_⟩
    exact interior_of_written I.f0 _ upper lower _ _ hbuf hsrc hlowfit
  · refine ⟨{ I with
        f0 := I.f1
        f1 := write_at I.f0 I.buffer_size ((clip_zero_padding I.unbuffered_descriptor s 3).take
          I.unbuffered_descriptor.local_size) }, ?_, rfl, ?_⟩
    · unfold read_rFFTW
      simp only []
      rw [run_calls_read_rFFTW, if_neg hrank]
    · have h := interior_of_written I.f0 (clip_zero_padding I.unbuffered_descriptor s 3) [] []
        I.buffer_size I.unbuffered_descriptor.local_size hbuf hsrc (Nat.zero_le _)
      have e : ∀ (b : List R) (off : Nat), write_at b off [] = b := by
        intro b off
        apply List.ext_getElem?
        intro i
        rw [getElem?_write_at, if_neg]
        simp only [List.length_nil]
        omega
      rw [e, e] at h
      exact h

/-- The number `2*(src*nprocs + dst) + phase` determines `phase` in `{0,1}`, `src` and
`dst < nprocs`. -/
theorem message_tag_injective (nprocs phase src dst phase' src' dst' : Nat)
    (hphase : phase < 2) (hphase' : phase' < 2) (hdst : dst < nprocs) (hdst' : dst' < nprocs) :
    (message_tag nprocs phase src dst = message_tag nprocs phase' src' dst' →
        phase = phase' ∧ src = src' ∧ dst = dst') ∧
      ((phase, src, dst) ≠ (phase', src', dst') →
        message_tag nprocs phase src dst ≠ message_tag nprocs phase' src' dst') := by
  have key : message_tag nprocs phase src dst = message_tag nprocs phase' src' dst' →
      phase = phase' ∧ src = src' ∧ dst = dst' := by
    unfold message_tag
    intro h
    have hp : phase = phase' := by omega
    have hsum : src * nprocs + dst = src' * nprocs + dst' := by omega
    have hpos : 0 < nprocs := by omega
    have h1 : (src * nprocs + dst) / nprocs = src := by
      rw [Nat.add_comm, Nat.add_mul_div_right _ _ hpos, Nat.div_eq_of_lt hdst, Nat.zero_add]
    have h2 : (src' * nprocs + dst') / nprocs = src' := by
      rw [Nat.add_comm, Nat.add_mul_div_right _ _ hpos, Nat.div_eq_of_lt hdst', Nat.zero_add]
    have hs : src = src' := by rw [← h1, ← h2, hsum]
    subst hs
    exact ⟨hp, rfl, by omega⟩
  refine ⟨key, ?_⟩
  intro hne htag
  obtain ⟨h1, h2, h3⟩ := key htag
  exact hne (by rw [h1, h2, h3])

end interpolator

/-! ### Planes of a halo-padded buffer -/

theorem plane_index_lt (j m s e : Nat) (hj : j < m) (he : e < s) : j * s + e < m * s := by
  have h : (j + 1) * s ≤ m * s := Nat.mul_le_mul_right s hj
  rw [Nat.add_mul, Nat.one_mul] at h
  omega

theorem plane_index_ge (j m s e : Nat) (hj : m ≤ j) : m * s ≤ j * s + e := by
  have h : m * s ≤ j * s := Nat.mul_le_mul_right s hj
  omega

theorem plane_index_sub (j m s e : Nat) (hj : m ≤ j) :
    j * s + e - m * s = (j - m) * s + e := by
  have h : m * s ≤ j * s := Nat.mul_le_mul_right s hj
  rw [Nat.sub_mul]
  omega

theorem lt_length_of_getElem? {R : Type} (l : List R) (i : Nat) (v : R)
    (h : l[i]? = some v) : i < l.length := by
  by_contra hc
  rw [List.getElem?_eq_none (by omega)] at h
  exact Option.noConfusion h

/-- The three stores of `read_rFFTW` into the new t1 buffer — interior `X` at `buffer_size`,
upper halo `U` behind it, lower halo `L` at the front — give a buffer whose plane `j` is the
plane `j` of the three pieces laid end to end. -/
theorem halo_assembly {R : Type} (f0 X U L : List R) (s N nr : Nat) (val : Nat → Nat → R)
    (hbuf : (nr + 2 * (N + 1)) * s ≤ f0.length)
    (hL : ∀ i, i < N + 1 → ∀ e, e < s → L[i * s + e]? = some (val i e))
    (hLlen : L.length ≤ (N + 1) * s)
    (hX : ∀ i, i < nr → ∀ e, e < s → X[i * s + e]? = some (val (N + 1 + i) e))
    (hU : ∀ i, i < N + 1 → ∀ e, e < s → U[i * s + e]? = some (val (N + 1 + nr + i) e))
    (j : Nat) (hj : j < nr + 2 * (N + 1)) (e : Nat) (he : e < s) :
    (write_at (write_at (write_at f0 ((N + 1) * s) X) ((N + 1) * s + nr * s) U) 0 L)[j * s + e]?
      = some (val j e) := by
  have hx : j * s + e < f0.length := lt_of_lt_of_le (plane_index_lt j _ s e hj he) hbuf
  by_cases h1 : j < N + 1
  · have hv := hL j h1 e he
    have hlen := lt_length_of_getElem? _ _ _ hv
    rw [getElem?_write_at, if_pos ⟨Nat.zero_le _, by omega, by
      rw [length_write_at, length_write_at]; exact hx⟩]
    exact hv
  · have hge : (N + 1) * s ≤ j * s + e := plane_index_ge j (N + 1) s e (by omega)
    rw [getElem?_write_at, if_neg (by omega)]
    by_cases h2 : j < N + 1 + nr
    · have hlt : j * s + e < (N + 1 + nr) * s := plane_index_lt j _ s e h2 he
      rw [Nat.add_mul] at hlt
      have hv := hX (j - (N + 1)) (by omega) e he
      rw [← plane_index_sub j (N + 1) s e (by omega)] at hv
      have hlen := lt_length_of_getElem? _ _ _ hv
      rw [getElem?_write_at, if_neg (by omega), getElem?_write_at,
        if_pos ⟨hge, by omega, hx⟩, hv]
      congr 2
      omega
    · have hge2 : (N + 1 + nr) * s ≤ j * s + e := plane_index_ge j _ s e (by omega)
      have hv := hU (j - (N + 1 + nr)) (by omega) e he
      rw [← plane_index_sub j (N + 1 + nr) s e (by omega)] at hv
      have hlen := lt_length_of_getElem? _ _ _ hv
      rw [Nat.add_mul] at hge2 hv hlen
      rw [getElem?_write_at, if_pos ⟨hge2, by omega, by rw [length_write_at]; exact hx⟩, hv]
      congr 2
      omega

/-! ### Contiguous slabs in rank order -/

namespace slab_layout

variable {D : field_descriptor} {N : Nat}

theorem start_nonneg (L : slab_layout D N) : ∀ r, r < D.nprocs → 0 ≤ D.all_start0 r := by
  intro r
  induction r with
  | zero => intro _; rw [L.start_zero]
  | succ r ih =>
    intro hr
    have h1 := ih (by omega)
    have h2 := L.size r (by omega)
    rw [L.next r hr]
    omega

theorem end_mono (L : slab_layout D N) : ∀ k r, r + k < D.nprocs →
    D.all_start0 r + D.all_size0 r ≤ D.all_start0 (r + k) + D.all_size0 (r + k) := by
  intro k
  induction k with
  | zero => intro r _; exact le_refl _
  | succ k ih =>
    intro r hr
    have h1 := ih r (by omega)
    have h2 := L.next (r + k) (by omega)
    have h3 := L.size (r + k + 1) (by omega)
    rw [show r + (k + 1) = r + k + 1 by omega, h2]
    omega

theorem end_le (L : slab_layout D N) (r : Nat) (hr : r < D.nprocs) :
    D.all_start0 r + D.all_size0 r ≤ D.sizes 0 := by
  have h := L.end_mono (D.nprocs - 1 - r) r (by omega)
  rw [show r + (D.nprocs - 1 - r) = D.nprocs - 1 by omega, L.last] at h
  exact h

/-- The rank the upper-slice loop picks as source for `r` owns the planes right above the
slab of `r`, wrapping at the end of the domain. -/
theorem upper_source (L : slab_layout D N) (r : Nat) (hr : r < D.nprocs) :
    ∃ q, q < D.nprocs ∧
      D.rank (Int.tmod (D.all_start0 r + D.all_size0 r) (D.sizes 0)) = q ∧
      ∀ i : Nat, i < N + 1 →
        (D.all_start0 r + D.all_size0 r + i) % D.sizes 0 = D.all_start0 q + i := by
  by_cases h : r + 1 < D.nprocs
  · have h1 := L.next r h
    have h2 := L.start_nonneg (r + 1) h
    have h3 := L.end_le (r + 1) h
    have h4 := L.size (r + 1) h
    refine ⟨r + 1, h, ?_, ?_⟩
    · rw [← h1, Int.tmod_eq_of_lt h2 (by omega)]
      exact L.owner (r + 1) h _ (le_refl _) (by omega)
    · intro i hi
      rw [← h1]
      exact Int.emod_eq_of_lt (by omega) (by omega)
  · have hlast : r = D.nprocs - 1 := by omega
    have h0 : 0 < D.nprocs := by omega
    have h1 := L.last
    rw [← hlast] at h1
    have h4 := L.size 0 h0
    have h5 := L.end_le 0 h0
    have h6 := L.start_zero
    refine ⟨0, h0, ?_, ?_⟩
    · rw [h1, Int.tmod_self]
      exact L.owner 0 h0 _ (by omega) (by omega)
    · intro i hi
      rw [h1, Int.add_emod_self_left, h6]
      rw [Int.emod_eq_of_lt (by omega) (by omega)]
      omega

/-- The rank the lower-slice loop picks as source for `r` owns the planes right below the
slab of `r`, wrapping at the start of the domain. -/
theorem lower_source (L : slab_layout D N) (r : Nat) (hr : r < D.nprocs) :
    ∃ q, q < D.nprocs ∧
      D.rank (MOD (D.all_start0 r - 1) (D.sizes 0)) = q ∧
      ∀ i : Nat, i < N + 1 →
        (D.all_start0 r - ((N : Int) + 1) + i) % D.sizes 0 =
          D.all_start0 q + (D.all_size0 q - ((N : Int) + 1) + i) := by
  unfold MOD
  cases r with
  | zero =>
    have h0 : D.nprocs - 1 < D.nprocs := by omega
    have h1 := L.last
    have h2 := L.start_nonneg _ h0
    have h4 := L.size _ h0
    refine ⟨D.nprocs - 1, h0, ?_, ?_⟩
    · rw [L.start_zero, ← Int.add_emod_self, Int.emod_eq_of_lt (by omega) (by omega)]
      exact L.owner _ h0 _ (by omega) (by omega)
    · intro i hi
      rw [L.start_zero, ← Int.add_emod_self, Int.emod_eq_of_lt (by omega) (by omega)]
      omega
  | succ r =>
    have h0 : r < D.nprocs := by omega
    have h1 := L.next r hr
    have h2 := L.start_nonneg r h0
    have h3 := L.end_le r h0
    have h4 := L.size r h0
    refine ⟨r, h0, ?_, ?_⟩
    · rw [h1, Int.emod_eq_of_lt (by omega) (by omega)]
      exact L.owner r h0 _ (by omega) (by omega)
    · intro i hi
      rw [h1, Int.emod_eq_of_lt (by omega) (by omega)]
      omega

end slab_layout

/-! ### Message delivery between the ranks -/

theorem findSome?_of_unique {α β : Type} (f : α → Option β) (v : β) :
    ∀ l : List α, (∃ x ∈ l, f x = some v) → (∀ y ∈ l, ∀ w, f y = some w → w = v) →
      l.findSome? f = some v := by
  intro l
  induction l with
  | nil => rintro ⟨x, hx, _⟩ _; cases hx
  | cons a l ih =>
    intro hex huniq
    rw [List.findSome?_cons]
    cases hfa : f a with
    | some w =>
      simp only []
      rw [huniq a (List.mem_cons_self _ _) w hfa]
    | none =>
      simp only []
      apply ih
      · obtain ⟨x, hx, hfx⟩ := hex
        rcases List.mem_cons.mp hx with rfl | hmem
        · rw [hfa] at hfx; cases hfx
        · exact ⟨x, hmem, hfx⟩
      · intro y hy w hw
        exact huniq y (List.mem_cons_of_mem _ hy) w hw

namespace interpolator

variable {R : Type}

theorem upper_rsrc_eq (I : interpolator R) (D : field_descriptor) (p rdst : Nat)
    (h : I.unbuffered_descriptor = rank_descriptor D p) :
    I.upper_rsrc rdst =
      D.rank (Int.tmod (D.all_start0 rdst + D.all_size0 rdst) (D.sizes 0)) := by
  unfold upper_rsrc; rw [h]; rfl

theorem lower_rsrc_eq (I : interpolator R) (D : field_descriptor) (p rdst : Nat)
    (h : I.unbuffered_descriptor = rank_descriptor D p) :
    I.lower_rsrc rdst = D.rank (MOD (D.all_start0 rdst - 1) (D.sizes 0)) := by
  unfold lower_rsrc; rw [h]; rfl

theorem message_tag_phase (n m a b c d : Nat) :
    message_tag n 1 a b ≠ message_tag m 0 c d := by
  unfold message_tag; omega

/-- The upper-slice message for rank `r` is the first `buffer_size` elements of the sample of
the source rank `q`. -/
theorem delivered_upper (ranks : Nat → interpolator R) (D : field_descriptor) (bs : Nat)
    (src_of : Nat → List R)
    (hdesc : ∀ p, p < D.nprocs → (ranks p).unbuffered_descriptor = rank_descriptor D p)
    (hbs : ∀ p, p < D.nprocs → (ranks p).buffer_size = bs)
    (r q : Nat) (hr : r < D.nprocs) (hq : q < D.nprocs)
    (hsrc : D.rank (Int.tmod (D.all_start0 r + D.all_size0 r) (D.sizes 0)) = q) :
    delivered (fun p => (ranks p).upper_slice_calls ++ (ranks p).lower_slice_calls) src_of r q
        (message_tag D.nprocs 0 q r) = some (((src_of q).drop 0).take bs) := by
  have hd := hdesc q hq
  have hmy : (ranks q).unbuffered_descriptor.myrank = q := by rw [hd]; rfl
  have hnp : (ranks q).unbuffered_descriptor.nprocs = D.nprocs := by rw [hd]; rfl
  have hu : (ranks q).upper_rsrc r = q := by rw [upper_rsrc_eq _ D q r hd, hsrc]
  unfold delivered
  apply findSome?_of_unique
  · refine ⟨mpi_call.send 0 bs r (message_tag D.nprocs 0 q r), ?_, ?_⟩
    · apply List.mem_append_left
      unfold upper_slice_calls
      rw [List.mem_flatMap]
      refine ⟨r, List.mem_range.mpr (by rw [hnp]; exact hr), List.mem_append_left _ ?_⟩
      rw [hu, hmy, hnp, hbs q hq, if_pos rfl]
      exact List.mem_singleton.mpr rfl
    · simp
  · intro y hy w hw
    rcases List.mem_append.mp hy with hy | hy
    · unfold upper_slice_calls at hy
      rw [List.mem_flatMap] at hy
      obtain ⟨rdst, _, hy⟩ := hy
      rcases List.mem_append.mp hy with hy | hy
      · split at hy
        · rw [List.mem_singleton.mp hy, hbs q hq] at hw
          simp only [] at hw
          split at hw
          · exact (Option.some.inj hw).symm
          · cases hw
        · cases hy
      · split at hy
        · rw [List.mem_singleton.mp hy] at hw
          cases hw
        · cases hy
    · unfold lower_slice_calls at hy
      rw [List.mem_flatMap] at hy
      obtain ⟨rdst, _, hy⟩ := hy
      rcases List.mem_append.mp hy with hy | hy
      · split at hy
        · rw [List.mem_singleton.mp hy] at hw
          simp only [] at hw
          rw [if_neg (fun h => message_tag_phase _ _ _ _ _ _ h.2)] at hw
          cases hw
        · cases hy
      · split at hy
        · rw [List.mem_singleton.mp hy] at hw
          cases hw
        · cases hy

/-- The lower-slice message for rank `r` is the last `buffer_size` elements of the local sample
of the source rank `q`. -/
theorem delivered_lower (ranks : Nat → interpolator R) (D : field_descriptor) (bs : Nat)
    (src_of : Nat → List R)
    (hdesc : ∀ p, p < D.nprocs → (ranks p).unbuffered_descriptor = rank_descriptor D p)
    (hbs : ∀ p, p < D.nprocs → (ranks p).buffer_size = bs)
    (r q : Nat) (hr : r < D.nprocs) (hq : q < D.nprocs)
    (hsrc : D.rank (MOD (D.all_start0 r - 1) (D.sizes 0)) = q) :
    delivered (fun p => (ranks p).upper_slice_calls ++ (ranks p).lower_slice_calls) src_of r q
        (message_tag D.nprocs 1 q r) =
      some (((src_of q).drop ((D.all_size0 q).toNat * D.slice_size - bs)).take bs) := by
  have hd := hdesc q hq
  have hmy : (ranks q).unbuffered_descriptor.myrank = q := by rw [hd]; rfl
  have hnp : (ranks q).unbuffered_descriptor.nprocs = D.nprocs := by rw [hd]; rfl
  have hls : (ranks q).unbuffered_descriptor.local_size =
      (D.all_size0 q).toNat * D.slice_size := by rw [hd]; rfl
  have hu : (ranks q).lower_rsrc r = q := by rw [lower_rsrc_eq _ D q r hd, hsrc]
  unfold delivered
  apply findSome?_of_unique
  · refine ⟨mpi_call.send ((D.all_size0 q).toNat * D.slice_size - bs) bs r
      (message_tag D.nprocs 1 q r), ?_, ?_⟩
    · apply List.mem_append_right
      unfold lower_slice_calls
      rw [List.mem_flatMap]
      refine ⟨r, List.mem_range.mpr (by rw [hnp]; exact hr), List.mem_append_left _ ?_⟩
      rw [hu, hmy, hnp, hbs q hq, hls, if_pos rfl]
      exact List.mem_singleton.mpr rfl
    · simp
  · intro y hy w hw
    rcases List.mem_append.mp hy with hy | hy
    · unfold upper_slice_calls at hy
      rw [List.mem_flatMap] at hy
      obtain ⟨rdst, _, hy⟩ := hy
      rcases List.mem_append.mp hy with hy | hy
      · split at hy
        · rw [List.mem_singleton.mp hy] at hw
          simp only [] at hw
          rw [if_neg (fun h => message_tag_phase _ _ _ _ _ _ h.2.symm)] at hw
          cases hw
        · cases hy
      · split at hy
        · rw [List.mem_singleton.mp hy] at hw
          cases hw
        · cases hy
    · unfold lower_slice_calls at hy
      rw [List.mem_flatMap] at hy
      obtain ⟨rdst, _, hy⟩ := hy
      rcases List.mem_append.mp hy with hy | hy
      · split at hy
        · rw [List.mem_singleton.mp hy, hbs q hq, hls] at hw
          simp only [] at hw
          split at hw
          · exact (Option.some.inj hw).symm
          · cases hw
        · cases hy
      · split at hy
        · rw [List.mem_singleton.mp hy] at hw
          cases hw
        · cases hy

end interpolator

/-- C9: let the global field `G` have `S0 = sizes[0]` slab-axis planes split into contiguous
slabs in rank order, every rank holding at least `N+1` planes, the sample of each rank being its
own planes of `G`. When every rank runs `read_rFFTW` on its own slab, the call returns on
every rank `r`, and for every `j` with `0 <= j < n_r + 2(N+1)` plane `j` of the new t1 buffer
of rank `r` is the global plane `(a_r - (N+1) + j) mod S0`: the lower halo holds the topmost
`N+1` planes of the rank below, the upper halo the bottommost `N+1` planes of the rank above,
wrapping at the domain edges. -/
theorem read_rFFTW_halo_planes_are_global_planes {R : Type}
    (clip_zero_padding : field_descriptor → List R → Nat → List R)
    (D : field_descriptor) (N : Nat) (ranks : Nat → interpolator R)
    (void_src : Nat → List R) (G : Int → Nat → R)
    (hstart : D.all_start0 0 = 0)
    (hnext : ∀ r, r + 1 < D.nprocs → D.all_start0 (r + 1) = D.all_start0 r + D.all_size0 r)
    (hlast : D.all_start0 (D.nprocs - 1) + D.all_size0 (D.nprocs - 1) = D.sizes 0)
    (hsize : ∀ r, r < D.nprocs → (N : Int) + 1 ≤ D.all_size0 r)
    (howner : ∀ r, r < D.nprocs → ∀ z, D.all_start0 r ≤ z →
      z < D.all_start0 r + D.all_size0 r → D.rank z = r)
    (hdesc : ∀ r, r < D.nprocs → (ranks r).unbuffered_descriptor = rank_descriptor D r)
    (hbs : ∀ r, r < D.nprocs → (ranks r).buffer_size = (N + 1) * D.slice_size)
    (hbuf : ∀ r, r < D.nprocs →
      ((D.all_size0 r).toNat + 2 * (N + 1)) * D.slice_size ≤ (ranks r).f0.length)
    (hfield : ∀ r, r < D.nprocs → ∀ i : Nat, (i : Int) < D.all_size0 r →
      ∀ e, e < D.slice_size →
        (clip_zero_padding (rank_descriptor D r) (void_src r) 3)[i * D.slice_size + e]? =
          some (G (D.all_start0 r + i) e))
    (r : Nat) (hr : r < D.nprocs) :
    ∃ I' : interpolator R,
      read_rFFTW_on_all_ranks clip_zero_padding ranks void_src r = some I' ∧
      ∀ j : Nat, (j : Int) < D.all_size0 r + 2 * ((N : Int) + 1) → ∀ e, e < D.slice_size →
        I'.f1[j * D.slice_size + e]? =
          some (G ((D.all_start0 r - ((N : Int) + 1) + j) % D.sizes 0) e) := by
  have L : slab_layout D N := ⟨hstart, hnext, hlast, hsize, howner⟩
  obtain ⟨qu, hqu, hru, hplu⟩ := L.upper_source r hr
  obtain ⟨ql, hql, hrl, hpll⟩ := L.lower_source r hr
  have hd := hdesc r hr
  have hmy : (ranks r).unbuffered_descriptor.myrank = r := by rw [hd]; rfl
  have hnp : (ranks r).unbuffered_descriptor.nprocs = D.nprocs := by rw [hd]; rfl
  have hls : (ranks r).unbuffered_descriptor.local_size =
      (D.all_size0 r).toNat * D.slice_size := by rw [hd]; rfl
  have hsrc_of : ∀ q, q < D.nprocs →
      clip_zero_padding (ranks q).unbuffered_descriptor (void_src q) 3 =
        clip_zero_padding (rank_descriptor D q) (void_src q) 3 := by
    intro q hq; rw [hdesc q hq]
  have hup := interpolator.delivered_upper ranks D ((N + 1) * D.slice_size)
    (fun q => clip_zero_padding (ranks q).unbuffered_descriptor (void_src q) 3)
    hdesc hbs r qu hr hqu hru
  have hlow := interpolator.delivered_lower ranks D ((N + 1) * D.slice_size)
    (fun q => clip_zero_padding (ranks q).unbuffered_descriptor (void_src q) 3)
    hdesc hbs r ql hr hql hrl
  simp only [hsrc_of qu hqu] at hup
  simp only [hsrc_of ql hql] at hlow
  have hrecv := interpolator.read_rFFTW_of_received (ranks r) clip_zero_padding (void_src r)
    (delivered (fun q => (ranks q).upper_slice_calls ++ (ranks q).lower_slice_calls)
      (fun q => clip_zero_padding (ranks q).unbuffered_descriptor (void_src q) 3) r)
    _ _ (by rw [hmy, hnp]; exact hr)
    (by rw [hmy, hnp, interpolator.upper_rsrc_eq _ D r r hd, hru]; exact hup)
    (by rw [hbs r hr, List.length_take]; exact Nat.min_le_left _ _)
    (by rw [hmy, hnp, interpolator.lower_rsrc_eq _ D r r hd, hrl]; exact hlow)
    (by rw [hbs r hr, List.length_take]; exact Nat.min_le_left _ _)
  refine ⟨_, hrecv, ?_⟩
  intro j hj e he
  have hn0 : 0 ≤ D.all_size0 r := by have := hsize r hr; omega
  have ha0 := L.start_nonneg r hr
  have hae := L.end_le r hr
  simp only [hbs r hr, hls, hsrc_of r hr]
  refine halo_assembly (ranks r).f0 _ _ _ D.slice_size N (D.all_size0 r).toNat
    (fun j e => G ((D.all_start0 r - ((N : Int) + 1) + j) % D.sizes 0) e) (hbuf r hr)
    ?_ ?_ ?_ ?_ j ?_ e he
  · intro i hi e he
    have hnq := hsize ql hql
    have hx : i * D.slice_size + e < (N + 1) * D.slice_size :=
      plane_index_lt i _ _ e hi he
    have hle : (N + 1) * D.slice_size ≤ (D.all_size0 ql).toNat * D.slice_size :=
      Nat.mul_le_mul_right _ (by omega)
    have hidx : (D.all_size0 ql).toNat * D.slice_size - (N + 1) * D.slice_size +
        (i * D.slice_size + e) =
        ((D.all_size0 ql).toNat - (N + 1) + i) * D.slice_size + e := by
      have h1 : ((D.all_size0 ql).toNat - (N + 1) + i) * D.slice_size =
          (D.all_size0 ql).toNat * D.slice_size - (N + 1) * D.slice_size + i * D.slice_size := by
        rw [Nat.add_mul ((D.all_size0 ql).toNat - (N + 1)) i, Nat.sub_mul]
      omega
    beta_reduce
    rw [List.getElem?_take, if_pos hx, List.getElem?_drop, hidx,
      hfield ql hql _ (by omega) e he, hpll i hi]
    congr 2
    omega
  · rw [List.length_take]; exact Nat.min_le_left _ _
  · intro i hi e he
    have hx : i * D.slice_size + e < (D.all_size0 r).toNat * D.slice_size :=
      plane_index_lt i _ _ e hi he
    beta_reduce
    rw [List.getElem?_take, if_pos hx, hfield r hr i (by omega) e he]
    congr 2
    have : D.all_start0 r - ((N : Int) + 1) + ((N + 1 + i : Nat) : Int) =
        D.all_start0 r + i := by push_cast; ring
    rw [this, Int.emod_eq_of_lt (by omega) (by omega)]
  · intro i hi e he
    have hnq := hsize qu hqu
    have hx : i * D.slice_size + e < (N + 1) * D.slice_size :=
      plane_index_lt i _ _ e hi he
    beta_reduce
    rw [List.getElem?_take, if_pos hx, List.getElem?_drop, Nat.zero_add,
      hfield qu hqu i (by omega) e he, ← hplu i hi]
    congr 2
    have : ((N + 1 + (D.all_size0 r).toNat + i : Nat) : Int) =
        (N : Int) + 1 + D.all_size0 r + i := by
      push_cast; rw [Int.toNat_of_nonneg hn0]
    rw [this]
    congr 1
    ring
  · omega

/-! ## Theorems: the loop zeroes history slot 0 -/

namespace particles_system

variable {R : Type}

theorem getElem?_memzero [Zero R] (array : List R) (size i : Nat) (hi : i < size)
    (hlen : i < array.length) : (memzero array size)[i]? = some 0 := by
  unfold memzero
  rw [List.getElem?_append_left (by simp; omega), List.getElem?_replicate, if_pos (by omega)]

theorem length_memzero [Zero R] (array : List R) (size : Nat) :
    (memzero array size).length = array.length := by
  unfold memzero
  simp only [List.length_append, List.length_replicate, List.length_drop]
  omega

/-- C18: for every system with at least one history slot and whatever `compute`, `move` and
`redistribute` did, after `completeLoop(dt)` history slot 0 is the array that `redistribute`
left in the last slot, zeroed in every one of its first `3*getLocalNbParticles()` entries,
the particle count being the one after redistribution; when that array holds the
`3*getLocalNbParticles()` entries of the local particles, all of them are zero. -/
theorem completeLoop_zeroes_slot_zero [Zero R] (computer : particles_field_computer R)
    (dt : R) (s : particles_system R) (hK : 1 ≤ s.my_particles_rhs.length) :
    (completeLoop computer dt s).my_nb_particles =
        (redistribute computer (move computer dt (compute computer s))).my_nb_particles ∧
      ∃ slot0 : List R, (completeLoop computer dt s).my_particles_rhs[0]? = some slot0 ∧
        slot0.length =
          ((redistribute computer (move computer dt (compute computer s))).my_particles_rhs.getD
            (s.my_particles_rhs.length - 1) []).length ∧
        (∀ i : Nat, i < 3 * (completeLoop computer dt s).my_nb_particles → i < slot0.length →
          slot0[i]? = some 0) ∧
        (3 * (completeLoop computer dt s).my_nb_particles ≤ slot0.length →
          slot0.take (3 * (completeLoop computer dt s).my_nb_particles) =
            List.replicate (3 * (completeLoop computer dt s).my_nb_particles) 0) := by
  have hc := compute_step_idx computer s
  have e : completeLoop computer dt s = shift_rhs_vectors
    (inc_step_idx (redistribute computer (move computer dt (compute computer s)))) := rfl
  generalize hr : redistribute computer (move computer dt (compute computer s)) = r at e ⊢
  have hlen : r.my_particles_rhs.length = s.my_particles_rhs.length := by
    rw [← hr]
    simp only [redistribute, move, List.length_map, List.length_range]
    exact hc.2
  have hnil : r.my_particles_rhs ≠ [] := by
    intro h; rw [h] at hlen; simp at hlen; omega
  have hrhs : (shift_rhs_vectors (inc_step_idx r)).my_particles_rhs =
      memzero (r.my_particles_rhs.getLast hnil) (3 * r.my_nb_particles) ::
        r.my_particles_rhs.dropLast :=
    shift_rhs_vectors_rhs (inc_step_idx r) _ _ (List.dropLast_append_getLast hnil).symm
  have hnb : (completeLoop computer dt s).my_nb_particles = r.my_nb_particles := by
    rw [e]; unfold shift_rhs_vectors; split <;> rfl
  have hlast : r.my_particles_rhs.getLast hnil =
      r.my_particles_rhs.getD (s.my_particles_rhs.length - 1) [] := by
    rw [List.getLast_eq_getElem, List.getD_eq_getElem?_getD, ← hlen,
      List.getElem?_eq_getElem (by omega)]
    rfl
  refine ⟨hnb, memzero (r.my_particles_rhs.getLast hnil) (3 * r.my_nb_particles),
    by rw [e, hrhs, List.getElem?_cons_zero], ?_, ?_, ?_⟩
  · rw [length_memzero, hlast]
  · intro i hi hil
    rw [length_memzero] at hil
    rw [hnb] at hi
    exact getElem?_memzero _ _ i hi hil
  · intro hle
    rw [length_memzero] at hle
    rw [hnb] at hle ⊢
    unfold memzero
    rw [Nat.min_eq_left hle, List.take_append_of_le_length (by simp), List.take_of_length_le (by simp)]

end particles_system

/-! ## Theorems: stencil reads inside the halo-padded buffer -/

namespace interpolator

variable {R : Type}

theorem flat_index_bounds (q y x s1 s2 c : Int) (hq : 0 ≤ q) (hy0 : 0 ≤ y) (hy : y < s1)
    (hx0 : 0 ≤ x) (hx : x < s2) (hc0 : 0 ≤ c) (hc : c < 3) :
    0 ≤ ((q * s1 + y) * s2 + x) * 3 + c ∧
      ((q * s1 + y) * s2 + x) * 3 + c < (q + 1) * (s1 * s2 * 3) := by
  have hs1 : 0 < s1 := by omega
  have hs2 : 0 < s2 := by omega
  have h1 : 0 ≤ q * s1 := mul_nonneg hq (le_of_lt hs1)
  have h2 : 0 ≤ (q * s1 + y) * s2 := mul_nonneg (by omega) (le_of_lt hs2)
  have h3 : (q * s1 + y + 1) * s2 ≤ ((q + 1) * s1) * s2 :=
    mul_le_mul_of_nonneg_right (by nlinarith) (le_of_lt hs2)
  constructor
  · omega
  · nlinarith

/-- C19: with a halo of `N+1` planes on each side of a local slab of `n` planes
(`buffer_size = (N+1)*slice_size`, a plane holding `slice_size = sizes[1]*sizes[2]*3` elements),
for every grid index with `0 <= xg[2] < n`, every stencil offset with `iz` in `[-N, N+1]` (and
any `iy`, `ix`) and every component `c < 3`, the position `buffer_size + tindex` that
`operator()` reads lies in `[0, (n + 2(N+1)) * slice_size)`, inside the halo-padded buffer; it
even lies in the plane `xg[2] + iz + N + 1` of that buffer. -/
theorem tindex_inside_halo_buffer (I : interpolator R) (n : Nat) (xg : Fin 3 → Int)
    (iz iy ix : Int) (c : Fin 3)
    (hbs : I.buffer_size = (I.interp_neighbours + 1) * I.unbuffered_descriptor.slice_size)
    (hslice : (I.unbuffered_descriptor.slice_size : Int) =
      I.descriptor.sizes 1 * I.descriptor.sizes 2 * 3)
    (hs1 : 0 < I.descriptor.sizes 1) (hs2 : 0 < I.descriptor.sizes 2)
    (hxg0 : 0 ≤ xg 2) (hxg : xg 2 < n)
    (hiz0 : -(I.interp_neighbours : Int) ≤ iz) (hiz : iz ≤ (I.interp_neighbours : Int) + 1) :
    0 ≤ (I.buffer_size : Int) + tindex I.descriptor xg iz iy ix c ∧
      (I.buffer_size : Int) + tindex I.descriptor xg iz iy ix c <
        (((n + 2 * (I.interp_neighbours + 1)) * I.unbuffered_descriptor.slice_size : Nat) : Int) ∧
      (xg 2 + iz + I.interp_neighbours + 1) * I.unbuffered_descriptor.slice_size ≤
        (I.buffer_size : Int) + tindex I.descriptor xg iz iy ix c ∧
      (I.buffer_size : Int) + tindex I.descriptor xg iz iy ix c <
        (xg 2 + iz + I.interp_neighbours + 1 + 1) * I.unbuffered_descriptor.slice_size := by
  have hy0 := Int.emod_nonneg (xg 1 + iy) (ne_of_gt hs1)
  have hy := Int.emod_lt_of_pos (xg 1 + iy) hs1
  have hx0 := Int.emod_nonneg (xg 0 + ix) (ne_of_gt hs2)
  have hx := Int.emod_lt_of_pos (xg 0 + ix) hs2
  have hc0 : (0 : Int) ≤ ((c : Nat) : Int) := Int.ofNat_nonneg _
  have hc : (((c : Nat) : Int)) < 3 := by have := c.isLt; omega
  have hq : 0 ≤ xg 2 + iz + I.interp_neighbours + 1 := by omega
  have key := flat_index_bounds (xg 2 + iz + I.interp_neighbours + 1) _ _ _ _ _ hq hy0 hy hx0 hx
    hc0 hc
  have hsl : (0 : Int) ≤ I.unbuffered_descriptor.slice_size := Int.ofNat_nonneg _
  have heq : (I.buffer_size : Int) + tindex I.descriptor xg iz iy ix c =
      (((xg 2 + iz + I.interp_neighbours + 1) * I.descriptor.sizes 1 +
        (xg 1 + iy) % I.descriptor.sizes 1) * I.descriptor.sizes 2 +
        (xg 0 + ix) % I.descriptor.sizes 2) * 3 + ((c : Nat) : Int) := by
    rw [hbs]
    push_cast
    rw [hslice]
    unfold tindex MOD
    ring
  rw [heq, hslice]
  refine ⟨key.1, ?_, ?_, key.2⟩
  · push_cast
    rw [hslice]
    have h1 : (xg 2 + iz + I.interp_neighbours + 1 + 1) ≤
        ((n : Int) + 2 * ((I.interp_neighbours : Int) + 1)) := by omega
    have h2 : (0 : Int) ≤ I.descriptor.sizes 1 * I.descriptor.sizes 2 * 3 := by positivity
    calc _ < (xg 2 + iz + I.interp_neighbours + 1 + 1) *
            (I.descriptor.sizes 1 * I.descriptor.sizes 2 * 3) := key.2
      _ ≤ _ := mul_le_mul_of_nonneg_right h1 h2
  · have := key.1
    nlinarith [mul_nonneg hq (le_of_lt hs1), mul_nonneg (mul_nonneg hq (le_of_lt hs1)) (le_of_lt hs2),
      mul_nonneg hy0 (le_of_lt hs2)]

end interpolator

/-! ## Theorems: matching sends and receives -/

namespace interpolator

variable {R : Type}

theorem mem_upper_slice_calls (I : interpolator R) (call : mpi_call) :
    call ∈ I.upper_slice_calls ↔ ∃ rdst, rdst < I.unbuffered_descriptor.nprocs ∧
      ((I.unbuffered_descriptor.myrank = I.upper_rsrc rdst ∧
          call = mpi_call.send 0 I.buffer_size rdst
            (message_tag I.unbuffered_descriptor.nprocs 0 (I.upper_rsrc rdst) rdst)) ∨
        (I.unbuffered_descriptor.myrank = rdst ∧
          call = mpi_call.recv (I.buffer_size + I.unbuffered_descriptor.local_size)
            I.buffer_size (I.upper_rsrc rdst)
            (message_tag I.unbuffered_descriptor.nprocs 0 (I.upper_rsrc rdst) rdst))) := by
  unfold upper_slice_calls
  rw [List.mem_flatMap]
  constructor
  · rintro ⟨rdst, hr, hc⟩
    refine ⟨rdst, List.mem_range.mp hr, ?_⟩
    rcases List.mem_append.mp hc with hc | hc
    · split at hc
      · exact Or.inl ⟨by assumption, List.mem_singleton.mp hc⟩
      · cases hc
    · split at hc
      · exact Or.inr ⟨by assumption, List.mem_singleton.mp hc⟩
      · cases hc
  · rintro ⟨rdst, hr, hc⟩
    refine ⟨rdst, List.mem_range.mpr hr, ?_⟩
    rcases hc with ⟨h, rfl⟩ | ⟨h, rfl⟩
    · exact List.mem_append_left _ (by rw [if_pos h]; exact List.mem_singleton.mpr rfl)
    · exact List.mem_append_right _ (by rw [if_pos h]; exact List.mem_singleton.mpr rfl)

theorem mem_lower_slice_calls (I : interpolator R) (call : mpi_call) :
    call ∈ I.lower_slice_calls ↔ ∃ rdst, rdst < I.unbuffered_descriptor.nprocs ∧
      ((I.unbuffered_descriptor.myrank = I.lower_rsrc rdst ∧
          call = mpi_call.send (I.unbuffered_descriptor.local_size - I.buffer_size)
            I.buffer_size rdst
            (message_tag I.unbuffered_descriptor.nprocs 1 (I.lower_rsrc rdst) rdst)) ∨
        (I.unbuffered_descriptor.myrank = rdst ∧
          call = mpi_call.recv 0 I.buffer_size (I.lower_rsrc rdst)
            (message_tag I.unbuffered_descriptor.nprocs 1 (I.lower_rsrc rdst) rdst))) := by
  unfold lower_slice_calls
  rw [List.mem_flatMap]
  constructor
  · rintro ⟨rdst, hr, hc⟩
    refine ⟨rdst, List.mem_range.mp hr, ?_⟩
    rcases List.mem_append.mp hc with hc | hc
    · split at hc
      · exact Or.inl ⟨by assumption, List.mem_singleton.mp hc⟩
      · cases hc
    · split at hc
      · exact Or.inr ⟨by assumption, List.mem_singleton.mp hc⟩
      · cases hc
  · rintro ⟨rdst, hr, hc⟩
    refine ⟨rdst, List.mem_range.mpr hr, ?_⟩
    rcases hc with ⟨h, rfl⟩ | ⟨h, rfl⟩
    · exact List.mem_append_left _ (by rw [if_pos h]; exact List.mem_singleton.mpr rfl)
    · exact List.mem_append_right _ (by rw [if_pos h]; exact List.mem_singleton.mpr rfl)

/-- C17: in every halo exchange of `read_rFFTW` among ranks that share the layout and whose
`buffer_size` is the `(N+1)*slice_size` the constructor sets, in the upper-slice and in the
lower-slice phase alike, every send has count `(N+1)*slice_size`, goes to a rank, and that
rank posts in the same phase a receive from the sender with the same count and the same tag;
and every receive has count `(N+1)*slice_size` and, its source being a rank, that rank posts
in the same phase a send to the receiver with the same count and the same tag. -/
theorem halo_exchange_counts_and_tags_match (ranks : Nat → interpolator R)
    (D : field_descriptor) (N : Nat)
    (hdesc : ∀ p, p < D.nprocs → (ranks p).unbuffered_descriptor = rank_descriptor D p)
    (hbs : ∀ p, p < D.nprocs → (ranks p).buffer_size = (N + 1) * D.slice_size) :
    (∀ (rd : field_descriptor) (beta : Int → R → Nat → R)
        (new_field_descriptor : (Nat → Int) → field_descriptor) (u0 u1 : Nat → R),
        (construct N rd beta new_field_descriptor u0 u1).buffer_size = (N + 1) * rd.slice_size ∧
        (construct N rd beta new_field_descriptor u0 u1).unbuffered_descriptor = rd) ∧
    (∀ q, q < D.nprocs → ∀ off count dest tag : Nat,
      mpi_call.send off count dest tag ∈ (ranks q).upper_slice_calls →
        count = (N + 1) * D.slice_size ∧ dest < D.nprocs ∧
        ∃ off', mpi_call.recv off' count q tag ∈ (ranks dest).upper_slice_calls) ∧
    (∀ q, q < D.nprocs → ∀ off count dest tag : Nat,
      mpi_call.send off count dest tag ∈ (ranks q).lower_slice_calls →
        count = (N + 1) * D.slice_size ∧ dest < D.nprocs ∧
        ∃ off', mpi_call.recv off' count q tag ∈ (ranks dest).lower_slice_calls) ∧
    (∀ r, r < D.nprocs → ∀ off count source tag : Nat,
      mpi_call.recv off count source tag ∈ (ranks r).upper_slice_calls →
        count = (N + 1) * D.slice_size ∧
        (source < D.nprocs →
          ∃ off', mpi_call.send off' count r tag ∈ (ranks source).upper_slice_calls)) ∧
    (∀ r, r < D.nprocs → ∀ off count source tag : Nat,
      mpi_call.recv off count source tag ∈ (ranks r).lower_slice_calls →
        count = (N + 1) * D.slice_size ∧
        (source < D.nprocs →
          ∃ off', mpi_call.send off' count r tag ∈ (ranks source).lower_slice_calls)) := by
  have hmy : ∀ p, p < D.nprocs → (ranks p).unbuffered_descriptor.myrank = p := by
    intro p hp; rw [hdesc p hp]; rfl
  have hnp : ∀ p, p < D.nprocs → (ranks p).unbuffered_descriptor.nprocs = D.nprocs := by
    intro p hp; rw [hdesc p hp]; rfl
  have hup : ∀ p, p < D.nprocs → ∀ p', p' < D.nprocs → ∀ rdst,
      (ranks p).upper_rsrc rdst = (ranks p').upper_rsrc rdst := by
    intro p hp p' hp' rdst
    rw [upper_rsrc_eq _ D p rdst (hdesc p hp), upper_rsrc_eq _ D p' rdst (hdesc p' hp')]
  have hlo : ∀ p, p < D.nprocs → ∀ p', p' < D.nprocs → ∀ rdst,
      (ranks p).lower_rsrc rdst = (ranks p').lower_rsrc rdst := by
    intro p hp p' hp' rdst
    rw [lower_rsrc_eq _ D p rdst (hdesc p hp), lower_rsrc_eq _ D p' rdst (hdesc p' hp')]
  refine ⟨fun _ _ _ _ _ => ⟨rfl, rfl⟩, ?_, ?_, ?_, ?_⟩
  · intro q hq off count dest tag hmem
    rw [mem_upper_slice_calls] at hmem
    obtain ⟨rdst, hr, ⟨hsrc, hcall⟩ | ⟨_, hcall⟩⟩ := hmem
    · injection hcall with h1 h2 h3 h4
      rw [hnp q hq] at hr
      subst h3
      refine ⟨by rw [h2, hbs q hq], hr, (ranks dest).buffer_size +
        (ranks dest).unbuffered_descriptor.local_size, ?_⟩
      rw [mem_upper_slice_calls]
      refine ⟨dest, by rw [hnp dest hr]; exact hr, Or.inr ⟨hmy dest hr, ?_⟩⟩
      rw [h2, h4, hbs q hq, hbs dest hr, hnp q hq, hnp dest hr, ← hup q hq dest hr dest,
        ← hsrc, hmy q hq]
    · cases hcall
  · intro q hq off count dest tag hmem
    rw [mem_lower_slice_calls] at hmem
    obtain ⟨rdst, hr, ⟨hsrc, hcall⟩ | ⟨_, hcall⟩⟩ := hmem
    · injection hcall with h1 h2 h3 h4
      rw [hnp q hq] at hr
      subst h3
      refine ⟨by rw [h2, hbs q hq], hr, 0, ?_⟩
      rw [mem_lower_slice_calls]
      refine ⟨dest, by rw [hnp dest hr]; exact hr, Or.inr ⟨hmy dest hr, ?_⟩⟩
      rw [h2, h4, hbs q hq, hbs dest hr, hnp q hq, hnp dest hr, ← hlo q hq dest hr dest,
        ← hsrc, hmy q hq]
    · cases hcall
  · intro r hr off count source tag hmem
    rw [mem_upper_slice_calls] at hmem
    obtain ⟨rdst, hrd, ⟨_, hcall⟩ | ⟨hme, hcall⟩⟩ := hmem
    · cases hcall
    · injection hcall with h1 h2 h3 h4
      rw [hmy r hr] at hme
      subst hme
      refine ⟨by rw [h2, hbs r hr], fun hs => ⟨0, ?_⟩⟩
      rw [mem_upper_slice_calls]
      refine ⟨r, by rw [hnp source hs]; exact hr, Or.inl ⟨?_, ?_⟩⟩
      · rw [hmy source hs]; exact h3.trans (hup r hr source hs r)
      · rw [h2, h4, hbs r hr, hbs source hs, hnp r hr, hnp source hs, hup r hr source hs r]
  · intro r hr off count source tag hmem
    rw [mem_lower_slice_calls] at hmem
    obtain ⟨rdst, hrd, ⟨_, hcall⟩ | ⟨hme, hcall⟩⟩ := hmem
    · cases hcall
    · injection hcall with h1 h2 h3 h4
      rw [hmy r hr] at hme
      subst hme
      refine ⟨by rw [h2, hbs r hr], fun hs =>
        ⟨(ranks source).unbuffered_descriptor.local_size - (ranks source).buffer_size, ?_⟩⟩
      rw [mem_lower_slice_calls]
      refine ⟨r, by rw [hnp source hs]; exact hr, Or.inl ⟨?_, ?_⟩⟩
      · rw [hmy source hs]; exact h3.trans (hlo r hr source hs r)
      · rw [h2, h4, hbs r hr, hbs source hs, hnp r hr, hnp source hs, hlo r hr source hs r]

end interpolator

/-! ## Theorems: the stores of a halo refresh -/

namespace interpolator

variable {R : Type}

end interpolator

namespace interpolator

variable {R : Type}

end interpolator

/-! ## Theorems: loading and bucketing the particles -/

theorem getD_swap_at {α : Type} (l : List α) (i j m : Nat) (d : α) :
    (swap_at l i j).getD m d =
      if i < l.length ∧ j < l.length then
        (if m = j then l.getD i d else if m = i then l.getD j d else l.getD m d)
      else l.getD m d := by
  unfold swap_at
  by_cases hi : i < l.length
  · by_cases hj : j < l.length
    · rw [List.getElem?_eq_getElem hi, List.getElem?_eq_getElem hj, if_pos ⟨hi, hj⟩]
      simp only [List.getD_eq_getElem?_getD, List.getElem?_set, List.length_set]
      by_cases h1 : m = j
      · subst h1
        simp [hj, List.getElem?_eq_getElem hi]
      · by_cases h2 : m = i
        · subst h2
          have h3 : ¬ j = m := fun h => h1 h.symm
          simp [h1, h3, hi, List.getElem?_eq_getElem hj]
        · have h3 : ¬ j = m := fun h => h1 h.symm
          have h4 : ¬ i = m := fun h => h2 h.symm
          simp [h1, h2, h3, h4]
    · rw [List.getElem?_eq_none (not_lt.mp hj), if_neg (fun h => hj h.2)]
      cases l[i]? <;> rfl
  · rw [List.getElem?_eq_none (not_lt.mp hi), if_neg (fun h => hi h.1)]

theorem length_swap_at {α : Type} (l : List α) (i j : Nat) :
    (swap_at l i j).length = l.length := by
  unfold swap_at
  split <;> simp

theorem mem_int_range (a b idx : Int) : idx ∈ int_range a b ↔ a ≤ idx ∧ idx < b := by
  unfold int_range
  rw [List.mem_map]
  constructor
  · rintro ⟨i, hi, rfl⟩
    rw [List.mem_range] at hi
    omega
  · rintro ⟨h1, h2⟩
    exact ⟨(idx - a).toNat, List.mem_range.mpr (by omega), by omega⟩

namespace particles_system

variable {R : Type}

theorem z_of_nat [Zero R] (positions : List R) (idx : Nat) :
    z_of positions (idx : Int) = positions.getD (idx * 3 + IDX_Z) 0 := by
  unfold z_of read_at
  rw [if_pos (by unfold IDX_Z; omega)]
  congr 1
  unfold IDX_Z
  omega

/-- Exchanging two of the first `nb` particles keeps a property that the slab-axis coordinate
of every one of the first `nb` particles has. -/
theorem swap_particle_keeps_z [Zero R] (P : R → Prop) (nb : Nat) (a : List R)
    (idx1 idx2 : Nat) (h1 : idx1 < nb) (h2 : idx2 < nb)
    (h : ∀ i : Nat, i < nb → P (z_of a i)) :
    ∀ i : Nat, i < nb → P (z_of (swap_particle a idx1 idx2) i) := by
  have step : ∀ (b : List R) (v : Nat), v < 3 → (∀ i : Nat, i < nb → P (z_of b i)) →
      ∀ i : Nat, i < nb → P (z_of (swap_at b (idx1 * 3 + v) (idx2 * 3 + v)) i) := by
    intro b v hv hb i hi
    have hb1 := hb idx1 h1
    have hb2 := hb idx2 h2
    have hbi := hb i hi
    rw [z_of_nat] at hb1 hb2 hbi ⊢
    rw [getD_swap_at]
    unfold IDX_Z at hb1 hb2 hbi ⊢
    split
    · split
      · rename_i hm
        have hv2 : v = 2 := by omega
        subst hv2
        exact hb1
      · split
        · rename_i hm
          have hv2 : v = 2 := by omega
          subst hv2
          exact hb2
        · exact hbi
    · exact hbi
  have e : swap_particle a idx1 idx2 =
      swap_at (swap_at (swap_at a (idx1 * 3 + 0) (idx2 * 3 + 0)) (idx1 * 3 + 1) (idx2 * 3 + 1))
        (idx1 * 3 + 2) (idx2 * 3 + 2) := rfl
  rw [e]
  exact step _ 2 (by omega) (step _ 1 (by omega) (step _ 0 (by omega) h))

theorem partition_fields [Ring R]
    (pe : List R → Nat → Int → List Int → List Int → (Int → R) → partition_extra_z_outcome)
    (s : particles_system R) :
    (partition pe s).my_nb_particles = s.my_nb_particles ∧
      (partition pe s).my_spatial_low_limit = s.my_spatial_low_limit ∧
      (partition pe s).my_spatial_up_limit = s.my_spatial_up_limit ∧
      (partition pe s).spatial_partition_width_Z = s.spatial_partition_width_Z ∧
      (partition pe s).partition_interval_size = s.partition_interval_size ∧
      (partition pe s).my_particles_positions =
        (pe s.my_particles_positions s.my_nb_particles s.partition_interval_size
          s.current_my_nb_particles_per_partition s.current_offset_particles_for_partition
          (fun idxPartition => limitPartition s idxPartition)).swaps.foldl
          (fun a swap => swap_particle a swap.1 swap.2) s.my_particles_positions := by
  unfold partition
  simp only []
  generalize (pe s.my_particles_positions s.my_nb_particles s.partition_interval_size
    s.current_my_nb_particles_per_partition s.current_offset_particles_for_partition
    (fun idxPartition => limitPartition s idxPartition)).swaps = swaps
  induction swaps generalizing s with
  | nil => exact ⟨rfl, rfl, rfl, rfl, rfl, rfl⟩
  | cons sw rest ih =>
    simp only [List.foldl_cons]
    exact ih (swap_callback
      { s with my_particles_positions := swap_particle s.my_particles_positions sw.1 sw.2 }
      sw.1 sw.2)

theorem foldl_swaps_keep_z [Zero R] (P : R → Prop) (nb : Nat) (swaps : List (Nat × Nat))
    (hswaps : ∀ sw ∈ swaps, sw.1 < nb ∧ sw.2 < nb) :
    ∀ a : List R, (∀ i : Nat, i < nb → P (z_of a i)) →
      ∀ i : Nat, i < nb →
        P (z_of (swaps.foldl (fun a swap => swap_particle a swap.1 swap.2) a) i) := by
  induction swaps with
  | nil => intro a h; exact h
  | cons sw rest ih =>
    intro a h
    rw [List.foldl_cons]
    exact ih (fun x hx => hswaps x (List.mem_cons_of_mem _ hx)) _
      (swap_particle_keeps_z P nb a sw.1 sw.2 (hswaps sw (List.mem_cons_self _ _)).1
        (hswaps sw (List.mem_cons_self _ _)).2 h)

theorem ownership_check_iff [Zero R] [LinearOrder R] (s : particles_system R) :
    ownership_check s = true ↔ ∀ idx : Nat, idx < s.my_nb_particles →
      s.my_spatial_low_limit ≤ z_of s.my_particles_positions idx ∧
        z_of s.my_particles_positions idx < s.my_spatial_up_limit := by
  unfold ownership_check
  simp only [List.all_eq_true, List.mem_range, Bool.and_eq_true, decide_eq_true_eq, ge_iff_le]

end particles_system

namespace particles_system

variable {R : Type}

theorem layout_check_iff [LinearOrderedRing R] (s : particles_system R) :
    layout_check s = true ↔ ∀ idxPartition : Nat, (idxPartition : Int) < s.partition_interval_size →
      s.current_my_nb_particles_per_partition.getD idxPartition 0 =
        s.current_offset_particles_for_partition.getD (idxPartition + 1) 0 -
          s.current_offset_particles_for_partition.getD idxPartition 0 ∧
      (∀ idx : Int, 0 ≤ idx →
        idx < s.current_offset_particles_for_partition.getD (idxPartition + 1) 0 →
        z_of s.my_particles_positions idx < limitPartition s idxPartition) ∧
      (∀ idx : Int, s.current_offset_particles_for_partition.getD (idxPartition + 1) 0 ≤ idx →
        idx < s.my_nb_particles →
        limitPartition s idxPartition ≤ z_of s.my_particles_positions idx) := by
  unfold layout_check
  simp only [List.all_eq_true, List.mem_range, Bool.and_eq_true, decide_eq_true_eq, ge_iff_le,
    mem_int_range, and_imp, and_assoc]
  constructor
  · intro h k hk
    exact h k (by omega)
  · intro h k hk
    exact h k (by omega)

/-- C15: `init` passes its ownership check if and only if every loaded particle has its
slab-axis coordinate `z` with `my_spatial_low_limit <= z < my_spatial_up_limit`; a single
particle with `z` below the lower limit or at or above the upper limit makes `init` fail its
assertion, and whenever `init` returns, every loaded particle was inside. -/
theorem init_ownership_check [LinearOrderedRing R]
    (partition_extra_z : List R → Nat → Int → List Int → List Int → (Int → R) →
      partition_extra_z_outcome)
    (particles_input : abstract_particles_input R) (s : particles_system R) :
    (ownership_check (load particles_input s) = true ↔
        ∀ idx : Nat, idx < particles_input.getLocalNbParticles →
          s.my_spatial_low_limit ≤ z_of particles_input.getMyParticles idx ∧
            z_of particles_input.getMyParticles idx < s.my_spatial_up_limit) ∧
      ((∃ idx : Nat, idx < particles_input.getLocalNbParticles ∧
          (z_of particles_input.getMyParticles idx < s.my_spatial_low_limit ∨
            s.my_spatial_up_limit ≤ z_of particles_input.getMyParticles idx)) →
        init partition_extra_z particles_input s = none) ∧
      (∀ s' : particles_system R, init partition_extra_z particles_input s = some s' →
        ∀ idx : Nat, idx < particles_input.getLocalNbParticles →
          s.my_spatial_low_limit ≤ z_of particles_input.getMyParticles idx ∧
            z_of particles_input.getMyParticles idx < s.my_spatial_up_limit) := by
  have hiff := ownership_check_iff (load particles_input s)
  refine ⟨hiff, ?_, ?_⟩
  · rintro ⟨idx, hidx, hbad⟩
    have hfail : ownership_check (load particles_input s) = false := by
      cases hc : ownership_check (load particles_input s) with
      | false => rfl
      | true =>
        have h := (hiff.mp hc) idx hidx
        rcases hbad with hbad | hbad
        · exact absurd h.1 (not_le.mpr hbad)
        · exact absurd h.2 (not_lt.mpr hbad)
    unfold init
    simp only [hfail, if_true]
  · intro s' hs'
    apply hiff.mp
    unfold init at hs'
    simp only [] at hs'
    cases hc : ownership_check (load particles_input s) with
    | false => rw [hc] at hs'; simp at hs'
    | true => rfl

/-- C11: with `low` the lower spatial limit of the rank and `width` the slab-axis partition
width, the bucket boundary `init` uses for the local partition `k` is `low + (k+1)*width`, and
when `init` returns the layout it has checked is the half-open one: the counts are the offset
differences, every particle stored before `offset[k+1]` has slab-axis coordinate
`< low + (k+1)*width` and every particle stored at or after `offset[k+1]` has coordinate
`>= low + (k+1)*width`; so a particle of bucket `k` has `low + k*width <= z < low + (k+1)*width`,
and a particle whose coordinate is exactly a boundary `low + (k+1)*width` is stored at or after
`offset[k+1]`, in the upper partition. The bucketing routine exchanges particles among the
`my_nb_particles` it is given. -/
theorem init_bucket_layout [LinearOrderedRing R]
    (partition_extra_z : List R → Nat → Int → List Int → List Int → (Int → R) →
      partition_extra_z_outcome)
    (particles_input : abstract_particles_input R) (s s' : particles_system R)
    (hinit : init partition_extra_z particles_input s = some s')
    (hswaps : ∀ sw ∈ (partition_extra_z (load particles_input s).my_particles_positions
        (load particles_input s).my_nb_particles (load particles_input s).partition_interval_size
        (load particles_input s).current_my_nb_particles_per_partition
        (load particles_input s).current_offset_particles_for_partition
        (fun idxPartition => limitPartition (load particles_input s) idxPartition)).swaps,
      sw.1 < particles_input.getLocalNbParticles ∧ sw.2 < particles_input.getLocalNbParticles) :
    (∀ k : Int, limitPartition s' k =
        s.my_spatial_low_limit + ((k : R) + 1) * s.spatial_partition_width_Z) ∧
      (∀ k : Nat, (k : Int) < s.partition_interval_size →
        s'.current_my_nb_particles_per_partition.getD k 0 =
          s'.current_offset_particles_for_partition.getD (k + 1) 0 -
            s'.current_offset_particles_for_partition.getD k 0 ∧
        (∀ idx : Int, 0 ≤ idx → idx < s'.current_offset_particles_for_partition.getD (k + 1) 0 →
          z_of s'.my_particles_positions idx <
            s.my_spatial_low_limit + ((k : R) + 1) * s.spatial_partition_width_Z) ∧
        (∀ idx : Int, s'.current_offset_particles_for_partition.getD (k + 1) 0 ≤ idx →
          idx < s'.my_nb_particles →
          s.my_spatial_low_limit + ((k : R) + 1) * s.spatial_partition_width_Z ≤
            z_of s'.my_particles_positions idx)) ∧
      (∀ (k : Nat) (idx : Nat), (k : Int) < s.partition_interval_size →
        s'.current_offset_particles_for_partition.getD k 0 ≤ idx →
        (idx : Int) < s'.current_offset_particles_for_partition.getD (k + 1) 0 →
        idx < s'.my_nb_particles →
        s.my_spatial_low_limit + (k : R) * s.spatial_partition_width_Z ≤
            z_of s'.my_particles_positions idx ∧
          z_of s'.my_particles_positions idx <
            s.my_spatial_low_limit + ((k : R) + 1) * s.spatial_partition_width_Z) ∧
      (∀ (k : Nat) (idx : Nat), (k : Int) < s.partition_interval_size →
        idx < s'.my_nb_particles →
        z_of s'.my_particles_positions idx =
          s.my_spatial_low_limit + ((k : R) + 1) * s.spatial_partition_width_Z →
        s'.current_offset_particles_for_partition.getD (k + 1) 0 ≤ idx) := by
  unfold init at hinit
  simp only [] at hinit
  have hown : ownership_check (load particles_input s) = true := by
    cases hc : ownership_check (load particles_input s) with
    | false => rw [hc] at hinit; simp at hinit
    | true => rfl
  rw [hown] at hinit
  simp only [Bool.true_eq_false, if_false] at hinit
  have hlay : layout_check (partition partition_extra_z (load particles_input s)) = true := by
    cases hc : layout_check (partition partition_extra_z (load particles_input s)) with
    | false => rw [hc] at hinit; simp at hinit
    | true => rfl
  rw [hlay] at hinit
  simp only [Bool.true_eq_false, if_false, Option.some.injEq] at hinit
  obtain ⟨hnb, hlow, hup, hwidth, hsize, hpos⟩ :=
    partition_fields partition_extra_z (load particles_input s)
  rw [hinit] at hnb hlow hup hwidth hsize hpos hlay
  have hlow' : s'.my_spatial_low_limit = s.my_spatial_low_limit := hlow
  have hwidth' : s'.spatial_partition_width_Z = s.spatial_partition_width_Z := hwidth
  have hsize' : s'.partition_interval_size = s.partition_interval_size := hsize
  have hnb' : s'.my_nb_particles = particles_input.getLocalNbParticles := hnb
  have hlim : ∀ k : Int, limitPartition s' k =
      s.my_spatial_low_limit + ((k : R) + 1) * s.spatial_partition_width_Z := by
    intro k
    unfold limitPartition
    rw [hlow', hwidth']
    push_cast
    exact add_comm _ _
  have hchk := (layout_check_iff s').mp hlay
  have hz : ∀ i : Nat, i < particles_input.getLocalNbParticles →
      s.my_spatial_low_limit ≤ z_of s'.my_particles_positions i := by
    rw [hpos]
    exact foldl_swaps_keep_z (fun z => s.my_spatial_low_limit ≤ z) _ _ hswaps _
      (fun i hi => ((ownership_check_iff (load particles_input s)).mp hown i hi).1)
  have hb : ∀ k : Nat, (k : Int) < s.partition_interval_size →
      s'.current_my_nb_particles_per_partition.getD k 0 =
        s'.current_offset_particles_for_partition.getD (k + 1) 0 -
          s'.current_offset_particles_for_partition.getD k 0 ∧
      (∀ idx : Int, 0 ≤ idx → idx < s'.current_offset_particles_for_partition.getD (k + 1) 0 →
        z_of s'.my_particles_positions idx <
          s.my_spatial_low_limit + ((k : R) + 1) * s.spatial_partition_width_Z) ∧
      (∀ idx : Int, s'.current_offset_particles_for_partition.getD (k + 1) 0 ≤ idx →
        idx < s'.my_nb_particles →
        s.my_spatial_low_limit + ((k : R) + 1) * s.spatial_partition_width_Z ≤
          z_of s'.my_particles_positions idx) := by
    intro k hk
    have h := hchk k (by rw [hsize']; exact hk)
    rw [hlim k] at h
    push_cast at h
    exact h
  refine ⟨hlim, hb, ?_, ?_⟩
  · intro k idx hk hoff hoff1 hidx
    refine ⟨?_, (hb k hk).2.1 idx (by omega) hoff1⟩
    cases k with
    | zero =>
      have := hz idx (by rw [← hnb']; exact hidx)
      simpa using this
    | succ j =>
      have h := (hb j (by omega)).2.2 idx hoff (by exact_mod_cast hidx)
      push_cast
      exact h
  · intro k idx hk hidx hzeq
    by_contra hlt
    have h := (hb k hk).2.1 idx (by omega) (by omega)
    rw [hzeq] at h
    exact lt_irrefl _ h

end particles_system

/-! ## Theorems: the explicit NaN check -/

namespace particles_system

variable {R : Type}

/-- C16, as the code has it: `checkNan` passes exactly when, for every local particle, none of
its three position coordinates and none of its three values in any history slot is a NaN, so
an infinite value, which is not a NaN, passes. And `completeLoop` does not call `checkNan`:
whatever `checkNan` says of the state, of an intermediate state or of the outcome,
`completeLoop` returns the state its five phases give. -/
theorem checkNan_iff_no_nan [Zero R] (isnan : R → Bool) (s : particles_system R) :
    (checkNan isnan s = true ↔
      ∀ idx_part : Nat, idx_part < s.my_nb_particles →
        isnan (s.my_particles_positions.getD (idx_part * 3 + IDX_X) 0) = false ∧
        isnan (s.my_particles_positions.getD (idx_part * 3 + IDX_Y) 0) = false ∧
        isnan (s.my_particles_positions.getD (idx_part * 3 + IDX_Z) 0) = false ∧
        ∀ idx_rhs : Nat, idx_rhs < s.my_particles_rhs.length →
          isnan ((s.my_particles_rhs.getD idx_rhs []).getD (idx_part * 3 + IDX_X) 0) = false ∧
          isnan ((s.my_particles_rhs.getD idx_rhs []).getD (idx_part * 3 + IDX_Y) 0) = false ∧
          isnan ((s.my_particles_rhs.getD idx_rhs []).getD (idx_part * 3 + IDX_Z) 0) = false) ∧
      ∀ (computer : particles_field_computer R) (dt : R),
        completeLoop computer dt s = shift_rhs_vectors (inc_step_idx
          (redistribute computer (move computer dt (compute computer s)))) := by
  refine ⟨?_, fun _ _ => rfl⟩
  unfold checkNan
  simp only [List.all_eq_true, List.mem_range, Bool.and_eq_true, beq_iff_eq, and_assoc]

end particles_system

/-- C16 fails on the code: a particle whose first coordinate is `+infinity` is non-finite, yet
`checkNan` passes on it; and a particle with a NaN coordinate, on which `checkNan` fails, goes
through `completeLoop`, which returns with the NaN still in the positions and runs no check. -/
theorem checkNan_passes_infinity_and_completeLoop_runs_no_check :
    fp_value.isfinite ((sample_fp_system fp_value.pos_inf).my_particles_positions.getD 0 0)
        = false ∧
      particles_system.checkNan fp_value.isnan (sample_fp_system fp_value.pos_inf) = true ∧
      particles_system.checkNan fp_value.isnan (sample_fp_system fp_value.neg_inf) = true ∧
      particles_system.checkNan fp_value.isnan (sample_fp_system fp_value.nan) = false ∧
      (particles_system.completeLoop sample_fp_computer (fp_value.finite 1)
          (sample_fp_system fp_value.nan)).my_particles_positions =
        [fp_value.nan, fp_value.finite 0, fp_value.finite 0] := by
  decide

/-! ## Theorems: the multistep integrator -/

theorem sum_map_range_eq_finset_sum {M : Type} [AddCommMonoid M] (n : Nat) (f : Nat → M) :
    ((List.range n).map f).sum = ∑ k ∈ Finset.range n, f k := by
  induction n with
  | zero => rfl
  | succ n ih =>
    rw [List.range_succ, List.map_append, List.sum_append, ih, Finset.sum_range_succ]
    simp

namespace particles_system

/-- C14: with the integrator of the spec, for every effective order `p` from 1 to 6 that
`move(dt)` passes (`p = min(step_idx, K)`), every particle and every coordinate, the new
position is the old position plus `dt` times the sum over `i < p` of `c_i(p) * history[i]`,
where `c(p)` is the classic Adams-Bashforth row of order `p` as exact rationals (order 1: 1;
order 2: 3/2, -1/2), a row of `p` coefficients that sum to 1. -/
theorem move_is_adams_bashforth_step (base : particles_field_computer ℚ) (dt : ℚ)
    (s : particles_system ℚ) (idx_part c : Nat)
    (horder1 : 1 ≤ move_order s) (horder6 : move_order s ≤ 6)
    (hpart : idx_part < s.my_nb_particles) (hc : c < 3)
    (hlen : 3 * s.my_nb_particles ≤ s.my_particles_positions.length) :
    (move (adams_bashforth_computer base) dt s).my_particles_positions.getD
        (idx_part * 3 + c) 0 =
      s.my_particles_positions.getD (idx_part * 3 + c) 0 +
        dt * ∑ i ∈ Finset.range (move_order s).toNat,
          (adams_bashforth_coefficients (move_order s)).getD i 0 *
            (s.my_particles_rhs.getD i []).getD (idx_part * 3 + c) 0 ∧
      move_order s = min s.step_idx (s.my_particles_rhs.length : Int) ∧
      (adams_bashforth_coefficients (move_order s)).length = (move_order s).toNat ∧
      (adams_bashforth_coefficients (move_order s)).sum = 1 ∧
      adams_bashforth_coefficients 1 = [1] ∧
      adams_bashforth_coefficients 2 = [3 / 2, -1 / 2] := by
  have hi : idx_part * 3 + c < 3 * s.my_nb_particles := by omega
  refine ⟨?_, rfl, ?_, ?_, rfl, rfl⟩
  · show (adams_bashforth_move s.my_particles_positions s.my_nb_particles s.my_particles_rhs
      (move_order s) dt).getD (idx_part * 3 + c) 0 = _
    unfold adams_bashforth_move
    rw [List.getD_eq_getElem?_getD, List.getElem?_map,
      List.getElem?_range (by omega), Option.map_some', Option.getD_some, if_pos hi,
      sum_map_range_eq_finset_sum]
  · generalize move_order s = p at horder1 horder6
    interval_cases p <;> rfl
  · generalize move_order s = p at horder1 horder6
    interval_cases p <;> norm_num [adams_bashforth_coefficients]

end particles_system

/-! ## Theorems: redistribution between the ranks -/

/-- Summing `c` over the keys that satisfy a test counts those keys. -/
theorem sum_map_ite_eq_mul_countP {κ : Type} (keys : List κ) (t : κ → Bool) (c : Nat) :
    (keys.map fun k => if t k = true then c else 0).sum = c * keys.countP t := by
  induction keys with
  | nil => simp
  | cons k ks ih =>
    rw [List.map_cons, List.sum_cons, ih, List.countP_cons]
    split_ifs <;> simp [Nat.mul_add, Nat.add_comm]

/-- Sorting a list into runs, one run per key, permutes the list when every element passes
the test of exactly one key. -/
theorem flatMap_filter_perm {κ α : Type} (keys : List κ) (l : List α) (t : κ → α → Bool)
    (h : ∀ a ∈ l, keys.countP (fun k => t k a) = 1) :
    List.Perm (keys.flatMap fun k => l.filter (t k)) l := by
  classical
  rw [List.perm_iff_count]
  intro a
  rw [List.count_flatMap]
  have hk : ∀ k, (List.count a ∘ fun k => l.filter (t k)) k =
      if t k a = true then List.count a l else 0 := by
    intro k
    show List.count a (l.filter (t k)) = _
    by_cases hka : t k a = true
    · rw [if_pos hka, List.count_filter hka]
    · rw [if_neg hka, List.count_eq_zero]
      intro hmem
      exact hka (List.mem_filter.mp hmem).2
  rw [List.map_congr_left fun k _ => hk k, sum_map_ite_eq_mul_countP keys (fun k => t k a)]
  by_cases ha : a ∈ l
  · rw [h a ha, Nat.mul_one]
  · rw [List.count_eq_zero.mpr ha, Nat.zero_mul]

/-- Among the numbers below `n`, exactly one equals `k` when `k < n`. -/
theorem countP_range_eq {n k : Nat} (hk : k < n) :
    (List.range n).countP (fun r => decide (k = r)) = 1 := by
  induction n with
  | zero => omega
  | succ n ih =>
    rw [List.range_succ, List.countP_append, List.countP_singleton]
    by_cases hkn : k = n
    · subst hkn
      have h0 : (List.range k).countP (fun r => decide (k = r)) = 0 := by
        rw [List.countP_eq_zero]
        intro r hr
        have := List.mem_range.mp hr
        simp only [decide_eq_true_eq]
        omega
      rw [h0]
      simp
    · rw [ih (by omega)]
      simp [hkn]

/-- A list is read back entry by entry. -/
theorem map_range_getD {α : Type} (l : List α) (d : α) :
    (List.range l.length).map (fun i => l.getD i d) = l := by
  apply List.ext_getElem
  · simp
  · intro i h1 h2
    simp [List.getD_eq_getElem?_getD, List.getElem?_eq_getElem h2]

/-- The third entry of the `i`-th triple of a flattened list of triples. -/
theorem getD_flatMap_triple {α β : Type} (f g h : α → β) (d : β) (e : α) :
    ∀ (ps : List α) (i : Nat), i < ps.length →
      (ps.flatMap fun p => [f p, g p, h p]).getD (i * 3 + 2) d = h (ps.getD i e)
  | [], i, hi => by simp at hi
  | p :: ps, 0, _ => by simp [List.flatMap_cons]
  | p :: ps, i + 1, hi => by
    have ih := getD_flatMap_triple f g h d e ps i (by simpa using hi)
    have e1 : (i + 1) * 3 + 2 = (i * 3 + 2) + 3 := by ring
    rw [List.flatMap_cons, e1]
    simpa [List.getD_eq_getElem?_getD] using ih

/-- Counted from the first partition of a rank, `classify` is the global partition of the
coordinate minus that first partition. -/
theorem classify_shift {R : Type} [LinearOrderedField R] [FloorRing R] (x0 W z : R) (a : Int)
    (hW : 0 < W) : classify (x0 + (a : R) * W) W z = Int.floor ((z - x0) / W) - a := by
  unfold classify
  have e : (z - (x0 + (a : R) * W)) / W = (z - x0) / W - (a : R) := by
    field_simp
    ring
  rw [e, Int.floor_sub_int]

/-- A coordinate lies in the partition `Int.floor ((z - x0) / W)`. -/
theorem floor_partition_bounds {R : Type} [LinearOrderedField R] [FloorRing R] (x0 W z : R)
    (hW : 0 < W) (first second : Int) (h1 : first ≤ Int.floor ((z - x0) / W))
    (h2 : Int.floor ((z - x0) / W) < second) :
    x0 + (first : R) * W ≤ z ∧ z < x0 + (second : R) * W := by
  have hlo : ((Int.floor ((z - x0) / W) : Int) : R) ≤ (z - x0) / W := Int.floor_le _
  have hhi : (z - x0) / W < ((Int.floor ((z - x0) / W) : Int) : R) + 1 :=
    Int.lt_floor_add_one _
  have c1 : (first : R) ≤ ((Int.floor ((z - x0) / W) : Int) : R) := by exact_mod_cast h1
  have c2 : ((Int.floor ((z - x0) / W) : Int) : R) + 1 ≤ (second : R) := by
    exact_mod_cast h2
  have a1 : (first : R) ≤ (z - x0) / W := le_trans c1 hlo
  have a2 : (z - x0) / W < (second : R) := lt_of_lt_of_le hhi c2
  rw [le_div_iff₀ hW] at a1
  rw [div_lt_iff₀ hW] at a2
  constructor <;> linarith

/-- Every particle of the exchange comes from a rank and carries the destination that rank
computed. -/
theorem mem_exchange_pool {R : Type} [LinearOrderedField R] [FloorRing R] (nprocs : Nat)
    (partition_owner : Int → Option Nat) (ranks : Nat → particles_system R)
    (e : Option Nat × particle R) :
    e ∈ exchange_pool nprocs partition_owner ranks ↔
      ∃ q, q < nprocs ∧ ∃ p ∈ (ranks q).local_particles,
        ((ranks q).destination partition_owner p, p) = e := by
  unfold exchange_pool
  simp only [List.mem_flatMap, List.mem_range, List.mem_map]

/-- A particle routed to rank `r` lies in a partition owned by `r`. -/
theorem incoming_partition {R : Type} [LinearOrderedField R] [FloorRing R] (nprocs : Nat)
    (partition_owner : Int → Option Nat) (x0 W : R) (ranks : Nat → particles_system R)
    (hlayout : slab_partition nprocs partition_owner x0 W ranks) (r : Nat) (hr : r < nprocs)
    (p : particle R) (hp : p ∈ incoming nprocs partition_owner ranks r) :
    (ranks r).current_partition_interval.1 ≤ Int.floor ((p.z - x0) / W) ∧
      Int.floor ((p.z - x0) / W) < (ranks r).current_partition_interval.2 := by
  unfold incoming at hp
  obtain ⟨e, he, rfl⟩ := List.mem_map.mp hp
  obtain ⟨hmem, hdest⟩ := List.mem_filter.mp he
  obtain ⟨q, hq, p', _, rfl⟩ := (mem_exchange_pool _ _ _ _).mp hmem
  have hd : (ranks q).destination partition_owner p' = some r := of_decide_eq_true hdest
  obtain ⟨hw, hlow, _, _, _⟩ := hlayout.2 q hq
  unfold particles_system.destination at hd
  rw [hw, hlow, classify_shift x0 W p'.z _ hlayout.1] at hd
  have e1 : (ranks q).current_partition_interval.1 +
      (Int.floor ((p'.z - x0) / W) - (ranks q).current_partition_interval.1) =
      Int.floor ((p'.z - x0) / W) := by omega
  rw [e1] at hd
  exact (hlayout.2 r hr).2.2.2.2 _ hd

/-- The local bucketing permutes the particles routed to a rank. -/
theorem bucketed_perm {R : Type} [LinearOrderedField R] [FloorRing R] (nprocs : Nat)
    (partition_owner : Int → Option Nat) (x0 W : R) (ranks : Nat → particles_system R)
    (hlayout : slab_partition nprocs partition_owner x0 W ranks) (r : Nat) (hr : r < nprocs) :
    List.Perm (bucketed (ranks r) (incoming nprocs partition_owner ranks r))
      (incoming nprocs partition_owner ranks r) := by
  unfold bucketed
  apply flatMap_filter_perm
  intro p hp
  obtain ⟨h1, h2⟩ := incoming_partition nprocs partition_owner x0 W ranks hlayout r hr p hp
  obtain ⟨hw, hlow, _, hsize, _⟩ := hlayout.2 r hr
  rw [hw, hlow, classify_shift x0 W p.z _ hlayout.1, hsize]
  have hc : ∀ k : Nat,
      decide (Int.floor ((p.z - x0) / W) - (ranks r).current_partition_interval.1 = (k : Int)) =
        decide ((Int.floor ((p.z - x0) / W) -
          (ranks r).current_partition_interval.1).toNat = k) := by
    intro k
    apply decide_eq_decide.mpr
    omega
  rw [List.countP_congr (fun k _ => by rw [hc k])]
  apply countP_range_eq
  omega

/-- The particles routed to the ranks are, together, the particles of the exchange. -/
theorem incoming_perm {R : Type} [LinearOrderedField R] [FloorRing R] (nprocs : Nat)
    (partition_owner : Int → Option Nat) (ranks : Nat → particles_system R)
    (hroutable : routable nprocs partition_owner ranks = true) :
    List.Perm ((List.range nprocs).flatMap fun r => incoming nprocs partition_owner ranks r)
      ((exchange_pool nprocs partition_owner ranks).map fun e => e.2) := by
  unfold incoming
  rw [← List.map_flatMap]
  apply List.Perm.map
  apply flatMap_filter_perm
  intro e he
  unfold routable at hroutable
  have h := List.all_eq_true.mp hroutable e he
  cases hd : e.1 with
  | none => rw [hd] at h; exact absurd h (by simp)
  | some r0 =>
    rw [hd] at h
    have hr0 : r0 < nprocs := of_decide_eq_true h
    have hc : ∀ r : Nat, decide (some r0 = some r) = decide (r0 = r) := by
      intro r
      apply decide_eq_decide.mpr
      simp
    rw [List.countP_congr (fun k _ => by rw [hc k])]
    exact countP_range_eq hr0

/-- The ids a rank holds after the redistributor ran are the ids of the bucketed particles
routed to it. -/
theorem local_ids_redistribute {R : Type} [LinearOrderedField R] [FloorRing R]
    (base : particles_field_computer R) (nprocs : Nat) (partition_owner : Int → Option Nat)
    (ranks : Nat → particles_system R) (r : Nat) (s : particles_system R) :
    (particles_system.redistribute (redistributor base nprocs partition_owner ranks r)
        s).local_ids =
      (bucketed (ranks r) (incoming nprocs partition_owner ranks r)).map fun p => p.index := by
  have h := map_range_getD
    ((bucketed (ranks r) (incoming nprocs partition_owner ranks r)).map fun p => p.index) 0
  rw [List.length_map] at h
  exact h

/-- The ids of the particles of the exchange are the ids held by the ranks. -/
theorem exchange_pool_ids {R : Type} [LinearOrderedField R] [FloorRing R] (nprocs : Nat)
    (partition_owner : Int → Option Nat) (ranks : Nat → particles_system R) :
    (((exchange_pool nprocs partition_owner ranks).map fun e => e.2).map fun p => p.index) =
      all_ids nprocs ranks := by
  unfold exchange_pool all_ids
  rw [List.map_flatMap, List.map_flatMap]
  congr 1
  funext q
  unfold particles_system.local_particles particles_system.local_ids
  simp only [List.map_map]
  rfl

/-- After the redistributor ran on all ranks, the ids held by the ranks are a permutation of
the ids held before. -/
theorem all_ids_redistributed {R : Type} [LinearOrderedField R] [FloorRing R]
    (base : Nat → particles_field_computer R) (nprocs : Nat)
    (partition_owner : Int → Option Nat) (x0 W : R) (ranks : Nat → particles_system R)
    (f : Nat → particles_system R → particles_system R)
    (hf : ∀ r s, (f r s).local_ids = s.local_ids)
    (inner : Nat → particles_system R)
    (hlayout : slab_partition nprocs partition_owner x0 W ranks)
    (hroutable : routable nprocs partition_owner ranks = true) :
    List.Perm
      (all_ids nprocs fun r => f r (particles_system.redistribute
        (redistributor (base r) nprocs partition_owner ranks r) (inner r)))
      (all_ids nprocs ranks) := by
  unfold all_ids
  have e : ((List.range nprocs).flatMap fun r => (f r (particles_system.redistribute
        (redistributor (base r) nprocs partition_owner ranks r) (inner r))).local_ids) =
      (List.range nprocs).flatMap fun r =>
        (bucketed (ranks r) (incoming nprocs partition_owner ranks r)).map fun p => p.index := by
    congr 1
    funext r
    rw [hf, local_ids_redistribute]
  rw [e]
  refine List.Perm.trans (List.Perm.flatMap_left _ fun r hr =>
    List.Perm.map _ (bucketed_perm nprocs partition_owner x0 W ranks hlayout r
      (List.mem_range.mp hr))) ?_
  rw [← List.map_flatMap]
  have h := List.Perm.map (fun p : particle R => p.index)
    (incoming_perm nprocs partition_owner ranks hroutable)
  rw [exchange_pool_ids] at h
  exact h

/-- The number of particles held by all ranks is the number of ids held by all ranks. -/
theorem total_particles_eq_length {R : Type} (nprocs : Nat)
    (ranks : Nat → particles_system R) :
    total_particles nprocs ranks = (all_ids nprocs ranks).length := by
  unfold total_particles all_ids
  rw [List.length_flatMap]
  congr 1
  apply List.map_congr_left
  intro r _
  simp [particles_system.local_ids]

/-- `compute` and `move` leave the ids a rank holds as they are. -/
theorem local_ids_move_compute {R : Type} (computer : particles_field_computer R) (dt : R)
    (s : particles_system R) :
    (particles_system.move computer dt (particles_system.compute computer s)).local_ids =
      s.local_ids := by
  unfold particles_system.move particles_system.compute particles_system.local_ids
  cases s.my_particles_rhs <;> rfl

/-- `inc_step_idx` and `shift_rhs_vectors` leave the ids a rank holds as they are. -/
theorem local_ids_shift_inc {R : Type} [Zero R] (s : particles_system R) :
    (particles_system.shift_rhs_vectors (particles_system.inc_step_idx s)).local_ids =
      s.local_ids := by
  unfold particles_system.shift_rhs_vectors particles_system.inc_step_idx
    particles_system.local_ids
  split <;> rfl

/-- `compute` and `move` leave the interval of a rank and its partitions as they are. -/
theorem move_compute_layout {R : Type} (computer : particles_field_computer R) (dt : R)
    (s : particles_system R) :
    (particles_system.move computer dt
        (particles_system.compute computer s)).spatial_partition_width_Z =
        s.spatial_partition_width_Z ∧
      (particles_system.move computer dt
        (particles_system.compute computer s)).my_spatial_low_limit = s.my_spatial_low_limit ∧
      (particles_system.move computer dt
        (particles_system.compute computer s)).my_spatial_up_limit = s.my_spatial_up_limit ∧
      (particles_system.move computer dt
        (particles_system.compute computer s)).current_partition_interval =
        s.current_partition_interval ∧
      (particles_system.move computer dt
        (particles_system.compute computer s)).partition_interval_size =
        s.partition_interval_size := by
  unfold particles_system.move particles_system.compute
  split <;> exact ⟨rfl, rfl, rfl, rfl, rfl⟩

/-- `compute` and `move` leave the division of the slab axis as it is. -/
theorem slab_partition_move_compute {R : Type} [LinearOrderedField R]
    (base : Nat → particles_field_computer R) (nprocs : Nat)
    (partition_owner : Int → Option Nat) (x0 W dt : R) (ranks : Nat → particles_system R)
    (hlayout : slab_partition nprocs partition_owner x0 W ranks) :
    slab_partition nprocs partition_owner x0 W fun q =>
      particles_system.move (base q) dt (particles_system.compute (base q) (ranks q)) := by
  refine ⟨hlayout.1, fun r hr => ?_⟩
  have h := hlayout.2 r hr
  obtain ⟨e1, e2, e3, e4, e5⟩ := move_compute_layout (base r) dt (ranks r)
  simp only [e1, e2, e3, e4, e5]
  exact h

/-- One step of all ranks, written out: `completeLoop` of a rank applies `shift_rhs_vectors`
and `inc_step_idx` to the outcome of the redistributor on the moved states. -/
theorem completeLoop_on_all_ranks_eq {R : Type} [LinearOrderedField R] [FloorRing R]
    (base : Nat → particles_field_computer R) (nprocs : Nat)
    (partition_owner : Int → Option Nat) (dt : R) (ranks w : Nat → particles_system R)
    (h : completeLoop_on_all_ranks base nprocs partition_owner dt ranks = some w) :
    routable nprocs partition_owner (fun q =>
        particles_system.move (base q) dt (particles_system.compute (base q) (ranks q))) = true ∧
      w = fun r => particles_system.shift_rhs_vectors (particles_system.inc_step_idx
        (particles_system.redistribute
          (redistributor (base r) nprocs partition_owner (fun q =>
            particles_system.move (base q) dt (particles_system.compute (base q) (ranks q))) r)
          (particles_system.move (base r) dt
            (particles_system.compute (base r) (ranks r))))) := by
  unfold completeLoop_on_all_ranks at h
  simp only at h
  split at h
  · rename_i hr
    refine ⟨hr, ?_⟩
    injection h with h
    rw [← h]
    rfl
  · exact absurd h (by simp)

/-- One step of all ranks leaves the division of the slab axis as it is. -/
theorem slab_partition_completeLoop {R : Type} [LinearOrderedField R] [FloorRing R]
    (base : Nat → particles_field_computer R) (nprocs : Nat)
    (partition_owner : Int → Option Nat) (x0 W dt : R) (ranks w : Nat → particles_system R)
    (hlayout : slab_partition nprocs partition_owner x0 W ranks)
    (h : completeLoop_on_all_ranks base nprocs partition_owner dt ranks = some w) :
    slab_partition nprocs partition_owner x0 W w := by
  obtain ⟨_, rfl⟩ := completeLoop_on_all_ranks_eq base nprocs partition_owner dt ranks w h
  have hm := slab_partition_move_compute base nprocs partition_owner x0 W dt ranks hlayout
  refine ⟨hlayout.1, fun r hr => ?_⟩
  have h := hm.2 r hr
  unfold particles_system.shift_rhs_vectors particles_system.inc_step_idx
    particles_system.redistribute
  simp only
  split <;> exact h

/-- The moved particle of the scenario is at `7.9` on rank 0 and rank 1 holds nothing. -/
theorem scenario_moved_eval :
    (scenario_moved 0).my_particles_positions = [0, 0, 79 / 10] ∧
      (scenario_moved 1).my_particles_positions = [] ∧
      (scenario_moved 0).my_nb_particles = 1 ∧ (scenario_moved 1).my_nb_particles = 0 := by
  refine ⟨?_, ?_, rfl, rfl⟩
  · simp [scenario_moved, particles_system.move, scenario_computer, adams_bashforth_computer,
      adams_bashforth_move, scenario_ranks, particles_system.move_order,
      adams_bashforth_coefficients, List.range_succ]
    norm_num
  · simp [scenario_moved, particles_system.move, scenario_computer, adams_bashforth_computer,
      adams_bashforth_move, scenario_ranks]

/-- The exchange of the scenario: one particle, with destination rank 1. -/
theorem scenario_exchange_pool :
    exchange_pool 2 scenario_owner scenario_moved =
      [(some 1, { index := 7, x := 0, y := 0, z := 79 / 10, rhs := [(0, 0, 3)] })] := by
  have h := scenario_moved_eval
  have hfl : Int.floor ((79 / 10 : ℚ)) = 7 := by norm_num [Int.floor_eq_iff]
  simp [exchange_pool, List.range_succ, particles_system.local_particles,
    particles_system.particle_at, particles_system.destination, classify, h.1, h.2.1, h.2.2.1,
    h.2.2.2, IDX_X, IDX_Y, IDX_Z]
  simp [scenario_moved, particles_system.move, scenario_ranks, hfl, scenario_owner]

/-- C12: after `redistribute()` ran on all ranks, with the redistributor of the spec, every
particle held by a rank has its slab-axis coordinate inside the interval of that rank,
`low <= z < up`. No bound on the displacement of the step is assumed: a particle is routed
as soon as the partition→rank map knows the partition it reached. In the scenario of two
ranks owning `[0,5)` and `[5,10)`, the particle at `4.9` moved with velocity 3, `dt = 1` and
order 1 is at `7.9`, and after `redistribute()` rank 1 holds it and rank 0 holds nothing. -/
theorem redistribute_on_all_ranks_keeps_ownership {R : Type} [LinearOrderedField R]
    [FloorRing R] (base : Nat → particles_field_computer R) (nprocs : Nat)
    (partition_owner : Int → Option Nat) (x0 W : R) (ranks : Nat → particles_system R)
    (hlayout : slab_partition nprocs partition_owner x0 W ranks)
    (hroutable : routable nprocs partition_owner ranks = true) :
    (∃ w, redistribute_on_all_ranks base nprocs partition_owner ranks = some w ∧
      ∀ r, r < nprocs → ∀ i, i < (w r).my_nb_particles →
        (w r).my_spatial_low_limit ≤ ((w r).particle_at i).z ∧
          ((w r).particle_at i).z < (w r).my_spatial_up_limit) ∧
      (scenario_ranks 0).my_particles_positions = [0, 0, 49 / 10] ∧
      (scenario_moved 0).my_particles_positions = [0, 0, 79 / 10] ∧
      ∃ w, redistribute_on_all_ranks (fun _ => scenario_computer) 2 scenario_owner
          scenario_moved = some w ∧
        (w 1).my_nb_particles = 1 ∧ (w 1).my_particles_positions_indexes = [7] ∧
        (w 1).my_particles_positions = [0, 0, 79 / 10] ∧
        (w 0).my_nb_particles = 0 ∧ (w 0).my_particles_positions_indexes = [] := by
  refine ⟨⟨_, if_pos hroutable, ?_⟩, rfl, scenario_moved_eval.1, ?_⟩
  · intro r hr i hi
    obtain ⟨hw, hlow, hup, _, _⟩ := hlayout.2 r hr
    have hz : ((particles_system.redistribute
        (redistributor (base r) nprocs partition_owner ranks r) (ranks r)).particle_at i).z =
        ((bucketed (ranks r) (incoming nprocs partition_owner ranks r)).getD i
          ⟨0, 0, 0, 0, []⟩).z :=
      getD_flatMap_triple (fun p : particle R => p.x) (fun p => p.y) (fun p => p.z) 0
        ⟨0, 0, 0, 0, []⟩ _ i hi
    have hmem : (bucketed (ranks r) (incoming nprocs partition_owner ranks r)).getD i
        ⟨0, 0, 0, 0, []⟩ ∈ incoming nprocs partition_owner ranks r := by
      apply (bucketed_perm nprocs partition_owner x0 W ranks hlayout r hr).subset
      have hi' : i < (bucketed (ranks r) (incoming nprocs partition_owner ranks r)).length := hi
      rw [List.getD_eq_getElem?_getD, List.getElem?_eq_getElem hi']
      exact List.getElem_mem hi'
    obtain ⟨h1, h2⟩ := incoming_partition nprocs partition_owner x0 W ranks hlayout r hr _ hmem
    have hb := floor_partition_bounds x0 W _ hlayout.1 _ _ h1 h2
    rw [hz]
    show (ranks r).my_spatial_low_limit ≤ _ ∧ _ < (ranks r).my_spatial_up_limit
    rw [hlow, hup]
    exact hb
  · have hr : routable 2 scenario_owner scenario_moved = true := by
      simp [routable, scenario_exchange_pool]
    refine ⟨_, if_pos hr, ?_⟩
    simp [particles_system.redistribute, redistributor, routed, bucketed, incoming,
      scenario_exchange_pool, scenario_moved, particles_system.move, scenario_ranks, classify,
      List.range_succ]
    norm_num [Int.floor_eq_iff]

/-- One step of all ranks permutes the ids held by the ranks. -/
theorem all_ids_completeLoop {R : Type} [LinearOrderedField R] [FloorRing R]
    (base : Nat → particles_field_computer R) (nprocs : Nat)
    (partition_owner : Int → Option Nat) (x0 W dt : R) (ranks w : Nat → particles_system R)
    (hlayout : slab_partition nprocs partition_owner x0 W ranks)
    (h : completeLoop_on_all_ranks base nprocs partition_owner dt ranks = some w) :
    List.Perm (all_ids nprocs w) (all_ids nprocs ranks) := by
  obtain ⟨hr, rfl⟩ := completeLoop_on_all_ranks_eq base nprocs partition_owner dt ranks w h
  have hm := slab_partition_move_compute base nprocs partition_owner x0 W dt ranks hlayout
  have hp := all_ids_redistributed base nprocs partition_owner x0 W _
    (fun _ s => particles_system.shift_rhs_vectors (particles_system.inc_step_idx s))
    (fun _ s => local_ids_shift_inc s)
    (fun r => particles_system.move (base r) dt (particles_system.compute (base r) (ranks r)))
    hm hr
  refine hp.trans ?_
  have e : (all_ids nprocs fun q =>
      particles_system.move (base q) dt (particles_system.compute (base q) (ranks q))) =
      all_ids nprocs ranks := by
    unfold all_ids
    congr 1
    funext q
    exact local_ids_move_compute (base q) dt (ranks q)
  rw [e]

/-- After any number of steps the division of the slab axis is the initial one and the ids held
by the ranks are a permutation of the ids seeded. -/
theorem after_steps_on_all_ranks_invariant {R : Type} [LinearOrderedField R] [FloorRing R]
    (base : Nat → particles_field_computer R) (nprocs : Nat)
    (partition_owner : Int → Option Nat) (x0 W dt : R) (ranks : Nat → particles_system R)
    (hlayout : slab_partition nprocs partition_owner x0 W ranks) :
    ∀ (n : Nat) (w : Nat → particles_system R),
      after_steps_on_all_ranks base nprocs partition_owner dt ranks n = some w →
        slab_partition nprocs partition_owner x0 W w ∧
          List.Perm (all_ids nprocs w) (all_ids nprocs ranks)
  | 0, w, h => by
    injection h with h
    subst h
    exact ⟨hlayout, List.Perm.refl _⟩
  | n + 1, w, h => by
    unfold after_steps_on_all_ranks at h
    cases hprev : after_steps_on_all_ranks base nprocs partition_owner dt ranks n with
    | none => rw [hprev] at h; exact absurd h (by simp)
    | some v =>
      rw [hprev] at h
      have ih := after_steps_on_all_ranks_invariant base nprocs partition_owner x0 W dt ranks
        hlayout n v hprev
      exact ⟨slab_partition_completeLoop base nprocs partition_owner x0 W dt v w ih.1 h,
        (all_ids_completeLoop base nprocs partition_owner x0 W dt v w ih.1 h).trans ih.2⟩

/-- C13: with the redistributor of the spec, for every number of steps the number of particles
held by all ranks together equals the number seeded, the ids held are a permutation of the ids
seeded, and so no id is held twice, on one rank or on two, when the seeded ids were distinct.
The same holds for a single `redistribute()` on all ranks, which returns as soon as every
particle has a destination, and a further step returns under that same condition on the moved
particles. -/
theorem after_steps_on_all_ranks_conserves_particles {R : Type} [LinearOrderedField R]
    [FloorRing R] (base : Nat → particles_field_computer R) (nprocs : Nat)
    (partition_owner : Int → Option Nat) (x0 W dt : R) (ranks : Nat → particles_system R)
    (hlayout : slab_partition nprocs partition_owner x0 W ranks) :
    (∀ (n : Nat) (w : Nat → particles_system R),
      after_steps_on_all_ranks base nprocs partition_owner dt ranks n = some w →
        total_particles nprocs w = total_particles nprocs ranks ∧
          List.Perm (all_ids nprocs w) (all_ids nprocs ranks) ∧
          ((all_ids nprocs ranks).Nodup → (all_ids nprocs w).Nodup)) ∧
      (routable nprocs partition_owner ranks = true →
        ∃ w, redistribute_on_all_ranks base nprocs partition_owner ranks = some w ∧
          total_particles nprocs w = total_particles nprocs ranks ∧
          List.Perm (all_ids nprocs w) (all_ids nprocs ranks) ∧
          ((all_ids nprocs ranks).Nodup → (all_ids nprocs w).Nodup)) ∧
      (∀ (n : Nat) (w : Nat → particles_system R),
        after_steps_on_all_ranks base nprocs partition_owner dt ranks n = some w →
        routable nprocs partition_owner (fun q => particles_system.move (base q) dt
          (particles_system.compute (base q) (w q))) = true →
        ∃ w', after_steps_on_all_ranks base nprocs partition_owner dt ranks (n + 1) =
          some w') := by
  refine ⟨fun n w h => ?_, fun hr => ⟨_, if_pos hr, ?_⟩, fun n w h hr => ?_⟩
  · have hp := (after_steps_on_all_ranks_invariant base nprocs partition_owner x0 W dt ranks
      hlayout n w h).2
    refine ⟨?_, hp, fun hn => hp.nodup_iff.mpr hn⟩
    rw [total_particles_eq_length, total_particles_eq_length, hp.length_eq]
  · have hp := all_ids_redistributed base nprocs partition_owner x0 W ranks (fun _ s => s)
      (fun _ _ => rfl) ranks hlayout hr
    refine ⟨?_, hp, fun hn => hp.nodup_iff.mpr hn⟩
    rw [total_particles_eq_length, total_particles_eq_length, hp.length_eq]
  · have e : after_steps_on_all_ranks base nprocs partition_owner dt ranks (n + 1) =
        completeLoop_on_all_ranks base nprocs partition_owner dt w := by
      show (match after_steps_on_all_ranks base nprocs partition_owner dt ranks n with
        | none => none
        | some w => completeLoop_on_all_ranks base nprocs partition_owner dt w) = _
      rw [h]
    rw [e]
    exact ⟨_, if_pos hr⟩

/-! ## Theorems: the row-major sample index -/

/-- A number written as `a*s + b` with a digit `0 <= b < s` determines `a` and `b`. -/
theorem digit_unique (s a b a' b' : Int) (hb0 : 0 ≤ b) (hb : b < s) (hb0' : 0 ≤ b')
    (hb' : b' < s) (h : a * s + b = a' * s + b') : a = a' ∧ b = b' := by
  have hs : s ≠ 0 := by omega
  have e1 : (b + a * s) % s = b := by
    rw [Int.add_mul_emod_self, Int.emod_eq_of_lt hb0 hb]
  have e2 : (b' + a' * s) % s = b' := by
    rw [Int.add_mul_emod_self, Int.emod_eq_of_lt hb0' hb']
  have hbb : b = b' := by
    rw [← e1, ← e2, add_comm b, add_comm b', h]
  subst hbb
  have h3 : a * s = a' * s := by omega
  exact ⟨Int.eq_of_mul_eq_mul_right hs h3, rfl⟩

/-- C21: the flat index `tindex` of `operator()` is `row_major_index` at the plane `xg[2]+iz`
and the two wrapped in-plane indices, which lie in `[0, sizes[1])` and `[0, sizes[2])`; and
`row_major_index` is the row-major index of the layout
`[slab-axis][second-axis][third-axis][component]`: on indices with `0 <= y < sizes[1]`,
`0 <= x < sizes[2]` and `c < 3` it is injective in `(z, y, x, c)`, it takes a value in
`[0, n*sizes[1]*sizes[2]*3)` exactly when `0 <= z < n`, and every number of
`[0, n*sizes[1]*sizes[2]*3)` is the index of such a point. -/
theorem tindex_is_row_major (D : field_descriptor) (hs1 : 0 < D.sizes 1)
    (hs2 : 0 < D.sizes 2) :
    (∀ (xg : Fin 3 → Int) (iz iy ix : Int) (c : Fin 3),
      tindex D xg iz iy ix c =
        row_major_index D (xg 2 + iz) (MOD (xg 1 + iy) (D.sizes 1))
          (MOD (xg 0 + ix) (D.sizes 2)) c ∧
      0 ≤ MOD (xg 1 + iy) (D.sizes 1) ∧ MOD (xg 1 + iy) (D.sizes 1) < D.sizes 1 ∧
      0 ≤ MOD (xg 0 + ix) (D.sizes 2) ∧ MOD (xg 0 + ix) (D.sizes 2) < D.sizes 2) ∧
    (∀ (z y x z' y' x' : Int) (c c' : Fin 3),
      0 ≤ y → y < D.sizes 1 → 0 ≤ x → x < D.sizes 2 →
      0 ≤ y' → y' < D.sizes 1 → 0 ≤ x' → x' < D.sizes 2 →
      row_major_index D z y x c = row_major_index D z' y' x' c' →
        z = z' ∧ y = y' ∧ x = x' ∧ c = c') ∧
    (∀ (n : Nat) (z y x : Int) (c : Fin 3),
      0 ≤ y → y < D.sizes 1 → 0 ≤ x → x < D.sizes 2 →
      ((0 ≤ row_major_index D z y x c ∧
          row_major_index D z y x c < (n : Int) * D.sizes 1 * D.sizes 2 * 3) ↔
        (0 ≤ z ∧ z < (n : Int)))) ∧
    (∀ (n : Nat) (k : Int), 0 ≤ k → k < (n : Int) * D.sizes 1 * D.sizes 2 * 3 →
      ∃ (z y x : Int) (c : Fin 3), 0 ≤ z ∧ z < (n : Int) ∧ 0 ≤ y ∧ y < D.sizes 1 ∧
        0 ≤ x ∧ x < D.sizes 2 ∧ row_major_index D z y x c = k) := by
  have hblock : ∀ (z y x : Int) (c : Fin 3), 0 ≤ y → y < D.sizes 1 → 0 ≤ x → x < D.sizes 2 →
      z * (D.sizes 1 * D.sizes 2 * 3) ≤ row_major_index D z y x c ∧
        row_major_index D z y x c < (z + 1) * (D.sizes 1 * D.sizes 2 * 3) := by
    intro z y x c hy0 hy hx0 hx
    have hc := c.isLt
    unfold row_major_index
    have h2 : 0 ≤ y * D.sizes 2 := mul_nonneg hy0 (le_of_lt hs2)
    have h3 : (y + 1) * D.sizes 2 ≤ D.sizes 1 * D.sizes 2 :=
      mul_le_mul_of_nonneg_right (by omega) (le_of_lt hs2)
    constructor
    · nlinarith
    · nlinarith
  have hpos : 0 < D.sizes 1 * D.sizes 2 * 3 := by positivity
  refine ⟨?_, ?_, ?_, ?_⟩
  · intro xg iz iy ix c
    exact ⟨rfl, Int.emod_nonneg _ (ne_of_gt hs1), Int.emod_lt_of_pos _ hs1,
      Int.emod_nonneg _ (ne_of_gt hs2), Int.emod_lt_of_pos _ hs2⟩
  · intro z y x z' y' x' c c' hy0 hy hx0 hx hy0' hy' hx0' hx' h
    unfold row_major_index at h
    have hc := c.isLt
    have hc' := c'.isLt
    obtain ⟨h1, hcc⟩ := digit_unique 3 _ _ _ _ (by omega) (by omega) (by omega) (by omega) h
    obtain ⟨h2, hxx⟩ := digit_unique _ _ _ _ _ hx0 hx hx0' hx' h1
    obtain ⟨h3, hyy⟩ := digit_unique _ _ _ _ _ hy0 hy hy0' hy' h2
    exact ⟨h3, hyy, hxx, Fin.ext (by omega)⟩
  · intro n z y x c hy0 hy hx0 hx
    obtain ⟨hlo, hhi⟩ := hblock z y x c hy0 hy hx0 hx
    have e : (n : Int) * D.sizes 1 * D.sizes 2 * 3 = (n : Int) * (D.sizes 1 * D.sizes 2 * 3) := by
      ring
    rw [e]
    constructor
    · rintro ⟨h0, hn⟩
      constructor
      · by_contra hz
        have : (z + 1) * (D.sizes 1 * D.sizes 2 * 3) ≤ 0 :=
          mul_nonpos_of_nonpos_of_nonneg (by omega) (le_of_lt hpos)
        omega
      · by_contra hz
        have : (n : Int) * (D.sizes 1 * D.sizes 2 * 3) ≤ z * (D.sizes 1 * D.sizes 2 * 3) :=
          mul_le_mul_of_nonneg_right (by omega) (le_of_lt hpos)
        omega
    · rintro ⟨h0, hn⟩
      constructor
      · have : 0 ≤ z * (D.sizes 1 * D.sizes 2 * 3) := mul_nonneg h0 (le_of_lt hpos)
        omega
      · have : (z + 1) * (D.sizes 1 * D.sizes 2 * 3) ≤ (n : Int) * (D.sizes 1 * D.sizes 2 * 3) :=
          mul_le_mul_of_nonneg_right (by omega) (le_of_lt hpos)
        omega
  · intro n k hk0 hk
    have hc0 : 0 ≤ k % 3 := Int.emod_nonneg _ (by decide)
    have hc3 : k % 3 < 3 := Int.emod_lt_of_pos _ (by decide)
    refine ⟨k / 3 / D.sizes 2 / D.sizes 1, k / 3 / D.sizes 2 % D.sizes 1, k / 3 % D.sizes 2,
      ⟨(k % 3).toNat, by omega⟩, ?_, ?_, Int.emod_nonneg _ (ne_of_gt hs1),
      Int.emod_lt_of_pos _ hs1, Int.emod_nonneg _ (ne_of_gt hs2), Int.emod_lt_of_pos _ hs2, ?_⟩
    · exact Int.ediv_nonneg (Int.ediv_nonneg (Int.ediv_nonneg hk0 (by decide)) (le_of_lt hs2))
        (le_of_lt hs1)
    · apply Int.ediv_lt_of_lt_mul hs1
      apply Int.ediv_lt_of_lt_mul hs2
      apply Int.ediv_lt_of_lt_mul (by decide)
      exact hk
    · unfold row_major_index
      have e1 := Int.ediv_add_emod (k / 3 / D.sizes 2) (D.sizes 1)
      have e2 := Int.ediv_add_emod (k / 3) (D.sizes 2)
      have e3 := Int.ediv_add_emod k 3
      have e4 : (((⟨(k % 3).toNat, by omega⟩ : Fin 3) : Nat) : Int) = k % 3 := by
        show (((k % 3).toNat : Nat) : Int) = k % 3
        omega
      rw [e4, mul_comm (k / 3 / D.sizes 2 / D.sizes 1), e1, mul_comm (k / 3 / D.sizes 2), e2,
        mul_comm (k / 3)]
      exact e3

/-! ## Theorems: sums of weights over the stencil -/

/-- The sum over the stencil offsets `i` of a weight taken at position `i + N` is the sum of
the `2N+2` weights of the array. -/
theorem stencil_weight_sum {R : Type} [AddCommMonoid R] (N : Nat) (w : Nat → R) :
    ∑ i ∈ Finset.Icc (-(N : Int)) ((N : Int) + 1), w (i + N).toNat =
      ∑ j ∈ Finset.range (2 * N + 2), w j := by
  rw [← stencil_sum N (fun i => w (i + N).toNat)]
  unfold stencil_offsets
  rw [List.map_map, sum_map_range_eq_finset_sum]
  apply Finset.sum_congr rfl
  intro j _
  show w (((j : Int) - (N : Int)) + N).toNat = w j
  congr 1
  omega

/-- A triple stencil sum of products of a constant with three weights is the constant times
the product of the three sums of weights. -/
theorem stencil_sum_const {R : Type} [CommRing R] (N : Nat) (v : R) (bx by_ bz : Nat → R) :
    (∑ iz ∈ Finset.Icc (-(N : Int)) ((N : Int) + 1),
      ∑ iy ∈ Finset.Icc (-(N : Int)) ((N : Int) + 1),
        ∑ ix ∈ Finset.Icc (-(N : Int)) ((N : Int) + 1),
          v * (bz (iz + N).toNat * by_ (iy + N).toNat * bx (ix + N).toNat)) =
      v * ((∑ j ∈ Finset.range (2 * N + 2), bz j) * (∑ j ∈ Finset.range (2 * N + 2), by_ j) *
        (∑ j ∈ Finset.range (2 * N + 2), bx j)) := by
  rw [← stencil_weight_sum N bz, ← stencil_weight_sum N by_, ← stencil_weight_sum N bx]
  simp only [← Finset.mul_sum, ← Finset.sum_mul]

/-! ## Theorems: the swap callback -/

/-- After `std::swap(a[i], a[j])` inside the array, every entry is the one of the exchanged
position. -/
theorem getD_swap_at_slot {α : Type} (l : List α) (i j m : Nat) (d : α) (hi : i < l.length)
    (hj : j < l.length) : (swap_at l i j).getD m d = l.getD (swapped_slot i j m) d := by
  rw [getD_swap_at, if_pos ⟨hi, hj⟩]
  unfold swapped_slot
  by_cases h1 : m = i
  · subst h1
    by_cases h2 : m = j
    · subst h2; simp
    · simp [h2]
  · by_cases h2 : m = j
    · subst h2; simp [h1]
    · simp [h1, h2]

/-- Exchanging the three values of two particles: component `c` of the particle in slot `m`
is afterwards component `c` of the particle of the exchanged slot. -/
theorem getD_swap_particle {α : Type} (a : List α) (idx1 idx2 m c : Nat) (d : α)
    (h1 : idx1 * 3 + 2 < a.length) (h2 : idx2 * 3 + 2 < a.length) (hc : c < 3) :
    (swap_particle a idx1 idx2).getD (m * 3 + c) d =
      a.getD (swapped_slot idx1 idx2 m * 3 + c) d := by
  have e : swap_particle a idx1 idx2 =
      swap_at (swap_at (swap_at a (idx1 * 3 + 0) (idx2 * 3 + 0)) (idx1 * 3 + 1) (idx2 * 3 + 1))
        (idx1 * 3 + 2) (idx2 * 3 + 2) := rfl
  rw [e, getD_swap_at_slot _ _ _ _ _ (by simp only [length_swap_at]; omega)
      (by simp only [length_swap_at]; omega),
    getD_swap_at_slot _ _ _ _ _ (by simp only [length_swap_at]; omega)
      (by simp only [length_swap_at]; omega),
    getD_swap_at_slot _ _ _ _ _ (by omega) (by omega)]
  congr 1
  unfold swapped_slot
  split_ifs <;> omega

/-- Exchanging the three values of two particles keeps the length of the array. -/
theorem length_swap_particle {α : Type} (a : List α) (idx1 idx2 : Nat) :
    (swap_particle a idx1 idx2).length = a.length := by
  have e : swap_particle a idx1 idx2 =
      swap_at (swap_at (swap_at a (idx1 * 3 + 0) (idx2 * 3 + 0)) (idx1 * 3 + 1) (idx2 * 3 + 1))
        (idx1 * 3 + 2) (idx2 * 3 + 2) := rfl
  rw [e, length_swap_at, length_swap_at, length_swap_at]

namespace particles_system

variable {R : Type}

/-- The particle found in slot `m` after the bucketing routine exchanged the positions of two
slots and called the swap callback is the particle of the exchanged slot. -/
theorem particle_at_swapped [Zero R] (s : particles_system R) (idx1 idx2 m : Nat)
    (h1 : idx1 < s.my_nb_particles) (h2 : idx2 < s.my_nb_particles)
    (hidx : s.my_nb_particles ≤ s.my_particles_positions_indexes.length)
    (hrhs : ∀ slot ∈ s.my_particles_rhs, 3 * s.my_nb_particles ≤ slot.length)
    (hpos : 3 * s.my_nb_particles ≤ s.my_particles_positions.length) :
    particle_at (swap_callback
        { s with
          my_particles_positions := swap_particle s.my_particles_positions idx1 idx2 }
        idx1 idx2) m =
      particle_at s (swapped_slot idx1 idx2 m) := by
  unfold particle_at swap_callback
  simp only [particle.mk.injEq, IDX_X, IDX_Y, IDX_Z]
  refine ⟨getD_swap_at_slot _ _ _ _ _ (by omega) (by omega),
    getD_swap_particle _ _ _ _ _ _ (by omega) (by omega) (by omega),
    getD_swap_particle _ _ _ _ _ _ (by omega) (by omega) (by omega),
    getD_swap_particle _ _ _ _ _ _ (by omega) (by omega) (by omega), ?_⟩
  rw [List.map_map]
  apply List.map_congr_left
  intro slot hslot
  have hl := hrhs slot hslot
  show ((swap_particle slot idx1 idx2).getD (m * 3 + 0) 0,
      (swap_particle slot idx1 idx2).getD (m * 3 + 1) 0,
      (swap_particle slot idx1 idx2).getD (m * 3 + 2) 0) = _
  rw [getD_swap_particle _ _ _ _ _ _ (by omega) (by omega) (by omega),
    getD_swap_particle _ _ _ _ _ _ (by omega) (by omega) (by omega),
    getD_swap_particle _ _ _ _ _ _ (by omega) (by omega) (by omega)]

/-- C23: for every pair of local particle slots `idx1`, `idx2`, the swap callback of `init`
exchanges the ids of the two slots and, in every history slot, the three components of the two
particles; it leaves the id and the history entries of every other particle, the positions and
the particle count as they are. So when the bucketing routine exchanges the positions of the
two slots and calls the callback, the particle of slot `idx1` (id, position, every history
value) is afterwards in slot `idx2`, the one of slot `idx2` in slot `idx1`, and every other
particle is where it was. -/
theorem swap_callback_exchanges_ids_and_history [Zero R] (s : particles_system R)
    (idx1 idx2 : Nat)
    (h1 : idx1 < s.my_nb_particles) (h2 : idx2 < s.my_nb_particles)
    (hidx : s.my_nb_particles ≤ s.my_particles_positions_indexes.length)
    (hrhs : ∀ slot ∈ s.my_particles_rhs, 3 * s.my_nb_particles ≤ slot.length)
    (hpos : 3 * s.my_nb_particles ≤ s.my_particles_positions.length) :
    ((swap_callback s idx1 idx2).my_particles_positions_indexes.getD idx1 0 =
        s.my_particles_positions_indexes.getD idx2 0 ∧
      (swap_callback s idx1 idx2).my_particles_positions_indexes.getD idx2 0 =
        s.my_particles_positions_indexes.getD idx1 0 ∧
      ∀ m : Nat, m ≠ idx1 → m ≠ idx2 →
        (swap_callback s idx1 idx2).my_particles_positions_indexes.getD m 0 =
          s.my_particles_positions_indexes.getD m 0) ∧
    ((swap_callback s idx1 idx2).my_particles_rhs.length = s.my_particles_rhs.length ∧
      ∀ idx_rhs : Nat, idx_rhs < s.my_particles_rhs.length → ∀ idx_val : Nat, idx_val < 3 →
        ((swap_callback s idx1 idx2).my_particles_rhs.getD idx_rhs []).getD
            (idx1 * 3 + idx_val) 0 =
          (s.my_particles_rhs.getD idx_rhs []).getD (idx2 * 3 + idx_val) 0 ∧
        ((swap_callback s idx1 idx2).my_particles_rhs.getD idx_rhs []).getD
            (idx2 * 3 + idx_val) 0 =
          (s.my_particles_rhs.getD idx_rhs []).getD (idx1 * 3 + idx_val) 0 ∧
        ∀ m : Nat, m ≠ idx1 → m ≠ idx2 →
          ((swap_callback s idx1 idx2).my_particles_rhs.getD idx_rhs []).getD
              (m * 3 + idx_val) 0 =
            (s.my_particles_rhs.getD idx_rhs []).getD (m * 3 + idx_val) 0) ∧
    ((swap_callback s idx1 idx2).my_particles_positions = s.my_particles_positions ∧
      (swap_callback s idx1 idx2).my_nb_particles = s.my_nb_particles ∧
      (swap_callback s idx1 idx2).my_particles_positions_indexes.length =
        s.my_particles_positions_indexes.length) ∧
    (particle_at (swap_callback
        { s with
          my_particles_positions := swap_particle s.my_particles_positions idx1 idx2 }
        idx1 idx2) idx1 = particle_at s idx2 ∧
      particle_at (swap_callback
        { s with
          my_particles_positions := swap_particle s.my_particles_positions idx1 idx2 }
        idx1 idx2) idx2 = particle_at s idx1 ∧
      ∀ m : Nat, m ≠ idx1 → m ≠ idx2 →
        particle_at (swap_callback
          { s with
            my_particles_positions := swap_particle s.my_particles_positions idx1 idx2 }
          idx1 idx2) m = particle_at s m) := by
  have s1 : swapped_slot idx1 idx2 idx1 = idx2 := by unfold swapped_slot; simp
  have s2 : swapped_slot idx1 idx2 idx2 = idx1 := by
    unfold swapped_slot; split_ifs <;> omega
  have s3 : ∀ m : Nat, m ≠ idx1 → m ≠ idx2 → swapped_slot idx1 idx2 m = m := by
    intro m hm1 hm2; unfold swapped_slot; rw [if_neg hm1, if_neg hm2]
  refine ⟨⟨?_, ?_, ?_⟩, ⟨?_, ?_⟩, ⟨rfl, rfl, length_swap_at _ _ _⟩, ?_, ?_, ?_⟩
  · show (swap_at s.my_particles_positions_indexes idx1 idx2).getD idx1 0 = _
    rw [getD_swap_at_slot _ _ _ _ _ (by omega) (by omega), s1]
  · show (swap_at s.my_particles_positions_indexes idx1 idx2).getD idx2 0 = _
    rw [getD_swap_at_slot _ _ _ _ _ (by omega) (by omega), s2]
  · intro m hm1 hm2
    show (swap_at s.my_particles_positions_indexes idx1 idx2).getD m 0 = _
    rw [getD_swap_at_slot _ _ _ _ _ (by omega) (by omega), s3 m hm1 hm2]
  · show (s.my_particles_rhs.map fun slot => swap_particle slot idx1 idx2).length = _
    rw [List.length_map]
  · intro idx_rhs hk idx_val hv
    have e : (swap_callback s idx1 idx2).my_particles_rhs.getD idx_rhs [] =
        swap_particle (s.my_particles_rhs.getD idx_rhs []) idx1 idx2 := by
      show (s.my_particles_rhs.map fun slot => swap_particle slot idx1 idx2).getD idx_rhs [] = _
      rw [List.getD_eq_getElem?_getD, List.getD_eq_getElem?_getD, List.getElem?_map,
        List.getElem?_eq_getElem hk]
      rfl
    have hl : 3 * s.my_nb_particles ≤ (s.my_particles_rhs.getD idx_rhs []).length := by
      apply hrhs
      rw [List.getD_eq_getElem?_getD, List.getElem?_eq_getElem hk]
      exact List.getElem_mem hk
    rw [e]
    refine ⟨?_, ?_, ?_⟩
    · rw [getD_swap_particle _ _ _ _ _ _ (by omega) (by omega) hv, s1]
    · rw [getD_swap_particle _ _ _ _ _ _ (by omega) (by omega) hv, s2]
    · intro m hm1 hm2
      rw [getD_swap_particle _ _ _ _ _ _ (by omega) (by omega) hv, s3 m hm1 hm2]
  · rw [particle_at_swapped s idx1 idx2 idx1 h1 h2 hidx hrhs hpos, s1]
  · rw [particle_at_swapped s idx1 idx2 idx2 h1 h2 hidx hrhs hpos, s2]
  · intro m hm1 hm2
    rw [particle_at_swapped s idx1 idx2 m h1 h2 hidx hrhs hpos, s3 m hm1 hm2]

end particles_system

/-! ## Theorems: the ring of halo sources -/

/-- On a ring of `n` ranks, `p` is the successor of `k` exactly when `k` is the predecessor
of `p`. -/
theorem succ_mod_eq_iff (n k p : Nat) (hk : k < n) (hp : p < n) :
    (k + 1) % n = p ↔ k = (p + n - 1) % n := by
  have e1 : (k + 1) % n = if k + 1 < n then k + 1 else 0 := by
    split
    · rename_i h; exact Nat.mod_eq_of_lt h
    · rename_i h
      have : k + 1 = n := by omega
      rw [this, Nat.mod_self]
  have e2 : (p + n - 1) % n = if p = 0 then n - 1 else p - 1 := by
    split
    · rename_i h
      subst h
      rw [Nat.zero_add]
      exact Nat.mod_eq_of_lt (by omega)
    · rename_i h
      have : p + n - 1 = p - 1 + n := by omega
      rw [this, Nat.add_mod_right]
      exact Nat.mod_eq_of_lt (by omega)
  rw [e1, e2]
  split_ifs <;> omega

/-- A loop over `k < n` that emits one element for the `k` passing a test emits nothing when
no `k` passes. -/
theorem flatMap_range_none {α : Type} (P : Nat → Prop) [DecidablePred P] (g : Nat → α) :
    ∀ n : Nat, (∀ k, k < n → ¬ P k) →
      ((List.range n).flatMap fun k => if P k then [g k] else []) = [] := by
  intro n
  induction n with
  | zero => intro _; rfl
  | succ n ih =>
    intro h
    rw [List.range_succ, List.flatMap_append, ih (fun k hk => h k (by omega))]
    simp only [List.flatMap_cons, List.flatMap_nil, List.append_nil, List.nil_append]
    rw [if_neg (h n (by omega))]

/-- A loop over `k < n` that emits one element for the `k` passing a test emits exactly the
element of `k0` when `k0` is the one `k` that passes. -/
theorem flatMap_range_single {α : Type} (P : Nat → Prop) [DecidablePred P] (g : Nat → α)
    (k0 : Nat) :
    ∀ n : Nat, k0 < n → (∀ k, k < n → (P k ↔ k = k0)) →
      ((List.range n).flatMap fun k => if P k then [g k] else []) = [g k0] := by
  intro n
  induction n with
  | zero => intro h; omega
  | succ n ih =>
    intro hk0 h
    rw [List.range_succ, List.flatMap_append]
    simp only [List.flatMap_cons, List.flatMap_nil, List.append_nil]
    by_cases hn : k0 = n
    · subst hn
      rw [flatMap_range_none P g k0 (fun k hk hP => by
        have := (h k (by omega)).mp hP
        omega)]
      rw [if_pos ((h k0 (by omega)).mpr rfl)]
      rfl
    · rw [ih (by omega) (fun k hk => h k (by omega))]
      rw [if_neg (fun hP => hn ((h n (by omega)).mp hP).symm)]
      rfl

namespace slab_layout

variable {D : field_descriptor} {N : Nat}

/-- The rank the upper-slice loop picks as source for `r` is the next rank of the ring. -/
theorem upper_source_eq (L : slab_layout D N) (r : Nat) (hr : r < D.nprocs) :
    D.rank (Int.tmod (D.all_start0 r + D.all_size0 r) (D.sizes 0)) = (r + 1) % D.nprocs := by
  by_cases h : r + 1 < D.nprocs
  · have h1 := L.next r h
    have h2 := L.start_nonneg (r + 1) h
    have h3 := L.end_le (r + 1) h
    have h4 := L.size (r + 1) h
    rw [Nat.mod_eq_of_lt h, ← h1, Int.tmod_eq_of_lt h2 (by omega)]
    exact L.owner (r + 1) h _ (le_refl _) (by omega)
  · have hlast : r = D.nprocs - 1 := by omega
    have h0 : 0 < D.nprocs := by omega
    have h1 := L.last
    rw [← hlast] at h1
    have h4 := L.size 0 h0
    have h5 := L.end_le 0 h0
    have h6 := L.start_zero
    have e : r + 1 = D.nprocs := by omega
    rw [e, Nat.mod_self, h1, Int.tmod_self]
    exact L.owner 0 h0 _ (by omega) (by omega)

/-- The rank the lower-slice loop picks as source for `r` is the previous rank of the
ring. -/
theorem lower_source_eq (L : slab_layout D N) (r : Nat) (hr : r < D.nprocs) :
    D.rank (MOD (D.all_start0 r - 1) (D.sizes 0)) = (r + D.nprocs - 1) % D.nprocs := by
  unfold MOD
  cases r with
  | zero =>
    have h0 : D.nprocs - 1 < D.nprocs := by omega
    have h1 := L.last
    have h2 := L.start_nonneg _ h0
    have h4 := L.size _ h0
    rw [Nat.zero_add, Nat.mod_eq_of_lt h0, L.start_zero, ← Int.add_emod_self,
      Int.emod_eq_of_lt (by omega) (by omega)]
    exact L.owner _ h0 _ (by omega) (by omega)
  | succ r =>
    have h0 : r < D.nprocs := by omega
    have h1 := L.next r hr
    have h2 := L.start_nonneg r h0
    have h3 := L.end_le r h0
    have h4 := L.size r h0
    have e : r + 1 + D.nprocs - 1 = r + D.nprocs := by omega
    rw [e, Nat.add_mod_right, Nat.mod_eq_of_lt h0, h1, Int.emod_eq_of_lt (by omega) (by omega)]
    exact L.owner r h0 _ (by omega) (by omega)

end slab_layout

namespace interpolator

variable {R : Type}

/-- The sends of the upper-slice loop, one per destination whose source is this rank. -/
theorem upper_sends (I : interpolator R) :
    I.upper_slice_calls.filter mpi_call.is_send =
      (List.range I.unbuffered_descriptor.nprocs).flatMap fun rdst =>
        if I.unbuffered_descriptor.myrank = I.upper_rsrc rdst then
          [mpi_call.send 0 I.buffer_size rdst
            (message_tag I.unbuffered_descriptor.nprocs 0 (I.upper_rsrc rdst) rdst)]
        else [] := by
  unfold upper_slice_calls
  rw [List.filter_flatMap]
  congr 1
  funext rdst
  rw [List.filter_append]
  split_ifs <;> rfl

/-- The receives of the upper-slice loop, one for the destination that is this rank. -/
theorem upper_recvs (I : interpolator R) :
    I.upper_slice_calls.filter mpi_call.is_recv =
      (List.range I.unbuffered_descriptor.nprocs).flatMap fun rdst =>
        if I.unbuffered_descriptor.myrank = rdst then
          [mpi_call.recv (I.buffer_size + I.unbuffered_descriptor.local_size) I.buffer_size
            (I.upper_rsrc rdst)
            (message_tag I.unbuffered_descriptor.nprocs 0 (I.upper_rsrc rdst) rdst)]
        else [] := by
  unfold upper_slice_calls
  rw [List.filter_flatMap]
  congr 1
  funext rdst
  rw [List.filter_append]
  split_ifs <;> rfl

/-- The sends of the lower-slice loop, one per destination whose source is this rank. -/
theorem lower_sends (I : interpolator R) :
    I.lower_slice_calls.filter mpi_call.is_send =
      (List.range I.unbuffered_descriptor.nprocs).flatMap fun rdst =>
        if I.unbuffered_descriptor.myrank = I.lower_rsrc rdst then
          [mpi_call.send (I.unbuffered_descriptor.local_size - I.buffer_size) I.buffer_size rdst
            (message_tag I.unbuffered_descriptor.nprocs 1 (I.lower_rsrc rdst) rdst)]
        else [] := by
  unfold lower_slice_calls
  rw [List.filter_flatMap]
  congr 1
  funext rdst
  rw [List.filter_append]
  split_ifs <;> rfl

/-- The receives of the lower-slice loop, one for the destination that is this rank. -/
theorem lower_recvs (I : interpolator R) :
    I.lower_slice_calls.filter mpi_call.is_recv =
      (List.range I.unbuffered_descriptor.nprocs).flatMap fun rdst =>
        if I.unbuffered_descriptor.myrank = rdst then
          [mpi_call.recv 0 I.buffer_size (I.lower_rsrc rdst)
            (message_tag I.unbuffered_descriptor.nprocs 1 (I.lower_rsrc rdst) rdst)]
        else [] := by
  unfold lower_slice_calls
  rw [List.filter_flatMap]
  congr 1
  funext rdst
  rw [List.filter_append]
  split_ifs <;> rfl

/-- C25: when the slabs are contiguous in rank order, cover `[0, sizes[0])` and every rank holds
at least one plane, the source rank that `read_rFFTW` computes for the destination `r` is
`(r+1) mod nprocs` in the upper-slice loop and `(r-1+nprocs) mod nprocs` in the lower-slice
loop, on whichever rank it is computed. So in each loop every rank `p` makes exactly one send
and exactly one receive: in the upper-slice loop it sends to `(p-1+nprocs) mod nprocs` and
receives from `(p+1) mod nprocs`, in the lower-slice loop it sends to `(p+1) mod nprocs` and
receives from `(p-1+nprocs) mod nprocs`; with one rank, source and destination are that rank. -/
theorem halo_sources_are_ring_neighbours (ranks : Nat → interpolator R) (D : field_descriptor)
    (hD : slab_layout D 0)
    (hdesc : ∀ p, p < D.nprocs → (ranks p).unbuffered_descriptor = rank_descriptor D p) :
    (∀ p, p < D.nprocs → ∀ r, r < D.nprocs →
      (ranks p).upper_rsrc r = (r + 1) % D.nprocs ∧
      (ranks p).lower_rsrc r = (r + D.nprocs - 1) % D.nprocs) ∧
    (∀ p, p < D.nprocs →
      (ranks p).upper_slice_calls.filter mpi_call.is_send =
        [mpi_call.send 0 (ranks p).buffer_size ((p + D.nprocs - 1) % D.nprocs)
          (message_tag D.nprocs 0 p ((p + D.nprocs - 1) % D.nprocs))] ∧
      (ranks p).upper_slice_calls.filter mpi_call.is_recv =
        [mpi_call.recv ((ranks p).buffer_size + (ranks p).unbuffered_descriptor.local_size)
          (ranks p).buffer_size ((p + 1) % D.nprocs)
          (message_tag D.nprocs 0 ((p + 1) % D.nprocs) p)] ∧
      (ranks p).lower_slice_calls.filter mpi_call.is_send =
        [mpi_call.send ((ranks p).unbuffered_descriptor.local_size - (ranks p).buffer_size)
          (ranks p).buffer_size ((p + 1) % D.nprocs)
          (message_tag D.nprocs 1 p ((p + 1) % D.nprocs))] ∧
      (ranks p).lower_slice_calls.filter mpi_call.is_recv =
        [mpi_call.recv 0 (ranks p).buffer_size ((p + D.nprocs - 1) % D.nprocs)
          (message_tag D.nprocs 1 ((p + D.nprocs - 1) % D.nprocs) p)] ∧
      (ranks p).upper_slice_calls.countP mpi_call.is_send = 1 ∧
      (ranks p).upper_slice_calls.countP mpi_call.is_recv = 1 ∧
      (ranks p).lower_slice_calls.countP mpi_call.is_send = 1 ∧
      (ranks p).lower_slice_calls.countP mpi_call.is_recv = 1) ∧
    (D.nprocs = 1 → (ranks 0).upper_rsrc 0 = 0 ∧ (ranks 0).lower_rsrc 0 = 0) := by
  have hsrc : ∀ p, p < D.nprocs → ∀ r, r < D.nprocs →
      (ranks p).upper_rsrc r = (r + 1) % D.nprocs ∧
      (ranks p).lower_rsrc r = (r + D.nprocs - 1) % D.nprocs := by
    intro p hp r hr
    rw [upper_rsrc_eq _ D p r (hdesc p hp), lower_rsrc_eq _ D p r (hdesc p hp)]
    exact ⟨hD.upper_source_eq r hr, hD.lower_source_eq r hr⟩
  have hmy : ∀ p, p < D.nprocs → (ranks p).unbuffered_descriptor.myrank = p := by
    intro p hp; rw [hdesc p hp]; rfl
  have hnp : ∀ p, p < D.nprocs → (ranks p).unbuffered_descriptor.nprocs = D.nprocs := by
    intro p hp; rw [hdesc p hp]; rfl
  have hpred : ∀ p, p < D.nprocs → (p + D.nprocs - 1) % D.nprocs < D.nprocs :=
    fun p hp => Nat.mod_lt _ (by omega)
  have hsucc : ∀ p, p < D.nprocs → (p + 1) % D.nprocs < D.nprocs :=
    fun p hp => Nat.mod_lt _ (by omega)
  have hlists : ∀ p, p < D.nprocs →
      (ranks p).upper_slice_calls.filter mpi_call.is_send =
        [mpi_call.send 0 (ranks p).buffer_size ((p + D.nprocs - 1) % D.nprocs)
          (message_tag D.nprocs 0 p ((p + D.nprocs - 1) % D.nprocs))] ∧
      (ranks p).upper_slice_calls.filter mpi_call.is_recv =
        [mpi_call.recv ((ranks p).buffer_size + (ranks p).unbuffered_descriptor.local_size)
          (ranks p).buffer_size ((p + 1) % D.nprocs)
          (message_tag D.nprocs 0 ((p + 1) % D.nprocs) p)] ∧
      (ranks p).lower_slice_calls.filter mpi_call.is_send =
        [mpi_call.send ((ranks p).unbuffered_descriptor.local_size - (ranks p).buffer_size)
          (ranks p).buffer_size ((p + 1) % D.nprocs)
          (message_tag D.nprocs 1 p ((p + 1) % D.nprocs))] ∧
      (ranks p).lower_slice_calls.filter mpi_call.is_recv =
        [mpi_call.recv 0 (ranks p).buffer_size ((p + D.nprocs - 1) % D.nprocs)
          (message_tag D.nprocs 1 ((p + D.nprocs - 1) % D.nprocs) p)] := by
    intro p hp
    refine ⟨?_, ?_, ?_, ?_⟩
    · rw [upper_sends, hnp p hp, hmy p hp,
        flatMap_range_single _ _ ((p + D.nprocs - 1) % D.nprocs) D.nprocs (hpred p hp)]
      · rw [(hsrc p hp _ (hpred p hp)).1,
          ((succ_mod_eq_iff D.nprocs _ p (hpred p hp) hp).mpr rfl)]
      · intro k hk
        rw [(hsrc p hp k hk).1, ← succ_mod_eq_iff D.nprocs k p hk hp]
        exact eq_comm
    · rw [upper_recvs, hnp p hp, hmy p hp, flatMap_range_single _ _ p D.nprocs hp]
      · rw [(hsrc p hp p hp).1]
      · intro k hk
        exact eq_comm
    · rw [lower_sends, hnp p hp, hmy p hp,
        flatMap_range_single _ _ ((p + 1) % D.nprocs) D.nprocs (hsucc p hp)]
      · rw [(hsrc p hp _ (hsucc p hp)).2,
          ← ((succ_mod_eq_iff D.nprocs p _ hp (hsucc p hp)).mp rfl)]
      · intro k hk
        rw [(hsrc p hp k hk).2]
        constructor
        · intro h
          exact ((succ_mod_eq_iff D.nprocs p k hp hk).mpr h).symm
        · intro h
          exact (succ_mod_eq_iff D.nprocs p k hp hk).mp h.symm
    · rw [lower_recvs, hnp p hp, hmy p hp, flatMap_range_single _ _ p D.nprocs hp]
      · rw [(hsrc p hp p hp).2]
      · intro k hk
        exact eq_comm
  refine ⟨hsrc, fun p hp => ?_, fun h1 => ?_⟩
  · obtain ⟨h1, h2, h3, h4⟩ := hlists p hp
    refine ⟨h1, h2, h3, h4, ?_, ?_, ?_, ?_⟩
    · rw [List.countP_eq_length_filter, h1]; rfl
    · rw [List.countP_eq_length_filter, h2]; rfl
    · rw [List.countP_eq_length_filter, h3]; rfl
    · rw [List.countP_eq_length_filter, h4]; rfl
  · have h := hsrc 0 (by omega) 0 (by omega)
    rw [h1] at h
    exact h

end interpolator

/-! ## Theorems: Hermitian symmetry of a Fourier-space field -/

/-- Reading at a natural offset from the start of an array. -/
theorem read_at_nat {α : Type} [Zero α] (buf : List α) (k : Nat) :
    read_at buf 0 ((k : Nat) : Int) = buf.getD k 0 := by
  unfold read_at
  rw [if_pos (by omega)]
  congr 1
  omega

/-- Storing at a natural offset. -/
theorem store_at_nat {α : Type} (buf : List α) (k : Nat) (v : α) :
    store_at buf ((k : Nat) : Int) v = buf.set k v := by
  unfold store_at
  rw [if_pos (by omega)]
  congr 1

/-- A store keeps the length of the array. -/
theorem length_store_at {α : Type} (buf : List α) (i : Int) (v : α) :
    (store_at buf i v).length = buf.length := by
  unfold store_at
  split <;> simp

/-- The entry `k` after a store at the natural offset `j`. -/
theorem getD_store_at_nat {α : Type} [Zero α] (buf : List α) (j k : Nat) (v : α) :
    (store_at buf ((j : Nat) : Int) v).getD k 0 =
      if j = k ∧ k < buf.length then v else buf.getD k 0 := by
  rw [store_at_nat, List.getD_eq_getElem?_getD, List.getElem?_set]
  by_cases h : j = k
  · subst h
    by_cases hl : j < buf.length
    · simp [hl]
    · simp [hl, List.getD_eq_getElem?_getD, List.getElem?_eq_none (not_lt.mp hl)]
  · simp [h, List.getD_eq_getElem?_getD]

/-- A loop of stores `p[idx a] = val a`, the value being computed from entries that the loop
does not write: every position outside the set `W` of written positions keeps its entry, and
the position `idx a` ends with the value computed from the initial array. -/
theorem foldl_store {ι α : Type} [Zero α] (idx : ι → Nat) (val : ι → List α → α)
    (W : Nat → Prop) (d0 : List α) :
    ∀ (l : List ι), (∀ a ∈ l, W (idx a)) →
      (∀ a ∈ l, ∀ d : List α, (∀ k, ¬ W k → d.getD k 0 = d0.getD k 0) → val a d = val a d0) →
      (∀ a ∈ l, ∀ b ∈ l, idx a = idx b → val a d0 = val b d0) →
      ∀ d : List α, d.length = d0.length → (∀ k, ¬ W k → d.getD k 0 = d0.getD k 0) →
        (l.foldl (fun d a => store_at d ((idx a : Nat) : Int) (val a d)) d).length =
            d0.length ∧
          (∀ k, ¬ W k →
            (l.foldl (fun d a => store_at d ((idx a : Nat) : Int) (val a d)) d).getD k 0 =
              d0.getD k 0) ∧
          (∀ k, (∀ a ∈ l, idx a ≠ k) →
            (l.foldl (fun d a => store_at d ((idx a : Nat) : Int) (val a d)) d).getD k 0 =
              d.getD k 0) ∧
          (∀ a ∈ l, idx a < d0.length →
            (l.foldl (fun d a => store_at d ((idx a : Nat) : Int) (val a d)) d).getD (idx a) 0 =
              val a d0) := by
  intro l
  induction l with
  | nil =>
    intro _ _ _ d hlen hd
    exact ⟨hlen, hd, fun _ _ => rfl, fun a ha => absurd ha (List.not_mem_nil a)⟩
  | cons a l ih =>
    intro hW hval hsame d hlen hd
    rw [List.foldl_cons]
    have hva : val a d = val a d0 := hval a (List.mem_cons_self _ _) d hd
    have hd1 : ∀ k, ¬ W k → (store_at d ((idx a : Nat) : Int) (val a d)).getD k 0 =
        d0.getD k 0 := by
      intro k hk
      rw [getD_store_at_nat]
      have hne : ¬ (idx a = k ∧ k < d.length) := by
        rintro ⟨rfl, _⟩
        exact hk (hW a (List.mem_cons_self _ _))
      rw [if_neg hne]
      exact hd k hk
    obtain ⟨i1, i2, i3, i4⟩ := ih (fun b hb => hW b (List.mem_cons_of_mem _ hb))
      (fun b hb => hval b (List.mem_cons_of_mem _ hb))
      (fun b hb c hc => hsame b (List.mem_cons_of_mem _ hb) c (List.mem_cons_of_mem _ hc))
      (store_at d ((idx a : Nat) : Int) (val a d)) (by rw [length_store_at]; exact hlen) hd1
    refine ⟨i1, i2, ?_, ?_⟩
    · intro k hk
      rw [i3 k (fun b hb => hk b (List.mem_cons_of_mem _ hb)), getD_store_at_nat]
      have hne : ¬ (idx a = k ∧ k < d.length) := fun hh => hk a (List.mem_cons_self _ _) hh.1
      rw [if_neg hne]
    · intro b hb hbl
      rcases List.mem_cons.mp hb with rfl | hbl'
      · by_cases hex : ∃ c ∈ l, idx c = idx b
        · obtain ⟨c, hc, hcb⟩ := hex
          have h4 := i4 c hc (by rw [hcb]; exact hbl)
          rw [hcb] at h4
          rw [h4]
          exact hsame c (List.mem_cons_of_mem _ hc) b (List.mem_cons_self _ _) hcb
        · rw [i3 (idx b) (fun c hc hcb => hex ⟨c, hc, hcb⟩), getD_store_at_nat,
            if_pos ⟨rfl, by rw [hlen]; exact hbl⟩, hva]
      · exact i4 b hbl' hbl

/-- A loop nest over `ii` and `cc` is one loop over the pairs `(ii, cc)`. -/
theorem foldl_nested {α β γ : Type} (f : γ → α → β → γ) (l2 : List β) :
    ∀ (l1 : List α) (d : γ),
      l1.foldl (fun d i => l2.foldl (fun d c => f d i c) d) d =
        (l1.flatMap fun i => l2.map fun c => (i, c)).foldl (fun d p => f d p.1 p.2) d := by
  intro l1
  induction l1 with
  | nil => intro d; rfl
  | cons i l1 ih =>
    intro d
    rw [List.foldl_cons, ih, List.flatMap_cons, List.foldl_append, List.foldl_map]

/-- On the elements of the list, two loop bodies that agree give the same loop. -/
theorem foldl_congr_mem {α γ : Type} (f g : γ → α → γ) :
    ∀ (l : List α) (d : γ), (∀ a ∈ l, ∀ d, f d a = g d a) → l.foldl f d = l.foldl g d := by
  intro l
  induction l with
  | nil => intro _ _; rfl
  | cons a l ih =>
    intro d h
    rw [List.foldl_cons, List.foldl_cons, h a (List.mem_cons_self _ _)]
    exact ih _ (fun b hb => h b (List.mem_cons_of_mem _ hb))

/-- A natural number written as `a*n + b` with a digit `b < n` determines `a` and `b`. -/
theorem digit_unique_nat (n a b a' b' : Nat) (hb : b < n) (hb' : b' < n)
    (h : a * n + b = a' * n + b') : a = a' ∧ b = b' := by
  have h' : (a : Int) * n + b = (a' : Int) * n + b' := by exact_mod_cast h
  obtain ⟨e1, e2⟩ := digit_unique (n : Int) a b a' b' (by omega) (by omega) (by omega)
    (by omega) h'
  exact ⟨by exact_mod_cast e1, by exact_mod_cast e2⟩

/-- The pairs `(ii, cc)` of a loop nest. -/
theorem mem_pairs {α β : Type} (l1 : List α) (l2 : List β) (p : α × β) :
    p ∈ (l1.flatMap fun i => l2.map fun c => (i, c)) ↔ p.1 ∈ l1 ∧ p.2 ∈ l2 := by
  rw [List.mem_flatMap]
  constructor
  · rintro ⟨i, hi, hp⟩
    obtain ⟨c, hc, rfl⟩ := List.mem_map.mp hp
    exact ⟨hi, hc⟩
  · rintro ⟨h1, h2⟩
    exact ⟨p.1, h1, List.mem_map.mpr ⟨p.2, h2, rfl⟩⟩

/-- The position of an entry determines its local row, its second index and its component. -/
theorem local_index_inj (ncomp : Nat) (L : field_layout) (row ii cc row' ii' cc' : Nat)
    (hS2 : 0 < L.sizes 2) (hii : ii < L.sizes 1) (hii' : ii' < L.sizes 1)
    (hcc : cc < ncomp) (hcc' : cc' < ncomp)
    (h : local_index ncomp L row ii cc = local_index ncomp L row' ii' cc') :
    row = row' ∧ ii = ii' ∧ cc = cc' := by
  unfold local_index at h
  have h1 : (row * L.sizes 1 + ii) * L.sizes 2 * ncomp + cc =
      (row' * L.sizes 1 + ii') * L.sizes 2 * ncomp + cc' := by
    have e1 : ncomp * (row * L.sizes 1 + ii) * L.sizes 2 =
        (row * L.sizes 1 + ii) * L.sizes 2 * ncomp := by ring
    have e2 : ncomp * (row' * L.sizes 1 + ii') * L.sizes 2 =
        (row' * L.sizes 1 + ii') * L.sizes 2 * ncomp := by ring
    rw [← e1, ← e2]
    exact h
  obtain ⟨h2, hc⟩ := digit_unique_nat ncomp _ _ _ _ hcc hcc' h1
  have h3 := Nat.eq_of_mul_eq_mul_right hS2 h2
  obtain ⟨h4, hi⟩ := digit_unique_nat (L.sizes 1) _ _ _ _ hii hii' h3
  exact ⟨h4, hi, hc⟩

/-- The position of an entry lies in the part of the array that holds its local row. -/
theorem local_index_lt (ncomp : Nat) (L : field_layout) (row ii cc : Nat)
    (hS2 : 0 < L.sizes 2) (hii : ii < L.sizes 1) (hcc : cc < ncomp) :
    local_index ncomp L row ii cc < ncomp * ((row + 1) * L.sizes 1 * L.sizes 2) := by
  unfold local_index
  have h1 : (row * L.sizes 1 + ii + 1) * L.sizes 2 ≤ (row + 1) * L.sizes 1 * L.sizes 2 := by
    apply Nat.mul_le_mul_right
    have : (row + 1) * L.sizes 1 = row * L.sizes 1 + L.sizes 1 := by ring
    omega
  have h2 : ncomp * ((row * L.sizes 1 + ii) * L.sizes 2 + 1) ≤
      ncomp * ((row * L.sizes 1 + ii + 1) * L.sizes 2) := by
    apply Nat.mul_le_mul_left
    have : (row * L.sizes 1 + ii + 1) * L.sizes 2 =
        (row * L.sizes 1 + ii) * L.sizes 2 + L.sizes 2 := by ring
    omega
  have h3 := Nat.mul_le_mul_left ncomp h1
  have e1 : ncomp * (row * L.sizes 1 + ii) * L.sizes 2 =
      ncomp * ((row * L.sizes 1 + ii) * L.sizes 2) := by ring
  have e2 : ncomp * ((row * L.sizes 1 + ii) * L.sizes 2 + 1) =
      ncomp * ((row * L.sizes 1 + ii) * L.sizes 2) + ncomp := by ring
  omega

/-- The index expression of the copy into the buffer. -/
theorem index_fill (ncomp : Nat) (L : field_layout) (yy ii cc : Nat) (h : L.starts0 ≤ yy) :
    (ncomp : Int) * (((yy : Int) - (L.starts0 : Int)) * (L.sizes 1 : Int) + (ii : Int)) *
        (L.sizes 2 : Int) + (cc : Int) =
      ((local_index ncomp L (yy - L.starts0) ii cc : Nat) : Int) := by
  unfold local_index
  push_cast [Nat.cast_sub h]
  ring

/-- The index expression of the stores with `ii >= 1` into the destination row. -/
theorem index_store (ncomp : Nat) (L : field_layout) (yy ii cc : Nat) (hy : yy ≤ L.sizes 0)
    (h : L.starts0 ≤ L.sizes 0 - yy) :
    (ncomp : Int) * (((L.sizes 0 : Int) - (yy : Int) - (L.starts0 : Int)) * (L.sizes 1 : Int) +
        (ii : Int)) * (L.sizes 2 : Int) + (cc : Int) =
      ((local_index ncomp L (L.sizes 0 - yy - L.starts0) ii cc : Nat) : Int) := by
  unfold local_index
  push_cast [Nat.cast_sub h, Nat.cast_sub hy]
  ring

/-- The index expression of the stores with second index 0 into the destination row. -/
theorem index_store_zero (ncomp : Nat) (L : field_layout) (yy cc : Nat) (hy : yy ≤ L.sizes 0)
    (h : L.starts0 ≤ L.sizes 0 - yy) :
    (cc : Int) + (ncomp : Int) * ((L.sizes 0 : Int) - (yy : Int) - (L.starts0 : Int)) *
        (L.sizes 1 : Int) * (L.sizes 2 : Int) =
      ((local_index ncomp L (L.sizes 0 - yy - L.starts0) 0 cc : Nat) : Int) := by
  unfold local_index
  push_cast [Nat.cast_sub h, Nat.cast_sub hy]
  ring

/-- The index expression of the stores into row 0. -/
theorem index_row0_dst (ncomp : Nat) (L : field_layout) (ii cc : Nat) (h : ii ≤ L.sizes 1) :
    (cc : Int) + (ncomp : Int) * ((L.sizes 1 : Int) - (ii : Int)) * (L.sizes 2 : Int) =
      ((local_index ncomp L 0 (L.sizes 1 - ii) cc : Nat) : Int) := by
  unfold local_index
  push_cast [Nat.cast_sub h]
  ring

/-- The index expression of the reads from row 0. -/
theorem index_row0_src (ncomp : Nat) (L : field_layout) (ii cc : Nat) :
    (cc : Int) + (ncomp : Int) * (ii : Int) * (L.sizes 2 : Int) =
      ((local_index ncomp L 0 ii cc : Nat) : Int) := by
  unfold local_index
  push_cast
  ring

/-- The index expression of the reads from the buffer. -/
theorem index_buffer (ncomp S1 ii cc : Nat) (h : ii ≤ S1) :
    (ncomp : Int) * ((S1 : Int) - (ii : Int)) + (cc : Int) =
      ((ncomp * (S1 - ii) + cc : Nat) : Int) := by
  push_cast [Nat.cast_sub h]
  ring

namespace field

variable {R : Type}

/-- The buffer a rank has filled from its row `yy` holds, at `ncomp*ii + cc`, the entry of
that row with second index `ii` and component `cc`. -/
theorem symmetrize_fill_spec [Zero R] (ncomp : Nat) (L : field_layout)
    (data buffer : List (R × R)) (yy : Nat) (hst : L.starts0 ≤ yy)
    (hlen : buffer.length = ncomp * L.sizes 1) :
    (symmetrize_fill ncomp L data buffer yy).length = ncomp * L.sizes 1 ∧
      ∀ ii, ii < L.sizes 1 → ∀ cc, cc < ncomp →
        (symmetrize_fill ncomp L data buffer yy).getD (ncomp * ii + cc) 0 =
          data.getD (local_index ncomp L (yy - L.starts0) ii cc) 0 := by
  have e : symmetrize_fill ncomp L data buffer yy =
      ((List.range (L.sizes 1)).flatMap fun ii => (List.range ncomp).map fun cc => (ii, cc)).foldl
        (fun d p => store_at d ((ncomp * p.1 + p.2 : Nat) : Int)
          (data.getD (local_index ncomp L (yy - L.starts0) p.1 p.2) 0)) buffer := by
    unfold symmetrize_fill
    rw [foldl_nested (fun buffer (ii cc : Nat) =>
      store_at buffer ((ncomp : Int) * (ii : Int) + (cc : Int))
        (read_at data 0
          ((ncomp : Int) * (((yy : Int) - (L.starts0 : Int)) * (L.sizes 1 : Int) +
            (ii : Int)) * (L.sizes 2 : Int) + (cc : Int))))]
    apply foldl_congr_mem
    intro p _ d
    rw [index_fill ncomp L yy p.1 p.2 hst, read_at_nat]
    congr 1
  obtain ⟨i1, _, _, i4⟩ := foldl_store (fun p : Nat × Nat => ncomp * p.1 + p.2)
    (fun p _ => data.getD (local_index ncomp L (yy - L.starts0) p.1 p.2) 0) (fun _ => True)
    buffer
    ((List.range (L.sizes 1)).flatMap fun ii => (List.range ncomp).map fun cc => (ii, cc))
    (fun _ _ => trivial) (fun _ _ _ _ => rfl)
    (by
      intro a ha b hb hab
      have ha' := (mem_pairs _ _ a).mp ha
      have hb' := (mem_pairs _ _ b).mp hb
      have h1 := List.mem_range.mp ha'.2
      have h2 := List.mem_range.mp hb'.2
      have hab' : a.1 * ncomp + a.2 = b.1 * ncomp + b.2 := by
        have : ncomp * a.1 + a.2 = ncomp * b.1 + b.2 := hab
        rw [Nat.mul_comm a.1, Nat.mul_comm b.1]
        exact this
      obtain ⟨e1, e2⟩ := digit_unique_nat ncomp _ _ _ _ h1 h2 hab'
      show data.getD (local_index ncomp L (yy - L.starts0) a.1 a.2) 0 =
        data.getD (local_index ncomp L (yy - L.starts0) b.1 b.2) 0
      rw [e1, e2])
    buffer rfl (fun _ _ => rfl)
  rw [e]
  refine ⟨by rw [i1, hlen], fun ii hii cc hcc => ?_⟩
  have hmem : (ii, cc) ∈ ((List.range (L.sizes 1)).flatMap fun ii =>
      (List.range ncomp).map fun cc => (ii, cc)) :=
    (mem_pairs _ _ _).mpr ⟨List.mem_range.mpr hii, List.mem_range.mpr hcc⟩
  have hb : ncomp * ii + cc < buffer.length := by
    rw [hlen]
    have : ncomp * (ii + 1) ≤ ncomp * L.sizes 1 := Nat.mul_le_mul_left _ hii
    have e2 : ncomp * (ii + 1) = ncomp * ii + ncomp := by ring
    omega
  exact i4 (ii, cc) hmem hb

end field

namespace field

variable {R : Type}

/-- What the rank `rankdst` leaves in `data` after the two store loops of the iteration `yy`:
the entries of its row `sizes[0] - yy` are the conjugates of the buffer entries at the mirrored
second index, every other position is as before. -/
theorem symmetrize_store_spec [Zero R] [Neg R] (ncomp : Nat) (L : field_layout)
    (data buffer : List (R × R)) (yy : Nat) (hy : yy ≤ L.sizes 0)
    (hst : L.starts0 ≤ L.sizes 0 - yy) (hS1 : 0 < L.sizes 1) (hS2 : 0 < L.sizes 2)
    (hlen : ncomp * ((L.sizes 0 - yy - L.starts0 + 1) * L.sizes 1 * L.sizes 2) ≤ data.length) :
    (symmetrize_store ncomp L data buffer yy).length = data.length ∧
      (∀ ii, 1 ≤ ii → ii < L.sizes 1 → ∀ cc, cc < ncomp →
        (symmetrize_store ncomp L data buffer yy).getD
            (local_index ncomp L (L.sizes 0 - yy - L.starts0) ii cc) 0 =
          conj_entry (buffer.getD (ncomp * (L.sizes 1 - ii) + cc) 0)) ∧
      (∀ cc, cc < ncomp →
        (symmetrize_store ncomp L data buffer yy).getD
            (local_index ncomp L (L.sizes 0 - yy - L.starts0) 0 cc) 0 =
          conj_entry (buffer.getD cc 0)) ∧
      (∀ k, (∀ ii, ii < L.sizes 1 → ∀ cc, cc < ncomp →
          k ≠ local_index ncomp L (L.sizes 0 - yy - L.starts0) ii cc) →
        (symmetrize_store ncomp L data buffer yy).getD k 0 = data.getD k 0) := by
  have e : symmetrize_store ncomp L data buffer yy =
      (List.range ncomp).foldl
        (fun d cc => store_at d
          ((local_index ncomp L (L.sizes 0 - yy - L.starts0) 0 cc : Nat) : Int)
          (conj_entry (buffer.getD cc 0)))
        (((List.range' 1 (L.sizes 1 - 1)).flatMap fun ii =>
            (List.range ncomp).map fun cc => (ii, cc)).foldl
          (fun d p => store_at d
            ((local_index ncomp L (L.sizes 0 - yy - L.starts0) p.1 p.2 : Nat) : Int)
            (conj_entry (buffer.getD (ncomp * (L.sizes 1 - p.1) + p.2) 0))) data) := by
    unfold symmetrize_store
    simp only
    rw [foldl_nested (fun data (ii cc : Nat) =>
      store_at data
        ((ncomp : Int) * (((L.sizes 0 : Int) - (yy : Int) - (L.starts0 : Int)) *
          (L.sizes 1 : Int) + (ii : Int)) * (L.sizes 2 : Int) + (cc : Int))
        (conj_entry (read_at buffer 0
          ((ncomp : Int) * ((L.sizes 1 : Int) - (ii : Int)) + (cc : Int)))))]
    have e1 : ((List.range' 1 (L.sizes 1 - 1)).flatMap fun ii =>
          (List.range ncomp).map fun cc => (ii, cc)).foldl
        (fun d (p : Nat × Nat) => store_at d
          ((ncomp : Int) * (((L.sizes 0 : Int) - (yy : Int) - (L.starts0 : Int)) *
            (L.sizes 1 : Int) + (p.1 : Int)) * (L.sizes 2 : Int) + (p.2 : Int))
          (conj_entry (read_at buffer 0
            ((ncomp : Int) * ((L.sizes 1 : Int) - (p.1 : Int)) + (p.2 : Int))))) data =
        ((List.range' 1 (L.sizes 1 - 1)).flatMap fun ii =>
          (List.range ncomp).map fun cc => (ii, cc)).foldl
        (fun d p => store_at d
          ((local_index ncomp L (L.sizes 0 - yy - L.starts0) p.1 p.2 : Nat) : Int)
          (conj_entry (buffer.getD (ncomp * (L.sizes 1 - p.1) + p.2) 0))) data := by
      apply foldl_congr_mem
      intro p hp d
      have h1 := ((mem_pairs _ _ p).mp hp).1
      rw [List.mem_range'_1] at h1
      rw [index_store ncomp L yy p.1 p.2 hy hst, index_buffer ncomp (L.sizes 1) p.1 p.2 (by omega),
        read_at_nat]
    rw [e1]
    apply foldl_congr_mem
    intro cc _ d
    rw [index_store_zero ncomp L yy cc hy hst, read_at_nat]
  have hbound : ∀ ii, ii < L.sizes 1 → ∀ cc, cc < ncomp →
      local_index ncomp L (L.sizes 0 - yy - L.starts0) ii cc < data.length := by
    intro ii hii cc hcc
    have := local_index_lt ncomp L (L.sizes 0 - yy - L.starts0) ii cc hS2 hii hcc
    omega
  obtain ⟨a1, _, a3, a4⟩ := foldl_store
    (fun p : Nat × Nat => local_index ncomp L (L.sizes 0 - yy - L.starts0) p.1 p.2)
    (fun p _ => conj_entry (buffer.getD (ncomp * (L.sizes 1 - p.1) + p.2) 0)) (fun _ => True)
    data
    ((List.range' 1 (L.sizes 1 - 1)).flatMap fun ii => (List.range ncomp).map fun cc => (ii, cc))
    (fun _ _ => trivial) (fun _ _ _ _ => rfl)
    (by
      intro a ha b hb hab
      have ha' := (mem_pairs _ _ a).mp ha
      have hb' := (mem_pairs _ _ b).mp hb
      have h1 := List.mem_range'_1.mp ha'.1
      have h2 := List.mem_range'_1.mp hb'.1
      obtain ⟨_, e1, e2⟩ := local_index_inj ncomp L _ a.1 a.2 _ b.1 b.2 hS2 (by omega) (by omega)
        (List.mem_range.mp ha'.2) (List.mem_range.mp hb'.2) hab
      show conj_entry (buffer.getD (ncomp * (L.sizes 1 - a.1) + a.2) 0) =
        conj_entry (buffer.getD (ncomp * (L.sizes 1 - b.1) + b.2) 0)
      rw [e1, e2])
    data rfl (fun _ _ => rfl)
  obtain ⟨b1, _, b3, b4⟩ := foldl_store
    (fun cc : Nat => local_index ncomp L (L.sizes 0 - yy - L.starts0) 0 cc)
    (fun cc _ => conj_entry (buffer.getD cc 0)) (fun _ => True)
    (((List.range' 1 (L.sizes 1 - 1)).flatMap fun ii =>
        (List.range ncomp).map fun cc => (ii, cc)).foldl
      (fun d p => store_at d
        ((local_index ncomp L (L.sizes 0 - yy - L.starts0) p.1 p.2 : Nat) : Int)
        (conj_entry (buffer.getD (ncomp * (L.sizes 1 - p.1) + p.2) 0))) data)
    (List.range ncomp)
    (fun _ _ => trivial) (fun _ _ _ _ => rfl)
    (by
      intro a ha b hb hab
      obtain ⟨_, _, e2⟩ := local_index_inj ncomp L _ 0 a _ 0 b hS2 hS1 hS1
        (List.mem_range.mp ha) (List.mem_range.mp hb) hab
      show conj_entry (buffer.getD a 0) = conj_entry (buffer.getD b 0)
      rw [e2])
    _ rfl (fun _ _ => rfl)
  rw [e]
  refine ⟨by rw [b1, a1], ?_, ?_, ?_⟩
  · intro ii hii1 hii cc hcc
    rw [b3 _ (by
      intro c hc hne
      obtain ⟨_, e1, _⟩ := local_index_inj ncomp L _ 0 c _ ii cc hS2 hS1 hii
        (List.mem_range.mp hc) hcc hne
      omega)]
    exact a4 (ii, cc) ((mem_pairs _ _ _).mpr ⟨List.mem_range'_1.mpr (by omega),
      List.mem_range.mpr hcc⟩) (hbound ii hii cc hcc)
  · intro cc hcc
    exact b4 cc (List.mem_range.mpr hcc) (by rw [a1]; exact hbound 0 hS1 cc hcc)
  · intro k hk
    rw [b3 k (fun c hc hne => hk 0 hS1 c (List.mem_range.mp hc) hne.symm),
      a3 k (fun p hp hne => by
        have hp' := (mem_pairs _ _ p).mp hp
        have h1 := List.mem_range'_1.mp hp'.1
        exact hk p.1 (by omega) p.2 (List.mem_range.mp hp'.2) hne.symm)]

end field

/-- The loop `for (cc = 0; cc < n; cc++) data[cc][1] = 0.0`. -/
theorem foldl_zero_imag {R : Type} [Zero R] (d : List (R × R)) :
    ∀ n : Nat,
      ((List.range n).foldl
        (fun data (cc : Nat) => store_at data (cc : Int) ((read_at data 0 (cc : Int)).1, 0))
        d).length = d.length ∧
      ∀ k : Nat,
        ((List.range n).foldl
          (fun data (cc : Nat) => store_at data (cc : Int) ((read_at data 0 (cc : Int)).1, 0))
          d).getD k 0 =
          if k < n ∧ k < d.length then ((d.getD k 0).1, 0) else d.getD k 0 := by
  intro n
  induction n with
  | zero => exact ⟨rfl, fun k => by simp⟩
  | succ n ih =>
    obtain ⟨h1, h2⟩ := ih
    rw [List.range_succ, List.foldl_append]
    simp only [List.foldl_cons, List.foldl_nil]
    refine ⟨by rw [length_store_at, h1], fun k => ?_⟩
    rw [getD_store_at_nat, read_at_nat, h1, h2 n, h2 k]
    by_cases hk : n = k
    · subst hk
      by_cases hl : n < d.length
      · simp [hl]
      · simp [hl]
    · by_cases hkn : k < n
      · have : k < n + 1 := by omega
        simp [hk, hkn, this]
      · have : ¬ k < n + 1 := by omega
        simp [hk, hkn, this]

/-- An entry with second index at least 1 lies behind the first `ncomp` entries. -/
theorem local_index_ge (ncomp : Nat) (L : field_layout) (ii cc : Nat) (hS2 : 0 < L.sizes 2)
    (hii : 1 ≤ ii) : ncomp ≤ local_index ncomp L 0 ii cc := by
  unfold local_index
  have h1 : 1 ≤ (0 * L.sizes 1 + ii) * L.sizes 2 := by
    rw [Nat.zero_mul, Nat.zero_add]
    exact Nat.mul_pos (by omega) hS2
  have h2 := Nat.mul_le_mul_left ncomp h1
  have e : ncomp * (0 * L.sizes 1 + ii) * L.sizes 2 =
      ncomp * ((0 * L.sizes 1 + ii) * L.sizes 2) := by ring
  omega

/-- The first `ncomp` entries are the entries of local row 0 with second index 0. -/
theorem local_index_zero (ncomp : Nat) (L : field_layout) (cc : Nat) :
    local_index ncomp L 0 0 cc = cc := by
  unfold local_index
  simp

namespace field

variable {R : Type}

/-- What the block on row 0 leaves in the array of the rank that owns row 0. -/
theorem symmetrize_row0_spec [Zero R] [Neg R] (ncomp myrank : Nat) (L : field_layout)
    (data : List (R × R)) (hmy : myrank = L.rank0 0) (hS1 : 0 < L.sizes 1)
    (hS2 : 0 < L.sizes 2) (hlen : ncomp * (L.sizes 1 * L.sizes 2) ≤ data.length) :
    (symmetrize_row0 ncomp myrank L data).length = data.length ∧
      (∀ cc, cc < ncomp →
        (symmetrize_row0 ncomp myrank L data).getD cc 0 = ((data.getD cc 0).1, 0)) ∧
      (∀ ii, 1 ≤ ii → ii < L.sizes 1 / 2 → ∀ cc, cc < ncomp →
        (symmetrize_row0 ncomp myrank L data).getD (local_index ncomp L 0 (L.sizes 1 - ii) cc) 0 =
          conj_entry (data.getD (local_index ncomp L 0 ii cc) 0)) ∧
      (∀ k, ncomp ≤ k →
        (∀ ii, 1 ≤ ii → ii < L.sizes 1 / 2 → ∀ cc, cc < ncomp →
          k ≠ local_index ncomp L 0 (L.sizes 1 - ii) cc) →
        (symmetrize_row0 ncomp myrank L data).getD k 0 = data.getD k 0) := by
  obtain ⟨z1, z2⟩ := foldl_zero_imag data ncomp
  have e : symmetrize_row0 ncomp myrank L data =
      ((List.range' 1 (L.sizes 1 / 2 - 1)).flatMap fun ii =>
          (List.range ncomp).map fun cc => (ii, cc)).foldl
        (fun d p => store_at d ((local_index ncomp L 0 (L.sizes 1 - p.1) p.2 : Nat) : Int)
          (conj_entry (d.getD (local_index ncomp L 0 p.1 p.2) 0)))
        ((List.range ncomp).foldl
          (fun data (cc : Nat) => store_at data (cc : Int) ((read_at data 0 (cc : Int)).1, 0))
          data) := by
    unfold symmetrize_row0
    rw [if_pos hmy]
    simp only
    rw [foldl_nested (fun data (ii cc : Nat) =>
      store_at data
        ((cc : Int) + (ncomp : Int) * ((L.sizes 1 : Int) - (ii : Int)) * (L.sizes 2 : Int))
        (conj_entry (read_at data 0
          ((cc : Int) + (ncomp : Int) * (ii : Int) * (L.sizes 2 : Int)))))]
    apply foldl_congr_mem
    intro p hp d
    have h1 := ((mem_pairs _ _ p).mp hp).1
    rw [List.mem_range'_1] at h1
    rw [index_row0_dst ncomp L p.1 p.2 (by omega), index_row0_src, read_at_nat]
  have hhalf : L.sizes 1 / 2 * 2 ≤ L.sizes 1 := Nat.div_mul_le_self _ _
  have hbound : ∀ ii, ii < L.sizes 1 → ∀ cc, cc < ncomp →
      local_index ncomp L 0 ii cc < data.length := by
    intro ii hii cc hcc
    have := local_index_lt ncomp L 0 ii cc hS2 hii hcc
    rw [Nat.zero_add, Nat.one_mul] at this
    omega
  have hsrc : ∀ ii, 1 ≤ ii → ii < L.sizes 1 / 2 → ∀ cc, cc < ncomp →
      ¬ (∃ ii' cc', 1 ≤ ii' ∧ ii' < L.sizes 1 / 2 ∧ cc' < ncomp ∧
        local_index ncomp L 0 ii cc = local_index ncomp L 0 (L.sizes 1 - ii') cc') := by
    rintro ii h1 h2 cc hcc ⟨ii', cc', h1', h2', hcc', heq⟩
    obtain ⟨_, e1, _⟩ := local_index_inj ncomp L 0 ii cc 0 (L.sizes 1 - ii') cc' hS2 (by omega)
      (by omega) hcc hcc' heq
    omega
  obtain ⟨a1, a2, a3, a4⟩ := foldl_store
    (fun p : Nat × Nat => local_index ncomp L 0 (L.sizes 1 - p.1) p.2)
    (fun p d => conj_entry (d.getD (local_index ncomp L 0 p.1 p.2) 0))
    (fun k => ∃ ii' cc', 1 ≤ ii' ∧ ii' < L.sizes 1 / 2 ∧ cc' < ncomp ∧
      k = local_index ncomp L 0 (L.sizes 1 - ii') cc')
    ((List.range ncomp).foldl
      (fun data (cc : Nat) => store_at data (cc : Int) ((read_at data 0 (cc : Int)).1, 0)) data)
    ((List.range' 1 (L.sizes 1 / 2 - 1)).flatMap fun ii =>
      (List.range ncomp).map fun cc => (ii, cc))
    (by
      intro a ha
      have ha' := (mem_pairs _ _ a).mp ha
      have h1 := List.mem_range'_1.mp ha'.1
      exact ⟨a.1, a.2, h1.1, by omega, List.mem_range.mp ha'.2, rfl⟩)
    (by
      intro a ha d hd
      have ha' := (mem_pairs _ _ a).mp ha
      have h1 := List.mem_range'_1.mp ha'.1
      show conj_entry (d.getD (local_index ncomp L 0 a.1 a.2) 0) = conj_entry (_)
      rw [hd _ (hsrc a.1 h1.1 (by omega) a.2 (List.mem_range.mp ha'.2))])
    (by
      intro a ha b hb hab
      have ha' := (mem_pairs _ _ a).mp ha
      have hb' := (mem_pairs _ _ b).mp hb
      have h1 := List.mem_range'_1.mp ha'.1
      have h2 := List.mem_range'_1.mp hb'.1
      obtain ⟨_, e1, e2⟩ := local_index_inj ncomp L 0 (L.sizes 1 - a.1) a.2 0
        (L.sizes 1 - b.1) b.2 hS2 (by omega) (by omega)
        (List.mem_range.mp ha'.2) (List.mem_range.mp hb'.2) hab
      have e3 : a.1 = b.1 := by omega
      show conj_entry (_) = conj_entry (_)
      rw [e3, e2])
    _ rfl (fun _ _ => rfl)
  rw [e]
  refine ⟨by rw [a1, z1], ?_, ?_, ?_⟩
  · intro cc hcc
    have hcl : cc < data.length := by
      have := hbound 0 hS1 cc hcc
      rw [local_index_zero] at this
      exact this
    rw [a3 cc (by
      intro p hp hne
      have hp' := (mem_pairs _ _ p).mp hp
      have h1 := List.mem_range'_1.mp hp'.1
      have := local_index_ge ncomp L (L.sizes 1 - p.1) p.2 hS2 (by omega)
      have hne' : local_index ncomp L 0 (L.sizes 1 - p.1) p.2 = cc := hne
      omega), z2 cc, if_pos ⟨hcc, hcl⟩]
  · intro ii h1 h2 cc hcc
    have hmem : (ii, cc) ∈ ((List.range' 1 (L.sizes 1 / 2 - 1)).flatMap fun ii =>
        (List.range ncomp).map fun cc => (ii, cc)) :=
      (mem_pairs _ _ _).mpr ⟨List.mem_range'_1.mpr (by omega), List.mem_range.mpr hcc⟩
    have h4 := a4 (ii, cc) hmem (by rw [z1]; exact hbound _ (by omega) cc hcc)
    rw [h4]
    show conj_entry (_) = conj_entry (_)
    dsimp only
    rw [z2]
    have hge := local_index_ge ncomp L ii cc hS2 h1
    rw [if_neg (by omega)]
  · intro k hk hne
    rw [a3 k (by
      intro p hp hpk
      have hp' := (mem_pairs _ _ p).mp hp
      have h1 := List.mem_range'_1.mp hp'.1
      exact hne p.1 h1.1 (by omega) p.2 (List.mem_range.mp hp'.2) hpk.symm), z2 k,
      if_neg (by omega)]

/-- A rank that does not own row 0 leaves its array as it is in the block on row 0. -/
theorem symmetrize_row0_other [Zero R] [Neg R] (ncomp myrank : Nat) (L : field_layout)
    (data : List (R × R)) (hmy : myrank ≠ L.rank0 0) :
    symmetrize_row0 ncomp myrank L data = data := by
  unfold symmetrize_row0
  rw [if_neg hmy]

end field

/-- A received message that fills the whole buffer replaces its entries. -/
theorem getD_write_at_zero {α : Type} [Zero α] (buf msg : List α)
    (h : msg.length = buf.length) (k : Nat) :
    (write_at buf 0 msg).getD k 0 = msg.getD k 0 := by
  rw [List.getD_eq_getElem?_getD, List.getD_eq_getElem?_getD, getElem?_write_at]
  by_cases hk : k < buf.length
  · rw [if_pos ⟨by omega, by omega, hk⟩, Nat.sub_zero]
  · rw [if_neg (by omega), List.getElem?_eq_none (by omega), List.getElem?_eq_none (by omega)]

namespace field

variable {R : Type}

/-- The store of the destination rank, fed with a buffer that holds row `yy` of the source
rank. -/
theorem symmetrize_store_of_row [Zero R] [Neg R] (ncomp : Nat) (L : field_layout)
    (data buffer : List (R × R)) (yy : Nat) (src : Nat → Nat → R × R)
    (hy : yy ≤ L.sizes 0) (hst : L.starts0 ≤ L.sizes 0 - yy) (hS1 : 0 < L.sizes 1)
    (hS2 : 0 < L.sizes 2)
    (hlen : ncomp * ((L.sizes 0 - yy - L.starts0 + 1) * L.sizes 1 * L.sizes 2) ≤ data.length)
    (hbuf : ∀ ii, ii < L.sizes 1 → ∀ cc, cc < ncomp →
      buffer.getD (ncomp * ii + cc) 0 = src ii cc) :
    (symmetrize_store ncomp L data buffer yy).length = data.length ∧
      (∀ ii, ii < L.sizes 1 → ∀ cc, cc < ncomp →
        (symmetrize_store ncomp L data buffer yy).getD
            (local_index ncomp L (L.sizes 0 - yy - L.starts0) ii cc) 0 =
          conj_entry (src ((L.sizes 1 - ii) % L.sizes 1) cc)) ∧
      (∀ k, (∀ ii, ii < L.sizes 1 → ∀ cc, cc < ncomp →
          k ≠ local_index ncomp L (L.sizes 0 - yy - L.starts0) ii cc) →
        (symmetrize_store ncomp L data buffer yy).getD k 0 = data.getD k 0) := by
  obtain ⟨s1, s2, s3, s4⟩ := symmetrize_store_spec ncomp L data buffer yy hy hst hS1 hS2 hlen
  refine ⟨s1, ?_, s4⟩
  intro ii hii cc hcc
  by_cases h0 : ii = 0
  · subst h0
    rw [s3 cc hcc, Nat.sub_zero, Nat.mod_self, ← hbuf 0 hS1 cc hcc, Nat.mul_zero, Nat.zero_add]
  · rw [s2 ii (by omega) hii cc hcc, Nat.mod_eq_of_lt (by omega),
      hbuf (L.sizes 1 - ii) (by omega) cc hcc]

end field

/-- One iteration `yy` on all ranks: every rank completes it, only the rank that owns row
`sizes[0] - yy` changes its array, and there the entries of that row become the conjugates of
the entries of row `yy` as the owner of row `yy` holds them. -/
theorem symmetrize_step_spec {R : Type} [Zero R] [Neg R] (ncomp nprocs : Nat)
    (clayout : Nat → field_layout) (sizes rank0 : Nat → Nat)
    (hL : ∀ r, r < nprocs →
      (clayout r).sizes = sizes ∧ (clayout r).rank0 = rank0 ∧ (clayout r).myrank = r)
    (hS1 : 0 < sizes 1) (hS2 : 0 < sizes 2)
    (world : Nat → Option (List (R × R) × List (R × R))) (yy : Nat) (hyy : yy < sizes 0 / 2)
    (ds bs dt bt : List (R × R))
    (hs : rank0 yy < nprocs)
    (hws : world (rank0 yy) = some (ds, bs))
    (hwt : world (rank0 (sizes 0 - yy)) = some (dt, bt))
    (hbs : bs.length = ncomp * sizes 1)
    (hsts : (clayout (rank0 yy)).starts0 ≤ yy)
    (hstt : (clayout (rank0 (sizes 0 - yy))).starts0 ≤ sizes 0 - yy)
    (hlen : ncomp * ((sizes 0 - yy - (clayout (rank0 (sizes 0 - yy))).starts0 + 1) * sizes 1 *
      sizes 2) ≤ dt.length)
    (r : Nat) (hr : r < nprocs) (d b : List (R × R)) (hw : world r = some (d, b))
    (hb : b.length = ncomp * sizes 1) :
    ∃ d' b', symmetrize_on_all_ranks_step ncomp clayout world yy r = some (d', b') ∧
      b'.length = ncomp * sizes 1 ∧ d'.length = d.length ∧
      (r ≠ rank0 (sizes 0 - yy) → d' = d) ∧
      (r = rank0 (sizes 0 - yy) →
        (∀ ii, ii < sizes 1 → ∀ cc, cc < ncomp →
          d'.getD (local_index ncomp (clayout r) (sizes 0 - yy - (clayout r).starts0) ii cc) 0 =
            conj_entry (ds.getD (local_index ncomp (clayout (rank0 yy))
              (yy - (clayout (rank0 yy)).starts0) ((sizes 1 - ii) % sizes 1) cc) 0)) ∧
        (∀ k, (∀ ii, ii < sizes 1 → ∀ cc, cc < ncomp →
            k ≠ local_index ncomp (clayout r) (sizes 0 - yy - (clayout r).starts0) ii cc) →
          d'.getD k 0 = d.getD k 0)) := by
  obtain ⟨er1, er2, er3⟩ := hL r hr
  obtain ⟨es1, es2, es3⟩ := hL _ hs
  have hfill := field.symmetrize_fill_spec ncomp (clayout (rank0 yy)) ds bs yy hsts
    (by rw [es1]; exact hbs)
  rw [es1] at hfill
  obtain ⟨hf1, hf2⟩ := hfill
  have hhalf : sizes 0 / 2 * 2 ≤ sizes 0 := Nat.div_mul_le_self _ _
  -- what the store does on the destination rank
  have key : ∀ B : List (R × R), r = rank0 (sizes 0 - yy) →
      (∀ ii, ii < sizes 1 → ∀ cc, cc < ncomp → B.getD (ncomp * ii + cc) 0 =
        ds.getD (local_index ncomp (clayout (rank0 yy)) (yy - (clayout (rank0 yy)).starts0)
          ii cc) 0) →
      (field.symmetrize_store ncomp (clayout r) d B yy).length = d.length ∧
      (∀ ii, ii < sizes 1 → ∀ cc, cc < ncomp →
        (field.symmetrize_store ncomp (clayout r) d B yy).getD
            (local_index ncomp (clayout r) (sizes 0 - yy - (clayout r).starts0) ii cc) 0 =
          conj_entry (ds.getD (local_index ncomp (clayout (rank0 yy))
            (yy - (clayout (rank0 yy)).starts0) ((sizes 1 - ii) % sizes 1) cc) 0)) ∧
      (∀ k, (∀ ii, ii < sizes 1 → ∀ cc, cc < ncomp →
          k ≠ local_index ncomp (clayout r) (sizes 0 - yy - (clayout r).starts0) ii cc) →
        (field.symmetrize_store ncomp (clayout r) d B yy).getD k 0 = d.getD k 0) := by
    intro B hrt hB
    have hd : d = dt := by
      rw [hrt, hwt] at hw
      exact ((Prod.mk.injEq _ _ _ _).mp (Option.some.inj hw)).1.symm
    have := field.symmetrize_store_of_row ncomp (clayout r) d B yy
      (fun ii cc => ds.getD (local_index ncomp (clayout (rank0 yy))
        (yy - (clayout (rank0 yy)).starts0) ii cc) 0)
      (by rw [er1]; omega) (by rw [er1, hrt]; exact hstt) (by rw [er1]; exact hS1)
      (by rw [er1]; exact hS2) (by rw [er1, hd, hrt]; exact hlen) (by rw [er1]; exact hB)
    rw [er1] at this
    exact this
  unfold symmetrize_on_all_ranks_step
  simp only [hw, Option.some_bind]
  rw [er1, if_pos hyy]
  unfold field.symmetrize_iteration
  simp only [er1, er2, er3]
  by_cases hrt : r = rank0 (sizes 0 - yy)
  · by_cases hst : rank0 yy = rank0 (sizes 0 - yy)
    · -- the owner of both rows copies through its own buffer
      have hrs : r = rank0 yy := by rw [hst]; exact hrt
      have hd : (d, b) = (ds, bs) := by
        rw [hrs, hws] at hw
        exact (Option.some.inj hw).symm
      obtain ⟨hd1, hd2⟩ := (Prod.mk.injEq _ _ _ _).mp hd
      rw [if_pos hrs, if_neg (by rintro ⟨h1, _⟩; exact h1 hst), Option.map_some', if_pos hrt]
      obtain ⟨k1, k2, k3⟩ := key (field.symmetrize_fill ncomp (clayout r) d b yy) hrt
        (by
          intro ii hii cc hcc
          rw [hd1, hd2, hrs]
          exact hf2 ii hii cc hcc)
      refine ⟨_, _, rfl, ?_, k1, fun h => absurd hrt h, fun _ => ⟨k2, k3⟩⟩
      rw [hd1, hd2, hrs]
      exact hf1
    · -- the row travels from its owner to the destination rank
      have hrs : r ≠ rank0 yy := by rw [hrt]; exact fun h => hst h.symm
      rw [if_neg hrs, if_pos ⟨hst, hrt⟩]
      simp only [hws, Option.some_bind]
      rw [es1, if_pos hyy]
      unfold field.symmetrize_send
      rw [es1, es2, es3, if_pos ⟨rfl, hst⟩]
      simp only [Option.some_bind]
      rw [if_pos ⟨hrt.symm, trivial⟩]
      simp only
      rw [List.take_of_length_le (le_of_eq hf1), if_pos (le_of_eq hf1), Option.map_some',
        if_pos hrt]
      obtain ⟨k1, k2, k3⟩ := key
        (write_at b 0 (field.symmetrize_fill ncomp (clayout (rank0 yy)) ds bs yy)) hrt
        (by
          intro ii hii cc hcc
          rw [getD_write_at_zero _ _ (by rw [hf1, hb])]
          exact hf2 ii hii cc hcc)
      refine ⟨_, _, rfl, ?_, k1, fun h => absurd hrt h, fun _ => ⟨k2, k3⟩⟩
      rw [length_write_at, hb]
  · rw [if_neg (by rintro ⟨_, h⟩; exact hrt h), Option.map_some', if_neg hrt]
    refine ⟨_, _, rfl, ?_, rfl, fun _ => rfl, fun h => absurd h hrt⟩
    by_cases hrs : r = rank0 yy
    · have hd : (d, b) = (ds, bs) := by
        rw [hrs, hws] at hw
        exact (Option.some.inj hw).symm
      obtain ⟨hd1, hd2⟩ := (Prod.mk.injEq _ _ _ _).mp hd
      rw [if_pos hrs, hd1, hd2, hrs]
      exact hf1
    · rw [if_neg hrs]
      exact hb

/-- The first `m` iterations of the loop over `yy` on all ranks, started from the arrays `D0`:
every rank completes them; on the owner of a row `sizes[0] - yy` with `1 <= yy <= m` the
entries of that row are the conjugates of the entries of row `yy` in `D0`, mirrored in the
second index; every other position holds its entry of `D0`. -/
theorem symmetrize_loop_spec {R : Type} [Zero R] [Neg R] (ncomp nprocs : Nat)
    (clayout : Nat → field_layout) (sizes rank0 : Nat → Nat)
    (hL : ∀ r, r < nprocs →
      (clayout r).sizes = sizes ∧ (clayout r).rank0 = rank0 ∧ (clayout r).myrank = r)
    (hS1 : 0 < sizes 1) (hS2 : 0 < sizes 2)
    (D0 B0 : Nat → List (R × R))
    (hrows : ∀ z, z < sizes 0 → rank0 z < nprocs ∧ (clayout (rank0 z)).starts0 ≤ z ∧
      ncomp * ((z - (clayout (rank0 z)).starts0 + 1) * sizes 1 * sizes 2) ≤
        (D0 (rank0 z)).length)
    (hB0 : ∀ r, r < nprocs → (B0 r).length = ncomp * sizes 1)
    (w0 : Nat → Option (List (R × R) × List (R × R)))
    (hw0 : ∀ r, r < nprocs → w0 r = some (D0 r, B0 r)) :
    ∀ m, m + 1 ≤ sizes 0 / 2 ∨ m = 0 → ∀ r, r < nprocs →
      ∃ d b, (List.range' 1 m).foldl (symmetrize_on_all_ranks_step ncomp clayout) w0 r =
          some (d, b) ∧
        b.length = ncomp * sizes 1 ∧ d.length = (D0 r).length ∧
        (∀ yy, 1 ≤ yy → yy ≤ m → rank0 (sizes 0 - yy) = r →
          ∀ ii, ii < sizes 1 → ∀ cc, cc < ncomp →
            d.getD (local_index ncomp (clayout r) (sizes 0 - yy - (clayout r).starts0) ii cc)
                0 =
              conj_entry ((D0 (rank0 yy)).getD (local_index ncomp (clayout (rank0 yy))
                (yy - (clayout (rank0 yy)).starts0) ((sizes 1 - ii) % sizes 1) cc) 0)) ∧
        (∀ k, (∀ yy, 1 ≤ yy → yy ≤ m → rank0 (sizes 0 - yy) = r →
            ∀ ii, ii < sizes 1 → ∀ cc, cc < ncomp →
              k ≠ local_index ncomp (clayout r) (sizes 0 - yy - (clayout r).starts0) ii cc) →
          d.getD k 0 = (D0 r).getD k 0) := by
  have hhalf : sizes 0 / 2 * 2 ≤ sizes 0 := Nat.div_mul_le_self _ _
  intro m
  induction m with
  | zero =>
    intro _ r hr
    refine ⟨D0 r, B0 r, hw0 r hr, hB0 r hr, rfl, ?_, fun _ _ => rfl⟩
    intro yy h1 h2
    omega
  | succ m ih =>
    intro hm r hr
    have hm1 : m + 1 < sizes 0 / 2 := by omega
    have ih' := ih (Or.inl (by omega))
    obtain ⟨hs, hsts, _⟩ := hrows (m + 1) (by omega)
    obtain ⟨ht, hstt, hlent⟩ := hrows (sizes 0 - (m + 1)) (by omega)
    obtain ⟨ds, bs, ws, hbs, hds, _, is3⟩ := ih' _ hs
    obtain ⟨dt, bt, wt, _, hdt, _, _⟩ := ih' _ ht
    obtain ⟨d, b, w, hb, hd, i2, i3⟩ := ih' r hr
    obtain ⟨d', b', w', hb', hd', n1, n2⟩ := symmetrize_step_spec ncomp nprocs clayout sizes
      rank0 hL hS1 hS2 _ (m + 1) hm1 ds bs dt bt hs ws wt hbs hsts hstt
      (by rw [hdt]; exact hlent) r hr d b w hb
    obtain ⟨es1, _, _⟩ := hL _ hs
    obtain ⟨er1, _, _⟩ := hL r hr
    -- the entries of row m + 1 on its owner are still those of D0
    have hsrc : ∀ ii, ii < sizes 1 → ∀ cc, cc < ncomp →
        ds.getD (local_index ncomp (clayout (rank0 (m + 1)))
          (m + 1 - (clayout (rank0 (m + 1))).starts0) ii cc) 0 =
        (D0 (rank0 (m + 1))).getD (local_index ncomp (clayout (rank0 (m + 1)))
          (m + 1 - (clayout (rank0 (m + 1))).starts0) ii cc) 0 := by
      intro ii hii cc hcc
      apply is3
      intro yy h1 h2 hown ii' hii' cc' hcc' heq
      obtain ⟨_, hst', _⟩ := hrows (sizes 0 - yy) (by omega)
      rw [hown] at hst'
      obtain ⟨e1, _, _⟩ := local_index_inj ncomp _ _ _ _ _ _ _ (by rw [es1]; exact hS2)
        (by rw [es1]; exact hii) (by rw [es1]; exact hii') hcc hcc' heq
      omega
    -- the rows written before are different from the row written now
    have hrow : r = rank0 (sizes 0 - (m + 1)) →
        ∀ yy, 1 ≤ yy → yy ≤ m → rank0 (sizes 0 - yy) = r →
        ∀ ii, ii < sizes 1 → ∀ cc, cc < ncomp → ∀ ii', ii' < sizes 1 → ∀ cc', cc' < ncomp →
          local_index ncomp (clayout r) (sizes 0 - yy - (clayout r).starts0) ii cc ≠
            local_index ncomp (clayout r) (sizes 0 - (m + 1) - (clayout r).starts0) ii' cc' := by
      intro hrt yy h1 h2 hown ii hii cc hcc ii' hii' cc' hcc' heq
      obtain ⟨_, hst', _⟩ := hrows (sizes 0 - yy) (by omega)
      rw [hown] at hst'
      obtain ⟨e1, _, _⟩ := local_index_inj ncomp _ _ _ _ _ _ _ (by rw [er1]; exact hS2)
        (by rw [er1]; exact hii) (by rw [er1]; exact hii') hcc hcc' heq
      rw [← hrt] at hstt
      omega
    rw [List.range'_concat, List.foldl_append, Nat.one_mul]
    simp only [List.foldl_cons, List.foldl_nil]
    rw [show 1 + m = m + 1 from Nat.add_comm 1 m]
    refine ⟨d', b', w', hb', by rw [hd', hd], ?_, ?_⟩
    · intro yy h1 h2 hown ii hii cc hcc
      by_cases hy : yy = m + 1
      · subst hy
        rw [(n2 hown.symm).1 ii hii cc hcc, hsrc _ (Nat.mod_lt _ hS1) cc hcc]
      · by_cases hrt : r = rank0 (sizes 0 - (m + 1))
        · rw [(n2 hrt).2 _ (fun ii' hii' cc' hcc' =>
            hrow hrt yy h1 (by omega) hown ii hii cc hcc ii' hii' cc' hcc')]
          exact i2 yy h1 (by omega) hown ii hii cc hcc
        · rw [n1 hrt]
          exact i2 yy h1 (by omega) hown ii hii cc hcc
    · intro k hk
      by_cases hrt : r = rank0 (sizes 0 - (m + 1))
      · rw [(n2 hrt).2 k
          (fun ii hii cc hcc => hk (m + 1) (by omega) le_rfl hrt.symm ii hii cc hcc)]
        exact i3 k (fun yy h1 h2 hown => hk yy h1 (by omega) hown)
      · rw [n1 hrt]
        exact i3 k (fun yy h1 h2 hown => hk yy h1 (by omega) hown)

/-- An entry of a local row other than the first lies behind the first `ncomp` entries. -/
theorem local_index_ge_row (ncomp : Nat) (L : field_layout) (row ii cc : Nat)
    (hS1 : 0 < L.sizes 1) (hS2 : 0 < L.sizes 2) (hrow : 1 ≤ row) :
    ncomp ≤ local_index ncomp L row ii cc := by
  unfold local_index
  have h0 : 1 ≤ row * L.sizes 1 := Nat.mul_pos hrow hS1
  have h1 : 1 ≤ (row * L.sizes 1 + ii) * L.sizes 2 := Nat.mul_pos (by omega) hS2
  have h2 := Nat.mul_le_mul_left ncomp h1
  have e : ncomp * (row * L.sizes 1 + ii) * L.sizes 2 =
      ncomp * ((row * L.sizes 1 + ii) * L.sizes 2) := by ring
  omega

/-- What `symmetrize` leaves on one rank, in terms of the arrays the ranks entered it with:
the call returns and keeps the length of the array; a row `sizes[0] - yy` holds the conjugates
of row `yy`, mirrored in the second index; on the owner of row 0 the first `ncomp` entries
lose their imaginary part and the entries at `sizes[1] - ii` hold the conjugates of those at
`ii`; every other position keeps its entry. -/
theorem symmetrize_on_all_ranks_spec {R : Type} [Zero R] [Neg R] (ncomp nprocs : Nat)
    (clayout : Nat → field_layout) (sizes rank0 : Nat → Nat) (fields : Nat → field R)
    (alloc_complex data : Nat → List (R × R))
    (hL : ∀ r, r < nprocs →
      (clayout r).sizes = sizes ∧ (clayout r).rank0 = rank0 ∧ (clayout r).myrank = r)
    (hS0 : 0 < sizes 0) (hS1 : 0 < sizes 1) (hS2 : 0 < sizes 2)
    (hrep : ∀ r, r < nprocs →
      (fields r).myrank = r ∧ (fields r).real_space_representation = false)
    (hbuf : ∀ r, r < nprocs → (alloc_complex r).length = ncomp * sizes 1)
    (hrows : ∀ z, z < sizes 0 → rank0 z < nprocs ∧ (clayout (rank0 z)).starts0 ≤ z ∧
      ncomp * ((z - (clayout (rank0 z)).starts0 + 1) * sizes 1 * sizes 2) ≤
        (data (rank0 z)).length)
    (r : Nat) (hr : r < nprocs) :
    ∃ out, symmetrize_on_all_ranks ncomp clayout fields alloc_complex data r = some out ∧
      out.length = (data r).length ∧
      (∀ yy, 1 ≤ yy → yy < sizes 0 / 2 → rank0 (sizes 0 - yy) = r →
        ∀ ii, ii < sizes 1 → ∀ cc, cc < ncomp →
          out.getD (local_index ncomp (clayout r) (sizes 0 - yy - (clayout r).starts0) ii cc)
              0 =
            conj_entry ((data (rank0 yy)).getD (local_index ncomp (clayout (rank0 yy))
              (yy - (clayout (rank0 yy)).starts0) ((sizes 1 - ii) % sizes 1) cc) 0)) ∧
      (rank0 0 = r → ∀ cc, cc < ncomp → out.getD cc 0 = (((data r).getD cc 0).1, 0)) ∧
      (rank0 0 = r → ∀ ii, 1 ≤ ii → ii < sizes 1 / 2 → ∀ cc, cc < ncomp →
        out.getD (local_index ncomp (clayout r) 0 (sizes 1 - ii) cc) 0 =
          conj_entry ((data r).getD (local_index ncomp (clayout r) 0 ii cc) 0)) ∧
      (∀ k,
        (rank0 0 = r → ncomp ≤ k ∧ ∀ ii, 1 ≤ ii → ii < sizes 1 / 2 → ∀ cc, cc < ncomp →
          k ≠ local_index ncomp (clayout r) 0 (sizes 1 - ii) cc) →
        (∀ yy, 1 ≤ yy → yy < sizes 0 / 2 → rank0 (sizes 0 - yy) = r →
          ∀ ii, ii < sizes 1 → ∀ cc, cc < ncomp →
            k ≠ local_index ncomp (clayout r) (sizes 0 - yy - (clayout r).starts0) ii cc) →
        out.getD k 0 = (data r).getD k 0) := by
  have hhalf : sizes 0 / 2 * 2 ≤ sizes 0 := Nat.div_mul_le_self _ _
  have hhalf1 : sizes 1 / 2 * 2 ≤ sizes 1 := Nat.div_mul_le_self _ _
  obtain ⟨h00, hst0, hlen0⟩ := hrows 0 hS0
  have st0 : (clayout (rank0 0)).starts0 = 0 := by omega
  obtain ⟨e01, e02, e03⟩ := hL _ h00
  obtain ⟨er1, er2, er3⟩ := hL r hr
  have hlen0' : ncomp * ((clayout (rank0 0)).sizes 1 * (clayout (rank0 0)).sizes 2) ≤
      (data (rank0 0)).length := by
    rw [st0, Nat.sub_zero, Nat.zero_add, Nat.one_mul] at hlen0
    rw [e01]
    exact hlen0
  have row0 := field.symmetrize_row0_spec ncomp (fields (rank0 0)).myrank
    (clayout (rank0 0)) (data (rank0 0))
    (by rw [(hrep _ h00).1, e02]) (by rw [e01]; exact hS1) (by rw [e01]; exact hS2) hlen0'
  rw [e01] at row0
  obtain ⟨z1, z2, z3, z4⟩ := row0
  have hother : ∀ q, q < nprocs → rank0 0 ≠ q →
      field.symmetrize_row0 ncomp (fields q).myrank (clayout q) (data q) = data q := by
    intro q hq hne
    obtain ⟨_, eq2, _⟩ := hL q hq
    exact field.symmetrize_row0_other ncomp (fields q).myrank (clayout q) (data q)
      (by rw [eq2, (hrep q hq).1]; exact fun h => hne h.symm)
  have hD0len : ∀ q, q < nprocs →
      (field.symmetrize_row0 ncomp (fields q).myrank (clayout q) (data q)).length =
        (data q).length := by
    intro q hq
    by_cases h : rank0 0 = q
    · subst h
      exact z1
    · rw [hother q hq h]
  have hD0 : ∀ q, q < nprocs → ∀ k,
      (rank0 0 = q → ncomp ≤ k ∧ ∀ ii, 1 ≤ ii → ii < sizes 1 / 2 → ∀ cc, cc < ncomp →
        k ≠ local_index ncomp (clayout q) 0 (sizes 1 - ii) cc) →
      (field.symmetrize_row0 ncomp (fields q).myrank (clayout q) (data q)).getD k 0 =
        (data q).getD k 0 := by
    intro q hq k hk
    by_cases h : rank0 0 = q
    · subst h
      exact z4 k (hk rfl).1 (hk rfl).2
    · rw [hother q hq h]
  obtain ⟨d, b, w, _, hd, i2, i3⟩ := symmetrize_loop_spec ncomp nprocs clayout sizes rank0 hL
    hS1 hS2 (fun q => field.symmetrize_row0 ncomp (fields q).myrank (clayout q) (data q))
    alloc_complex
    (by
      intro z hz
      obtain ⟨a1, a2, a3⟩ := hrows z hz
      exact ⟨a1, a2, by rw [hD0len _ a1]; exact a3⟩)
    hbuf
    (fun q =>
      if (fields q).real_space_representation = false then
        some (field.symmetrize_row0 ncomp (fields q).myrank (clayout q) (data q), alloc_complex q)
      else none)
    (fun q hq => if_pos (hrep q hq).2) (sizes 0 / 2 - 1) (by omega) r hr
  -- the positions of row 0 are not written in the loop
  have hrow0 : rank0 0 = r → ∀ ii, ii < sizes 1 → ∀ cc, cc < ncomp →
      ∀ yy, 1 ≤ yy → yy ≤ sizes 0 / 2 - 1 → rank0 (sizes 0 - yy) = r →
      ∀ ii', ii' < sizes 1 → ∀ cc', cc' < ncomp →
        local_index ncomp (clayout r) 0 ii cc ≠
          local_index ncomp (clayout r) (sizes 0 - yy - (clayout r).starts0) ii' cc' := by
    intro h0 ii hii cc hcc yy h1 h2 _ ii' hii' cc' hcc' heq
    obtain ⟨e1, _, _⟩ := local_index_inj ncomp _ _ _ _ _ _ _ (by rw [er1]; exact hS2)
      (by rw [er1]; exact hii) (by rw [er1]; exact hii') hcc hcc' heq
    rw [← h0, st0] at e1
    omega
  refine ⟨d, ?_, by rw [hd, hD0len r hr], ?_, ?_, ?_, ?_⟩
  · unfold symmetrize_on_all_ranks
    rw [er1, w]
    rfl
  · intro yy h1 h2 hown ii hii cc hcc
    rw [i2 yy h1 (by omega) hown ii hii cc hcc]
    obtain ⟨hs, hsts, _⟩ := hrows yy (by omega)
    obtain ⟨es1, _, _⟩ := hL _ hs
    rw [hD0 _ hs]
    intro h0
    have hst : (clayout (rank0 yy)).starts0 = 0 := by rw [← h0]; exact st0
    refine ⟨local_index_ge_row ncomp _ _ _ _ (by rw [es1]; exact hS1) (by rw [es1]; exact hS2)
      (by omega), ?_⟩
    intro ii' h1' h2' cc' hcc' heq
    obtain ⟨e1, _, _⟩ := local_index_inj ncomp _ _ _ _ _ _ _ (by rw [es1]; exact hS2)
      (by rw [es1]; exact Nat.mod_lt _ hS1) (by rw [es1]; omega) hcc hcc' heq
    omega
  · intro h0 cc hcc
    have e : cc = local_index ncomp (clayout r) 0 0 cc := (local_index_zero _ _ _).symm
    rw [i3 cc (by
      intro yy h1 h2 hown ii' hii' cc' hcc'
      rw [e]
      exact hrow0 h0 0 hS1 cc hcc yy h1 h2 hown ii' hii' cc' hcc')]
    subst h0
    exact z2 cc hcc
  · intro h0 ii h1 h2 cc hcc
    rw [i3 _ (fun yy h1' h2' hown ii' hii' cc' hcc' =>
      hrow0 h0 (sizes 1 - ii) (by omega) cc hcc yy h1' h2' hown ii' hii' cc' hcc')]
    subst h0
    exact z3 ii h1 h2 cc hcc
  · intro k hk0 hk
    rw [i3 k (fun yy h1 h2 hown => hk yy h1 (by omega) hown)]
    exact hD0 r hr k hk0

/-- Two arrays of one length with the same entries are equal. -/
theorem list_eq_of_getD {α : Type} [Zero α] (l1 l2 : List α) (hlen : l1.length = l2.length)
    (h : ∀ k, l1.getD k 0 = l2.getD k 0) : l1 = l2 := by
  apply List.ext_getElem hlen
  intro n h1 h2
  have := h n
  rw [List.getD_eq_getElem l1 0 h1, List.getD_eq_getElem l2 0 h2] at this
  exact this

namespace field

variable {R : Type}

/-- C27: after `symmetrize` has run on all ranks of a Fourier-space field (every rank with the
same shape and owner table, every row `z < sizes[0]` held by its owner inside the array, the
extents positive), the call returns on every rank and, over the arrays of all ranks, the plane
with third index 0 is Hermitian-symmetric: for every component `cc`, every row `yy` with
`1 <= yy < sizes[0]/2` and every `ii < sizes[1]`, the entry at `(sizes[0]-yy, ii, 0)` is the
conjugate of the entry at `(yy, (sizes[1]-ii) mod sizes[1], 0)`; in row 0 the entry at
`(0, sizes[1]-ii, 0)` is the conjugate of the entry at `(0, ii, 0)` for `1 <= ii < sizes[1]/2`
and the entry at `(0, 0, 0)` has zero imaginary part; the entries of the rows
`1 .. sizes[0]/2 - 1` are the ones the field had on entry; and a second run of `symmetrize` on
the result, with any contents of the new buffers, returns the same arrays. -/
theorem symmetrize_hermitian_plane [Zero R] [Neg R] (ncomp nprocs : Nat)
    (clayout : Nat → field_layout) (sizes rank0 : Nat → Nat) (fields : Nat → field R)
    (alloc_complex data : Nat → List (R × R))
    (hL : ∀ r, r < nprocs →
      (clayout r).sizes = sizes ∧ (clayout r).rank0 = rank0 ∧ (clayout r).myrank = r)
    (hS0 : 0 < sizes 0) (hS1 : 0 < sizes 1) (hS2 : 0 < sizes 2)
    (hrep : ∀ r, r < nprocs →
      (fields r).myrank = r ∧ (fields r).real_space_representation = false)
    (hbuf : ∀ r, r < nprocs → (alloc_complex r).length = ncomp * sizes 1)
    (hrows : ∀ z, z < sizes 0 → rank0 z < nprocs ∧ (clayout (rank0 z)).starts0 ≤ z ∧
      ncomp * ((z - (clayout (rank0 z)).starts0 + 1) * sizes 1 * sizes 2) ≤
        (data (rank0 z)).length) :
    ∃ out : Nat → List (R × R),
      (∀ r, r < nprocs →
        symmetrize_on_all_ranks ncomp clayout fields alloc_complex data r = some (out r)) ∧
      (∀ cc, cc < ncomp → ∀ yy, 1 ≤ yy → yy < sizes 0 / 2 → ∀ ii, ii < sizes 1 →
        global_entry ncomp clayout rank0 out (sizes 0 - yy) ii cc =
          conj_entry (global_entry ncomp clayout rank0 out yy ((sizes 1 - ii) % sizes 1) cc)) ∧
      (∀ cc, cc < ncomp → ∀ ii, 1 ≤ ii → ii < sizes 1 / 2 →
        global_entry ncomp clayout rank0 out 0 (sizes 1 - ii) cc =
          conj_entry (global_entry ncomp clayout rank0 out 0 ii cc)) ∧
      (∀ cc, cc < ncomp → (global_entry ncomp clayout rank0 out 0 0 cc).2 = 0) ∧
      (∀ cc, cc < ncomp → ∀ yy, 1 ≤ yy → yy < sizes 0 / 2 → ∀ ii, ii < sizes 1 →
        global_entry ncomp clayout rank0 out yy ii cc =
          global_entry ncomp clayout rank0 data yy ii cc) ∧
      (∀ alloc_again : Nat → List (R × R),
        (∀ r, r < nprocs → (alloc_again r).length = ncomp * sizes 1) →
        ∀ r, r < nprocs →
          symmetrize_on_all_ranks ncomp clayout fields alloc_again out r = some (out r)) := by
  have hhalf : sizes 0 / 2 * 2 ≤ sizes 0 := Nat.div_mul_le_self _ _
  have hhalf1 : sizes 1 / 2 * 2 ≤ sizes 1 := Nat.div_mul_le_self _ _
  obtain ⟨h00, hst0, _⟩ := hrows 0 hS0
  have st0 : (clayout (rank0 0)).starts0 = 0 := by omega
  obtain ⟨e01, _, _⟩ := hL _ h00
  have S := symmetrize_on_all_ranks_spec ncomp nprocs clayout sizes rank0 fields alloc_complex
    data hL hS0 hS1 hS2 hrep hbuf hrows
  -- the rows that are read in the loop are not written
  have hsrc : ∀ yy, 1 ≤ yy → yy < sizes 0 / 2 → ∀ o,
      symmetrize_on_all_ranks ncomp clayout fields alloc_complex data (rank0 yy) = some o →
      ∀ ii, ii < sizes 1 → ∀ cc, cc < ncomp →
        o.getD (local_index ncomp (clayout (rank0 yy)) (yy - (clayout (rank0 yy)).starts0)
            ii cc) 0 =
          (data (rank0 yy)).getD (local_index ncomp (clayout (rank0 yy))
            (yy - (clayout (rank0 yy)).starts0) ii cc) 0 := by
    intro yy h1 h2 o ho ii hii cc hcc
    obtain ⟨hs, hsts, _⟩ := hrows yy (by omega)
    obtain ⟨es1, _, _⟩ := hL _ hs
    obtain ⟨o', ho', _, _, _, _, q4⟩ := S _ hs
    rw [ho] at ho'
    obtain rfl := Option.some.inj ho'
    apply q4
    · intro h0
      have hst : (clayout (rank0 yy)).starts0 = 0 := by rw [← h0]; exact st0
      refine ⟨local_index_ge_row ncomp _ _ _ _ (by rw [es1]; exact hS1)
        (by rw [es1]; exact hS2) (by omega), ?_⟩
      intro ii' h1' h2' cc' hcc' heq
      obtain ⟨e1, _, _⟩ := local_index_inj ncomp _ _ _ _ _ _ _ (by rw [es1]; exact hS2)
        (by rw [es1]; exact hii) (by rw [es1]; omega) hcc hcc' heq
      omega
    · intro yy' h1' h2' hown ii' hii' cc' hcc' heq
      obtain ⟨_, hst', _⟩ := hrows (sizes 0 - yy') (by omega)
      rw [hown] at hst'
      obtain ⟨e1, _, _⟩ := local_index_inj ncomp _ _ _ _ _ _ _ (by rw [es1]; exact hS2)
        (by rw [es1]; exact hii) (by rw [es1]; exact hii') hcc hcc' heq
      omega
  -- the entries of row 0 that are read in the block on row 0 are not written
  have hrow0src : ∀ o,
      symmetrize_on_all_ranks ncomp clayout fields alloc_complex data (rank0 0) = some o →
      ∀ ii, 1 ≤ ii → ii < sizes 1 / 2 → ∀ cc, cc < ncomp →
        o.getD (local_index ncomp (clayout (rank0 0)) 0 ii cc) 0 =
          (data (rank0 0)).getD (local_index ncomp (clayout (rank0 0)) 0 ii cc) 0 := by
    intro o ho ii h1 h2 cc hcc
    obtain ⟨o', ho', _, _, _, _, q4⟩ := S _ h00
    rw [ho] at ho'
    obtain rfl := Option.some.inj ho'
    apply q4
    · intro _
      refine ⟨local_index_ge ncomp _ ii cc (by rw [e01]; exact hS2) h1, ?_⟩
      intro ii' h1' h2' cc' hcc' heq
      obtain ⟨_, e2, _⟩ := local_index_inj ncomp _ _ _ _ _ _ _ (by rw [e01]; exact hS2)
        (by rw [e01]; omega) (by rw [e01]; omega) hcc hcc' heq
      omega
    · intro yy' h1' h2' hown ii' hii' cc' hcc' heq
      obtain ⟨e1, _, _⟩ := local_index_inj ncomp _ _ _ _ _ _ _ (by rw [e01]; exact hS2)
        (by rw [e01]; omega) (by rw [e01]; exact hii') hcc hcc' heq
      rw [st0] at e1
      omega
  refine ⟨fun r =>
    (symmetrize_on_all_ranks ncomp clayout fields alloc_complex data r).getD [],
    ?_, ?_, ?_, ?_, ?_, ?_⟩
  · intro r hr
    obtain ⟨o, ho, _⟩ := S r hr
    simp only [ho, Option.getD_some]
  · intro cc hcc yy h1 h2 ii hii
    obtain ⟨ht, _, _⟩ := hrows (sizes 0 - yy) (by omega)
    obtain ⟨hs, _, _⟩ := hrows yy (by omega)
    obtain ⟨o, ho, _, q1, _⟩ := S _ ht
    obtain ⟨os, hos, _⟩ := S _ hs
    unfold global_entry
    simp only [ho, hos, Option.getD_some]
    rw [q1 yy h1 h2 rfl ii hii cc hcc, hsrc yy h1 h2 os hos _ (Nat.mod_lt _ hS1) cc hcc]
  · intro cc hcc ii h1 h2
    obtain ⟨o, ho, _, _, _, q3, _⟩ := S _ h00
    unfold global_entry
    simp only [ho, Option.getD_some, st0, Nat.sub_zero]
    rw [q3 rfl ii h1 h2 cc hcc, hrow0src o ho ii h1 h2 cc hcc]
  · intro cc hcc
    obtain ⟨o, ho, _, _, q2, _⟩ := S _ h00
    unfold global_entry
    simp only [ho, Option.getD_some, st0, Nat.sub_zero, local_index_zero]
    rw [q2 rfl cc hcc]
  · intro cc hcc yy h1 h2 ii hii
    obtain ⟨hs, _, _⟩ := hrows yy (by omega)
    obtain ⟨os, hos, _⟩ := S _ hs
    unfold global_entry
    simp only [hos, Option.getD_some]
    exact hsrc yy h1 h2 os hos ii hii cc hcc
  · intro alloc_again hbuf2 r hr
    obtain ⟨o2, ho2, l2, p1, p2, p3, p4⟩ := symmetrize_on_all_ranks_spec ncomp nprocs clayout
      sizes rank0 fields alloc_again
      (fun r => (symmetrize_on_all_ranks ncomp clayout fields alloc_complex data r).getD [])
      hL hS0 hS1 hS2 hrep hbuf2
      (by
        intro z hz
        obtain ⟨a1, a2, a3⟩ := hrows z hz
        obtain ⟨o, ho, hl, _⟩ := S _ a1
        refine ⟨a1, a2, ?_⟩
        simp only [ho, Option.getD_some]
        rw [hl]
        exact a3) r hr
    obtain ⟨o, ho, l1, q1, q2, q3, q4⟩ := S r hr
    rw [ho2]
    simp only [ho, Option.getD_some] at l2 p1 p2 p3 p4 ⊢
    congr 1
    apply list_eq_of_getD _ _ l2
    intro k
    by_cases hA : ∃ yy ii cc, 1 ≤ yy ∧ yy < sizes 0 / 2 ∧ rank0 (sizes 0 - yy) = r ∧
        ii < sizes 1 ∧ cc < ncomp ∧
        k = local_index ncomp (clayout r) (sizes 0 - yy - (clayout r).starts0) ii cc
    · obtain ⟨yy, ii, cc, h1, h2, hown, hii, hcc, rfl⟩ := hA
      obtain ⟨hs, _, _⟩ := hrows yy (by omega)
      obtain ⟨os, hos, _⟩ := S _ hs
      rw [p1 yy h1 h2 hown ii hii cc hcc, q1 yy h1 h2 hown ii hii cc hcc]
      simp only [hos, Option.getD_some]
      rw [hsrc yy h1 h2 os hos _ (Nat.mod_lt _ hS1) cc hcc]
    · have hA' : ∀ yy, 1 ≤ yy → yy < sizes 0 / 2 → rank0 (sizes 0 - yy) = r →
          ∀ ii, ii < sizes 1 → ∀ cc, cc < ncomp →
            k ≠ local_index ncomp (clayout r) (sizes 0 - yy - (clayout r).starts0) ii cc :=
        fun yy h1 h2 hown ii hii cc hcc hk => hA ⟨yy, ii, cc, h1, h2, hown, hii, hcc, hk⟩
      by_cases h0 : rank0 0 = r
      · by_cases hk : k < ncomp
        · rw [p2 h0 k hk, q2 h0 k hk]
        · by_cases hB : ∃ ii cc, 1 ≤ ii ∧ ii < sizes 1 / 2 ∧ cc < ncomp ∧
              k = local_index ncomp (clayout r) 0 (sizes 1 - ii) cc
          · obtain ⟨ii, cc, h1, h2, hcc, rfl⟩ := hB
            rw [p3 h0 ii h1 h2 cc hcc, q3 h0 ii h1 h2 cc hcc]
            subst h0
            rw [hrow0src o ho ii h1 h2 cc hcc]
          · exact p4 k (fun _ => ⟨by omega, fun ii h1 h2 cc hcc hk' =>
              hB ⟨ii, cc, h1, h2, hcc, hk'⟩⟩) hA'
      · exact p4 k (fun h => absurd h h0) hA'

end field

set_option maxRecDepth 100000

/-! ## Theorems: arithmetic in the type `int` -/

/-- An exact result that is a value of the type `int` is the result the machine holds. -/
theorem int32_eq_self (x : Int) (h1 : -2147483648 ≤ x) (h2 : x < 2147483648) : int32 x = x := by
  unfold int32
  have e : (2 : Int) ^ 31 = 2147483648 := by norm_num
  have e' : (2 : Int) ^ 32 = 4294967296 := by norm_num
  rw [e, e', Int.emod_eq_of_lt (by omega) (by omega)]
  omega

/-- The result the machine holds is a value of the type `int`. -/
theorem int32_range (x : Int) : -2147483648 ≤ int32 x ∧ int32 x < 2147483648 := by
  unfold int32
  have e : (2 : Int) ^ 31 = 2147483648 := by norm_num
  have e' : (2 : Int) ^ 32 = 4294967296 := by norm_num
  rw [e, e']
  have h1 := Int.emod_nonneg (x + 2147483648) (show (4294967296 : Int) ≠ 0 by decide)
  have h2 := Int.emod_lt_of_pos (x + 2147483648) (show (0 : Int) < 4294967296 by decide)
  omega

namespace interpolator

/-- With at most 32768 ranks the tag of an exchange between two ranks is computed in the type
`int` without overflow. -/
theorem message_tag_int32_eq (nprocs phase src dst : Nat) (hn : nprocs ≤ 32768)
    (hphase : phase < 2) (hsrc : src < nprocs) (hdst : dst < nprocs) :
    message_tag_int32 nprocs phase src dst = ((message_tag nprocs phase src dst : Nat) : Int) := by
  have h1 : src * nprocs ≤ 32767 * 32768 := Nat.mul_le_mul (by omega) hn
  have e1 : int32 ((src : Int) * (nprocs : Int)) = ((src * nprocs : Nat) : Int) := by
    have h0 : (0 : Int) ≤ ((src * nprocs : Nat) : Int) := Int.natCast_nonneg _
    have h2 : ((src * nprocs : Nat) : Int) ≤ 32767 * 32768 := by exact_mod_cast h1
    rw [Nat.cast_mul] at h0 h2
    rw [int32_eq_self _ (by omega) (by omega), Nat.cast_mul]
  have e2 : int32 (((src * nprocs : Nat) : Int) + (dst : Int)) =
      ((src * nprocs + dst : Nat) : Int) := by
    rw [int32_eq_self _ (by omega) (by omega)]
    push_cast
    rfl
  have e3 : int32 (2 * ((src * nprocs + dst : Nat) : Int)) =
      ((2 * (src * nprocs + dst) : Nat) : Int) := by
    rw [int32_eq_self _ (by omega) (by omega)]
    push_cast
    rfl
  unfold message_tag_int32 message_tag
  rw [e1, e2, e3]
  by_cases hp : phase = 0
  · rw [if_pos hp, hp]
    rfl
  · rw [if_neg hp, int32_eq_self _ (by omega) (by omega)]
    have : phase = 1 := by omega
    rw [this]
    push_cast
    rfl

/-- C10, as it holds of the tag the source computes in the type `int`: with at most 32768
ranks no product or sum of `2*(src*nprocs + dst) + phase` overflows, the tag is the
non-negative number the formula names, and it is injective on the triples with `phase` in
`{0,1}` and `0 <= src, dst < nprocs`: two exchanges that differ in phase, source or
destination never share a tag. -/
theorem message_tag_int32_injective (nprocs phase src dst phase' src' dst' : Nat)
    (hn : nprocs ≤ 32768) (hphase : phase < 2) (hphase' : phase' < 2)
    (hsrc : src < nprocs) (hsrc' : src' < nprocs) (hdst : dst < nprocs)
    (hdst' : dst' < nprocs) :
    message_tag_int32 nprocs phase src dst =
        ((2 * (src * nprocs + dst) + phase : Nat) : Int) ∧
      (message_tag_int32 nprocs phase src dst = message_tag_int32 nprocs phase' src' dst' →
        phase = phase' ∧ src = src' ∧ dst = dst') ∧
      ((phase, src, dst) ≠ (phase', src', dst') →
        message_tag_int32 nprocs phase src dst ≠ message_tag_int32 nprocs phase' src' dst') := by
  have e := message_tag_int32_eq nprocs phase src dst hn hphase hsrc hdst
  have e' := message_tag_int32_eq nprocs phase' src' dst' hn hphase' hsrc' hdst'
  have key : message_tag_int32 nprocs phase src dst =
      message_tag_int32 nprocs phase' src' dst' → phase = phase' ∧ src = src' ∧ dst = dst' := by
    intro h
    rw [e, e'] at h
    exact (message_tag_injective nprocs phase src dst phase' src' dst' hphase hphase' hdst
      hdst').1 (by exact_mod_cast h)
  refine ⟨e, key, ?_⟩
  intro hne htag
  obtain ⟨h1, h2, h3⟩ := key htag
  exact hne (by rw [h1, h2, h3])

/-- With 65536 ranks the exchanges from rank 32768 to rank 0 and from rank 0 to rank 0 of the
upper-slice loop carry the same tag, 0, although the formula gives them the numbers `2^32`
and 0; with 40000 ranks the tag from rank 39999 to rank 39998 is negative. -/
theorem message_tag_collides_with_65536_ranks :
    (32768 : Int) < 65536 ∧
      message_tag_int32 65536 0 32768 0 = message_tag_int32 65536 0 0 0 ∧
      message_tag 65536 0 32768 0 ≠ message_tag 65536 0 0 0 ∧
      message_tag_int32 40000 0 39999 39998 = -1094967300 ∧
      message_tag 40000 0 39999 39998 = 3199999996 := by
  decide

end interpolator

/-! ## Theorems: periodicity in the non-slab axes on the machine -/

/-- The values of the loop variables of the stencil. -/
theorem mem_stencil_offsets (N : Nat) (i : Int) :
    i ∈ stencil_offsets N ↔ -(N : Int) ≤ i ∧ i ≤ (N : Int) + 1 := by
  simp only [stencil_offsets, List.mem_map, List.mem_range]
  constructor
  · rintro ⟨j, hj, rfl⟩
    omega
  · rintro ⟨h1, h2⟩
    exact ⟨(i + N).toNat, by omega, by omega⟩

namespace interpolator

variable {F : Type}

/-- The index `tindex` for a grid index shifted by whole periods on the two non-slab axes,
when neither the grid index nor the shifted one leaves the type `int` at a stencil point. -/
theorem tindex_int32_shift (d : field_descriptor) (N : Nat) (xg : Fin 3 → Int) (j k : Int)
    (iz iy ix : Int) (c : Fin 3)
    (hiy : iy ∈ stencil_offsets N) (hix : ix ∈ stencil_offsets N)
    (h0 : -2147483648 ≤ xg 0 - N ∧ xg 0 + N + 1 < 2147483648)
    (h0' : -2147483648 ≤ xg 0 + j * d.sizes 2 - N ∧ xg 0 + j * d.sizes 2 + N + 1 < 2147483648)
    (h1 : -2147483648 ≤ xg 1 - N ∧ xg 1 + N + 1 < 2147483648)
    (h1' : -2147483648 ≤ xg 1 + k * d.sizes 1 - N ∧
      xg 1 + k * d.sizes 1 + N + 1 < 2147483648) :
    tindex_int32 d (fun a => if a = 0 then xg 0 + j * d.sizes 2
        else if a = 1 then xg 1 + k * d.sizes 1 else xg 2) iz iy ix c =
      tindex_int32 d xg iz iy ix c := by
  rw [mem_stencil_offsets] at hiy hix
  unfold tindex_int32 MOD
  have e0 : int32 (xg 0 + j * d.sizes 2 + ix) = xg 0 + j * d.sizes 2 + ix :=
    int32_eq_self _ (by omega) (by omega)
  have e0' : int32 (xg 0 + ix) = xg 0 + ix := int32_eq_self _ (by omega) (by omega)
  have e1 : int32 (xg 1 + k * d.sizes 1 + iy) = xg 1 + k * d.sizes 1 + iy :=
    int32_eq_self _ (by omega) (by omega)
  have e1' : int32 (xg 1 + iy) = xg 1 + iy := int32_eq_self _ (by omega) (by omega)
  have m0 : (xg 0 + j * d.sizes 2 + ix) % d.sizes 2 = (xg 0 + ix) % d.sizes 2 := by
    rw [show xg 0 + j * d.sizes 2 + ix = xg 0 + ix + j * d.sizes 2 by ring,
      Int.add_mul_emod_self]
  have m1 : (xg 1 + k * d.sizes 1 + iy) % d.sizes 1 = (xg 1 + iy) % d.sizes 1 := by
    rw [show xg 1 + k * d.sizes 1 + iy = xg 1 + iy + k * d.sizes 1 by ring,
      Int.add_mul_emod_self]
  simp [e0, e0', e1, e1', m0, m1]

/-- C7, as it holds of the index additions the source makes in the type `int`: for all
integers `j` and `k` such that neither `xg[0]`, `xg[1]` nor the shifted `xg[0] + j*sizes[2]`,
`xg[1] + k*sizes[1]` leaves the range of `int` when a stencil offset in `[-N, N+1]` is added,
`operator()` returns the same `dest` for the grid index
`(xg[0] + j*sizes[2], xg[1] + k*sizes[1], xg[2])` as for `xg`, also when the shifted indices are
negative, in whatever arithmetic the sums are made: the two non-slab axes are addressed with
periodic wraparound, while the slab-axis index `xg[2]+iz`, when it is a value of `int`, enters
the flat index without any reduction. -/
theorem operator_call_machine_periodic_in_non_slab_axes [Zero F] [One F] [Add F] [Sub F]
    [Mul F] (I : interpolator F) (t : F) (xg : Fin 3 → Int) (xx : Fin 3 → F)
    (dest : Fin 3 → F) (deriv : Option (Fin 3 → Int)) (j k : Int)
    (h0 : -2147483648 ≤ xg 0 - I.interp_neighbours ∧
      xg 0 + I.interp_neighbours + 1 < 2147483648)
    (h0' : -2147483648 ≤ xg 0 + j * I.descriptor.sizes 2 - I.interp_neighbours ∧
      xg 0 + j * I.descriptor.sizes 2 + I.interp_neighbours + 1 < 2147483648)
    (h1 : -2147483648 ≤ xg 1 - I.interp_neighbours ∧
      xg 1 + I.interp_neighbours + 1 < 2147483648)
    (h1' : -2147483648 ≤ xg 1 + k * I.descriptor.sizes 1 - I.interp_neighbours ∧
      xg 1 + k * I.descriptor.sizes 1 + I.interp_neighbours + 1 < 2147483648) :
    I.operator_call_machine t
        (fun a => if a = 0 then xg 0 + j * I.descriptor.sizes 2
          else if a = 1 then xg 1 + k * I.descriptor.sizes 1 else xg 2) xx dest deriv =
      I.operator_call_machine t xg xx dest deriv ∧
    (∀ iz iy ix : Int, iz ∈ stencil_offsets I.interp_neighbours →
      iy ∈ stencil_offsets I.interp_neighbours → ix ∈ stencil_offsets I.interp_neighbours →
      -2147483648 ≤ xg 2 + iz → xg 2 + iz < 2147483648 → ∀ c : Fin 3,
      tindex_int32 I.descriptor xg iz iy ix c =
        (((xg 2 + iz) * I.descriptor.sizes 1 + (xg 1 + iy) % I.descriptor.sizes 1)
          * I.descriptor.sizes 2 + (xg 0 + ix) % I.descriptor.sizes 2) * 3 +
            ((c : Nat) : Int)) := by
  constructor
  · unfold operator_call_machine
    simp only
    apply foldl_congr_mem
    intro iz _ d1
    apply foldl_congr_mem
    intro iy hiy d2
    apply foldl_congr_mem
    intro ix hix d3
    apply foldl_congr_mem
    intro c _ d4
    rw [tindex_int32_shift I.descriptor I.interp_neighbours xg j k iz iy ix c hiy hix h0 h0' h1
      h1']
  · intro iz iy ix _ hiy hix hz1 hz2 c
    rw [mem_stencil_offsets] at hiy hix
    unfold tindex_int32 MOD
    rw [int32_eq_self _ hz1 hz2, int32_eq_self (xg 1 + iy) (by omega) (by omega),
      int32_eq_self (xg 0 + ix) (by omega) (by omega)]

/-- On `sample_row_interpolator`, whose third axis has 3 points, the grid index
`(1 + 715827882*3, 0, 0) = (2147483647, 0, 0)` is a whole number of periods away from
`(1, 0, 0)`, and `operator()` returns another `dest` for it: at the stencil offset `ix = 1` the
sum `xg[0] + ix` leaves the type `int`, and the sample read is that of column 1 instead of
column 2. -/
theorem operator_call_machine_not_periodic_at_int_max :
    (1 : Int) + 715827882 * sample_row_interpolator.descriptor.sizes 2 = 2147483647 ∧
      sample_row_interpolator.operator_call_machine 0
        (fun a => if a = 0 then 1 else if a = 1 then 0 else 0)
        (fun _ => 0) (fun _ => 0) none = ![72, 80, 88] ∧
      sample_row_interpolator.operator_call_machine 0
        (fun a => if a = 0 then 1 + 715827882 * sample_row_interpolator.descriptor.sizes 2
          else if a = 1 then 0 + 0 * sample_row_interpolator.descriptor.sizes 1 else 0)
        (fun _ => 0) (fun _ => 0) none = ![60, 68, 76] := by
  decide

end interpolator

/-! ## Theorems: the orchestration loop on the machine -/

namespace particles_system

variable {R : Type}

/-- On a system that holds a history slot and whose step index is below the largest `int`,
`completeLoop` on the machine is `completeLoop`. -/
theorem completeLoop_machine_eq [Zero R] (computer : particles_field_computer R) (dt : R)
    (s : particles_system R) (hne : s.my_particles_rhs ≠ [])
    (h1 : -2147483648 ≤ s.step_idx) (h2 : s.step_idx < 2147483647) :
    completeLoop_machine computer dt s = some (completeLoop computer dt s) := by
  unfold completeLoop_machine compute_machine
  cases hr : s.my_particles_rhs with
  | nil => exact absurd hr hne
  | cons front older =>
    have hc := (compute_step_idx computer s).1
    have e : inc_step_idx_machine (redistribute computer (move computer dt (compute computer s)))
        = inc_step_idx (redistribute computer (move computer dt (compute computer s))) := by
      unfold inc_step_idx_machine inc_step_idx
      have hs : (redistribute computer (move computer dt (compute computer s))).step_idx =
          s.step_idx := by
        simp only [redistribute, move]
        exact hc
      rw [hs, int32_eq_self _ (by omega) (by omega)]
    show some (shift_rhs_vectors (inc_step_idx_machine
      (redistribute computer (move computer dt (compute computer s))))) = _
    rw [e]
    rfl

/-- From step index 1 and with a history slot, the first `k <= 2^31 - 2` calls of
`completeLoop` on the machine are defined and are those of `completeLoop`. -/
theorem after_loops_machine_eq [Zero R] (computer : particles_field_computer R)
    (dts : Nat → R) (s0 : particles_system R) (hfresh : s0.step_idx = 1)
    (hne : s0.my_particles_rhs ≠ []) :
    ∀ k : Nat, k ≤ 2147483646 →
      after_loops_machine computer dts s0 k = some (after_loops computer dts s0 k) := by
  intro k
  induction k with
  | zero => intro _; rfl
  | succ k ih =>
    intro hk
    have ha := after_loops_step_idx computer dts s0 k
    have hne' : (after_loops computer dts s0 k).my_particles_rhs ≠ [] := by
      intro h
      have h0 := ha.2
      rw [h, List.length_nil] at h0
      exact hne (List.length_eq_zero.mp h0.symm)
    show (after_loops_machine computer dts s0 k).bind _ = _
    rw [ih (by omega), Option.some_bind,
      completeLoop_machine_eq computer (dts k) _ hne' (by rw [ha.1, hfresh]; omega)
        (by rw [ha.1, hfresh]; omega)]
    rfl

/-- C3, as it holds of the member `int step_idx` and of a system that holds history slots: the
constructor sets the step index to 1 and leaves the system without a history slot; every
`completeLoop` call on a system with a slot and a step index below `2^31 - 1` returns and
raises the step index by exactly 1, keeping the number of slots; hence, counting calls from a
system at step index 1 that holds `m >= 1` history slots, for every `n` with
`1 <= n <= 2^31 - 1` the calls before the `n`-th return, the `n`-th call starts at step index
`n` and its `move` calls the integrator with order `min(n, m)`: order 1 on the first call and
the full order `m` on every call with `n >= m`. -/
theorem nth_completeLoop_machine_order [Zero R] (computer : particles_field_computer R)
    (dts : Nat → R) (s0 : particles_system R) (n : Nat)
    (hfresh : s0.step_idx = 1) (hne : s0.my_particles_rhs ≠ []) (hn : 1 ≤ n)
    (hn' : n ≤ 2147483647)
    (interp_neighbours : Int) (width low up : R) (offset_Z dims_Z : Int)
    (alloc_nb alloc_offset : List Int) :
    ((construct interp_neighbours width low up offset_Z dims_Z alloc_nb alloc_offset).step_idx
        = 1 ∧
      (construct interp_neighbours width low up offset_Z dims_Z alloc_nb
        alloc_offset).my_particles_rhs = []) ∧
      (∀ (s : particles_system R) (dt : R), s.my_particles_rhs ≠ [] →
        -2147483648 ≤ s.step_idx → s.step_idx < 2147483647 →
        ∃ s', completeLoop_machine computer dt s = some s' ∧
          s'.step_idx = s.step_idx + 1 ∧
          s'.my_particles_rhs.length = s.my_particles_rhs.length) ∧
      ∃ s s' : particles_system R,
        after_loops_machine computer dts s0 (n - 1) = some s ∧
        s.step_idx = n ∧
        s.my_particles_rhs.length = s0.my_particles_rhs.length ∧
        compute_machine computer s = some s' ∧
        (move computer (dts (n - 1)) s').my_particles_positions =
          computer.move_particles s'.my_particles_positions s'.my_nb_particles
            s'.my_particles_rhs (min (n : Int) (s0.my_particles_rhs.length : Int))
            (dts (n - 1)) ∧
        move_order s' = min (n : Int) (s0.my_particles_rhs.length : Int) ∧
        (n = 1 → move_order s' = 1) ∧
        (s0.my_particles_rhs.length ≤ n → move_order s' = (s0.my_particles_rhs.length : Int)) := by
  have hm : 1 ≤ s0.my_particles_rhs.length := by
    cases h : s0.my_particles_rhs with
    | nil => exact absurd h hne
    | cons a l => simp
  obtain ⟨_, _, h3, h4, h5, h6, h7⟩ := nth_completeLoop_order computer dts s0 n hfresh hn
    interp_neighbours width low up offset_Z dims_Z alloc_nb alloc_offset
  have ha := after_loops_step_idx computer dts s0 (n - 1)
  refine ⟨⟨rfl, rfl⟩, ?_, after_loops computer dts s0 (n - 1),
    compute computer (after_loops computer dts s0 (n - 1)),
    after_loops_machine_eq computer dts s0 hfresh hne (n - 1) (by omega), h3, ha.2, ?_, h4, h5,
    fun h1 => h6 h1 hm, h7⟩
  · intro s dt hs h1 h2
    refine ⟨_, completeLoop_machine_eq computer dt s hs h1 h2, ?_⟩
    exact completeLoop_step_idx computer dt s
  · unfold compute_machine
    cases hr : (after_loops computer dts s0 (n - 1)).my_particles_rhs with
    | nil =>
      have h0 := ha.2
      rw [hr, List.length_nil] at h0
      omega
    | cons a l => rfl

/-- On the freshly constructed system, which holds no history slot, the first `completeLoop`
call is undefined; and the call on the sample system at step index `2^31 - 1` leaves the step
index `-2^31`, so that the call after it asks the integrator for the order `-2^31`. -/
theorem completeLoop_machine_undefined_when_fresh_and_wraps_at_int_max :
    completeLoop_machine sample_computer 1
        (construct 1 (1 : Int) 0 2 0 2 [0, 0] [0, 0, 0]) = none ∧
      (completeLoop_machine sample_computer 1
        { sample_system with step_idx := 2147483647 }).map (fun s => s.step_idx) =
          some (-2147483648) ∧
      (completeLoop_machine sample_computer 1
        { sample_system with step_idx := 2147483647 }).map
          (fun s => move_order (compute sample_computer s)) = some (-2147483648) := by
  refine ⟨rfl, ?_, ?_⟩ <;> decide

end particles_system

/-! ## Theorems: a halo refresh overwrites the t1 buffer -/

namespace interpolator

variable {R : Type}

end interpolator

/-! ## Theorems: field representation and statistics -/

/-- The entries of the array that the loop `data[tmp_index] /= npoints` leaves when it has run
over the indices below `n`. -/
theorem foldl_divide {R : Type} [Zero R] [Div R] (p : R) (d : List R) :
    ∀ n : Nat,
      ((List.range n).foldl (fun data (k : Nat) => data.set k (data.getD k 0 / p)) d).length =
          d.length ∧
        ∀ k : Nat,
          ((List.range n).foldl (fun data (k : Nat) => data.set k (data.getD k 0 / p)) d).getD
              k 0 =
            if k < n ∧ k < d.length then d.getD k 0 / p else d.getD k 0 := by
  intro n
  induction n with
  | zero => exact ⟨rfl, fun k => by simp⟩
  | succ n ih =>
    obtain ⟨h1, h2⟩ := ih
    rw [List.range_succ, List.foldl_append]
    simp only [List.foldl_cons, List.foldl_nil]
    refine ⟨by rw [List.length_set, h1], fun k => ?_⟩
    rw [List.getD_eq_getElem?_getD, List.getElem?_set, h1, h2 n]
    by_cases hk : n = k
    · subst hk
      by_cases hl : n < d.length
      · simp [hl]
      · have hl' : d.length ≤ n := by omega
        simp [hl, List.getD_eq_getElem?_getD, List.getElem?_eq_none hl']
    · rw [if_neg hk, ← List.getD_eq_getElem?_getD, h2 k]
      by_cases hkn : k < n
      · have : k < n + 1 := by omega
        simp [hkn, this]
      · have : ¬ k < n + 1 := by omega
        simp [hkn, this]

namespace field

variable {R : Type}

/-- The array of a normalised field: the entries below `rmemlayout->local_size` are divided by
`npoints`, the others are kept. -/
theorem normalize_data [Zero R] [Div R] [NatCast R] (f : field R) :
    (normalize f).data.length = f.data.length ∧
      ∀ k : Nat, (normalize f).data.getD k 0 =
        if k < f.rmemlayout_local_size ∧ k < f.data.length then f.data.getD k 0 / (f.npoints : R)
        else f.data.getD k 0 :=
  foldl_divide (f.npoints : R) f.data f.rmemlayout_local_size

/-- C26: `ift` sets `real_space_representation` to `true` and `dft` sets it to `false`, and
whenever `compute_stats` returns, `real_space_representation` is the negation of its value on
entry. A field given in real space is left as its normalised Fourier transform, handed to
`cospectrum`: the array has the length of the output `execute_r2c data` of the forward
transform, every entry of that output below `rmemlayout->local_size` is divided by `npoints` and
the others are kept, and this is the array of the field on return when `cospectrum` leaves the
array it is handed as it is. A field given in Fourier space is left as the output of the
inverse transform of what `cospectrum` left. `compute_stats` returns as soon as its one call of
`compute_rspace_stats` returns. -/
theorem compute_stats_flips_representation [Zero R] [Add R] [Mul R] [Div R] [NatCast R]
    [IntCast R] (sqrt : R → R) (int_floor : R → Int)
    (execute_r2c execute_c2r cospectrum : List R → List R) (rloop : List Nat)
    (group : stats_group) (f : field R) (max_estimate : R) :
    (ift execute_c2r f).real_space_representation = true ∧
    (dft execute_r2c f).real_space_representation = false ∧
    (∀ f' : field R,
      compute_stats sqrt int_floor execute_r2c execute_c2r cospectrum rloop group f
        max_estimate = some f' →
      f'.real_space_representation = !f.real_space_representation ∧
      (f.real_space_representation = true →
        ∃ normalised : List R,
          f'.data = cospectrum normalised ∧
          normalised.length = (execute_r2c f.data).length ∧
          (∀ k : Nat, normalised.getD k 0 =
            if k < f.rmemlayout_local_size ∧ k < (execute_r2c f.data).length then
              (execute_r2c f.data).getD k 0 / (f.npoints : R)
            else (execute_r2c f.data).getD k 0) ∧
          (cospectrum normalised = normalised → f'.data = normalised)) ∧
      (f.real_space_representation = false →
        f'.data = execute_c2r (cospectrum f.data))) ∧
    (f.real_space_representation = true →
      (compute_rspace_stats sqrt int_floor rloop f group
        (max_estimate_vector sqrt f.fc max_estimate)).isSome = true →
      (compute_stats sqrt int_floor execute_r2c execute_c2r cospectrum rloop group f
        max_estimate).isSome = true) ∧
    (f.real_space_representation = false →
      (compute_rspace_stats sqrt int_floor rloop
        (ift execute_c2r { f with data := cospectrum f.data }) group
        (max_estimate_vector sqrt f.fc max_estimate)).isSome = true →
      (compute_stats sqrt int_floor execute_r2c execute_c2r cospectrum rloop group f
        max_estimate).isSome = true) := by
  refine ⟨rfl, rfl, ?_, ?_, ?_⟩
  · intro f' h
    unfold compute_stats at h
    cases hr : f.real_space_representation with
    | true =>
      simp only [hr, if_true] at h
      cases hc : compute_rspace_stats sqrt int_floor rloop f group
          (max_estimate_vector sqrt f.fc max_estimate) with
      | none => rw [hc] at h; simp at h
      | some hist =>
        rw [hc] at h
        simp at h
        subst h
        refine ⟨rfl, fun _ => ⟨(normalize (dft execute_r2c f)).data, rfl, ?_, ?_, fun hh => hh⟩,
          fun hh => Bool.noConfusion hh⟩
        · exact (normalize_data (dft execute_r2c f)).1
        · exact (normalize_data (dft execute_r2c f)).2
    | false =>
      simp only [hr] at h
      simp at h
      obtain ⟨_, rfl⟩ := h
      exact ⟨rfl, fun hh => Bool.noConfusion hh, fun _ => rfl⟩
  · intro hr hc
    unfold compute_stats
    obtain ⟨hist, hh⟩ := Option.isSome_iff_exists.mp hc
    simp [hr, hh]
  · intro hr hc
    unfold compute_stats
    obtain ⟨hist, hh⟩ := Option.isSome_iff_exists.mp hc
    rw [hr] at hh
    simp [hr, hh]

end field

namespace field

variable {R : Type}

end field

namespace field

variable {R : Type}

end field

/-- In an arithmetic without rounding the bin number of a sample `v` for the estimate `M` and
`nbins` bins is `floor((v + M) * nbins / (2M))`, and it is one of the `nbins` bins exactly when
`-M <= v < M`. -/
theorem bin_in_range_iff {R : Type} [LinearOrderedField R] [FloorRing R] (v M : R)
    (nbins : Int) (hM : 0 < M) (hn : 0 < nbins) :
    (v + M) / (2 * M / (nbins : R)) = (v + M) * (nbins : R) / (2 * M) ∧
      ((0 ≤ Int.floor ((v + M) / (2 * M / (nbins : R))) ∧
          Int.floor ((v + M) / (2 * M / (nbins : R))) < nbins) ↔ (-M ≤ v ∧ v < M)) := by
  have hn' : (0 : R) < (nbins : R) := by exact_mod_cast hn
  have e : (v + M) / (2 * M / (nbins : R)) = (v + M) * (nbins : R) / (2 * M) := by
    field_simp
  refine ⟨e, ?_⟩
  rw [e, Int.floor_nonneg, Int.floor_lt]
  have h2M : (0 : R) < 2 * M := by linarith
  rw [le_div_iff₀ h2M, div_lt_iff₀ h2M, zero_mul]
  constructor
  · rintro ⟨h1, h2⟩
    constructor
    · have := nonneg_of_mul_nonneg_left h1 hn'
      linarith
    · have h3 : (v + M) * (nbins : R) < (2 * M) * (nbins : R) := by linarith
      have := lt_of_mul_lt_mul_right h3 (le_of_lt hn')
      linarith
  · rintro ⟨h1, h2⟩
    constructor
    · exact mul_nonneg (by linarith) (le_of_lt hn')
    · have h3 : (v + M) * (nbins : R) < (2 * M) * (nbins : R) :=
        mul_lt_mul_of_pos_right (by linarith) hn'
      linarith

namespace field

variable {R : Type}

end field

/-! ## Theorems: rounding in the type double -/

theorem bit_length_aux_zero (fuel : Nat) : bit_length_aux fuel 0 = 0 := by
  cases fuel <;> simp [bit_length_aux]

theorem bit_length_aux_spec : ∀ (fuel n : Nat), n ≤ fuel → n ≠ 0 →
    2 ^ (bit_length_aux fuel n - 1) ≤ n ∧ n < 2 ^ bit_length_aux fuel n ∧
      1 ≤ bit_length_aux fuel n := by
  intro fuel
  induction fuel with
  | zero => intro n h hn; omega
  | succ fuel ih =>
    intro n h hn
    unfold bit_length_aux
    rw [if_neg hn]
    by_cases h2 : n / 2 = 0
    · rw [h2, bit_length_aux_zero]
      have : n = 1 := by omega
      subst this
      simp
    · obtain ⟨h3, h4, h5⟩ := ih (n / 2) (by omega) h2
      have e : 2 ^ bit_length_aux fuel (n / 2) = 2 * 2 ^ (bit_length_aux fuel (n / 2) - 1) := by
        rw [← pow_succ']
        congr 1
        omega
      refine ⟨?_, ?_, by omega⟩
      · rw [Nat.add_sub_cancel, e]
        omega
      · rw [pow_succ]
        omega

/-- The number `bit_length n` is the number of binary digits of `n`. -/
theorem bit_length_spec (n : Nat) (hn : n ≠ 0) :
    2 ^ (bit_length n - 1) ≤ n ∧ n < 2 ^ bit_length n ∧ 1 ≤ bit_length n :=
  bit_length_aux_spec n n le_rfl hn

namespace double

/-- The quotient rounded to the nearest integer is within half a unit of the exact
quotient. -/
theorem shift_round_err (m s : Nat) :
    2 * (shift_round m s * 2 ^ s) ≤ 2 * m + 2 ^ s ∧ 2 * m ≤ 2 * (shift_round m s * 2 ^ s) + 2 ^ s := by
  have hp : 0 < 2 ^ s := by positivity
  have hdm := Nat.div_add_mod m (2 ^ s)
  have hlt := Nat.mod_lt m hp
  unfold shift_round
  generalize hP : 2 ^ s = P at *
  generalize hr : m % P = r at *
  generalize hd : m / P = d at *
  have hx : (d + 1) * P = P * d + P := by ring
  have hy : d * P = P * d := by ring
  split
  · rename_i hc
    rw [hx]
    rcases hc with hc | ⟨hc, _⟩ <;> omega
  · rename_i hc
    rw [hy]
    have : ¬ P < 2 * r := fun hh => hc (Or.inl hh)
    omega

/-- The sign of a value as a rational number. -/
theorem val_fin (s : Bool) (m : Nat) (e : Int) :
    val (fin s m e) = (if s then -1 else 1) * (m : ℚ) * (2 : ℚ) ^ e := rfl

/-- The value of a finite rounded result: the significand `q` the rounding chooses, at the
exponent it chooses. -/
theorem val_round (s : Bool) (m : Nat) (e : Int) (hm : m ≠ 0)
    (hfin : is_finite (round s m e) = true) :
    val (round s m e) = (if s then -1 else 1) *
      (((if max (e + (bit_length m : Int) - 53) (-1074) ≤ e then
          m * 2 ^ (e - max (e + (bit_length m : Int) - 53) (-1074)).toNat
        else shift_round m (max (e + (bit_length m : Int) - 53) (-1074) - e).toNat : Nat) : ℚ)) *
      (2 : ℚ) ^ (max (e + (bit_length m : Int) - 53) (-1074)) := by
  unfold round at hfin ⊢
  rw [if_neg hm] at hfin ⊢
  simp only at hfin ⊢
  generalize max (e + (bit_length m : Int) - 53) (-1074) = e' at *
  generalize (if e' ≤ e then m * 2 ^ (e - e').toNat else shift_round m (e' - e).toNat) = q at *
  by_cases hq : q = 2 ^ 53
  · rw [if_pos hq] at hfin ⊢
    by_cases h1 : 971 < e' + 1
    · rw [if_pos h1] at hfin
      exact absurd hfin (by simp [is_finite])
    · rw [if_neg h1]
      rw [val_fin, hq, zpow_add₀ (by norm_num : (2 : ℚ) ≠ 0)]
      push_cast
      ring
  · rw [if_neg hq] at hfin ⊢
    by_cases h1 : 971 < e'
    · rw [if_pos h1] at hfin
      exact absurd hfin (by simp [is_finite])
    · rw [if_neg h1, val_fin]

end double

namespace double

theorem abs_sign_mul (s : Bool) (x : ℚ) : |(if s then (-1 : ℚ) else 1) * x| = |x| := by
  cases s <;> simp

/-- A rounding that neither overflows nor underflows changes the value by at most the
fraction `2^-53` of it. -/
theorem round_err (s : Bool) (m : Nat) (e : Int) (hm : m ≠ 0)
    (hlo : -1022 ≤ e + (bit_length m : Int) - 1) (hfin : is_finite (round s m e) = true) :
    |val (round s m e) - val (fin s m e)| ≤ 1 / 2 ^ 53 * |val (fin s m e)| := by
  obtain ⟨hb1, hb2, hb3⟩ := bit_length_spec m hm
  rw [val_round s m e hm hfin, val_fin]
  have hmax : max (e + (bit_length m : Int) - 53) (-1074) = e + (bit_length m : Int) - 53 :=
    max_eq_left (by omega)
  rw [hmax]
  have h2 : (2 : ℚ) ≠ 0 := by norm_num
  have hpe : (0 : ℚ) < 2 ^ e := zpow_pos (by norm_num) e
  by_cases hc : e + (bit_length m : Int) - 53 ≤ e
  · rw [if_pos hc]
    have e1 : (e - (e + (bit_length m : Int) - 53)).toNat = 53 - bit_length m := by omega
    have e2 : e + (bit_length m : Int) - 53 = e - ((53 - bit_length m : Nat) : Int) := by omega
    rw [e1, e2, zpow_sub₀ h2, zpow_natCast]
    push_cast
    have hpp : (2 : ℚ) ^ (53 - bit_length m) ≠ 0 := pow_ne_zero _ h2
    have : (if s then (-1 : ℚ) else 1) * ((m : ℚ) * 2 ^ (53 - bit_length m)) *
        (2 ^ e / 2 ^ (53 - bit_length m)) = (if s then (-1 : ℚ) else 1) * (m : ℚ) * 2 ^ e := by
      have e5 : (2 : ℚ) ^ (53 - bit_length m) * (2 ^ e / 2 ^ (53 - bit_length m)) = 2 ^ e := by
        field_simp
      rw [mul_assoc, mul_assoc, mul_assoc, e5]
    rw [this, sub_self, abs_zero]
    positivity
  · rw [if_neg hc]
    obtain ⟨k, hk⟩ : ∃ k : Nat, bit_length m = 53 + k := ⟨bit_length m - 53, by omega⟩
    have e1 : (e + (bit_length m : Int) - 53 - e).toNat = k := by omega
    have e2 : e + (bit_length m : Int) - 53 = e + (k : Int) := by omega
    rw [e1, e2, zpow_add₀ h2, zpow_natCast]
    obtain ⟨hs1, hs2⟩ := shift_round_err m k
    have hs1' : (2 : ℚ) * ((shift_round m k : ℚ) * 2 ^ k) ≤ 2 * (m : ℚ) + 2 ^ k := by
      exact_mod_cast hs1
    have hs2' : (2 : ℚ) * (m : ℚ) ≤ 2 * ((shift_round m k : ℚ) * 2 ^ k) + 2 ^ k := by
      exact_mod_cast hs2
    have hmk : (2 : ℚ) ^ (k + 52) ≤ (m : ℚ) := by
      have : 2 ^ (k + 52) ≤ m := by
        have : bit_length m - 1 = k + 52 := by omega
        rw [← this]
        exact hb1
      exact_mod_cast this
    have hd : |(shift_round m k : ℚ) * 2 ^ k - (m : ℚ)| ≤ 1 / 2 ^ 53 * (m : ℚ) := by
      have hk2 : (2 : ℚ) ^ k / 2 ≤ 1 / 2 ^ 53 * (m : ℚ) := by
        rw [pow_add] at hmk
        have : (2 : ℚ) ^ k / 2 = 1 / 2 ^ 53 * (2 ^ k * 2 ^ 52) := by ring
        rw [this]
        exact mul_le_mul_of_nonneg_left hmk (by positivity)
      rw [abs_le]
      constructor <;> linarith
    have e3 : (if s then (-1 : ℚ) else 1) * (shift_round m k : ℚ) * (2 ^ e * 2 ^ k) -
        (if s then (-1 : ℚ) else 1) * (m : ℚ) * 2 ^ e =
        (if s then (-1 : ℚ) else 1) * (((shift_round m k : ℚ) * 2 ^ k - (m : ℚ)) * 2 ^ e) := by
      ring
    have e4 : (if s then (-1 : ℚ) else 1) * (m : ℚ) * 2 ^ e =
        (if s then (-1 : ℚ) else 1) * ((m : ℚ) * 2 ^ e) := by ring
    rw [e3, e4, abs_sign_mul, abs_sign_mul, abs_mul, abs_mul, abs_of_pos hpe,
      abs_of_nonneg (Nat.cast_nonneg m : (0 : ℚ) ≤ (m : ℚ)), ← mul_assoc]
    exact mul_le_mul_of_nonneg_right hd hpe.le

theorem val_neg (x : double) : val (neg x) = -val x := by
  cases x with
  | nan => simp [neg, val]
  | inf s => simp [neg, val]
  | fin s m e => cases s <;> simp [neg, val]

/-- An exact product that is in range is the product of two finite values. -/
theorem val_exact_mul (x y : double) (h : in_range (exact_mul x y) = true) :
    val (exact_mul x y) = val x * val y := by
  cases x with
  | nan => simp [exact_mul, in_range] at h
  | inf s =>
    cases y with
    | nan => simp [exact_mul, in_range] at h
    | inf s' => simp [exact_mul, in_range] at h
    | fin s' m' e' =>
      simp only [exact_mul] at h
      split_ifs at h <;> simp [in_range] at h
  | fin s m e =>
    cases y with
    | nan => simp [exact_mul, in_range] at h
    | inf s' =>
      simp only [exact_mul] at h
      split_ifs at h <;> simp [in_range] at h
    | fin s' m' e' =>
      simp only [exact_mul, val_fin]
      rw [zpow_add₀ (by norm_num : (2 : ℚ) ≠ 0)]
      push_cast
      cases s <;> cases s' <;> simp <;> ring

/-- An exact sum that is in range is the sum of two finite values. -/
theorem val_exact_add (x y : double) (h : in_range (exact_add x y) = true) :
    val (exact_add x y) = val x + val y := by
  cases x with
  | nan => simp [exact_add, in_range] at h
  | inf s =>
    cases y with
    | nan => simp [exact_add, in_range] at h
    | inf s' =>
      simp only [exact_add] at h
      split_ifs at h <;> simp [in_range] at h
    | fin s' m' e' => simp [exact_add, in_range] at h
  | fin s m e =>
    cases y with
    | nan => simp [exact_add, in_range] at h
    | inf s' => simp [exact_add, in_range] at h
    | fin s' m' e' =>
      simp only [exact_add]
      by_cases hm : m = 0
      · rw [if_pos hm]
        by_cases hm' : m' = 0
        · rw [if_pos hm']
          subst hm; subst hm'
          simp [val_fin]
        · rw [if_neg hm']
          subst hm
          simp [val_fin]
      · rw [if_neg hm]
        by_cases hm' : m' = 0
        · rw [if_pos hm']
          subst hm'
          simp [val_fin]
        · rw [if_neg hm']
          have h2 : (2 : ℚ) ≠ 0 := by norm_num
          have key : ∀ (σ : Bool) (n : Nat) (f : Int), min e e' ≤ f →
              ((((if σ then (-1 : Int) else 1) * ((n * 2 ^ (f - min e e').toNat : Nat) : Int) :
                Int) : ℚ)) * (2 : ℚ) ^ (min e e') =
              (if σ then (-1 : ℚ) else 1) * (n : ℚ) * (2 : ℚ) ^ f := by
            intro σ n f hf
            have : f = min e e' + ((f - min e e').toNat : Int) := by omega
            conv_rhs => rw [this, zpow_add₀ h2, zpow_natCast]
            push_cast
            cases σ <;> simp <;> ring
          have hsum : ∀ a : Int, a = (if s then -1 else 1) *
                ((m * 2 ^ (e - min e e').toNat : Nat) : Int) +
              (if s' then -1 else 1) * ((m' * 2 ^ (e' - min e e').toNat : Nat) : Int) →
              (a : ℚ) * (2 : ℚ) ^ (min e e') = val (fin s m e) + val (fin s' m' e') := by
            intro a ha
            rw [ha, val_fin, val_fin, ← key s m e (min_le_left _ _),
              ← key s' m' e' (min_le_right _ _)]
            push_cast
            ring
          generalize hA : (if s then -1 else 1) * ((m * 2 ^ (e - min e e').toNat : Nat) : Int) +
              (if s' then -1 else 1) * ((m' * 2 ^ (e' - min e e').toNat : Nat) : Int) = a
          have hs := hsum a hA.symm
          by_cases ha0 : a = 0
          · rw [if_pos ha0]
            rw [ha0] at hs
            simp only [Int.cast_zero, zero_mul] at hs
            rw [← hs]
            simp [val_fin]
          · rw [if_neg ha0, ← hs, val_fin]
            congr 1
            by_cases hneg : a < 0
            · simp only [hneg, decide_True, if_true]
              have : ((a.natAbs : Nat) : ℚ) = -(a : ℚ) := by
                rw [Nat.cast_natAbs, abs_of_neg hneg]
                push_cast
                rfl
              rw [this]
              ring
            · simp only [hneg, decide_False]
              have : ((a.natAbs : Nat) : ℚ) = (a : ℚ) := by
                rw [Nat.cast_natAbs, abs_of_nonneg (not_lt.mp hneg)]
              rw [this]
              simp

/-- The rounding of an exact result in range: the result is finite and within the fraction
`2^-53` of the exact value. -/
theorem canon_err (z : double) (h : in_range z = true) :
    is_finite (canon z) = true ∧ |val (canon z) - val z| ≤ 1 / 2 ^ 53 * |val z| := by
  cases z with
  | nan => simp [in_range] at h
  | inf s => simp [in_range] at h
  | fin s m e =>
    simp only [in_range, Bool.or_eq_true, decide_eq_true_eq, Bool.and_eq_true] at h
    simp only [canon]
    by_cases hm : m = 0
    · subst hm
      simp [round, is_finite, val_fin]
    · rcases h with h | ⟨hlo, hfin⟩
      · exact absurd h hm
      · exact ⟨hfin, round_err s m e hm hlo hfin⟩

end double

/-! ## Theorems: the rounding errors of a chain of operations -/

theorem unit_roundoff_pos : 0 < unit_roundoff := by
  unfold unit_roundoff
  positivity

theorem one_le_pow_roundoff (k : Nat) : 1 ≤ (1 + unit_roundoff) ^ k :=
  one_le_pow₀ (by linarith [unit_roundoff_pos])

theorem rounding_bound_nonneg (k : Nat) : 0 ≤ rounding_bound k := by
  unfold rounding_bound
  linarith [one_le_pow_roundoff k]

theorem rounding_bound_mono {k k' : Nat} (h : k ≤ k') : rounding_bound k ≤ rounding_bound k' := by
  unfold rounding_bound
  have := pow_le_pow_right₀ (by linarith [unit_roundoff_pos] : 1 ≤ 1 + unit_roundoff) h
  linarith

namespace monitored

theorem mul_in_range (x y : monitored) (h : (x * y).in_range = true) :
    x.in_range = true ∧ y.in_range = true ∧
      double.in_range (double.exact_mul x.value y.value) = true := by
  have h' : (x.in_range && y.in_range &&
      double.in_range (double.exact_mul x.value y.value)) = true := h
  simp only [Bool.and_eq_true] at h'
  exact ⟨h'.1.1, h'.1.2, h'.2⟩

theorem add_in_range (x y : monitored) (h : (x + y).in_range = true) :
    x.in_range = true ∧ y.in_range = true ∧
      double.in_range (double.exact_add x.value y.value) = true := by
  have h' : (x.in_range && y.in_range &&
      double.in_range (double.exact_add x.value y.value)) = true := h
  simp only [Bool.and_eq_true] at h'
  exact ⟨h'.1.1, h'.1.2, h'.2⟩

theorem sub_in_range (x y : monitored) (h : (x - y).in_range = true) :
    x.in_range = true ∧ y.in_range = true ∧
      double.in_range (double.exact_add x.value (double.neg y.value)) = true := by
  have h' : (x.in_range && y.in_range &&
      double.in_range (double.exact_add x.value (double.neg y.value))) = true := h
  simp only [Bool.and_eq_true] at h'
  exact ⟨h'.1.1, h'.1.2, h'.2⟩

/-- The value of a product in range. -/
theorem mul_value (x y : monitored) (h : (x * y).in_range = true) :
    double.is_finite (x * y).value = true ∧
      |double.val (x * y).value - double.val x.value * double.val y.value| ≤
        unit_roundoff * |double.val x.value * double.val y.value| := by
  obtain ⟨_, _, h3⟩ := mul_in_range x y h
  have := double.canon_err _ h3
  rw [double.val_exact_mul _ _ h3] at this
  exact this

/-- The value of a sum in range. -/
theorem add_value (x y : monitored) (h : (x + y).in_range = true) :
    double.is_finite (x + y).value = true ∧
      |double.val (x + y).value - (double.val x.value + double.val y.value)| ≤
        unit_roundoff * |double.val x.value + double.val y.value| := by
  obtain ⟨_, _, h3⟩ := add_in_range x y h
  have := double.canon_err _ h3
  rw [double.val_exact_add _ _ h3] at this
  exact this

/-- The value of a difference in range. -/
theorem sub_value (x y : monitored) (h : (x - y).in_range = true) :
    double.is_finite (x - y).value = true ∧
      |double.val (x - y).value - (double.val x.value - double.val y.value)| ≤
        unit_roundoff * |double.val x.value - double.val y.value| := by
  obtain ⟨_, _, h3⟩ := sub_in_range x y h
  have := double.canon_err _ h3
  rw [double.val_exact_add _ _ h3, double.val_neg, ← sub_eq_add_neg] at this
  exact this

theorem approx_clean (x : double) : approx 0 |double.val x| (clean x) (double.val x) := by
  intro _
  refine ⟨?_, le_rfl⟩
  show |double.val x - double.val x| ≤ _
  rw [sub_self, abs_zero]
  exact mul_nonneg (abs_nonneg _) (rounding_bound_nonneg 0)

theorem approx_zero : approx 0 0 (0 : monitored) 0 := by
  intro _
  refine ⟨?_, by simp⟩
  show |double.val (double.fin false 0 (-1074)) - 0| ≤ _
  simp [double.val]

theorem approx_mono {k k' : Nat} {M M' : ℚ} {x : monitored} {e : ℚ} (h : approx k M x e)
    (hk : k ≤ k') (hM : M ≤ M') : approx k' M' x e := by
  intro hf
  obtain ⟨h1, h2⟩ := h hf
  have hM0 : 0 ≤ M := le_trans (abs_nonneg _) h2
  refine ⟨le_trans h1 ?_, le_trans h2 hM⟩
  exact mul_le_mul hM (rounding_bound_mono hk) (rounding_bound_nonneg k) (le_trans hM0 hM)

/-- The magnitude of a computed value. -/
theorem approx_abs {k : Nat} {M : ℚ} {x : monitored} {e : ℚ} (h : approx k M x e)
    (hf : x.in_range = true) : |double.val x.value| ≤ M * (1 + unit_roundoff) ^ k := by
  obtain ⟨h1, h2⟩ := h hf
  unfold rounding_bound at h1
  have : |double.val x.value| ≤ |double.val x.value - e| + |e| := by
    have := abs_add (double.val x.value - e) e
    rwa [sub_add_cancel] at this
  linarith

/-- The rounding errors of a product. -/
theorem approx_mul {a b : Nat} {Mx My : ℚ} {x y : monitored} {ex ey : ℚ}
    (hx : approx a Mx x ex) (hy : approx b My y ey) :
    approx (a + b + 1) (Mx * My) (x * y) (ex * ey) := by
  intro hf
  obtain ⟨hfx, hfy, _⟩ := mul_in_range x y hf
  obtain ⟨_, hr⟩ := mul_value x y hf
  obtain ⟨hx1, hx2⟩ := hx hfx
  obtain ⟨hy1, hy2⟩ := hy hfy
  have hX := approx_abs hx hfx
  have hY := approx_abs hy hfy
  have hMx : 0 ≤ Mx := le_trans (abs_nonneg _) hx2
  have hMy : 0 ≤ My := le_trans (abs_nonneg _) hy2
  unfold rounding_bound at hx1 hy1 ⊢
  generalize double.val (x * y).value = R at *
  generalize double.val x.value = X at *
  generalize double.val y.value = Y at *
  have hu := unit_roundoff_pos
  have hp := one_le_pow_roundoff a
  have hq := one_le_pow_roundoff b
  generalize hpd : (1 + unit_roundoff) ^ a = p at *
  generalize hqd : (1 + unit_roundoff) ^ b = q at *
  have hpow : (1 + unit_roundoff) ^ (a + b + 1) = p * q * (1 + unit_roundoff) := by
    rw [pow_succ, pow_add, hpd, hqd]
  rw [hpow]
  refine ⟨?_, by rw [abs_mul]; exact mul_le_mul hx2 hy2 (abs_nonneg _) hMx⟩
  have h1 : |R - X * Y| ≤ unit_roundoff * ((Mx * p) * (My * q)) := by
    refine le_trans hr (mul_le_mul_of_nonneg_left ?_ hu.le)
    rw [abs_mul]
    exact mul_le_mul hX hY (abs_nonneg _) (by positivity)
  have h2 : |X * (Y - ey)| ≤ (Mx * p) * (My * (q - 1)) := by
    rw [abs_mul]
    exact mul_le_mul hX hy1 (abs_nonneg _) (by positivity)
  have h3 : |ey * (X - ex)| ≤ My * (Mx * (p - 1)) := by
    rw [abs_mul]
    exact mul_le_mul hy2 hx1 (abs_nonneg _) hMy
  have e1 : R - ex * ey = (R - X * Y) + (X * (Y - ey) + ey * (X - ex)) := by ring
  rw [e1]
  have t1 := abs_add (R - X * Y) (X * (Y - ey) + ey * (X - ex))
  have t2 := abs_add (X * (Y - ey)) (ey * (X - ex))
  have e2 : unit_roundoff * ((Mx * p) * (My * q)) + ((Mx * p) * (My * (q - 1)) +
      My * (Mx * (p - 1))) = Mx * My * (p * q * (1 + unit_roundoff) - 1) := by ring
  linarith

/-- The rounding errors of a sum. -/
theorem approx_add {a b : Nat} {Mx My : ℚ} {x y : monitored} {ex ey : ℚ}
    (hx : approx a Mx x ex) (hy : approx b My y ey) :
    approx (max a b + 1) (Mx + My) (x + y) (ex + ey) := by
  intro hf
  obtain ⟨hfx, hfy, _⟩ := add_in_range x y hf
  obtain ⟨_, hr⟩ := add_value x y hf
  have hx' := approx_mono hx (le_max_left a b) le_rfl
  have hy' := approx_mono hy (le_max_right a b) le_rfl
  obtain ⟨hx1, hx2⟩ := hx' hfx
  obtain ⟨hy1, hy2⟩ := hy' hfy
  have hX := approx_abs hx' hfx
  have hY := approx_abs hy' hfy
  unfold rounding_bound at hx1 hy1 ⊢
  generalize double.val (x + y).value = R at *
  generalize double.val x.value = X at *
  generalize double.val y.value = Y at *
  have hu := unit_roundoff_pos
  generalize hpd : (1 + unit_roundoff) ^ (max a b) = p at *
  rw [pow_succ, hpd]
  refine ⟨?_, le_trans (abs_add _ _) (add_le_add hx2 hy2)⟩
  have h1 : |R - (X + Y)| ≤ unit_roundoff * (Mx * p + My * p) :=
    le_trans hr (mul_le_mul_of_nonneg_left (le_trans (abs_add _ _) (add_le_add hX hY)) hu.le)
  have e1 : R - (ex + ey) = (R - (X + Y)) + ((X - ex) + (Y - ey)) := by ring
  rw [e1]
  have t1 := abs_add (R - (X + Y)) ((X - ex) + (Y - ey))
  have t2 := abs_add (X - ex) (Y - ey)
  have e2 : unit_roundoff * (Mx * p + My * p) + (Mx * (p - 1) + My * (p - 1)) =
      (Mx + My) * (p * (1 + unit_roundoff) - 1) := by ring
  linarith

theorem val_one : double.val (1 : double) = 1 := by
  show double.val (double.fin false 4503599627370496 (-52)) = 1
  norm_num [double.val]

/-- The rounding error of the difference `1 - t`. -/
theorem approx_one_sub (t : double) :
    approx 1 |1 - double.val t| ((1 : monitored) - clean t) (1 - double.val t) := by
  intro hf
  obtain ⟨_, hr⟩ := sub_value 1 (clean t) hf
  have e1 : double.val (1 : monitored).value = 1 := val_one
  have e2 : double.val (clean t).value = double.val t := rfl
  rw [e1, e2] at hr
  refine ⟨?_, le_rfl⟩
  unfold rounding_bound
  rw [pow_one, add_sub_cancel_left, mul_comm]
  exact hr

/-- A sum in range is finite. -/
theorem add_finite (x y : monitored) (h : (x + y).in_range = true) :
    double.is_finite (x + y).value = true :=
  (add_value x y h).1

end monitored

/-! ## Theorems: the rounding errors of the interpolation -/

/-- A loop on the array `dest` whose passes act on each component by itself acts on the
component `c` as the loop of the passes on that component. -/
theorem foldl_pointwise {α R : Type} (S : α → (Fin 3 → R) → (Fin 3 → R)) (s : α → R → R)
    (c : Fin 3) (h : ∀ a dest, S a dest c = s a (dest c)) :
    ∀ (l : List α) (dest : Fin 3 → R),
      (l.foldl (fun d a => S a d) dest) c = l.foldl (fun x a => s a x) (dest c) := by
  intro l
  induction l with
  | nil => intro dest; rfl
  | cons a l ih =>
    intro dest
    rw [List.foldl_cons, List.foldl_cons, ih, h]

theorem length_stencil_offsets (N : Nat) : (stencil_offsets N).length = 2 * N + 2 := by
  simp [stencil_offsets]

theorem stencil_offsets_ne_nil (N : Nat) : stencil_offsets N ≠ [] := by
  intro h
  have := length_stencil_offsets N
  rw [h] at this
  simp at this

namespace interpolator

variable {F : Type}

/-- The component `c` of the result of `operator()`: the loop nest adds the terms to the
component one after the other, from zero. -/
theorem operator_call_machine_component [Zero F] [One F] [Add F] [Sub F] [Mul F]
    (I : interpolator F) (t : F) (xg : Fin 3 → Int) (xx : Fin 3 → F) (dest : Fin 3 → F)
    (bx by_ bz : Nat → F) (deriv : Option (Fin 3 → Int))
    (hb : (match deriv with
      | none => (I.compute_beta 0 (xx 0), I.compute_beta 0 (xx 1), I.compute_beta 0 (xx 2))
      | some deriv =>
        (I.compute_beta (deriv 0) (xx 0), I.compute_beta (deriv 1) (xx 1),
          I.compute_beta (deriv 2) (xx 2))) = (bx, by_, bz)) (c : Fin 3) :
    I.operator_call_machine t xg xx dest deriv c =
      (stencil_offsets I.interp_neighbours).foldl (fun x iz =>
        (stencil_offsets I.interp_neighbours).foldl (fun x iy =>
          (stencil_offsets I.interp_neighbours).foldl (fun x ix =>
            x + (read_at I.f0 I.buffer_size (tindex_int32 I.descriptor xg iz iy ix c) * (1 - t) +
                t * read_at I.f1 I.buffer_size (tindex_int32 I.descriptor xg iz iy ix c)) *
              (bz (iz + I.interp_neighbours).toNat * by_ (iy + I.interp_neighbours).toNat *
                bx (ix + I.interp_neighbours).toNat)) x) x) 0 := by
  unfold operator_call_machine
  simp only [hb, fill_three, add_three]
  rw [foldl_pointwise _ (fun iz x =>
    (stencil_offsets I.interp_neighbours).foldl (fun x iy =>
      (stencil_offsets I.interp_neighbours).foldl (fun x ix =>
        x + (read_at I.f0 I.buffer_size (tindex_int32 I.descriptor xg iz iy ix c) * (1 - t) +
            t * read_at I.f1 I.buffer_size (tindex_int32 I.descriptor xg iz iy ix c)) *
          (bz (iz + I.interp_neighbours).toNat * by_ (iy + I.interp_neighbours).toNat *
            bx (ix + I.interp_neighbours).toNat)) x) x) c]
  intro iz dest
  rw [foldl_pointwise _ (fun iy x =>
      (stencil_offsets I.interp_neighbours).foldl (fun x ix =>
        x + (read_at I.f0 I.buffer_size (tindex_int32 I.descriptor xg iz iy ix c) * (1 - t) +
            t * read_at I.f1 I.buffer_size (tindex_int32 I.descriptor xg iz iy ix c)) *
          (bz (iz + I.interp_neighbours).toNat * by_ (iy + I.interp_neighbours).toNat *
            bx (ix + I.interp_neighbours).toNat)) x) c]
  intro iy dest
  rw [foldl_pointwise _ (fun ix x =>
        x + (read_at I.f0 I.buffer_size (tindex_int32 I.descriptor xg iz iy ix c) * (1 - t) +
            t * read_at I.f1 I.buffer_size (tindex_int32 I.descriptor xg iz iy ix c)) *
          (bz (iz + I.interp_neighbours).toNat * by_ (iy + I.interp_neighbours).toNat *
            bx (ix + I.interp_neighbours).toNat)) c]
  intro ix dest
  cases deriv with
  | none =>
    simp only [Prod.mk.injEq] at hb
    obtain ⟨h1, h2, h3⟩ := hb
    simp only [h1, h2, h3]
  | some d =>
    simp only [Prod.mk.injEq] at hb
    obtain ⟨h1, h2, h3⟩ := hb
    simp only [h1, h2, h3]

end interpolator

namespace monitored

/-- A loop on monitored values computes, in the values, the loop on the values of type
`double`. -/
theorem foldl_value {α : Type} (sm : α → monitored → monitored) (sd : α → double → double)
    (h : ∀ a x, (sm a x).value = sd a x.value) :
    ∀ (l : List α) (x : monitored),
      (l.foldl (fun x a => sm a x) x).value = l.foldl (fun x a => sd a x) x.value := by
  intro l
  induction l with
  | nil => intro x; rfl
  | cons a l ih =>
    intro x
    rw [List.foldl_cons, List.foldl_cons, ih, h]

/-- A loop of at least one pass whose passes deliver finite values when they are in range
delivers a finite value when it is in range. -/
theorem foldl_finite {α : Type} (s : α → monitored → monitored)
    (h : ∀ a x, (s a x).in_range = true → double.is_finite (s a x).value = true)
    (l : List α) (hl : l ≠ []) (x : monitored)
    (hf : (l.foldl (fun x a => s a x) x).in_range = true) :
    double.is_finite (l.foldl (fun x a => s a x) x).value = true := by
  rcases List.eq_nil_or_concat l with h0 | ⟨l0, a, h0⟩
  · exact absurd h0 hl
  · subst h0
    rw [List.concat_eq_append, List.foldl_append] at hf ⊢
    exact h a _ hf

/-- The rounding errors of a loop whose passes each add `n` roundings. -/
theorem foldl_approx {α : Type} (s : α → monitored → monitored) (n : Nat) (M E : α → ℚ)
    (h : ∀ (a : α) (k : Nat) (M0 : ℚ) (x : monitored) (e : ℚ), 6 ≤ k → approx k M0 x e →
      approx (k + n) (M0 + M a) (s a x) (e + E a)) :
    ∀ (l : List α) (k : Nat) (M0 : ℚ) (x : monitored) (e : ℚ), 6 ≤ k → approx k M0 x e →
      approx (k + l.length * n) (M0 + (l.map M).sum) (l.foldl (fun x a => s a x) x)
        (e + (l.map E).sum) := by
  intro l
  induction l with
  | nil =>
    intro k M0 x e _ hx
    simpa using hx
  | cons a l ih =>
    intro k M0 x e hk hx
    have h1 := ih (k + n) (M0 + M a) (s a x) (e + E a) (by omega) (h a k M0 x e hk hx)
    rw [List.foldl_cons, List.length_cons, List.map_cons, List.sum_cons, List.map_cons,
      List.sum_cons]
    have e1 : k + (l.length + 1) * n = k + n + l.length * n := by ring
    rw [e1, ← add_assoc, ← add_assoc]
    exact h1

/-- The rounding errors of a loop nest that adds, from zero, one term per triple of
offsets, each term computed with at most 6 roundings in a row. -/
theorem triple_foldl_approx (l : List Int) (T : Int → Int → Int → monitored)
    (B E : Int → Int → Int → ℚ) (hT : ∀ iz iy ix, approx 6 (B iz iy ix) (T iz iy ix) (E iz iy ix)) :
    approx (6 + l.length * (l.length * (l.length * 1)))
      ((l.map fun iz => (l.map fun iy => (l.map fun ix => B iz iy ix).sum).sum).sum)
      (l.foldl (fun x iz => l.foldl (fun x iy => l.foldl (fun x ix => x + T iz iy ix) x) x) 0)
      ((l.map fun iz => (l.map fun iy => (l.map fun ix => E iz iy ix).sum).sum).sum) := by
  have h0 : approx 6 0 (0 : monitored) 0 := approx_mono approx_zero (by omega) le_rfl
  have h := foldl_approx
    (fun iz x => l.foldl (fun x iy => l.foldl (fun x ix => x + T iz iy ix) x) x)
    (l.length * (l.length * 1))
    (fun iz => (l.map fun iy => (l.map fun ix => B iz iy ix).sum).sum)
    (fun iz => (l.map fun iy => (l.map fun ix => E iz iy ix).sum).sum)
    (fun iz => foldl_approx
      (fun iy x => l.foldl (fun x ix => x + T iz iy ix) x) (l.length * 1)
      (fun iy => (l.map fun ix => B iz iy ix).sum) (fun iy => (l.map fun ix => E iz iy ix).sum)
      (fun iy => foldl_approx (fun ix x => x + T iz iy ix) 1
        (fun ix => B iz iy ix) (fun ix => E iz iy ix)
        (fun ix k M0 x e hk hx => by
          have := approx_add hx (hT iz iy ix)
          rwa [max_eq_left hk] at this) l) l) l 6 0 0 0 le_rfl h0
  rw [zero_add, zero_add] at h
  exact h

/-- The loop nest delivers a finite value when it is in range. -/
theorem triple_foldl_finite (l : List Int) (hl : l ≠ []) (T : Int → Int → Int → monitored)
    (hf : (l.foldl (fun x iz => l.foldl (fun x iy => l.foldl (fun x ix => x + T iz iy ix) x) x)
      0).in_range = true) :
    double.is_finite (l.foldl (fun x iz => l.foldl (fun x iy =>
      l.foldl (fun x ix => x + T iz iy ix) x) x) 0).value = true :=
  foldl_finite (fun iz x => l.foldl (fun x iy => l.foldl (fun x ix => x + T iz iy ix) x) x)
    (fun iz x => foldl_finite (fun iy x => l.foldl (fun x ix => x + T iz iy ix) x)
      (fun iy x => foldl_finite (fun ix x => x + T iz iy ix)
        (fun ix x => add_finite x (T iz iy ix)) l hl x) l hl x) l hl 0 hf

/-- The loop nest on monitored values computes, in the values, the loop nest on the values of
type `double`. -/
theorem triple_foldl_value (l : List Int) (T : Int → Int → Int → monitored)
    (Td : Int → Int → Int → double) (hT : ∀ iz iy ix, (T iz iy ix).value = Td iz iy ix) :
    (l.foldl (fun x iz => l.foldl (fun x iy => l.foldl (fun x ix => x + T iz iy ix) x) x)
      0).value =
    l.foldl (fun x iz => l.foldl (fun x iy => l.foldl (fun x ix => x + Td iz iy ix) x) x) 0 :=
  foldl_value (fun iz x => l.foldl (fun x iy => l.foldl (fun x ix => x + T iz iy ix) x) x)
    (fun iz x => l.foldl (fun x iy => l.foldl (fun x ix => x + Td iz iy ix) x) x)
    (fun iz x => foldl_value (fun iy x => l.foldl (fun x ix => x + T iz iy ix) x)
      (fun iy x => l.foldl (fun x ix => x + Td iz iy ix) x)
      (fun iy x => foldl_value (fun ix x => x + T iz iy ix) (fun ix x => x + Td iz iy ix)
        (fun ix x => by
          show x.value + (T iz iy ix).value = x.value + Td iz iy ix
          rw [hT]) l x) l x) l 0

theorem read_at_map_clean (buf : List double) (base : Nat) (i : Int) :
    read_at (buf.map clean) base i = clean (read_at buf base i) := by
  unfold read_at
  split
  · show (buf.map clean).getD ((base : Int) + i).toNat (clean 0) = _
    rw [List.getD_eq_getElem?_getD, List.getElem?_map, List.getD_eq_getElem?_getD]
    cases buf[((base : Int) + i).toNat]? <;> rfl
  · rfl

/-- The rounding errors of one term of the loop nest: 6 roundings in a row at most. -/
theorem approx_term (f0 f1 t bz by_ bx : double) :
    approx 6
      ((|double.val f0| * |1 - double.val t| + |double.val t| * |double.val f1|) *
        (|double.val bz| * |double.val by_| * |double.val bx|))
      ((clean f0 * (1 - clean t) + clean t * clean f1) * (clean bz * clean by_ * clean bx))
      ((double.val f0 * (1 - double.val t) + double.val t * double.val f1) *
        (double.val bz * double.val by_ * double.val bx)) := by
  have h1 := approx_mul (approx_clean f0) (approx_one_sub t)
  have h2 := approx_mul (approx_clean t) (approx_clean f1)
  have h3 := approx_add h1 h2
  have h4 := approx_mul (approx_mul (approx_clean bz) (approx_clean by_)) (approx_clean bx)
  exact approx_mono (approx_mul h3 h4) (by norm_num) le_rfl

end monitored

namespace interpolator

open monitored

/-- The component `c` of the monitored call, as the loop nest on the terms. -/
theorem monitor_component (I : interpolator double) (t : double) (xg : Fin 3 → Int)
    (xx dest : Fin 3 → double) (bx by_ bz : Nat → double) (deriv : Option (Fin 3 → Int))
    (hb : (match deriv with
      | none => (I.compute_beta 0 (xx 0), I.compute_beta 0 (xx 1), I.compute_beta 0 (xx 2))
      | some deriv =>
        (I.compute_beta (deriv 0) (xx 0), I.compute_beta (deriv 1) (xx 1),
          I.compute_beta (deriv 2) (xx 2))) = (bx, by_, bz)) (c : Fin 3) :
    (monitor I).operator_call_machine (clean t) xg (fun a => clean (xx a))
        (fun a => clean (dest a)) deriv c =
      (stencil_offsets I.interp_neighbours).foldl (fun x iz =>
        (stencil_offsets I.interp_neighbours).foldl (fun x iy =>
          (stencil_offsets I.interp_neighbours).foldl (fun x ix =>
            x + (clean (read_at I.f0 I.buffer_size (tindex_int32 I.descriptor xg iz iy ix c)) *
                  (1 - clean t) +
                clean t *
                  clean (read_at I.f1 I.buffer_size (tindex_int32 I.descriptor xg iz iy ix c))) *
              (clean (bz (iz + I.interp_neighbours).toNat) *
                clean (by_ (iy + I.interp_neighbours).toNat) *
                clean (bx (ix + I.interp_neighbours).toNat))) x) x) 0 := by
  cases deriv with
  | none =>
    have hb' : (I.compute_beta 0 (xx 0), I.compute_beta 0 (xx 1), I.compute_beta 0 (xx 2)) =
      (bx, by_, bz) := hb
    simp only [Prod.mk.injEq] at hb'
    obtain ⟨h1, h2, h3⟩ := hb'
    subst h1 h2 h3
    rw [operator_call_machine_component (monitor I) (clean t) xg (fun a => clean (xx a))
      (fun a => clean (dest a)) (fun n => clean (I.compute_beta 0 (xx 0) n))
      (fun n => clean (I.compute_beta 0 (xx 1) n))
      (fun n => clean (I.compute_beta 0 (xx 2) n)) none rfl c]
    show (stencil_offsets I.interp_neighbours).foldl (fun x iz =>
          (stencil_offsets I.interp_neighbours).foldl (fun x iy =>
            (stencil_offsets I.interp_neighbours).foldl (fun x ix =>
              x + (read_at (I.f0.map clean) I.buffer_size
                      (tindex_int32 I.descriptor xg iz iy ix c) * (1 - clean t) +
                  clean t * read_at (I.f1.map clean) I.buffer_size
                      (tindex_int32 I.descriptor xg iz iy ix c)) *
                (clean (I.compute_beta 0 (xx 2) (iz + I.interp_neighbours).toNat) *
                  clean (I.compute_beta 0 (xx 1) (iy + I.interp_neighbours).toNat) *
                  clean (I.compute_beta 0 (xx 0) (ix + I.interp_neighbours).toNat))) x) x) 0 = _
    simp only [read_at_map_clean]
  | some d =>
    have hb' : (I.compute_beta (d 0) (xx 0), I.compute_beta (d 1) (xx 1),
      I.compute_beta (d 2) (xx 2)) = (bx, by_, bz) := hb
    simp only [Prod.mk.injEq] at hb'
    obtain ⟨h1, h2, h3⟩ := hb'
    subst h1 h2 h3
    rw [operator_call_machine_component (monitor I) (clean t) xg (fun a => clean (xx a))
      (fun a => clean (dest a)) (fun n => clean (I.compute_beta (d 0) (xx 0) n))
      (fun n => clean (I.compute_beta (d 1) (xx 1) n))
      (fun n => clean (I.compute_beta (d 2) (xx 2) n)) (some d) rfl c]
    show (stencil_offsets I.interp_neighbours).foldl (fun x iz =>
          (stencil_offsets I.interp_neighbours).foldl (fun x iy =>
            (stencil_offsets I.interp_neighbours).foldl (fun x ix =>
              x + (read_at (I.f0.map clean) I.buffer_size
                      (tindex_int32 I.descriptor xg iz iy ix c) * (1 - clean t) +
                  clean t * read_at (I.f1.map clean) I.buffer_size
                      (tindex_int32 I.descriptor xg iz iy ix c)) *
                (clean (I.compute_beta (d 2) (xx 2) (iz + I.interp_neighbours).toNat) *
                  clean (I.compute_beta (d 1) (xx 1) (iy + I.interp_neighbours).toNat) *
                  clean (I.compute_beta (d 0) (xx 0) (ix + I.interp_neighbours).toNat))) x) x) 0 = _
    simp only [read_at_map_clean]

/-- The rounding errors of `operator()`. When no operation of the call overflows, underflows
or is invalid, the component `c` of the result is finite and differs from the exact weighted
sum of the stored values by at most the sum of the magnitudes of the terms times
`rounding_bound (6 + (2N+2)^3)`: a term is computed with at most 6 roundings in a row and
each of the `(2N+2)^3` additions to `dest[c]` adds one. -/
theorem operator_call_machine_error (I : interpolator double) (t : double)
    (xg : Fin 3 → Int) (xx dest : Fin 3 → double) (bx by_ bz : Nat → double)
    (deriv : Option (Fin 3 → Int))
    (hb : (match deriv with
      | none => (I.compute_beta 0 (xx 0), I.compute_beta 0 (xx 1), I.compute_beta 0 (xx 2))
      | some deriv =>
        (I.compute_beta (deriv 0) (xx 0), I.compute_beta (deriv 1) (xx 1),
          I.compute_beta (deriv 2) (xx 2))) = (bx, by_, bz)) (c : Fin 3)
    (hflag : ((monitor I).operator_call_machine (clean t) xg (fun a => clean (xx a))
      (fun a => clean (dest a)) deriv c).in_range = true) :
    double.is_finite (I.operator_call_machine t xg xx dest deriv c) = true ∧
    |double.val (I.operator_call_machine t xg xx dest deriv c) -
      ∑ iz ∈ Finset.Icc (-(I.interp_neighbours : Int)) ((I.interp_neighbours : Int) + 1),
        ∑ iy ∈ Finset.Icc (-(I.interp_neighbours : Int)) ((I.interp_neighbours : Int) + 1),
          ∑ ix ∈ Finset.Icc (-(I.interp_neighbours : Int)) ((I.interp_neighbours : Int) + 1),
            (double.val (read_at I.f0 I.buffer_size (tindex_int32 I.descriptor xg iz iy ix c)) *
                (1 - double.val t) +
              double.val t *
                double.val (read_at I.f1 I.buffer_size
                  (tindex_int32 I.descriptor xg iz iy ix c))) *
            (double.val (bz (iz + I.interp_neighbours).toNat) *
              double.val (by_ (iy + I.interp_neighbours).toNat) *
              double.val (bx (ix + I.interp_neighbours).toNat))| ≤
      (∑ iz ∈ Finset.Icc (-(I.interp_neighbours : Int)) ((I.interp_neighbours : Int) + 1),
        ∑ iy ∈ Finset.Icc (-(I.interp_neighbours : Int)) ((I.interp_neighbours : Int) + 1),
          ∑ ix ∈ Finset.Icc (-(I.interp_neighbours : Int)) ((I.interp_neighbours : Int) + 1),
            (|double.val (read_at I.f0 I.buffer_size
                  (tindex_int32 I.descriptor xg iz iy ix c))| * |1 - double.val t| +
              |double.val t| *
                |double.val (read_at I.f1 I.buffer_size
                  (tindex_int32 I.descriptor xg iz iy ix c))|) *
            (|double.val (bz (iz + I.interp_neighbours).toNat)| *
              |double.val (by_ (iy + I.interp_neighbours).toNat)| *
              |double.val (bx (ix + I.interp_neighbours).toNat)|)) *
        rounding_bound (6 + (2 * I.interp_neighbours + 2) ^ 3) := by
  rw [monitor_component I t xg xx dest bx by_ bz deriv hb c] at hflag
  have hval := triple_foldl_value (stencil_offsets I.interp_neighbours)
    (fun iz iy ix =>
      (clean (read_at I.f0 I.buffer_size (tindex_int32 I.descriptor xg iz iy ix c)) *
            (1 - clean t) +
          clean t *
            clean (read_at I.f1 I.buffer_size (tindex_int32 I.descriptor xg iz iy ix c))) *
        (clean (bz (iz + I.interp_neighbours).toNat) *
          clean (by_ (iy + I.interp_neighbours).toNat) *
          clean (bx (ix + I.interp_neighbours).toNat)))
    (fun iz iy ix =>
      (read_at I.f0 I.buffer_size (tindex_int32 I.descriptor xg iz iy ix c) * (1 - t) +
          t * read_at I.f1 I.buffer_size (tindex_int32 I.descriptor xg iz iy ix c)) *
        (bz (iz + I.interp_neighbours).toNat * by_ (iy + I.interp_neighbours).toNat *
          bx (ix + I.interp_neighbours).toNat))
    (fun _ _ _ => rfl)
  rw [← operator_call_machine_component I t xg xx dest bx by_ bz deriv hb c] at hval
  have hfin := triple_foldl_finite (stencil_offsets I.interp_neighbours)
    (stencil_offsets_ne_nil _) _ hflag
  have happ := triple_foldl_approx (stencil_offsets I.interp_neighbours) _ _ _
    (fun iz iy ix => approx_term
      (read_at I.f0 I.buffer_size (tindex_int32 I.descriptor xg iz iy ix c))
      (read_at I.f1 I.buffer_size (tindex_int32 I.descriptor xg iz iy ix c)) t
      (bz (iz + I.interp_neighbours).toNat) (by_ (iy + I.interp_neighbours).toNat)
      (bx (ix + I.interp_neighbours).toNat)) hflag
  rw [hval] at hfin happ
  refine ⟨hfin, ?_⟩
  have e1 : 6 + (stencil_offsets I.interp_neighbours).length *
      ((stencil_offsets I.interp_neighbours).length *
        ((stencil_offsets I.interp_neighbours).length * 1)) =
      6 + (2 * I.interp_neighbours + 2) ^ 3 := by
    rw [length_stencil_offsets]
    ring
  rw [e1] at happ
  simp only [stencil_sum] at happ
  exact happ.1

end interpolator

theorem val_zero : double.val (0 : double) = 0 := by
  show double.val (double.fin false 0 (-1074)) = 0
  simp [double.val]

/-- The bound `(1 + 2^-53)^k - 1` is at most `2k * 2^-53` as long as `k <= 2^52`. -/
theorem rounding_bound_le (k : Nat) (hk : (k : ℚ) * unit_roundoff ≤ 1 / 2) :
    rounding_bound k ≤ 2 * (k : ℚ) * unit_roundoff := by
  have hu := unit_roundoff_pos
  have h1 : ∀ n : Nat, (1 + unit_roundoff) ^ n * (1 - (n : ℚ) * unit_roundoff) ≤ 1 := by
    intro n
    induction n with
    | zero => simp
    | succ n ih =>
      have hp : 0 ≤ (1 + unit_roundoff) ^ n := by positivity
      have e : (1 + unit_roundoff) ^ (n + 1) * (1 - ((n + 1 : Nat) : ℚ) * unit_roundoff) =
          (1 + unit_roundoff) ^ n * (1 - (n : ℚ) * unit_roundoff) -
            (1 + unit_roundoff) ^ n * ((n + 1 : ℚ) * unit_roundoff ^ 2) := by
        push_cast
        ring
      rw [e]
      have : 0 ≤ (1 + unit_roundoff) ^ n * ((n + 1 : ℚ) * unit_roundoff ^ 2) := by positivity
      linarith
  have h2 := h1 k
  have hp : 1 ≤ (1 + unit_roundoff) ^ k := one_le_pow_roundoff k
  unfold rounding_bound
  have hk0 : 0 ≤ (k : ℚ) * unit_roundoff := by positivity
  nlinarith

namespace interpolator

open monitored

/-- C22: if at every sample that the loop nest of `operator()` reads both generations hold the
component `c` of one vector `v`, and the three weight arrays of derivative order 0 each sum to
1 as exact numbers, then for every `t`, every grid index and every fractional offset a call of
`operator()` with `deriv = NULL` or with the three derivative orders 0, in which no operation
overflows, underflows or is invalid, returns a finite `dest[c]` that differs from `v[c]` by at
most `(|1-t| + |t|) * |v[c]| * (sum |bz|) * (sum |by|) * (sum |bx|) *
rounding_bound (6 + (2N+2)^3)`; with weights that are not negative and `0 <= t <= 1` this is
`|v[c]| * rounding_bound (6 + (2N+2)^3)`. -/
theorem operator_call_machine_constant_field (I : interpolator double) (t : double)
    (xg : Fin 3 → Int) (xx dest : Fin 3 → double) (v : Fin 3 → double) (c : Fin 3)
    (deriv : Option (Fin 3 → Int))
    (hderiv : ∀ d, deriv = some d → ∀ k, d k = 0)
    (hf0 : ∀ iz ∈ stencil_offsets I.interp_neighbours,
      ∀ iy ∈ stencil_offsets I.interp_neighbours, ∀ ix ∈ stencil_offsets I.interp_neighbours,
        read_at I.f0 I.buffer_size (tindex_int32 I.descriptor xg iz iy ix c) = v c)
    (hf1 : ∀ iz ∈ stencil_offsets I.interp_neighbours,
      ∀ iy ∈ stencil_offsets I.interp_neighbours, ∀ ix ∈ stencil_offsets I.interp_neighbours,
        read_at I.f1 I.buffer_size (tindex_int32 I.descriptor xg iz iy ix c) = v c)
    (hsum : ∀ k : Fin 3,
      ∑ j ∈ Finset.range (2 * I.interp_neighbours + 2),
        double.val (I.compute_beta 0 (xx k) j) = 1)
    (hflag : ((monitor I).operator_call_machine (clean t) xg (fun a => clean (xx a))
      (fun a => clean (dest a)) deriv c).in_range = true) :
    double.is_finite (I.operator_call_machine t xg xx dest deriv c) = true ∧
      |double.val (I.operator_call_machine t xg xx dest deriv c) - double.val (v c)| ≤
        (|1 - double.val t| + |double.val t|) * |double.val (v c)| *
          ((∑ j ∈ Finset.range (2 * I.interp_neighbours + 2),
              |double.val (I.compute_beta 0 (xx 2) j)|) *
            (∑ j ∈ Finset.range (2 * I.interp_neighbours + 2),
              |double.val (I.compute_beta 0 (xx 1) j)|) *
            (∑ j ∈ Finset.range (2 * I.interp_neighbours + 2),
              |double.val (I.compute_beta 0 (xx 0) j)|)) *
          rounding_bound (6 + (2 * I.interp_neighbours + 2) ^ 3) ∧
      ((∀ (k : Fin 3) (j : Nat), 0 ≤ double.val (I.compute_beta 0 (xx k) j)) →
        0 ≤ double.val t → double.val t ≤ 1 →
        |double.val (I.operator_call_machine t xg xx dest deriv c) - double.val (v c)| ≤
          |double.val (v c)| * rounding_bound (6 + (2 * I.interp_neighbours + 2) ^ 3)) := by
  have key : ∀ deriv' : Option (Fin 3 → Int), deriv' = deriv →
      (match deriv' with
      | none => (I.compute_beta 0 (xx 0), I.compute_beta 0 (xx 1), I.compute_beta 0 (xx 2))
      | some deriv =>
        (I.compute_beta (deriv 0) (xx 0), I.compute_beta (deriv 1) (xx 1),
          I.compute_beta (deriv 2) (xx 2))) =
      (I.compute_beta 0 (xx 0), I.compute_beta 0 (xx 1), I.compute_beta 0 (xx 2)) := by
    intro deriv' h
    cases deriv' with
    | none => rfl
    | some d => simp only [hderiv d h.symm]
  obtain ⟨hfin, herr⟩ := operator_call_machine_error I t xg xx dest _ _ _ deriv
    (key deriv rfl) c hflag
  have eE : ∀ iz ∈ Finset.Icc (-(I.interp_neighbours : Int)) ((I.interp_neighbours : Int) + 1),
      (∑ iy ∈ Finset.Icc (-(I.interp_neighbours : Int)) ((I.interp_neighbours : Int) + 1),
        ∑ ix ∈ Finset.Icc (-(I.interp_neighbours : Int)) ((I.interp_neighbours : Int) + 1),
          (double.val (read_at I.f0 I.buffer_size (tindex_int32 I.descriptor xg iz iy ix c)) *
              (1 - double.val t) +
            double.val t *
              double.val (read_at I.f1 I.buffer_size
                (tindex_int32 I.descriptor xg iz iy ix c))) *
          (double.val (I.compute_beta 0 (xx 2) (iz + I.interp_neighbours).toNat) *
            double.val (I.compute_beta 0 (xx 1) (iy + I.interp_neighbours).toNat) *
            double.val (I.compute_beta 0 (xx 0) (ix + I.interp_neighbours).toNat))) =
      ∑ iy ∈ Finset.Icc (-(I.interp_neighbours : Int)) ((I.interp_neighbours : Int) + 1),
        ∑ ix ∈ Finset.Icc (-(I.interp_neighbours : Int)) ((I.interp_neighbours : Int) + 1),
          double.val (v c) *
            (double.val (I.compute_beta 0 (xx 2) (iz + I.interp_neighbours).toNat) *
              double.val (I.compute_beta 0 (xx 1) (iy + I.interp_neighbours).toNat) *
              double.val (I.compute_beta 0 (xx 0) (ix + I.interp_neighbours).toNat)) := by
    intro iz hiz
    apply Finset.sum_congr rfl
    intro iy hiy
    apply Finset.sum_congr rfl
    intro ix hix
    rw [← stencil_offsets_toFinset, List.mem_toFinset] at hiz hiy hix
    rw [hf0 iz hiz iy hiy ix hix, hf1 iz hiz iy hiy ix hix]
    ring
  have eB : ∀ iz ∈ Finset.Icc (-(I.interp_neighbours : Int)) ((I.interp_neighbours : Int) + 1),
      (∑ iy ∈ Finset.Icc (-(I.interp_neighbours : Int)) ((I.interp_neighbours : Int) + 1),
        ∑ ix ∈ Finset.Icc (-(I.interp_neighbours : Int)) ((I.interp_neighbours : Int) + 1),
          (|double.val (read_at I.f0 I.buffer_size
                (tindex_int32 I.descriptor xg iz iy ix c))| * |1 - double.val t| +
            |double.val t| *
              |double.val (read_at I.f1 I.buffer_size
                (tindex_int32 I.descriptor xg iz iy ix c))|) *
          (|double.val (I.compute_beta 0 (xx 2) (iz + I.interp_neighbours).toNat)| *
            |double.val (I.compute_beta 0 (xx 1) (iy + I.interp_neighbours).toNat)| *
            |double.val (I.compute_beta 0 (xx 0) (ix + I.interp_neighbours).toNat)|)) =
      ∑ iy ∈ Finset.Icc (-(I.interp_neighbours : Int)) ((I.interp_neighbours : Int) + 1),
        ∑ ix ∈ Finset.Icc (-(I.interp_neighbours : Int)) ((I.interp_neighbours : Int) + 1),
          ((|1 - double.val t| + |double.val t|) * |double.val (v c)|) *
            (|double.val (I.compute_beta 0 (xx 2) (iz + I.interp_neighbours).toNat)| *
              |double.val (I.compute_beta 0 (xx 1) (iy + I.interp_neighbours).toNat)| *
              |double.val (I.compute_beta 0 (xx 0) (ix + I.interp_neighbours).toNat)|) := by
    intro iz hiz
    apply Finset.sum_congr rfl
    intro iy hiy
    apply Finset.sum_congr rfl
    intro ix hix
    rw [← stencil_offsets_toFinset, List.mem_toFinset] at hiz hiy hix
    rw [hf0 iz hiz iy hiy ix hix, hf1 iz hiz iy hiy ix hix]
    ring
  have cE := stencil_sum_const I.interp_neighbours (double.val (v c))
    (fun j => double.val (I.compute_beta 0 (xx 0) j))
    (fun j => double.val (I.compute_beta 0 (xx 1) j))
    (fun j => double.val (I.compute_beta 0 (xx 2) j))
  have cB := stencil_sum_const I.interp_neighbours
    ((|1 - double.val t| + |double.val t|) * |double.val (v c)|)
    (fun j => |double.val (I.compute_beta 0 (xx 0) j)|)
    (fun j => |double.val (I.compute_beta 0 (xx 1) j)|)
    (fun j => |double.val (I.compute_beta 0 (xx 2) j)|)
  beta_reduce at cE cB
  rw [Finset.sum_congr rfl eE, Finset.sum_congr rfl eB, cE, cB, hsum 0, hsum 1, hsum 2] at herr
  simp only [mul_one] at herr
  refine ⟨hfin, herr, ?_⟩
  intro hpos ht0 ht1
  have habs : ∀ k : Fin 3, ∑ j ∈ Finset.range (2 * I.interp_neighbours + 2),
      |double.val (I.compute_beta 0 (xx k) j)| = 1 := by
    intro k
    rw [← hsum k]
    apply Finset.sum_congr rfl
    intro j _
    exact abs_of_nonneg (hpos k j)
  rw [habs 0, habs 1, habs 2, abs_of_nonneg ht0,
    abs_of_nonneg (by linarith : 0 ≤ 1 - double.val t)] at herr
  have e : (1 - double.val t + double.val t) * |double.val (v c)| * (1 * 1 * 1) =
      |double.val (v c)| := by ring
  rw [e] at herr
  exact herr

/-- C24: for fixed buffers, weights, grid index and fractional offset, the result of
`operator()` does not depend on what `dest` held before the call, and it is affine in the time
fraction up to rounding. With `E0` the exact weighted sum of the values of the t0 buffer alone,
`E1` that of the t1 buffer alone, and `B0`, `B1` the sums of the magnitudes of their terms, a
call in which no operation overflows, underflows or is invalid returns a finite `dest(t)` with
`|dest(t) - ((1-t)*E0 + t*E1)| <= (|1-t|*B0 + |t|*B1) * rounding_bound (6 + (2N+2)^3)`; and
when the calls with the time fractions `t`, 0 and 1 are all three of that kind,
`|dest(t) - ((1-t)*dest(0) + t*dest(1))|` is at most twice that bound. -/
theorem operator_call_machine_affine_in_time (I : interpolator double) (xg : Fin 3 → Int)
    (xx dest : Fin 3 → double) (bx by_ bz : Nat → double) (deriv : Option (Fin 3 → Int))
    (hb : (match deriv with
      | none => (I.compute_beta 0 (xx 0), I.compute_beta 0 (xx 1), I.compute_beta 0 (xx 2))
      | some deriv =>
        (I.compute_beta (deriv 0) (xx 0), I.compute_beta (deriv 1) (xx 1),
          I.compute_beta (deriv 2) (xx 2))) = (bx, by_, bz)) (c : Fin 3) :
    (∀ (t : double) (dest' : Fin 3 → double),
      I.operator_call_machine t xg xx dest' deriv c =
        I.operator_call_machine t xg xx dest deriv c) ∧
    (∀ t : double,
      ((monitor I).operator_call_machine (clean t) xg (fun a => clean (xx a))
        (fun a => clean (dest a)) deriv c).in_range = true →
      double.is_finite (I.operator_call_machine t xg xx dest deriv c) = true ∧
      |double.val (I.operator_call_machine t xg xx dest deriv c) -
          ((1 - double.val t) * I.weighted_sum I.f0 xg bx by_ bz c +
            double.val t * I.weighted_sum I.f1 xg bx by_ bz c)| ≤
        (|1 - double.val t| * I.weighted_magnitude I.f0 xg bx by_ bz c +
            |double.val t| * I.weighted_magnitude I.f1 xg bx by_ bz c) *
          rounding_bound (6 + (2 * I.interp_neighbours + 2) ^ 3)) ∧
    (∀ t : double,
      ((monitor I).operator_call_machine (clean t) xg (fun a => clean (xx a))
        (fun a => clean (dest a)) deriv c).in_range = true →
      ((monitor I).operator_call_machine (clean 0) xg (fun a => clean (xx a))
        (fun a => clean (dest a)) deriv c).in_range = true →
      ((monitor I).operator_call_machine (clean 1) xg (fun a => clean (xx a))
        (fun a => clean (dest a)) deriv c).in_range = true →
      |double.val (I.operator_call_machine t xg xx dest deriv c) -
          ((1 - double.val t) * double.val (I.operator_call_machine 0 xg xx dest deriv c) +
            double.val t * double.val (I.operator_call_machine 1 xg xx dest deriv c))| ≤
        2 * (|1 - double.val t| * I.weighted_magnitude I.f0 xg bx by_ bz c +
            |double.val t| * I.weighted_magnitude I.f1 xg bx by_ bz c) *
          rounding_bound (6 + (2 * I.interp_neighbours + 2) ^ 3)) := by
  have h2 : ∀ t : double,
      ((monitor I).operator_call_machine (clean t) xg (fun a => clean (xx a))
        (fun a => clean (dest a)) deriv c).in_range = true →
      double.is_finite (I.operator_call_machine t xg xx dest deriv c) = true ∧
      |double.val (I.operator_call_machine t xg xx dest deriv c) -
          ((1 - double.val t) * I.weighted_sum I.f0 xg bx by_ bz c +
            double.val t * I.weighted_sum I.f1 xg bx by_ bz c)| ≤
        (|1 - double.val t| * I.weighted_magnitude I.f0 xg bx by_ bz c +
            |double.val t| * I.weighted_magnitude I.f1 xg bx by_ bz c) *
          rounding_bound (6 + (2 * I.interp_neighbours + 2) ^ 3) := by
    intro t hflag
    obtain ⟨hfin, herr⟩ := operator_call_machine_error I t xg xx dest bx by_ bz deriv hb c hflag
    refine ⟨hfin, ?_⟩
    have eE : (1 - double.val t) * I.weighted_sum I.f0 xg bx by_ bz c +
        double.val t * I.weighted_sum I.f1 xg bx by_ bz c =
        ∑ iz ∈ Finset.Icc (-(I.interp_neighbours : Int)) ((I.interp_neighbours : Int) + 1),
          ∑ iy ∈ Finset.Icc (-(I.interp_neighbours : Int)) ((I.interp_neighbours : Int) + 1),
            ∑ ix ∈ Finset.Icc (-(I.interp_neighbours : Int)) ((I.interp_neighbours : Int) + 1),
              (double.val (read_at I.f0 I.buffer_size
                    (tindex_int32 I.descriptor xg iz iy ix c)) * (1 - double.val t) +
                double.val t *
                  double.val (read_at I.f1 I.buffer_size
                    (tindex_int32 I.descriptor xg iz iy ix c))) *
              (double.val (bz (iz + I.interp_neighbours).toNat) *
                double.val (by_ (iy + I.interp_neighbours).toNat) *
                double.val (bx (ix + I.interp_neighbours).toNat)) := by
      unfold weighted_sum
      simp only [Finset.mul_sum, ← Finset.sum_add_distrib]
      apply Finset.sum_congr rfl
      intro iz _
      apply Finset.sum_congr rfl
      intro iy _
      apply Finset.sum_congr rfl
      intro ix _
      ring
    have eB : |1 - double.val t| * I.weighted_magnitude I.f0 xg bx by_ bz c +
        |double.val t| * I.weighted_magnitude I.f1 xg bx by_ bz c =
        ∑ iz ∈ Finset.Icc (-(I.interp_neighbours : Int)) ((I.interp_neighbours : Int) + 1),
          ∑ iy ∈ Finset.Icc (-(I.interp_neighbours : Int)) ((I.interp_neighbours : Int) + 1),
            ∑ ix ∈ Finset.Icc (-(I.interp_neighbours : Int)) ((I.interp_neighbours : Int) + 1),
              (|double.val (read_at I.f0 I.buffer_size
                    (tindex_int32 I.descriptor xg iz iy ix c))| * |1 - double.val t| +
                |double.val t| *
                  |double.val (read_at I.f1 I.buffer_size
                    (tindex_int32 I.descriptor xg iz iy ix c))|) *
              (|double.val (bz (iz + I.interp_neighbours).toNat)| *
                |double.val (by_ (iy + I.interp_neighbours).toNat)| *
                |double.val (bx (ix + I.interp_neighbours).toNat)|) := by
      unfold weighted_magnitude
      simp only [Finset.mul_sum, ← Finset.sum_add_distrib]
      apply Finset.sum_congr rfl
      intro iz _
      apply Finset.sum_congr rfl
      intro iy _
      apply Finset.sum_congr rfl
      intro ix _
      ring
    rw [eE, eB]
    exact herr
  refine ⟨?_, h2, ?_⟩
  · intro t dest'
    rw [operator_call_machine_component I t xg xx dest' bx by_ bz deriv hb c,
      operator_call_machine_component I t xg xx dest bx by_ bz deriv hb c]
  · intro t ht h0 h1
    obtain ⟨_, et⟩ := h2 t ht
    obtain ⟨_, e0⟩ := h2 0 h0
    obtain ⟨_, e1⟩ := h2 1 h1
    rw [val_zero] at e0
    rw [val_one] at e1
    simp only [sub_zero, one_mul, zero_mul, add_zero, abs_one, abs_zero, sub_self, zero_add]
      at e0 e1
    generalize double.val (I.operator_call_machine t xg xx dest deriv c) = X at *
    generalize double.val (I.operator_call_machine 0 xg xx dest deriv c) = d0 at *
    generalize double.val (I.operator_call_machine 1 xg xx dest deriv c) = d1 at *
    generalize I.weighted_sum I.f0 xg bx by_ bz c = E0 at *
    generalize I.weighted_sum I.f1 xg bx by_ bz c = E1 at *
    generalize I.weighted_magnitude I.f0 xg bx by_ bz c = B0 at *
    generalize I.weighted_magnitude I.f1 xg bx by_ bz c = B1 at *
    generalize rounding_bound (6 + (2 * I.interp_neighbours + 2) ^ 3) = rb at *
    generalize double.val t = τ at *
    have s1 : X - ((1 - τ) * d0 + τ * d1) =
        (X - ((1 - τ) * E0 + τ * E1)) + ((1 - τ) * (E0 - d0) + τ * (E1 - d1)) := by ring
    rw [s1]
    have t1 := abs_add (X - ((1 - τ) * E0 + τ * E1)) ((1 - τ) * (E0 - d0) + τ * (E1 - d1))
    have t2 := abs_add ((1 - τ) * (E0 - d0)) (τ * (E1 - d1))
    have t3 : |(1 - τ) * (E0 - d0)| ≤ |1 - τ| * (B0 * rb) := by
      rw [abs_mul, abs_sub_comm E0 d0]
      exact mul_le_mul_of_nonneg_left e0 (abs_nonneg _)
    have t4 : |τ * (E1 - d1)| ≤ |τ| * (B1 * rb) := by
      rw [abs_mul, abs_sub_comm E1 d1]
      exact mul_le_mul_of_nonneg_left e1 (abs_nonneg _)
    have s2 : 2 * (|1 - τ| * B0 + |τ| * B1) * rb =
        (|1 - τ| * B0 + |τ| * B1) * rb + (|1 - τ| * (B0 * rb) + |τ| * (B1 * rb)) := by ring
    rw [s2]
    linarith

end interpolator

/-! ## Theorems: the interpolation on sample data of type double -/

open monitored

namespace interpolator

/-- With both generations holding 3 everywhere and the weights `0, 1/2, 1/2, 0` on the three
axes, which sum to 1, the call with `t = 1/5` returns `3 + 2^-51`, not 3. -/
theorem operator_call_machine_constant_field_not_exact :
    (∀ iz ∈ stencil_offsets sample_three_interpolator.interp_neighbours,
      ∀ iy ∈ stencil_offsets sample_three_interpolator.interp_neighbours,
        ∀ ix ∈ stencil_offsets sample_three_interpolator.interp_neighbours,
          read_at sample_three_interpolator.f0 sample_three_interpolator.buffer_size
              (tindex_int32 sample_three_interpolator.descriptor (fun _ => 0) iz iy ix 0) =
            double.fin false 6755399441055744 (-51) ∧
          read_at sample_three_interpolator.f1 sample_three_interpolator.buffer_size
              (tindex_int32 sample_three_interpolator.descriptor (fun _ => 0) iz iy ix 0) =
            double.fin false 6755399441055744 (-51)) ∧
    (List.range (2 * sample_three_interpolator.interp_neighbours + 2)).map
        (sample_three_interpolator.compute_beta 0 sample_half) =
      [0, sample_half, sample_half, 0] ∧
    double.val sample_half = 1 / 2 ∧
    sample_three_interpolator.operator_call_machine (sample_fifths 1) (fun _ => 0)
      (fun _ => sample_half) (fun _ => 0) none 0 = double.fin false 6755399441055745 (-51) ∧
    sample_three_interpolator.operator_call_machine (sample_fifths 1) (fun _ => 0)
      (fun _ => sample_half) (fun _ => 0) (some fun _ => 0) 0 =
        double.fin false 6755399441055745 (-51) := by
  refine ⟨by decide, by decide, ?_, by decide, by decide⟩
  have h : sample_half = double.fin false 4503599627370496 (-53) := by decide
  rw [h]
  norm_num [double.val]

/-- With both generations holding 3 everywhere and the weights 1 at stencil position `N = 1`
and 0 elsewhere, `dest(0)` and `dest(1)` are 3 and `dest(1/5)` is `3 + 2^-51`, which is not
`(1-t)*dest(0) + t*dest(1)`. With the t1 generation holding an infinity everywhere instead,
`dest(0)` is a NaN: it depends on the t1 buffer. -/
theorem operator_call_machine_not_affine_in_time :
    sample_three_interpolator.operator_call_machine 0 (fun _ => 0) (fun _ => 0) (fun _ => 0)
      none 0 = double.fin false 6755399441055744 (-51) ∧
    sample_three_interpolator.operator_call_machine 1 (fun _ => 0) (fun _ => 0) (fun _ => 0)
      none 0 = double.fin false 6755399441055744 (-51) ∧
    sample_three_interpolator.operator_call_machine (sample_fifths 1) (fun _ => 0) (fun _ => 0)
      (fun _ => 0) none 0 = double.fin false 6755399441055745 (-51) ∧
    double.val (sample_three_interpolator.operator_call_machine (sample_fifths 1) (fun _ => 0)
        (fun _ => 0) (fun _ => 0) none 0) ≠
      (1 - double.val (sample_fifths 1)) *
          double.val (sample_three_interpolator.operator_call_machine 0 (fun _ => 0)
            (fun _ => 0) (fun _ => 0) none 0) +
        double.val (sample_fifths 1) *
          double.val (sample_three_interpolator.operator_call_machine 1 (fun _ => 0)
            (fun _ => 0) (fun _ => 0) none 0) ∧
    sample_three_infinite_interpolator.f0 = sample_three_interpolator.f0 ∧
    sample_three_infinite_interpolator.operator_call_machine 0 (fun _ => 0) (fun _ => 0)
      (fun _ => 0) none 0 = double.nan := by
  have h0 : sample_three_interpolator.operator_call_machine 0 (fun _ => 0) (fun _ => 0)
      (fun _ => 0) none 0 = double.fin false 6755399441055744 (-51) := by decide
  have h1 : sample_three_interpolator.operator_call_machine 1 (fun _ => 0) (fun _ => 0)
      (fun _ => 0) none 0 = double.fin false 6755399441055744 (-51) := by decide
  have ht : sample_three_interpolator.operator_call_machine (sample_fifths 1) (fun _ => 0)
      (fun _ => 0) (fun _ => 0) none 0 = double.fin false 6755399441055745 (-51) := by decide
  refine ⟨h0, h1, ht, ?_, by decide, by decide⟩
  rw [h0, h1, ht]
  have h5 : sample_fifths 1 = double.fin false 7205759403792794 (-55) := by decide
  rw [h5]
  norm_num [double.val]

end interpolator

/-! ## Theorems: facts about the sample data -/

/-- On the sample field of two points, with transforms and a `cospectrum` that leave the array
as it is, `compute_stats` leaves the values divided by `npoints = 2`, in Fourier space. -/
theorem sample_compute_stats_eval :
    (field.compute_stats (fun x => x) (fun x => x) (fun d => d) (fun d => d) (fun d => d)
        [0, 1] (sample_hist_group 4) sample_pair_field 10).map
        (fun f => (f.data, f.real_space_representation)) =
      some ([4, 2], false) := by
  decide

/-- The scenario has one division of the slab axis, before the move. -/
theorem scenario_slab_partition : slab_partition 2 scenario_owner 0 1 scenario_ranks := by
  refine ⟨by norm_num, fun r hr => ?_⟩
  have hr' : r = 0 ∨ r = 1 := by omega
  rcases hr' with rfl | rfl
  · refine ⟨rfl, by simp [scenario_ranks], by simp [scenario_ranks], by simp [scenario_ranks],
      fun g hg => ?_⟩
    simp only [scenario_owner] at hg
    split_ifs at hg with h1 h2
    · simpa [scenario_ranks] using h1
    · simp at hg
  · refine ⟨rfl, by simp [scenario_ranks], by simp [scenario_ranks], by simp [scenario_ranks],
      fun g hg => ?_⟩
    simp only [scenario_owner] at hg
    split_ifs at hg with h1 h2
    · simp at hg
    · simpa [scenario_ranks] using h2

/-- The scenario has one division of the slab axis, after the move. -/
theorem scenario_moved_slab_partition :
    slab_partition 2 scenario_owner 0 1 scenario_moved :=
  ⟨scenario_slab_partition.1, fun r hr => scenario_slab_partition.2 r hr⟩

/-- In the scenario the moved particle has a destination. -/
theorem scenario_routable : routable 2 scenario_owner scenario_moved = true := by
  simp [routable, scenario_exchange_pool]

/-- In the scenario `compute` leaves the states as they are. -/
theorem scenario_compute (q : Nat) :
    particles_system.compute scenario_computer (scenario_ranks q) = scenario_ranks q := by
  by_cases h : q = 0
  · subst h; rfl
  · simp [particles_system.compute, scenario_ranks, h, scenario_computer,
      adams_bashforth_computer]

/-- A receive of rank 0 of the sample has count 2. -/
theorem sample_recv_count (buf_offset count source tag : Nat)
    (h : mpi_call.recv buf_offset count source tag ∈
      (sample_ranks 0).upper_slice_calls ++ (sample_ranks 0).lower_slice_calls) : count = 2 := by
  have e : (sample_ranks 0).upper_slice_calls ++ (sample_ranks 0).lower_slice_calls =
      [mpi_call.recv 6 2 1 (message_tag 2 0 1 0), mpi_call.send 0 2 1 (message_tag 2 0 0 1),
        mpi_call.recv 0 2 1 (message_tag 2 1 1 0), mpi_call.send 2 2 1 (message_tag 2 1 0 1)] := by
    decide
  rw [e] at h
  simp only [List.mem_cons, List.mem_singleton, mpi_call.recv.injEq, List.not_mem_nil,
    or_false] at h
  rcases h with h | h | h | h
  · exact h.2.1
  · exact absurd h (by simp)
  · exact h.2.1
  · exact absurd h (by simp)

/-- The sample layout is a division of four planes into two contiguous slabs. -/
theorem sample_slab_layout : slab_layout sample_layout 0 where
  start_zero := rfl
  next := by
    intro r h
    have h2 : r + 1 < 2 := h
    have : r = 0 := by omega
    subst this
    rfl
  last := rfl
  size := by
    intro r h
    have h2 : r < 2 := h
    interval_cases r <;> decide
  owner := by
    intro r h z h1 h2
    have hr : r < 2 := h
    interval_cases r
    · simp [sample_layout] at h1 h2 ⊢; omega
    · simp [sample_layout] at h1 h2 ⊢; omega

/-- The arrays of the sample Fourier-space field after the symmetrisation: row 0 on rank 0 and
row 3 on rank 1 are rewritten. -/
theorem sample_symmetrize_eval :
    symmetrize_on_all_ranks 1 sample_field_layout sample_fourier_field sample_alloc_complex
        sample_cdata 0 =
      some [(1, 0), (2, 3), (4, 5), (2, -3), (8, 9), (10, 11), (12, 13), (14, 15)] ∧
    symmetrize_on_all_ranks 1 sample_field_layout sample_fourier_field sample_alloc_complex
        sample_cdata 1 =
      some [(16, 17), (18, 19), (20, 21), (22, 23), (8, -9), (14, -15), (12, -13), (10, -11)] := by
  decide

/-! ## Witnesses -/

/-- The shift of the sample system keeps its two slots and leaves slot 0 zero. -/
theorem shift_rhs_vectors_rotates_history_witness :
    (particles_system.shift_rhs_vectors sample_system).my_particles_rhs.length = 2 ∧
      (particles_system.shift_rhs_vectors sample_system).my_particles_rhs[0]? =
        some [0, 0, 0] :=
  ⟨(particles_system.shift_rhs_vectors_rotates_history sample_system (by decide)
      (by decide)).1,
    (particles_system.shift_rhs_vectors_rotates_history sample_system (by decide)
      (by decide)).2.2.1⟩

/-- Rank 0 of the sample, receiving empty messages: the generations roll and the interior is
the sample. -/
theorem read_rFFTW_rolls_generations_witness :
    ∃ I' : interpolator Int,
      (sample_ranks 0).read_rFFTW sample_clip (sample_src 0) (fun _ _ => some []) = some I' ∧
      I'.f0 = [1, 2, 3, 4, 5, 6, 7, 8] ∧
      (I'.f1.drop 2).take 4 = [0, 1, 10, 11] :=
  interpolator.read_rFFTW_rolls_generations (sample_ranks 0) sample_clip (sample_src 0)
    (fun _ _ => some []) (by decide) (by decide)
    (fun _ _ _ _ _ => ⟨[], rfl, Nat.zero_le _⟩)

/-- On rank 0 of the sample the first element of the new t1 buffer comes from global plane 3
and the last from global plane 2. -/
theorem read_rFFTW_halo_planes_are_global_planes_witness :
    ∃ I' : interpolator Int,
      read_rFFTW_on_all_ranks sample_clip sample_ranks sample_src 0 = some I' ∧
      I'.f1[0]? = some 30 ∧ I'.f1[7]? = some 21 :=
  (read_rFFTW_halo_planes_are_global_planes sample_clip sample_layout 0 sample_ranks
    sample_src sample_field rfl
    (by intro r h; have : r = 0 := by simp [sample_layout] at h; omega
        subst this; rfl)
    rfl
    (by intro r h; have h2 : r < 2 := h; interval_cases r <;> decide)
    (by
      intro r h z h1 h2
      have hr : r < 2 := h
      interval_cases r
      · simp [sample_layout] at h1 h2 ⊢; omega
      · simp [sample_layout] at h1 h2 ⊢; omega)
    (by intro r _; rfl)
    (by intro r _; rfl)
    (by intro r h; have h2 : r < 2 := h; interval_cases r <;> decide)
    (by
      intro r h i hi e he
      have hr : r < 2 := h
      have he2 : e < 2 := he
      interval_cases r
      · have hi2 : i < 2 := by simp [sample_layout] at hi; omega
        interval_cases i <;> interval_cases e <;> rfl
      · have hi2 : i < 2 := by simp [sample_layout] at hi; omega
        interval_cases i <;> interval_cases e <;> rfl)
    0 (by decide)).imp fun I' h =>
      ⟨h.1, h.2 0 (by decide) 0 (by decide), h.2 3 (by decide) 1 (by decide)⟩

/-- On the sample input `init` returns, and the boundary of the lower partition is
`0 + (0+1)*1`. -/
theorem init_bucket_layout_witness :
    particles_system.init sample_partition_extra_z sample_input sample_initial =
        some ((particles_system.init sample_partition_extra_z sample_input
          sample_initial).getD sample_initial) ∧
      particles_system.limitPartition ((particles_system.init sample_partition_extra_z
          sample_input sample_initial).getD sample_initial) 0 =
        sample_initial.my_spatial_low_limit +
          (((0 : Int) : Int) + 1) * sample_initial.spatial_partition_width_Z :=
  ⟨by rfl,
    (particles_system.init_bucket_layout sample_partition_extra_z sample_input sample_initial
      ((particles_system.init sample_partition_extra_z sample_input sample_initial).getD
        sample_initial) (by rfl) (by decide)).1 0⟩

/-- In the scenario the moved particle, now at `7.9`, has a destination, and after
`redistribute()` every particle lies in the interval of the rank that holds it. -/
theorem redistribute_on_all_ranks_keeps_ownership_witness :
    slab_partition 2 scenario_owner 0 1 scenario_moved ∧
      routable 2 scenario_owner scenario_moved = true ∧
      ∃ w, redistribute_on_all_ranks (fun _ => scenario_computer) 2 scenario_owner
          scenario_moved = some w ∧
        ∀ r, r < 2 → ∀ i, i < (w r).my_nb_particles →
          (w r).my_spatial_low_limit ≤ ((w r).particle_at i).z ∧
            ((w r).particle_at i).z < (w r).my_spatial_up_limit :=
  ⟨scenario_moved_slab_partition, scenario_routable,
    (redistribute_on_all_ranks_keeps_ownership (fun _ => scenario_computer) 2 scenario_owner
      0 1 scenario_moved scenario_moved_slab_partition scenario_routable).1⟩

/-- In the scenario a first step of the two ranks returns and the one particle seeded is
still the one particle held. -/
theorem after_steps_on_all_ranks_conserves_particles_witness :
    slab_partition 2 scenario_owner 0 1 scenario_ranks ∧
      ∃ w, after_steps_on_all_ranks (fun _ => scenario_computer) 2 scenario_owner 1
          scenario_ranks 1 = some w ∧
        total_particles 2 w = total_particles 2 scenario_ranks ∧
        List.Perm (all_ids 2 w) (all_ids 2 scenario_ranks) :=
  ⟨scenario_slab_partition,
    ((after_steps_on_all_ranks_conserves_particles (fun _ => scenario_computer) 2
      scenario_owner 0 1 1 scenario_ranks scenario_slab_partition).2.2 0 scenario_ranks rfl
      (by simp only [scenario_compute]; exact scenario_routable)).imp fun w hw =>
      ⟨hw, ((after_steps_on_all_ranks_conserves_particles (fun _ => scenario_computer) 2
        scenario_owner 0 1 1 scenario_ranks scenario_slab_partition).1 1 w hw).1,
        ((after_steps_on_all_ranks_conserves_particles (fun _ => scenario_computer) 2
        scenario_owner 0 1 1 scenario_ranks scenario_slab_partition).1 1 w hw).2.1⟩⟩

/-- The particle of the scenario, at step index 1 with one history slot, moves with the row
of order 1. -/
theorem move_is_adams_bashforth_step_witness :
    1 ≤ particles_system.move_order (scenario_ranks 0) ∧
      (particles_system.move (adams_bashforth_computer scenario_computer) 1
          (scenario_ranks 0)).my_particles_positions.getD (0 * 3 + 2) 0 =
        (scenario_ranks 0).my_particles_positions.getD (0 * 3 + 2) 0 +
          1 * ∑ i ∈ Finset.range (particles_system.move_order (scenario_ranks 0)).toNat,
            (adams_bashforth_coefficients
                (particles_system.move_order (scenario_ranks 0))).getD i 0 *
              ((scenario_ranks 0).my_particles_rhs.getD i []).getD (0 * 3 + 2) 0 :=
  ⟨by decide,
    (particles_system.move_is_adams_bashforth_step scenario_computer 1 (scenario_ranks 0) 0 2
      (by decide) (by decide) (by decide) (by decide) (by decide)).1⟩

/-- Rank 0 of the sample sends its upper slice to rank 1, and rank 1 posts the matching
receive. -/
theorem halo_exchange_counts_and_tags_match_witness :
    mpi_call.send 0 2 1 (message_tag 2 0 0 1) ∈ (sample_ranks 0).upper_slice_calls ∧
      ∃ off', mpi_call.recv off' 2 0 (message_tag 2 0 0 1) ∈
        (sample_ranks 1).upper_slice_calls :=
  ⟨by decide,
    ((interpolator.halo_exchange_counts_and_tags_match sample_ranks sample_layout 0
      (fun _ _ => rfl) (fun _ _ => rfl)).2.1 0 (by decide) 0 2 1 _ (by decide)).2.2⟩

/-- After one loop on the sample system, the three entries of slot 0 that belong to its one
particle are zero. -/
theorem completeLoop_zeroes_slot_zero_witness :
    1 ≤ sample_system.my_particles_rhs.length ∧
      ∃ slot0 : List Int,
        (particles_system.completeLoop sample_computer 1 sample_system).my_particles_rhs[0]? =
          some slot0 ∧
        slot0.take (3 * (particles_system.completeLoop sample_computer 1
            sample_system).my_nb_particles) =
          List.replicate (3 * (particles_system.completeLoop sample_computer 1
            sample_system).my_nb_particles) 0 :=
  ⟨by decide,
    (particles_system.completeLoop_zeroes_slot_zero sample_computer 1 sample_system
      (by decide)).2.imp fun slot0 h => ⟨h.1, h.2.2.2 (by rw [h.2.1]; decide)⟩⟩

/-- On the interpolator built on `sample_grid`, the topmost stencil plane of a particle in
the last local plane is read inside the buffer of six planes. -/
theorem tindex_inside_halo_buffer_witness :
    0 ≤ (sample_grid_interpolator.buffer_size : Int) +
        tindex sample_grid_interpolator.descriptor (fun _ => 1) 2 0 0 0 ∧
      (sample_grid_interpolator.buffer_size : Int) +
        tindex sample_grid_interpolator.descriptor (fun _ => 1) 2 0 0 0 <
          (((2 + 2 * (sample_grid_interpolator.interp_neighbours + 1)) *
            sample_grid_interpolator.unbuffered_descriptor.slice_size : Nat) : Int) :=
  ⟨(interpolator.tindex_inside_halo_buffer sample_grid_interpolator 2 (fun _ => 1) 2 0 0 0
      (by decide) (by decide) (by decide) (by decide) (by decide) (by decide) (by decide)
      (by decide)).1,
    (interpolator.tindex_inside_halo_buffer sample_grid_interpolator 2 (fun _ => 1) 2 0 0 0
      (by decide) (by decide) (by decide) (by decide) (by decide) (by decide) (by decide)
      (by decide)).2.1⟩

/-- On `sample_grid`, whose planes hold `2*2*3` elements, the number 47 is the index of a
sample of the four planes. -/
theorem tindex_is_row_major_witness :
    ∃ (z y x : Int) (c : Fin 3), 0 ≤ z ∧ z < ((4 : Nat) : Int) ∧ 0 ≤ y ∧
      y < sample_grid.sizes 1 ∧ 0 ≤ x ∧ x < sample_grid.sizes 2 ∧
      row_major_index sample_grid z y x c = 47 :=
  (tindex_is_row_major sample_grid (by decide) (by decide)).2.2.2 4 47 (by decide) (by decide)

/-- On the two particles of the sample input the callback exchanges the ids 10 and 11. -/
theorem swap_callback_exchanges_ids_and_history_witness :
    (particles_system.swap_callback (particles_system.load sample_input sample_initial) 0
        1).my_particles_positions_indexes.getD 0 0 =
      (particles_system.load sample_input sample_initial).my_particles_positions_indexes.getD
        1 0 :=
  (particles_system.swap_callback_exchanges_ids_and_history
    (particles_system.load sample_input sample_initial) 0 1 (by decide) (by decide)
    (by decide) (by decide) (by decide)).1.1

/-- On the two ranks of the sample, rank 0 has rank 1 as its source in both loops. -/
theorem halo_sources_are_ring_neighbours_witness :
    (sample_ranks 0).upper_rsrc 0 = (0 + 1) % sample_layout.nprocs ∧
      (sample_ranks 0).lower_rsrc 0 = (0 + sample_layout.nprocs - 1) % sample_layout.nprocs :=
  (interpolator.halo_sources_are_ring_neighbours sample_ranks sample_layout sample_slab_layout
    (fun _ _ => rfl)).1 0 (by decide) 0 (by decide)

/-- On the sample field of shape 4 x 4 x 1 on two ranks the call returns, and the entry at
`(3, 1, 0)` is the conjugate of the entry at `(1, 3, 0)`. -/
theorem symmetrize_hermitian_plane_witness :
    ∃ out : Nat → List (Int × Int),
      (∀ r, r < 2 →
        symmetrize_on_all_ranks 1 sample_field_layout sample_fourier_field sample_alloc_complex
          sample_cdata r = some (out r)) ∧
      global_entry 1 sample_field_layout sample_row_owner out (sample_fourier_sizes 0 - 1) 1 0 =
        conj_entry (global_entry 1 sample_field_layout sample_row_owner out 1
          ((sample_fourier_sizes 1 - 1) % sample_fourier_sizes 1) 0) :=
  (field.symmetrize_hermitian_plane 1 2 sample_field_layout sample_fourier_sizes
    sample_row_owner sample_fourier_field sample_alloc_complex sample_cdata
    (fun _ _ => ⟨rfl, rfl, rfl⟩) (by decide) (by decide) (by decide)
    (fun _ _ => ⟨rfl, rfl⟩) (fun _ _ => rfl) (by decide)).imp
    fun _ h => ⟨h.1, h.2.1 0 (by decide) 1 (by decide) (by decide) 1 (by decide)⟩

/-- The two exchanges between source 1 and destination 2 among four ranks have different
tags. -/
theorem message_tag_int32_injective_witness :
    message_tag_int32 ((4 : Nat) : Int) 0 ((1 : Nat) : Int) ((2 : Nat) : Int) ≠
      message_tag_int32 ((4 : Nat) : Int) 1 ((1 : Nat) : Int) ((2 : Nat) : Int) :=
  (interpolator.message_tag_int32_injective 4 0 1 2 1 1 2 (by decide) (by decide) (by decide)
    (by decide) (by decide) (by decide) (by decide)).2.2 (by decide)

/-- On `sample_row_interpolator` the grid indices `(1, 0, 0)` and `(1 + 2*3, 0 - 4*1, 0)` give
the same `dest`. -/
theorem operator_call_machine_periodic_in_non_slab_axes_witness :
    sample_row_interpolator.operator_call_machine 0
        (fun a => if a = 0 then 1 + 2 * sample_row_interpolator.descriptor.sizes 2
          else if a = 1 then 0 + -4 * sample_row_interpolator.descriptor.sizes 1 else 0)
        (fun _ => 0) (fun _ => 0) none =
      sample_row_interpolator.operator_call_machine 0
        (fun a => if a = 0 then 1 else if a = 1 then 0 else 0) (fun _ => 0) (fun _ => 0) none :=
  (interpolator.operator_call_machine_periodic_in_non_slab_axes sample_row_interpolator 0
    (fun a => if a = 0 then 1 else if a = 1 then 0 else 0) (fun _ => 0) (fun _ => 0) none 2 (-4)
    (by decide) (by decide) (by decide) (by decide)).1

/-- The third call on the sample system, which holds two history slots, moves with the order
`min(3, 2)`. -/
theorem nth_completeLoop_machine_order_witness :
    ∃ s s' : particles_system Int,
      particles_system.after_loops_machine sample_computer (fun _ => 1) sample_system (3 - 1) =
        some s ∧
      particles_system.compute_machine sample_computer s = some s' ∧
      particles_system.move_order s' = min ((3 : Nat) : Int)
        (sample_system.my_particles_rhs.length : Int) :=
  (particles_system.nth_completeLoop_machine_order sample_computer (fun _ => 1) sample_system 3
    rfl (by decide) (by decide) (by decide) 0 0 0 0 0 0 [] []).2.2.imp fun _ h =>
      h.imp fun _ h' => ⟨h'.1, h'.2.2.2.1, h'.2.2.2.2.2.1⟩

/-- The weights `0, 1/2, 1/2, 0` of the sample at the fractional offset 1/2 sum to 1. -/
theorem sample_inner_beta_sum (k : Fin 3) :
    ∑ j ∈ Finset.range (2 * sample_three_interpolator.interp_neighbours + 2),
      double.val (sample_three_interpolator.compute_beta 0 ((fun _ => sample_half) k) j) = 1 := by
  show ∑ j ∈ Finset.range 4, double.val (sample_inner_beta 0 sample_half j) = 1
  have h0 : sample_inner_beta 0 sample_half 0 = double.fin false 0 (-1074) := by decide
  have h1 : sample_inner_beta 0 sample_half 1 = double.fin false 4503599627370496 (-53) := by
    decide
  have h2 : sample_inner_beta 0 sample_half 2 = double.fin false 4503599627370496 (-53) := by
    decide
  have h3 : sample_inner_beta 0 sample_half 3 = double.fin false 0 (-1074) := by decide
  rw [Finset.sum_range_succ, Finset.sum_range_succ, Finset.sum_range_succ,
    Finset.sum_range_succ, Finset.sum_range_zero, h0, h1, h2, h3]
  norm_num [double.val]

/-- On the sample whose two generations hold 3 everywhere, with the weights `0, 1/2, 1/2, 0`
and `t = 1/5`, the call is in range: the result is finite and within the bound of 3. -/
theorem operator_call_machine_constant_field_witness :
    double.is_finite (sample_three_interpolator.operator_call_machine (sample_fifths 1)
        (fun _ => 0) (fun _ => sample_half) (fun _ => 0) none 0) = true ∧
      |double.val (sample_three_interpolator.operator_call_machine (sample_fifths 1)
            (fun _ => 0) (fun _ => sample_half) (fun _ => 0) none 0) -
          double.val ((fun _ => ((3 : Nat) : double)) (0 : Fin 3))| ≤
        (|1 - double.val (sample_fifths 1)| + |double.val (sample_fifths 1)|) *
            |double.val ((fun _ => ((3 : Nat) : double)) (0 : Fin 3))| *
          ((∑ j ∈ Finset.range (2 * sample_three_interpolator.interp_neighbours + 2),
              |double.val (sample_three_interpolator.compute_beta 0
                ((fun _ => sample_half) (2 : Fin 3)) j)|) *
            (∑ j ∈ Finset.range (2 * sample_three_interpolator.interp_neighbours + 2),
              |double.val (sample_three_interpolator.compute_beta 0
                ((fun _ => sample_half) (1 : Fin 3)) j)|) *
            (∑ j ∈ Finset.range (2 * sample_three_interpolator.interp_neighbours + 2),
              |double.val (sample_three_interpolator.compute_beta 0
                ((fun _ => sample_half) (0 : Fin 3)) j)|)) *
          rounding_bound (6 + (2 * sample_three_interpolator.interp_neighbours + 2) ^ 3) :=
  (fun h => ⟨h.1, h.2.1⟩)
    (interpolator.operator_call_machine_constant_field sample_three_interpolator
      (sample_fifths 1) (fun _ => 0) (fun _ => sample_half) (fun _ => 0)
      (fun _ => ((3 : Nat) : double)) 0 none (fun _ h => Option.noConfusion h)
      (by decide) (by decide) sample_inner_beta_sum (by decide))

/-- On the sample whose t0 generation holds `i` and whose t1 generation holds `2*i` in
element `i`, with the weights `0, 1/2, 1/2, 0`, the calls with `t = 1/5`, 0 and 1 are in range:
`dest(1/5)` is within twice the bound of `(1-t)*dest(0) + t*dest(1)`. -/
theorem operator_call_machine_affine_in_time_witness :
    |double.val (sample_ramp_interpolator.operator_call_machine (sample_fifths 1)
          (fun _ => 0) (fun _ => sample_half) (fun _ => 0) none 0) -
        ((1 - double.val (sample_fifths 1)) *
            double.val (sample_ramp_interpolator.operator_call_machine 0 (fun _ => 0)
              (fun _ => sample_half) (fun _ => 0) none 0) +
          double.val (sample_fifths 1) *
            double.val (sample_ramp_interpolator.operator_call_machine 1 (fun _ => 0)
              (fun _ => sample_half) (fun _ => 0) none 0))| ≤
      2 * (|1 - double.val (sample_fifths 1)| *
            sample_ramp_interpolator.weighted_magnitude sample_ramp_interpolator.f0
              (fun _ => 0) (sample_inner_beta 0 sample_half) (sample_inner_beta 0 sample_half)
              (sample_inner_beta 0 sample_half) 0 +
          |double.val (sample_fifths 1)| *
            sample_ramp_interpolator.weighted_magnitude sample_ramp_interpolator.f1
              (fun _ => 0) (sample_inner_beta 0 sample_half) (sample_inner_beta 0 sample_half)
              (sample_inner_beta 0 sample_half) 0) *
        rounding_bound (6 + (2 * sample_ramp_interpolator.interp_neighbours + 2) ^ 3) :=
  (interpolator.operator_call_machine_affine_in_time sample_ramp_interpolator (fun _ => 0)
    (fun _ => sample_half) (fun _ => 0) (sample_inner_beta 0 sample_half)
    (sample_inner_beta 0 sample_half) (sample_inner_beta 0 sample_half) none rfl 0).2.2
    (sample_fifths 1) (by decide) (by decide) (by decide)

end Bfps
